import Mathlib

/-!
# FSO file system (`src/fs.c`, `src/bitmap.c`, `src/disk.c`): shallow embedding

A disk block is a function from byte offsets to bytes; only offsets below
`BLOCKSZ` belong to the block, and every read takes the byte modulo 256.
The records of `fs.c` are laid out as on a little-endian machine:
`struct fs_sblock` is 20 bytes, `struct fs_inode` is 32 bytes
(2 + 2 + 4 + 11 * 2 + 2) and `struct fs_dirent` is 64 bytes (2 + 62).

`abort()` in `disk.c` (block number outside the device) is the `none` of
`Option`; the `-1` results of `fs.c` are the integer `-1`.
C strings are lists of bytes without the terminating NUL.
-/

namespace FsoFS

/-! ## Constants of `fs.c` and `disk.h` -/

abbrev DISK_BLOCK_SIZE : Nat := 1024
abbrev BLOCKSZ : Nat := DISK_BLOCK_SIZE
abbrev SBLOCK : Nat := 0
abbrev BITMAPSTART : Nat := 1
abbrev ROOTINO : Int := 0
abbrev FS_MAGIC : Nat := 0xf50f5025
abbrev DIRBLOCK_PER_INODE : Nat := 11
abbrev MAXFILENAME : Nat := 62
/-- The value of `sizeof(struct fs_inode)`. -/
abbrev INODESZ : Nat := 32
/-- The value of `sizeof(struct fs_dirent)`. -/
abbrev DIRENTSZ : Nat := 64
abbrev INODES_PER_BLOCK : Nat := BLOCKSZ / INODESZ
abbrev DIRENTS_PER_BLOCK : Nat := BLOCKSZ / DIRENTSZ
abbrev IFFREE : Nat := 0
abbrev IFDIR : Nat := 4
abbrev IFREG : Nat := 8
abbrev FREE : Nat := 0
/-- The bit count of one bitmap word (`WORDSZ` of `bitmap.c`, a `char`). -/
abbrev WORDSZ : Nat := 8

/-! ## Blocks and little-endian fields -/

/-- The `data` view of `union fs_block`: byte offset to byte. -/
abbrev Block := Nat → Nat

/-- A block of zero bytes (`memset(.., 0, BLOCKSZ)`). -/
def zero_block : Block := fun _ => 0

/-- Byte `i` (0 is the least significant) of the value `v`. -/
def le_byte (v i : Nat) : Nat := v / 256 ^ i % 256

def byte (b : Block) (o : Nat) : Nat := b o % 256

/-- A `uint16_t` stored at byte offset `o`. -/
def get16 (b : Block) (o : Nat) : Nat := byte b o + 256 * byte b (o + 1)

/-- A `uint32_t` stored at byte offset `o`. -/
def get32 (b : Block) (o : Nat) : Nat :=
  byte b o + 256 * byte b (o + 1) + 65536 * byte b (o + 2) + 16777216 * byte b (o + 3)

/-- Store of a `uint16_t` at byte offset `o` (the value is truncated to 16 bits). -/
def set16 (b : Block) (o v : Nat) : Block :=
  fun k => if k = o then le_byte v 0 else if k = o + 1 then le_byte v 1 else b k

/-! ## `bitmap.c` -/

/-- The C function `bitmap_set`: `b[word] |= 1 << offset`. -/
def bitmap_set (b : Block) (n : Nat) : Block :=
  Function.update b (n / WORDSZ) (byte b (n / WORDSZ) ||| (1 <<< (n % WORDSZ)))

/-- The C function `bitmap_clear`: `b[word] &= ~(1 << offset)`; on a byte, and-ing
with the complement of one bit is and-ing with `255 - (1 << offset)`. -/
def bitmap_clear (b : Block) (n : Nat) : Block :=
  Function.update b (n / WORDSZ) (byte b (n / WORDSZ) &&& (255 - (1 <<< (n % WORDSZ))))

/-- The C function `bitmap_get`: `(b[word] >> offset) & 1`. -/
def bitmap_get (b : Block) (n : Nat) : Nat :=
  (byte b (n / WORDSZ) >>> (n % WORDSZ)) &&& 1

/-! ## In-memory records -/

/-- The record `struct fs_sblock`. -/
structure fs_sblock where
  magic : Nat
  block_cnt : Nat
  block_size : Nat
  bmap_size : Nat
  first_inodeblk : Nat
  inode_cnt : Nat
  inode_blocks : Nat
  first_datablk : Nat
deriving DecidableEq, Repr

/-- The record `struct fs_inode`; `dir_block` lists the 11 direct slots. -/
structure fs_inode where
  type : Nat
  nlinks : Nat
  size : Nat
  dir_block : List Nat
  indir_block : Nat
deriving DecidableEq, Repr

/-- The all-zero superblock (`memset(&rootSB, 0, sizeof(rootSB))`). -/
def zero_sblock : fs_sblock := ⟨0, 0, 0, 0, 0, 0, 0, 0⟩

/-- The all-zero inode (`memset(&inode, 0, sizeof(inode))`). -/
def zero_inode : fs_inode := ⟨0, 0, 0, List.replicate DIRBLOCK_PER_INODE 0, 0⟩

/-- Byte `r` of the 20 bytes of a `struct fs_sblock`. -/
def sblock_byte (sb : fs_sblock) (r : Nat) : Nat :=
  if r < 4 then le_byte sb.magic r
  else if r < 8 then le_byte sb.block_cnt (r - 4)
  else if r < 10 then le_byte sb.block_size (r - 8)
  else if r < 12 then le_byte sb.bmap_size (r - 10)
  else if r < 14 then le_byte sb.first_inodeblk (r - 12)
  else if r < 16 then le_byte sb.inode_cnt (r - 14)
  else if r < 18 then le_byte sb.inode_blocks (r - 16)
  else le_byte sb.first_datablk (r - 18)

/-- The `super` view of `union fs_block`. -/
def block_super (b : Block) : fs_sblock :=
  { magic := get32 b 0, block_cnt := get32 b 4, block_size := get16 b 8,
    bmap_size := get16 b 10, first_inodeblk := get16 b 12, inode_cnt := get16 b 14,
    inode_blocks := get16 b 16, first_datablk := get16 b 18 }

/-- Byte `r` of the 32 bytes of a `struct fs_inode`. -/
def inode_byte (ino : fs_inode) (r : Nat) : Nat :=
  if r < 2 then le_byte ino.type r
  else if r < 4 then le_byte ino.nlinks (r - 2)
  else if r < 8 then le_byte ino.size (r - 4)
  else if r < 30 then le_byte (ino.dir_block.getD ((r - 8) / 2) 0) ((r - 8) % 2)
  else le_byte ino.indir_block (r - 30)

/-- The read `block.inode[k]`. -/
def block_inode (b : Block) (k : Nat) : fs_inode :=
  { type := get16 b (INODESZ * k), nlinks := get16 b (INODESZ * k + 2),
    size := get32 b (INODESZ * k + 4),
    dir_block := (List.range DIRBLOCK_PER_INODE).map (fun j => get16 b (INODESZ * k + 8 + 2 * j)),
    indir_block := get16 b (INODESZ * k + 30) }

/-- The assignment `block.inode[k] = ino`. -/
def block_set_inode (b : Block) (k : Nat) (ino : fs_inode) : Block :=
  fun o => if INODESZ * k ≤ o ∧ o < INODESZ * k + INODESZ then inode_byte ino (o - INODESZ * k) else b o

/-- The read `block.dirent[d].d_ino`. -/
def dirent_ino (b : Block) (d : Nat) : Nat := get16 b (DIRENTSZ * d)

/-- The character `block.dirent[d].d_name[k]`. -/
def dirent_name (b : Block) (d : Nat) (k : Nat) : Nat := byte b (DIRENTSZ * d + 2 + k)

/-- Entry `k` of a block seen as `uint16_t data[BLOCKSZ / sizeof(uint16_t)]`. -/
def block_u16 (b : Block) (k : Nat) : Nat := get16 b (2 * k)

/-! ## C strings -/

/-- A C string: its bytes up to, not including, the terminating NUL. -/
abbrev CStr := List Nat

/-- The character `s[k]` of a C string, for `k` up to its length (the NUL). -/
def cstr_at (s : CStr) (k : Nat) : Nat := s.getD k 0

/-- The result of `strncpy(d_name, name, MAXFILENAME); d_name[MAXFILENAME - 1] = 0`,
as the character at index `k` of the field: `strncpy` copies `name` and pads
with NUL up to `MAXFILENAME` characters. -/
def name_field (name : CStr) (k : Nat) : Nat :=
  if k = MAXFILENAME - 1 then 0 else if k < name.length then cstr_at name k else 0

/-- The three statements that fill a directory entry:
`d_ino = child_ino; strncpy(d_name, name, MAXFILENAME); d_name[MAXFILENAME - 1] = 0`. -/
def block_set_dirent (b : Block) (d : Nat) (child_ino : Nat) (name : CStr) : Block :=
  fun o =>
    if o = DIRENTSZ * d then le_byte child_ino 0
    else if o = DIRENTSZ * d + 1 then le_byte child_ino 1
    else if DIRENTSZ * d + 2 ≤ o ∧ o < DIRENTSZ * d + DIRENTSZ then name_field name (o - (DIRENTSZ * d + 2))
    else b o

/-- The two statements that free a directory entry:
`d_ino = FREE; memset(d_name, 0, MAXFILENAME)`. -/
def block_clear_dirent (b : Block) (d : Nat) : Block :=
  fun o => if DIRENTSZ * d ≤ o ∧ o < DIRENTSZ * d + DIRENTSZ then 0 else b o

/-- The C function `strncmp(s1, s2, n)` on character sequences (index to
character, 0 past the end): the difference of the first pair of characters
that differ, 0 when none differs before a NUL or before `n` characters. -/
def strncmp (s1 s2 : Nat → Nat) : Nat → Nat → Int
  | 0, _ => 0
  | n + 1, i =>
    if s1 i ≠ s2 i then (s1 i : Int) - (s2 i : Int)
    else if s1 i = 0 then 0
    else strncmp s1 s2 n (i + 1)

/-! ## The device (`disk.c`) and the mounted state -/

/-- The device (`nblocks` blocks, contents `disk`) and the global `rootSB`. -/
structure FS where
  rootSB : fs_sblock
  nblocks : Nat
  disk : Nat → Block

/-- The conversion of an `int` to `unsigned`. -/
def to_unsigned (x : Int) : Nat := (x % 4294967296).toNat

/-- The C function `disk_read`: `none` is `abort()` from `sanity_check`. -/
def disk_read (st : FS) (blocknum : Nat) : Option Block :=
  if blocknum ≥ st.nblocks then none else some (st.disk blocknum)

/-- The C function `disk_write`: `none` is `abort()` from `sanity_check`. -/
def disk_write (st : FS) (blocknum : Nat) (data : Block) : Option FS :=
  if blocknum ≥ st.nblocks then none
  else some { st with disk := Function.update st.disk blocknum data }

/-- The C function `check_rootSB`. -/
def check_rootSB (st : FS) : Int :=
  if st.rootSB.magic ≠ FS_MAGIC then -1 else 0

/-! ## Inodes -/

/-- The C function `inode_load`; the result is the return value and `*ino`. -/
def inode_load (st : FS) (ino_number : Int) (ino : fs_inode) : Option (Int × fs_inode) :=
  if ino_number < 0 ∨ ino_number ≥ st.rootSB.inode_cnt then
    some (-1, { ino with type := FREE })
  else
    let inodeBlock := st.rootSB.first_inodeblk + ino_number.toNat / INODES_PER_BLOCK
    match disk_read st inodeBlock with
    | none => none
    | some block => some (0, block_inode block (ino_number.toNat % INODES_PER_BLOCK))

/-- The C function `inode_save`. -/
def inode_save (st : FS) (ino_number : Int) (ino : fs_inode) : Option (Int × FS) :=
  if ino_number < 0 ∨ ino_number ≥ st.rootSB.inode_cnt then
    some (-1, st)
  else
    let inodeBlock := st.rootSB.first_inodeblk + ino_number.toNat / INODES_PER_BLOCK
    match disk_read st inodeBlock with
    | none => none
    | some block =>
      match disk_write st inodeBlock
          (block_set_inode block (ino_number.toNat % INODES_PER_BLOCK) ino) with
      | none => none
      | some st1 => some (0, st1)

/-- The `for` loop of `inode_alloc` over the inodes of one block, from index `i`:
the first index whose inode is free. -/
def inode_alloc_scan (block : Block) : Nat → Nat → Option Nat
  | 0, _ => none
  | fuel + 1, i =>
    if i < INODES_PER_BLOCK then
      if (block_inode block i).type = IFFREE then some i
      else inode_alloc_scan block fuel (i + 1)
    else none

/-- The `do ... while (inodeBlock < rootSB.inode_blocks)` loop of `inode_alloc`,
entered at `inodeBlock`. -/
def inode_alloc_loop (st : FS) : Nat → Nat → Option Int
  | 0, _ => some (-1)
  | fuel + 1, inodeBlock =>
    match disk_read st (st.rootSB.first_inodeblk + inodeBlock) with
    | none => none
    | some block =>
      match inode_alloc_scan block INODES_PER_BLOCK 0 with
      | some i => some ((inodeBlock * INODES_PER_BLOCK + i : Nat) : Int)
      | none =>
        if inodeBlock + 1 < st.rootSB.inode_blocks then inode_alloc_loop st fuel (inodeBlock + 1)
        else some (-1)

/-- The C function `inode_alloc` (the disk is not changed). -/
def inode_alloc (st : FS) : Option Int :=
  inode_alloc_loop st (max st.rootSB.inode_blocks 1) 0

/-- The C function `inode_free`. -/
def inode_free (st : FS) (ino_number : Int) : Option (Int × FS) :=
  match inode_load st ino_number zero_inode with
  | none => none
  | some (r, inode) =>
    if r = -1 then some (-1, st)
    else inode_save st ino_number { inode with type := IFFREE }

/-! ## Blocks -/

/-- The `for` loop of `block_alloc` over the bits of one bitmap block, from
bit `i`: the first clear bit below the block count. -/
def block_alloc_scan (block_cnt : Nat) (block : Block) (bitmapBlock : Nat) : Nat → Nat → Option Nat
  | 0, _ => none
  | fuel + 1, i =>
    if i < BLOCKSZ * 8 ∧ bitmapBlock * BLOCKSZ * 8 + i < block_cnt then
      if bitmap_get block i = 0 then some i
      else block_alloc_scan block_cnt block bitmapBlock fuel (i + 1)
    else none

/-- The `do ... while (bitmapBlock < rootSB.bmap_size)` loop of `block_alloc`,
entered at `bitmapBlock`. -/
def block_alloc_loop (st : FS) : Nat → Nat → Option (Int × FS)
  | 0, _ => some (-1, st)
  | fuel + 1, bitmapBlock =>
    match disk_read st (BITMAPSTART + bitmapBlock) with
    | none => none
    | some block =>
      match block_alloc_scan st.rootSB.block_cnt block bitmapBlock (BLOCKSZ * 8) 0 with
      | some i =>
        match disk_write st (BITMAPSTART + bitmapBlock) (bitmap_set block i) with
        | none => none
        | some st1 => some (((bitmapBlock * BLOCKSZ * 8 + i : Nat) : Int), st1)
      | none =>
        if bitmapBlock + 1 < st.rootSB.bmap_size then block_alloc_loop st fuel (bitmapBlock + 1)
        else some (-1, st)

/-- The C function `block_alloc`. -/
def block_alloc (st : FS) : Option (Int × FS) :=
  block_alloc_loop st (max st.rootSB.bmap_size 1) 0

/-- The C function `block_free`; `/` and `%` of C truncate toward zero.
`bitmap_clear(block.data, offsetBlock)` takes its bit index as `unsigned`: for
a negative `nblock` above -8192 the quotient is 0, the range test passes, and
the negative remainder becomes a bit index of at least `2^32 - 8191`, a write
far outside the `BLOCKSZ` bytes of `block` (undefined in C, a crash in
practice). The model aborts (`none`) when the bit index is outside the buffer. -/
def block_free (st : FS) (nblock : Int) : Option (Int × FS) :=
  let bitmapBlock := Int.tdiv nblock (BLOCKSZ * 8)
  let offsetBlock := Int.tmod nblock (BLOCKSZ * 8)
  if bitmapBlock ≥ st.rootSB.bmap_size ∨ bitmapBlock < 0 then some (-1, st)
  else
    match disk_read st (BITMAPSTART + bitmapBlock.toNat) with
    | none => none
    | some block =>
      if BLOCKSZ * 8 ≤ to_unsigned offsetBlock then none
      else
        match disk_write st (BITMAPSTART + bitmapBlock.toNat)
            (bitmap_clear block (to_unsigned offsetBlock)) with
        | none => none
        | some st1 => some (0, st1)

/-- The bitmap bit of block `n` of the volume: bit `n mod 8192` of bitmap block `n / 8192`. -/
def bitmap_bit (st : FS) (n : Nat) : Nat :=
  bitmap_get (st.disk (BITMAPSTART + n / (BLOCKSZ * 8))) (n % (BLOCKSZ * 8))

/-! ## Block indirection -/

/-- The C function `offset2block`. The indirect table is read with
`disk_read(inode->indir_block, ..)`. -/
def offset2block (st : FS) (inode : fs_inode) (offset : Nat) : Option Int :=
  let blkindex := offset / BLOCKSZ
  if blkindex < DIRBLOCK_PER_INODE then
    some ((inode.dir_block.getD blkindex 0 : Nat) : Int)
  else if blkindex < DIRBLOCK_PER_INODE + BLOCKSZ / 2 then
    match disk_read st inode.indir_block with
    | none => none
    | some data => some ((block_u16 data (blkindex - DIRBLOCK_PER_INODE) : Nat) : Int)
  else some (-1)

/-! ## Directories -/

/-- The inner `for` loop of `dir_findname` over the entries of one block, from
entry `d`: the inode number of the first in-use entry whose name compares
equal to `name`. -/
def dir_findname_scan (block : Block) (name : CStr) (remaining_dirents : Nat) :
    Nat → Nat → Option Nat
  | 0, _ => none
  | fuel + 1, d =>
    if d < DIRENTS_PER_BLOCK ∧ d < remaining_dirents then
      if dirent_ino block d ≠ FREE ∧
          strncmp (dirent_name block d) (cstr_at name) MAXFILENAME 0 = 0 then
        some (dirent_ino block d)
      else dir_findname_scan block name remaining_dirents fuel (d + 1)
    else none

/-- The `while (remaining_dirents > 0)` loop of `dir_findname`. The counter is a
natural number: the loop runs only while it is positive, so the truncated
subtraction gives the iterations of the C `int`. -/
def dir_findname_loop (st : FS) (dir_inode : fs_inode) (name : CStr) :
    Nat → Nat → Nat → Option Int
  | 0, _, _ => some (-1)
  | fuel + 1, remaining_dirents, offset =>
    if remaining_dirents > 0 then
      match offset2block st dir_inode offset with
      | none => none
      | some currBlock =>
        match disk_read st (to_unsigned currBlock) with
        | none => none
        | some block =>
          match dir_findname_scan block name remaining_dirents DIRENTS_PER_BLOCK 0 with
          | some ino => some ((ino : Nat) : Int)
          | none =>
            dir_findname_loop st dir_inode name fuel
              (remaining_dirents - DIRENTS_PER_BLOCK) (offset + DIRENTS_PER_BLOCK * DIRENTSZ)
    else some (-1)

/-- The C function `dir_findname`. -/
def dir_findname (st : FS) (dir_inode : fs_inode) (name : CStr) : Option Int :=
  if dir_inode.type ≠ IFDIR then some (-1)
  else
    dir_findname_loop st dir_inode name (dir_inode.size / DIRENTSZ) (dir_inode.size / DIRENTSZ) 0

/-! ## Paths -/

/-- The character `/`. -/
abbrev SLASH : Nat := 47

/-- One call of `strtok(.., "/")` on the part of the string not yet consumed:
the next token and the part that remains, `none` when no token is left. -/
def strtok (s : CStr) : Option (CStr × CStr) :=
  let s1 := s.dropWhile (fun c => c = SLASH)
  if s1 = [] then none
  else some (s1.takeWhile (fun c => c ≠ SLASH), (s1.dropWhile (fun c => c ≠ SLASH)).drop 1)

/-- The `while (token != NULL)` loop of `get_inode`; `rest` is the part of the
path `strtok` has not consumed yet. -/
def get_inode_loop (st : FS) : Nat → CStr → Int → Option Int
  | 0, _, curr_ino => some curr_ino
  | fuel + 1, rest, curr_ino =>
    match strtok rest with
    | none => some curr_ino
    | some (token, rest1) =>
      match inode_load st curr_ino zero_inode with
      | none => none
      | some (r, curr_inode) =>
        if r = -1 then some (-1)
        else if curr_inode.type ≠ IFDIR then some (-1)
        else
          match dir_findname st curr_inode token with
          | none => none
          | some next_ino =>
            if next_ino = -1 then some (-1)
            else get_inode_loop st fuel rest1 next_ino

/-- The C function `get_inode` (for a path that is not `NULL`). -/
def get_inode (st : FS) (path_name : CStr) : Option Int :=
  if path_name = [SLASH] ∨ path_name = [] then some ROOTINO
  else get_inode_loop st (path_name.length + 1) path_name ROOTINO

/-- The C function `strrchr(s, c)` for `c` other than NUL: the index of the last `c`. -/
def strrchr : CStr → Nat → Option Nat
  | [], _ => none
  | x :: xs, c =>
    match strrchr xs c with
    | some i => some (i + 1)
    | none => if x = c then some 0 else none

/-- The C function `get_parent_inode` (for a path that is not `NULL`). -/
def get_parent_inode (st : FS) (pathname : CStr) : Option Int :=
  if pathname.length = 0 then some ROOTINO
  else
    match strrchr pathname SLASH with
    | none => some ROOTINO
    | some last_slash =>
      if last_slash = 0 then some ROOTINO
      else
        match get_inode st (pathname.take last_slash) with
        | none => none
        | some parent_ino => if parent_ino = -1 then some (-1) else some parent_ino

/-- The C function `get_filename` (for a path that is not `NULL`); `none` is `NULL`. -/
def get_filename (pathname : CStr) : Option CStr :=
  match strrchr pathname SLASH with
  | none => some pathname
  | some last_slash =>
    let filename := pathname.drop (last_slash + 1)
    if filename = [] then none else some filename

/-! ## Insertion into a directory -/

/-- The first loop of `add_entry_to_directory` (the search for a free entry),
entered at `entry_idx` with the buffer `block` and `last_read_block`.
`some (some st1)` is `return 0` after the entry was reused; `some none` is
the loop left without a free entry. -/
def add_entry_reuse (st : FS) (parent_inode : fs_inode) (name : CStr) (child_ino : Int)
    (num_entries : Nat) : Nat → Nat → Block → Int → Option (Option FS)
  | 0, _, _, _ => some none
  | fuel + 1, entry_idx, block, last_read_block =>
    if entry_idx < num_entries then
      match offset2block st parent_inode (entry_idx * DIRENTSZ) with
      | none => none
      | some currBlock =>
        if currBlock = -1 ∨ currBlock = 0 then some none
        else
          match (if currBlock ≠ last_read_block then disk_read st (to_unsigned currBlock)
                 else some block) with
          | none => none
          | some block1 =>
            let idx_in_block := entry_idx % DIRENTS_PER_BLOCK
            if dirent_ino block1 idx_in_block = FREE then
              match disk_write st (to_unsigned currBlock)
                  (block_set_dirent block1 idx_in_block (to_unsigned child_ino) name) with
              | none => none
              | some st1 => some (some st1)
            else
              add_entry_reuse st parent_inode name child_ino num_entries fuel (entry_idx + 1)
                block1 currBlock
    else some none

/-- The statements that end both branches of the append:
`parent_inode.size += sizeof(struct fs_dirent); inode_save(..); return 0`. -/
def add_entry_finish (st : FS) (parent_ino : Int) (parent_inode : fs_inode) : Option (Int × FS) :=
  match inode_save st parent_ino
      { parent_inode with size := (parent_inode.size + DIRENTSZ) % 4294967296 } with
  | none => none
  | some (_, st1) => some (0, st1)

/-- The part of `add_entry_to_directory` after the search for a free entry
("No FREE entry found, need to add at the end"). -/
def add_entry_append (st : FS) (parent_ino : Int) (parent_inode : fs_inode) (name : CStr)
    (child_ino : Int) : Option (Int × FS) :=
  let total_entries := parent_inode.size / DIRENTSZ
  let block_index := total_entries / DIRENTS_PER_BLOCK
  let entry_index := total_entries % DIRENTS_PER_BLOCK
  if block_index < DIRBLOCK_PER_INODE then
    let blknum := parent_inode.dir_block.getD block_index 0
    if blknum = 0 then
      match block_alloc st with
      | none => none
      | some (new_block, st1) =>
        if new_block = -1 then some (-1, st1)
        else
          let parent_inode1 := { parent_inode with
            dir_block := parent_inode.dir_block.set block_index (to_unsigned new_block % 65536) }
          match disk_write st1 (to_unsigned new_block)
              (block_set_dirent zero_block entry_index (to_unsigned child_ino) name) with
          | none => none
          | some st2 => add_entry_finish st2 parent_ino parent_inode1
    else
      match disk_read st blknum with
      | none => none
      | some block =>
        match disk_write st blknum
            (block_set_dirent block entry_index (to_unsigned child_ino) name) with
        | none => none
        | some st2 => add_entry_finish st2 parent_ino parent_inode
  else
    let indirect_index := block_index - DIRBLOCK_PER_INODE
    let indirect_block_num := parent_inode.indir_block
    match (if indirect_block_num = 0 then
            match block_alloc st with
            | none => none
            | some (new_block, st1) =>
              if new_block = -1 then some (Sum.inl st1)
              else
                match disk_write st1 (to_unsigned new_block) zero_block with
                | none => none
                | some st2 =>
                  some (Sum.inr (st2, new_block,
                    { parent_inode with indir_block := to_unsigned new_block % 65536 }, zero_block))
          else
            match disk_read st indirect_block_num with
            | none => none
            | some data => some (Sum.inr (st, (indirect_block_num : Int), parent_inode, data))) with
    | none => none
    | some (Sum.inl st1) => some (-1, st1)
    | some (Sum.inr (st2, indirect_block_num1, parent_inode1, indirect_block_data)) =>
      let data_block_num := block_u16 indirect_block_data indirect_index
      if data_block_num = 0 then
        match block_alloc st2 with
        | none => none
        | some (new_block, st3) =>
          if new_block = -1 then some (-1, st3)
          else
            match disk_write st3 (to_unsigned indirect_block_num1)
                (set16 indirect_block_data (2 * indirect_index) (to_unsigned new_block)) with
            | none => none
            | some st4 =>
              match disk_write st4 (to_unsigned new_block)
                  (block_set_dirent zero_block entry_index (to_unsigned child_ino) name) with
              | none => none
              | some st5 => add_entry_finish st5 parent_ino parent_inode1
      else
        match disk_read st2 data_block_num with
        | none => none
        | some block =>
          match disk_write st2 data_block_num
              (block_set_dirent block entry_index (to_unsigned child_ino) name) with
          | none => none
          | some st5 => add_entry_finish st5 parent_ino parent_inode1

/-- The C function `add_entry_to_directory`. -/
def add_entry_to_directory (st : FS) (parent_ino : Int) (name : CStr) (child_ino : Int) :
    Option (Int × FS) :=
  match inode_load st parent_ino zero_inode with
  | none => none
  | some (r, parent_inode) =>
    if r = -1 then some (-1, st)
    else
      let num_entries := parent_inode.size / DIRENTSZ
      match add_entry_reuse st parent_inode name child_ino num_entries num_entries 0 zero_block (-1) with
      | none => none
      | some (some st1) => some (0, st1)
      | some none => add_entry_append st parent_ino parent_inode name child_ino

/-! ## File-system operations -/

/-- The common body of `fs_create` (`type = IFREG`) and `fs_mkdir` (`type = IFDIR`):
the two C functions differ only in the type given to the new inode. -/
def fs_create_as (type : Nat) (st : FS) (filename : CStr) : Option (Int × FS) :=
  if check_rootSB st = -1 then some (-1, st)
  else if filename.length = 0 then some (-1, st)
  else
    match get_filename filename with
    | none => some (-1, st)
    | some file_name =>
      match get_parent_inode st filename with
      | none => none
      | some parent_ino =>
        if parent_ino = -1 then some (-1, st)
        else
          match inode_load st parent_ino zero_inode with
          | none => none
          | some (r, parent_inode) =>
            if r = -1 then some (-1, st)
            else if parent_inode.type ≠ IFDIR then some (-1, st)
            else
              match dir_findname st parent_inode file_name with
              | none => none
              | some found =>
                if found ≠ -1 then some (-1, st)
                else
                  match inode_alloc st with
                  | none => none
                  | some new_file_ino =>
                    if new_file_ino = -1 then some (-1, st)
                    else
                      match inode_save st new_file_ino
                          { zero_inode with type := type, nlinks := 1, size := 0 } with
                      | none => none
                      | some (r1, st1) =>
                        if r1 = -1 then some (-1, st1)
                        else
                          match add_entry_to_directory st1 parent_ino file_name new_file_ino with
                          | none => none
                          | some (r2, st2) =>
                            if r2 = -1 then
                              match inode_free st2 new_file_ino with
                              | none => none
                              | some (_, st3) => some (-1, st3)
                            else some (new_file_ino, st2)

/-- The C function `fs_create`. -/
def fs_create (st : FS) (filename : CStr) : Option (Int × FS) :=
  fs_create_as IFREG st filename

/-- The C function `fs_mkdir`. -/
def fs_mkdir (st : FS) (dirname : CStr) : Option (Int × FS) :=
  fs_create_as IFDIR st dirname

/-- The C function `fs_link`. -/
def fs_link (st : FS) (filename newlink : CStr) : Option (Int × FS) :=
  if check_rootSB st = -1 then some (-1, st)
  else
    match get_inode st filename with
    | none => none
    | some file_ino =>
      if file_ino = -1 then some (-1, st)
      else
        match inode_load st file_ino zero_inode with
        | none => none
        | some (r, file_inode) =>
          if r = -1 then some (-1, st)
          else if file_inode.type ≠ IFREG then some (-1, st)
          else
            match get_filename newlink with
            | none => some (-1, st)
            | some newlink_name =>
              match get_parent_inode st newlink with
              | none => none
              | some parent_ino =>
                if parent_ino = -1 then some (-1, st)
                else
                  match inode_load st parent_ino zero_inode with
                  | none => none
                  | some (r1, parent_inode) =>
                    if r1 = -1 then some (-1, st)
                    else if parent_inode.type ≠ IFDIR then some (-1, st)
                    else
                      match dir_findname st parent_inode newlink_name with
                      | none => none
                      | some found =>
                        if found ≠ -1 then some (-1, st)
                        else
                          match add_entry_to_directory st parent_ino newlink_name file_ino with
                          | none => none
                          | some (r2, st1) =>
                            if r2 = -1 then some (-1, st1)
                            else
                              match inode_save st1 file_ino
                                  { file_inode with nlinks := (file_inode.nlinks + 1) % 65536 } with
                              | none => none
                              | some (_, st2) => some (file_ino, st2)

/-- The inner `for` loop of `dir_remove_entry` over the entries of one block,
from entry `d`: the index of the first in-use entry whose name compares equal. -/
def dir_remove_scan (block : Block) (name : CStr) (remaining_dirents : Nat) :
    Nat → Nat → Option Nat
  | 0, _ => none
  | fuel + 1, d =>
    if d < DIRENTS_PER_BLOCK ∧ d < remaining_dirents then
      if dirent_ino block d ≠ FREE ∧
          strncmp (dirent_name block d) (cstr_at name) MAXFILENAME 0 = 0 then
        some d
      else dir_remove_scan block name remaining_dirents fuel (d + 1)
    else none

/-- The `while (remaining_dirents > 0)` loop of `dir_remove_entry`. -/
def dir_remove_loop (st : FS) (dir_inode : fs_inode) (name : CStr) :
    Nat → Nat → Nat → Option (Int × FS)
  | 0, _, _ => some (-1, st)
  | fuel + 1, remaining_dirents, offset =>
    if remaining_dirents > 0 then
      match offset2block st dir_inode offset with
      | none => none
      | some currBlock =>
        if currBlock = -1 ∨ currBlock = 0 then some (-1, st)
        else
          match disk_read st (to_unsigned currBlock) with
          | none => none
          | some block =>
            match dir_remove_scan block name remaining_dirents DIRENTS_PER_BLOCK 0 with
            | some d =>
              match disk_write st (to_unsigned currBlock) (block_clear_dirent block d) with
              | none => none
              | some st1 => some (((dirent_ino block d : Nat) : Int), st1)
            | none =>
              dir_remove_loop st dir_inode name fuel
                (remaining_dirents - DIRENTS_PER_BLOCK) (offset + DIRENTS_PER_BLOCK * DIRENTSZ)
    else some (-1, st)

/-- The C function `dir_remove_entry`. -/
def dir_remove_entry (st : FS) (dir_inode : fs_inode) (name : CStr) : Option (Int × FS) :=
  dir_remove_loop st dir_inode name (dir_inode.size / DIRENTSZ) (dir_inode.size / DIRENTSZ) 0

/-- The loop `for (i..) if (blocks[i] != 0) block_free(blocks[i])` of `fs_unlink`,
over the block numbers `blocks` in order (the result of `block_free` is ignored). -/
def free_blocks (st : FS) : List Nat → Option FS
  | [] => some st
  | b :: bs =>
    if b ≠ 0 then
      match block_free st b with
      | none => none
      | some (_, st1) => free_blocks st1 bs
    else free_blocks st bs

/-- The C function `fs_unlink`. -/
def fs_unlink (st : FS) (filename : CStr) : Option (Int × FS) :=
  if check_rootSB st = -1 then some (-1, st)
  else
    match get_filename filename with
    | none => some (-1, st)
    | some link_name =>
      match get_parent_inode st filename with
      | none => none
      | some parent_ino =>
        if parent_ino = -1 then some (-1, st)
        else
          match inode_load st parent_ino zero_inode with
          | none => none
          | some (r, parent_inode) =>
            if r = -1 then some (-1, st)
            else if parent_inode.type ≠ IFDIR then some (-1, st)
            else
              match dir_findname st parent_inode link_name with
              | none => none
              | some linked_entry_ino =>
                if linked_entry_ino = -1 then some (-1, st)
                else
                  match inode_load st linked_entry_ino zero_inode with
                  | none => none
                  | some (r1, linked_entry_inode) =>
                    if r1 = -1 then some (-1, st)
                    else if linked_entry_inode.type ≠ IFREG then some (-1, st)
                    else
                      match dir_remove_entry st parent_inode link_name with
                      | none => none
                      | some (removed_ino, st1) =>
                        if removed_ino = -1 then some (-1, st1)
                        else
                          let nlinks := (linked_entry_inode.nlinks + 65535) % 65536
                          if nlinks = 0 then
                            match free_blocks st1 linked_entry_inode.dir_block with
                            | none => none
                            | some st2 =>
                              match (if linked_entry_inode.indir_block ≠ 0 then
                                  match disk_read st2 linked_entry_inode.indir_block with
                                  | none => none
                                  | some ind_data =>
                                    let total_blocks :=
                                      (linked_entry_inode.size + BLOCKSZ - 1) % 4294967296 / BLOCKSZ
                                    let indirect_count := total_blocks - DIRBLOCK_PER_INODE
                                    match free_blocks st2
                                        ((List.range (min indirect_count (BLOCKSZ / 2))).map
                                          (block_u16 ind_data)) with
                                    | none => none
                                    | some st3 =>
                                      match block_free st3 linked_entry_inode.indir_block with
                                      | none => none
                                      | some (_, st4) => some st4
                                else some st2) with
                              | none => none
                              | some st5 =>
                                match inode_free st5 linked_entry_ino with
                                | none => none
                                | some (_, st6) => some (linked_entry_ino, st6)
                          else
                            match inode_save st1 linked_entry_ino
                                { linked_entry_inode with nlinks := nlinks } with
                            | none => none
                            | some (_, st2) => some (linked_entry_ino, st2)

/-! ## Format and mount -/

/-- The block written by `disk_write(SBLOCK, (char*)&rootSB)`: the 20 bytes of
the superblock, followed by the bytes `mem` that lie after `rootSB` in memory. -/
def sblock_block (sb : fs_sblock) (mem : Block) : Block :=
  fun o => if o < 20 then sblock_byte sb o else mem o

/-- The superblock that `fs_format` computes for a device of `nblocks` blocks;
every field is truncated to the width of its C type. -/
def format_sblock (nblocks : Nat) : fs_sblock :=
  let bmap_size := (nblocks / (8 * BLOCKSZ) + (if nblocks % (8 * BLOCKSZ) ≠ 0 then 1 else 0)) % 65536
  let first_inodeblk := (1 + bmap_size) % 65536
  let inodes := (nblocks + 3) / 4
  let inode_blocks :=
    (inodes / INODES_PER_BLOCK + (if inodes % INODES_PER_BLOCK ≠ 0 then 1 else 0)) % 65536
  { magic := FS_MAGIC, block_cnt := nblocks % 4294967296, block_size := BLOCKSZ,
    bmap_size := bmap_size, first_inodeblk := first_inodeblk,
    inode_cnt := (inode_blocks * INODES_PER_BLOCK) % 65536,
    inode_blocks := inode_blocks,
    first_datablk := (first_inodeblk + inode_blocks) % 65536 }

/-- The loop `for (i = 0; i < n; i++) bitmap_set(b, i)` of `fs_format`. -/
def bitmap_set_upto (b : Block) : Nat → Block
  | 0 => b
  | n + 1 => bitmap_set (bitmap_set_upto b n) n

/-- The loop `for (i = from; i < from + n; i++) disk_write(i, zero block)` of `fs_format`. -/
def write_zero_blocks (st : FS) (start : Nat) : Nat → Option FS
  | 0 => some st
  | n + 1 =>
    match write_zero_blocks st start n with
    | none => none
    | some st1 => disk_write st1 (start + n) zero_block

/-- The root directory record that `fs_format` saves: `.type = IFDIR`, every
other member zero. -/
def rootdir : fs_inode := { zero_inode with type := IFDIR, size := 0 }

/-- The C function `fs_format`, for a device of fewer than 2^31 blocks
(`disk_size()` is stored in an `int`); `mem` is the memory that follows
`rootSB`. The failed `assert(inodes > 0)` is `none`. -/
def fs_format (st : FS) (mem : Block) : Option (Int × FS) :=
  if check_rootSB st = 0 then some (-1, st)
  else
    let nblocks := st.nblocks
    if (nblocks + 3) / 4 = 0 then none
    else
      let st0 : FS := { st with rootSB := format_sblock nblocks }
      match disk_write st0 SBLOCK (sblock_block st0.rootSB mem) with
      | none => none
      | some st1 =>
        match disk_write st1 BITMAPSTART (bitmap_set_upto zero_block st1.rootSB.first_datablk) with
        | none => none
        | some st2 =>
          match write_zero_blocks st2 (BITMAPSTART + 1) (st2.rootSB.bmap_size - 1) with
          | none => none
          | some st3 =>
            match write_zero_blocks st3 st3.rootSB.first_inodeblk st3.rootSB.inode_blocks with
            | none => none
            | some st4 =>
              match inode_alloc st4 with
              | none => none
              | some root_inode =>
                match inode_save st4 root_inode rootdir with
                | none => none
                | some (_, st5) => some (0, st5)

/-- The C function `fs_mount` after `disk_init` has attached the device held in `st`. -/
def fs_mount (st : FS) : Option (Int × FS) :=
  if st.rootSB.magic = FS_MAGIC then some (-1, st)
  else
    match disk_read st SBLOCK with
    | none => none
    | some block =>
      if (block_super block).magic ≠ FS_MAGIC then some (-1, st)
      else some (0, { st with rootSB := block_super block })

/-- The bitmap of the mounted volume lies on the device and has one bit for
every block of the volume. -/
structure BitmapGeom (st : FS) : Prop where
  one_le : 1 ≤ st.rootSB.bmap_size
  cover : st.rootSB.block_cnt ≤ st.rootSB.bmap_size * (BLOCKSZ * 8)
  ondev : BITMAPSTART + st.rootSB.bmap_size ≤ st.nblocks

/-- The state after the bitmap bit of block `b` was set on disk. -/
def mark_used (st : FS) (b : Nat) : FS :=
  { st with
    disk := Function.update st.disk (BITMAPSTART + b / (BLOCKSZ * 8))
      (bitmap_set (st.disk (BITMAPSTART + b / (BLOCKSZ * 8))) (b % (BLOCKSZ * 8))) }

/-- The state after the bitmap bit of block `b` was cleared on disk. -/
def mark_free (st : FS) (b : Nat) : FS :=
  { st with
    disk := Function.update st.disk (BITMAPSTART + b / (BLOCKSZ * 8))
      (bitmap_clear (st.disk (BITMAPSTART + b / (BLOCKSZ * 8))) (b % (BLOCKSZ * 8))) }

/-- An example device of 4 blocks holding a volume: block 0 the superblock,
block 1 the bitmap with blocks 0, 1 and 2 marked used, block 2 the inode
table with inode 0 an empty directory, block 3 the only data block. -/
def example_volume : FS :=
  { rootSB := format_sblock 4, nblocks := 4,
    disk := fun n =>
      if n = 0 then sblock_block (format_sblock 4) zero_block
      else if n = 1 then bitmap_set_upto zero_block 3
      else if n = 2 then block_set_inode zero_block 0 { zero_inode with type := IFDIR }
      else zero_block }

/-- The example volume with its only data block marked used: every bit below
the block count is set, the padding bits 4 .. 8191 of the bitmap block are clear. -/
def example_full_volume : FS := mark_used example_volume 3

/-- The state that `fs_format` leaves on a device when no field of the
superblock wraps: superblock in block 0, the bits of the reserved blocks in
bitmap block 1, zeros in the other bitmap blocks and in the inode table, and
the root directory in inode 0 when `inode_save` accepts inode number 0. -/
def formatted (st : FS) (mem : Block) : FS :=
  { rootSB := format_sblock st.nblocks, nblocks := st.nblocks,
    disk := fun k =>
      if k = 0 then sblock_block (format_sblock st.nblocks) mem
      else if k = 1 then bitmap_set_upto zero_block (format_sblock st.nblocks).first_datablk
      else if k < 1 + (format_sblock st.nblocks).bmap_size then zero_block
      else if k = (format_sblock st.nblocks).first_inodeblk then
        (if 0 < (format_sblock st.nblocks).inode_cnt then block_set_inode zero_block 0 rootdir
         else zero_block)
      else if k < (format_sblock st.nblocks).first_inodeblk
          + (format_sblock st.nblocks).inode_blocks then zero_block
      else st.disk k }

/-- A blank (all-zero, unformatted) device of `n` blocks with nothing mounted. -/
def blank_device (n : Nat) : FS := { rootSB := zero_sblock, nblocks := n, disk := fun _ => zero_block }

/-! ## Directories as arrays of entries (specification side) -/

/-- The first index `e` with `i <= e < i + n` at which `p` holds. -/
def first_index (p : Nat → Bool) : Nat → Nat → Option Nat
  | 0, _ => none
  | n + 1, i => if p i then some i else first_index p n (i + 1)

/-- The number of entries of a directory: `size / sizeof(struct fs_dirent)`. -/
def dir_entries (ino : fs_inode) : Nat := ino.size / DIRENTSZ

/-- The block that holds the entries `16 c .. 16 c + 15` of a directory: the
direct slot `c`, or entry `c - 11` of the indirect table as it is on disk. -/
def chunk_block (st : FS) (ino : fs_inode) (c : Nat) : Nat :=
  if c < DIRBLOCK_PER_INODE then ino.dir_block.getD c 0
  else block_u16 (st.disk ino.indir_block) (c - DIRBLOCK_PER_INODE)

/-- The block contents that hold entry `e` of a directory. -/
def entry_data (st : FS) (ino : fs_inode) (e : Nat) : Block :=
  st.disk (chunk_block st ino (e / DIRENTS_PER_BLOCK))

/-- The inode number stored in entry `e` of a directory. -/
def entry_ino (st : FS) (ino : fs_inode) (e : Nat) : Nat :=
  dirent_ino (entry_data st ino e) (e % DIRENTS_PER_BLOCK)

/-- The test of `dir_findname` on entry `e`: in use, and the name compares equal. -/
def entry_matches (st : FS) (ino : fs_inode) (name : CStr) (e : Nat) : Bool :=
  decide (entry_ino st ino e ≠ FREE ∧
    strncmp (dirent_name (entry_data st ino e) (e % DIRENTS_PER_BLOCK)) (cstr_at name)
      MAXFILENAME 0 = 0)

/-- The result of a lookup, as a search over the entry array: the inode number
of the first matching entry, -1 when no entry matches. -/
def dir_lookup (st : FS) (ino : fs_inode) (name : CStr) : Int :=
  match first_index (entry_matches st ino name) (dir_entries ino) 0 with
  | some e => ((entry_ino st ino e : Nat) : Int)
  | none => -1

/-- Every block that holds entries of the directory can be read: the device
size fits the `unsigned` of `disk.c`, the entry count is within the direct and
indirect capacity, and the indirect table
(when entries lie beyond the direct slots) and every entry block are on the
device. -/
structure DirReadable (st : FS) (ino : fs_inode) : Prop where
  dev : st.nblocks < 4294967296
  cap : dir_entries ino ≤ (DIRBLOCK_PER_INODE + BLOCKSZ / 2) * DIRENTS_PER_BLOCK
  indir : DIRBLOCK_PER_INODE * DIRENTS_PER_BLOCK < dir_entries ino → ino.indir_block < st.nblocks
  blocks : ∀ c, c * DIRENTS_PER_BLOCK < dir_entries ino → chunk_block st ino c < st.nblocks

/-- The bytes of a C string: none is NUL and each fits a `char`. -/
def IsCStr (s : CStr) : Prop := ∀ c ∈ s, 0 < c ∧ c < 256

instance (s : CStr) : Decidable (IsCStr s) := by
  unfold IsCStr
  infer_instance

/-- Every member of the inode record fits its C type, and `dir_block` has its
11 slots. -/
structure InodeInRange (ino : fs_inode) : Prop where
  type_lt : ino.type < 65536
  nlinks_lt : ino.nlinks < 65536
  size_lt : ino.size < 4294967296
  dir_len : ino.dir_block.length = DIRBLOCK_PER_INODE
  dir_lt : ∀ j, ino.dir_block.getD j 0 < 65536
  indir_lt : ino.indir_block < 65536

/-- The entry array of the directory `(st1, ino1)` is the entry array of
`(st, ino)` with entry `e0` overwritten (a free entry) or appended (`e0` the
old entry count) by inode number `c` and name `s`. -/
structure EntryPut (st : FS) (ino : fs_inode) (st1 : FS) (ino1 : fs_inode)
    (e0 c : Nat) (s : CStr) : Prop where
  count : dir_entries ino1 = max (dir_entries ino) (e0 + 1)
  le : e0 ≤ dir_entries ino
  was_free : e0 < dir_entries ino → entry_ino st ino e0 = FREE
  ino_new : entry_ino st1 ino1 e0 = c
  name_new : ∀ k, k < MAXFILENAME →
    dirent_name (entry_data st1 ino1 e0) (e0 % DIRENTS_PER_BLOCK) k = name_field s k
  ino_old : ∀ e, e < dir_entries ino → e ≠ e0 → entry_ino st1 ino1 e = entry_ino st ino e
  name_old : ∀ e, e < dir_entries ino → e ≠ e0 → ∀ k, k < MAXFILENAME →
    dirent_name (entry_data st1 ino1 e) (e % DIRENTS_PER_BLOCK) k
      = dirent_name (entry_data st ino e) (e % DIRENTS_PER_BLOCK) k

/-! ## Well-formed volumes and directories -/

/-- The layout of a mounted volume: bitmap, inode table and data blocks follow
one another on the device as the superblock says, the inode count fits the
inode table, and the blocks before the first data block are marked used. -/
structure VolumeGeom (st : FS) : Prop where
  bitmap : BitmapGeom st
  dev : st.nblocks < 4294967296
  cnt_dev : st.rootSB.block_cnt ≤ st.nblocks
  inode_start : BITMAPSTART + st.rootSB.bmap_size ≤ st.rootSB.first_inodeblk
  data_start : st.rootSB.first_inodeblk + st.rootSB.inode_blocks ≤ st.rootSB.first_datablk
  data_le : st.rootSB.first_datablk ≤ st.rootSB.block_cnt
  inode_cnt_le : st.rootSB.inode_cnt ≤ st.rootSB.inode_blocks * INODES_PER_BLOCK
  reserved : ∀ i, i < st.rootSB.first_datablk → bitmap_bit st i ≠ 0

/-- The inode record number `q` as it is stored in the inode table. -/
def inode_at (st : FS) (q : Nat) : fs_inode :=
  block_inode (st.disk (st.rootSB.first_inodeblk + q / INODES_PER_BLOCK)) (q % INODES_PER_BLOCK)

/-- Block `k` holds entries of the directory, or is its indirect table. -/
def DirOwns (st : FS) (ino : fs_inode) (k : Nat) : Prop :=
  (∃ c, c * DIRENTS_PER_BLOCK < dir_entries ino ∧ chunk_block st ino c = k) ∨
  (DIRBLOCK_PER_INODE * DIRENTS_PER_BLOCK < dir_entries ino ∧ ino.indir_block = k)

/-- A well-formed directory: its entries fit the direct and indirect capacity;
the blocks that hold them are distinct data blocks marked used in the bitmap,
and so is the indirect table once entries lie beyond the direct slots; the
slots beyond the entries are 0 (not yet allocated). -/
structure DirWF (st : FS) (ino : fs_inode) : Prop where
  type : ino.type = IFDIR
  cap : dir_entries ino ≤ (DIRBLOCK_PER_INODE + BLOCKSZ / 2) * DIRENTS_PER_BLOCK
  chunk_data : ∀ c, c * DIRENTS_PER_BLOCK < dir_entries ino →
    st.rootSB.first_datablk ≤ chunk_block st ino c ∧ chunk_block st ino c < st.rootSB.block_cnt
  chunk_used : ∀ c, c * DIRENTS_PER_BLOCK < dir_entries ino →
    bitmap_bit st (chunk_block st ino c) ≠ 0
  chunk_inj : ∀ c c', c * DIRENTS_PER_BLOCK < dir_entries ino →
    c' * DIRENTS_PER_BLOCK < dir_entries ino → chunk_block st ino c = chunk_block st ino c' → c = c'
  indir_data : DIRBLOCK_PER_INODE * DIRENTS_PER_BLOCK < dir_entries ino →
    st.rootSB.first_datablk ≤ ino.indir_block ∧ ino.indir_block < st.rootSB.block_cnt
  indir_used : DIRBLOCK_PER_INODE * DIRENTS_PER_BLOCK < dir_entries ino →
    bitmap_bit st ino.indir_block ≠ 0
  indir_ne : DIRBLOCK_PER_INODE * DIRENTS_PER_BLOCK < dir_entries ino →
    ∀ c, c * DIRENTS_PER_BLOCK < dir_entries ino → chunk_block st ino c ≠ ino.indir_block
  direct_unused : ∀ c, dir_entries ino ≤ c * DIRENTS_PER_BLOCK → c < DIRBLOCK_PER_INODE →
    ino.dir_block.getD c 0 = 0
  indir_unused : dir_entries ino ≤ DIRBLOCK_PER_INODE * DIRENTS_PER_BLOCK → ino.indir_block = 0
  table_unused : DIRBLOCK_PER_INODE * DIRENTS_PER_BLOCK < dir_entries ino →
    ∀ c, dir_entries ino ≤ c * DIRENTS_PER_BLOCK → DIRBLOCK_PER_INODE ≤ c →
      c < DIRBLOCK_PER_INODE + BLOCKSZ / 2 →
      block_u16 (st.disk ino.indir_block) (c - DIRBLOCK_PER_INODE) = 0

/-- The state after `block.dirent[e mod 16]` of block `blk` was filled with
`(child_ino, name)` and the block written back. -/
def put_dirent (st : FS) (blk e child_ino : Nat) (name : CStr) : FS :=
  { st with
    disk := Function.update st.disk blk
      (block_set_dirent (st.disk blk) (e % DIRENTS_PER_BLOCK) child_ino name) }

/-- The state after inode `q` was written back into the inode table
(`inode_save` with a valid inode number). -/
def save_inode (st : FS) (q : Nat) (ino : fs_inode) : FS :=
  { st with
    disk := Function.update st.disk (st.rootSB.first_inodeblk + q / INODES_PER_BLOCK)
      (block_set_inode (st.disk (st.rootSB.first_inodeblk + q / INODES_PER_BLOCK))
        (q % INODES_PER_BLOCK) ino) }

/-- The state after block `k` was written with `data`. -/
def write_block (st : FS) (k : Nat) (data : Block) : FS :=
  { st with disk := Function.update st.disk k data }

/-- What a successful `add_entry_to_directory(p, s, c)` leaves, for the entry
index `e0` it has used: the volume layout and the directory stay well formed,
entry `e0` (the lowest free entry, or the old entry count when no entry was
free) holds `(c, s)`, the other entries, the other inodes and the used data
blocks of other owners are unchanged, no bitmap bit is cleared, and a block
the directory owns now is one it owned before or one that was free. -/
structure AddEntryPost (st : FS) (p c : Nat) (s : CStr) (st1 : FS) (e0 : Nat) : Prop where
  sb : st1.rootSB = st.rootSB
  nb : st1.nblocks = st.nblocks
  geom : VolumeGeom st1
  wf : DirWF st1 (inode_at st1 p)
  put : EntryPut st (inode_at st p) st1 (inode_at st1 p) e0 c s
  lowest : ∀ e, e < e0 → entry_ino st (inode_at st p) e ≠ FREE
  inodes : ∀ q, q < st.rootSB.inode_cnt → q ≠ p → inode_at st1 q = inode_at st q
  frame : ∀ k, st.rootSB.first_datablk ≤ k → bitmap_bit st k ≠ 0 →
    ¬ DirOwns st (inode_at st p) k → st1.disk k = st.disk k
  bits_mono : ∀ m, m < st.rootSB.block_cnt → bitmap_bit st m ≠ 0 → bitmap_bit st1 m ≠ 0
  fresh : ∀ k, DirOwns st1 (inode_at st1 p) k →
    DirOwns st (inode_at st p) k ∨ bitmap_bit st k = 0
  reuse : e0 < dir_entries (inode_at st p) →
    (∀ m, m < st.rootSB.block_cnt → bitmap_bit st1 m = bitmap_bit st m) ∧
    inode_at st1 p = inode_at st p

/-- The state in the result of an operation (`d` when the operation aborted). -/
def state_of (x : Option (Int × FS)) (d : FS) : FS :=
  match x with
  | some (_, st) => st
  | none => d

/-- An example volume of 1024 blocks (10 reserved blocks, 256 inodes) whose
root directory holds 176 entries, all in use: entry `16 c + d` is in block
`10 + c`, names inode 1 and has the two-letter name `('A' + c, 'A' + d)`.
Inode 1 is a regular file with 176 links; blocks 0 .. 20 are marked used. -/
def example_dir176_volume : FS :=
  { rootSB := format_sblock 1024, nblocks := 1024,
    disk := fun n =>
      if n = 0 then sblock_block (format_sblock 1024) zero_block
      else if n = 1 then bitmap_set_upto zero_block 21
      else if n = 2 then
        block_set_inode
          (block_set_inode zero_block 0
            { type := IFDIR, nlinks := 0, size := 11264,
              dir_block := [10, 11, 12, 13, 14, 15, 16, 17, 18, 19, 20], indir_block := 0 })
          1 { zero_inode with type := IFREG, nlinks := 176 }
      else if 10 ≤ n ∧ n < 21 then
        (fun o =>
          if o % 64 = 0 then 1
          else if o % 64 = 2 then 65 + (n - 10)
          else if o % 64 = 3 then 65 + o / 64
          else 0)
      else zero_block }

/-- A volume of 65538 blocks laid out as `fs_format` lays it out (bitmap in
blocks 1 .. 9, inode table in blocks 10 .. 522, data from block 523) in which
the bitmap bit of every block below 65536 is set: blocks 65536 and 65537 are
the only free ones. The first block of the inode table is `itable`, the data
blocks are `data`. -/
def large_volume (itable : Block) (data : Nat → Block) : FS :=
  { rootSB := format_sblock 65538, nblocks := 65538,
    disk := fun n =>
      if n = 0 then sblock_block (format_sblock 65538) zero_block
      else if n < 9 then (fun _ => 255)
      else if n = 9 then zero_block
      else if n = 10 then itable
      else if n < 523 then zero_block
      else data n }

/-- The large volume with an empty root directory. -/
def large_empty_volume : FS :=
  large_volume (block_set_inode zero_block 0 rootdir) (fun _ => zero_block)

/-- The large volume whose root directory holds 176 entries, all in use:
entry `16 c + d` is in block `523 + c`, names inode 1 and has the two-letter
name `('A' + c, 'A' + d)`. Inode 1 is a regular file with 176 links. -/
def large_dir176_volume : FS :=
  large_volume
    (block_set_inode
      (block_set_inode zero_block 0
        { type := IFDIR, nlinks := 0, size := 11264,
          dir_block := [523, 524, 525, 526, 527, 528, 529, 530, 531, 532, 533],
          indir_block := 0 })
      1 { zero_inode with type := IFREG, nlinks := 176 })
    (fun n =>
      if n < 534 then
        (fun o =>
          if o % 64 = 0 then 1
          else if o % 64 = 2 then 65 + (n - 523)
          else if o % 64 = 3 then 65 + o / 64
          else 0)
      else zero_block)

/-! ## Path walks (specification side) -/

/-- One turn of the loop of `get_inode`: from directory `curr_ino`, the inode
number that `token` names (-1 when `curr_ino` cannot be loaded, is not a
directory, or has no such entry). -/
def path_step (st : FS) (curr_ino : Int) (token : CStr) : Option Int :=
  match inode_load st curr_ino zero_inode with
  | none => none
  | some (r, curr_inode) =>
    if r = -1 then some (-1)
    else if curr_inode.type ≠ IFDIR then some (-1)
    else dir_findname st curr_inode token

/-- The walk of `get_inode` over a list of tokens, from inode `curr_ino`. -/
def path_walk (st : FS) : List CStr → Int → Option Int
  | [], curr_ino => some curr_ino
  | token :: ts, curr_ino =>
    match path_step st curr_ino token with
    | none => none
    | some next_ino => if next_ino = -1 then some (-1) else path_walk st ts next_ino

/-- The tokens that successive calls of `strtok(.., "/")` return on `s`. -/
def path_tokens_fuel : Nat → CStr → List CStr
  | 0, _ => []
  | fuel + 1, s =>
    match strtok s with
    | none => []
    | some (token, rest) => token :: path_tokens_fuel fuel rest

/-- The components of a path: its maximal runs of characters other than `/`. -/
def path_tokens (s : CStr) : List CStr := path_tokens_fuel (s.length + 1) s

/-- Inode number `n` is in the table and names a directory. -/
def IsDirIno (st : FS) (n : Int) : Prop :=
  0 ≤ n ∧ n < (st.rootSB.inode_cnt : Int) ∧ (inode_at st n.toNat).type = IFDIR

/-- A well-formed volume: the layout is sound, every directory of the inode
table is well formed, and no block belongs to two directories. -/
structure VolumeWF (st : FS) : Prop where
  geom : VolumeGeom st
  dirs : ∀ q, q < st.rootSB.inode_cnt → (inode_at st q).type = IFDIR → DirWF st (inode_at st q)
  disjoint : ∀ q q1, q < st.rootSB.inode_cnt → q1 < st.rootSB.inode_cnt → q ≠ q1 →
    (inode_at st q).type = IFDIR → (inode_at st q1).type = IFDIR →
    ∀ k, DirOwns st (inode_at st q) k → ¬ DirOwns st (inode_at st q1) k

/-! ## Removal of an entry (specification side) -/

/-- Entry `e` of the directory `ino` is free in `st1`, and every other entry
is as it was in `st`. -/
structure EntryGone (st : FS) (ino : fs_inode) (st1 : FS) (e : Nat) : Prop where
  gone : entry_ino st1 ino e = FREE
  ino_old : ∀ e1, e1 < dir_entries ino → e1 ≠ e → entry_ino st1 ino e1 = entry_ino st ino e1
  name_old : ∀ e1, e1 < dir_entries ino → e1 ≠ e → ∀ k, k < MAXFILENAME →
    dirent_name (entry_data st1 ino e1) (e1 % DIRENTS_PER_BLOCK) k
      = dirent_name (entry_data st ino e1) (e1 % DIRENTS_PER_BLOCK) k

/-- The block numbers that `fs_unlink` hands to `block_free` when the last
link of a file goes, in order: the direct slots, the entries of the indirect
table that the size of the file covers, and the indirect block itself. -/
def file_blocks (st : FS) (ino : fs_inode) : List Nat :=
  ino.dir_block ++
    (if ino.indir_block ≠ 0 then
      (List.range (min ((ino.size + BLOCKSZ - 1) % 4294967296 / BLOCKSZ - DIRBLOCK_PER_INODE)
          (BLOCKSZ / 2))).map (block_u16 (st.disk ino.indir_block)) ++ [ino.indir_block]
     else [])

/-- State `st2` is `st` with the bitmap bits of the nonzero block numbers of
`bs` cleared: the superblock, the inode table and the data blocks are the same. -/
structure Freed (st : FS) (bs : List Nat) (st2 : FS) : Prop where
  sb : st2.rootSB = st.rootSB
  nb : st2.nblocks = st.nblocks
  disk : ∀ k, st.rootSB.first_inodeblk ≤ k → st2.disk k = st.disk k
  cleared : ∀ m, m ∈ bs → m ≠ 0 → bitmap_bit st2 m = 0
  kept : ∀ m, (m ∉ bs ∨ m = 0) → bitmap_bit st2 m = bitmap_bit st m
  mono : ∀ m, bitmap_bit st m = 0 → bitmap_bit st2 m = 0

/-- What a successful `fs_unlink` of the entry `name` of directory `p` leaves,
for the index `e` of the entry and the inode `x` it named: the record of `p`
is unchanged and `p` stays well formed, entry `e` is free and the other
entries are as before, the other inode records and the other data blocks are
unchanged; the record of `x` has one link less, or, when its only link went,
is free, with the bits of the blocks of the file cleared in the bitmap. -/
structure UnlinkPost (st : FS) (p x : Nat) (name : CStr) (e : Nat) (st2 : FS) : Prop where
  found : first_index (entry_matches st (inode_at st p) name) (dir_entries (inode_at st p)) 0
    = some e
  target : entry_ino st (inode_at st p) e = x
  sb : st2.rootSB = st.rootSB
  nb : st2.nblocks = st.nblocks
  geom : VolumeGeom st2
  dir : inode_at st2 p = inode_at st p
  wf : DirWF st2 (inode_at st2 p)
  gone : EntryGone st (inode_at st p) st2 e
  inodes : ∀ q, q < st.rootSB.inode_cnt → q ≠ x → inode_at st2 q = inode_at st q
  data : ∀ k, st.rootSB.first_datablk ≤ k → k ≠ chunk_block st (inode_at st p) (e / 16) →
    st2.disk k = st.disk k
  more : (inode_at st x).nlinks ≠ 1 →
    inode_at st2 x = { inode_at st x with nlinks := ((inode_at st x).nlinks + 65535) % 65536 } ∧
    ∀ m, m < st.rootSB.block_cnt → bitmap_bit st2 m = bitmap_bit st m
  last : (inode_at st x).nlinks = 1 →
    inode_at st2 x = { inode_at st x with type := IFFREE } ∧
    (∀ m, m ∈ file_blocks st (inode_at st x) → m ≠ 0 → bitmap_bit st2 m = 0) ∧
    (∀ m, m < st.rootSB.block_cnt → (m ∉ file_blocks st (inode_at st x) ∨ m = 0) →
      bitmap_bit st2 m = bitmap_bit st m)

/-- The example volume after `fs_create("/a")`: the root directory holds the
one entry `a`, a regular file (inode 1) without blocks. -/
def example_file_volume : FS := state_of (fs_create example_volume [47, 97]) example_volume

/-- The volume that `fs_format` makes on a blank device of 4 blocks. -/
def fresh_volume : FS := state_of (fs_format (blank_device 4) zero_block) (blank_device 4)

/-- Modelled from the spec: "split on "/" into non-empty components
(consecutive slashes collapse; a leading slash is ignored)". The components of
`s` that follow the component `cur` read so far. -/
def split_components : CStr → CStr → List CStr
  | [], cur => if cur = [] then [] else [cur]
  | c :: cs, cur =>
    if c = SLASH then
      (if cur = [] then split_components cs [] else cur :: split_components cs [])
    else split_components cs (cur ++ [c])

/-- Modelled from the spec: the sequence of the non-empty components of a path. -/
def path_components (s : CStr) : List CStr := split_components s []

/-- The C string held in a character array: the characters from index `i`
up to the first NUL, at most `n` of them. -/
def cstr_of (f : Nat → Nat) : Nat → Nat → CStr
  | 0, _ => []
  | n + 1, i => if f i = 0 then [] else f i :: cstr_of f n (i + 1)

/-- The name that entry `e` of a directory stores: the characters of its
`d_name` field up to the first NUL (all 62 when the field holds none). -/
def entry_name (st : FS) (ino : fs_inode) (e : Nat) : CStr :=
  cstr_of (dirent_name (entry_data st ino e) (e % DIRENTS_PER_BLOCK)) MAXFILENAME 0

/-- The fresh volume after `fs_create("/a")`. -/
def fresh_file_volume : FS := state_of (fs_create fresh_volume [47, 97]) fresh_volume

/-- The fresh volume after `fs_create("/a")` and `fs_link("/a", "")`. -/
def fresh_link_volume : FS := state_of (fs_link fresh_file_volume [47, 97] []) fresh_file_volume

/-- The indirect table of the full example directory: entry `k < 512` is block
`22 + k`; the bytes that follow the table in memory are 0. -/
def full_dir_table : Block :=
  fun o => if o < 1024 then (if o % 2 = 0 then (22 + o / 2) % 256 else (22 + o / 2) / 256) else 0

/-- The entries of block `n` of the full example directory: each of the 16
entries names inode 1; entry `d` has the three-letter name
`('A' + n / 26, 'A' + n mod 26, 'A' + d)`. -/
def full_dir_entries (n : Nat) : Block :=
  fun o =>
    if o % 64 = 0 then 1
    else if o % 64 = 2 then 65 + n / 26
    else if o % 64 = 3 then 65 + n % 26
    else if o % 64 = 4 then 65 + o / 64
    else 0

/-- An example volume of 1024 blocks (10 reserved blocks, 256 inodes) whose
root directory is at its capacity: 8368 entries, all in use, in the direct
blocks 10 .. 20 and, through the indirect table in block 21, in the blocks
22 .. 533. Blocks 0 .. 533 are marked used, blocks 534 .. 1023 are free. -/
def full_dir_volume : FS :=
  { rootSB := format_sblock 1024, nblocks := 1024,
    disk := fun n =>
      if n = 0 then sblock_block (format_sblock 1024) zero_block
      else if n = 1 then bitmap_set_upto zero_block 534
      else if n = 2 then
        block_set_inode
          (block_set_inode zero_block 0
            { type := IFDIR, nlinks := 0, size := 535552,
              dir_block := [10, 11, 12, 13, 14, 15, 16, 17, 18, 19, 20], indir_block := 21 })
          1 { zero_inode with type := IFREG, nlinks := 8368 }
      else if n = 21 then full_dir_table
      else if 10 ≤ n ∧ n < 534 then full_dir_entries n
      else zero_block }

/-- Modelled from the spec: "ceil(a / b)", the quotient rounded up. -/
def ceil_div (a b : Nat) : Nat := (a + b - 1) / b

/-- The example volume after `fs_mkdir("/d")`: the root directory holds the
one entry `d`, an empty directory (inode 1). -/
def example_dir_volume : FS := state_of (fs_mkdir example_volume [47, 100]) example_volume

/-- State `st1` keeps the inode table of `st` but for the record of inode
`p`: the superblock and the device are the same, the layout is sound, every
other inode record is unchanged, record `p` has the type it had, and no bitmap
bit of a block of the volume was cleared. -/
structure TableKept (st : FS) (p : Nat) (st1 : FS) : Prop where
  sb : st1.rootSB = st.rootSB
  nb : st1.nblocks = st.nblocks
  geom : VolumeGeom st1
  inodes : ∀ q, q < st.rootSB.inode_cnt → q ≠ p → inode_at st1 q = inode_at st q
  parent : (inode_at st1 p).type = (inode_at st p).type
  bits_mono : ∀ m, m < st.rootSB.block_cnt → bitmap_bit st m ≠ 0 → bitmap_bit st1 m ≠ 0

/-- The example volume with stale contents in the free inode 1: its record
has type free, but 7 links, size 4096 and block number 3 in every slot. -/
def example_stale_volume : FS :=
  save_inode example_volume 1
    { type := IFFREE, nlinks := 7, size := 4096,
      dir_block := [3, 3, 3, 3, 3, 3, 3, 3, 3, 3, 3], indir_block := 3 }

/-- The volume that `fs_format` makes on a blank device of 8 blocks (3
reserved blocks, 32 inodes, 5 data blocks). -/
def fresh8_volume : FS := formatted (blank_device 8) zero_block

/-- The 8-block volume after `fs_mkdir("/d")`. -/
def fresh8_dir_volume : FS := state_of (fs_mkdir fresh8_volume [47, 100]) fresh8_volume

/-- An example volume of 16 blocks (3 reserved blocks) whose root directory
holds the entry `a` (in block 3) of a regular file, inode 1, with one link
and size 12288 (12 blocks): its direct slots are 4, 5 and nine holes, its
indirect block is 6, whose entries 0 and 1 are 7 and 8. Blocks 0 .. 8 are
marked used. -/
def example_blocks_volume : FS :=
  { rootSB := format_sblock 16, nblocks := 16,
    disk := fun n =>
      if n = 0 then sblock_block (format_sblock 16) zero_block
      else if n = 1 then bitmap_set_upto zero_block 9
      else if n = 2 then
        block_set_inode
          (block_set_inode zero_block 0
            { type := IFDIR, nlinks := 0, size := 64,
              dir_block := [3, 0, 0, 0, 0, 0, 0, 0, 0, 0, 0], indir_block := 0 })
          1 { type := IFREG, nlinks := 1, size := 12288,
              dir_block := [4, 5, 0, 0, 0, 0, 0, 0, 0, 0, 0], indir_block := 6 }
      else if n = 3 then block_set_dirent zero_block 0 1 [97]
      else if n = 6 then set16 (set16 zero_block 0 7) 2 8
      else zero_block }

/-- An example volume of 32 blocks (3 reserved blocks, 32 inodes) whose root
directory holds 176 entries, all in use, in the direct blocks 3 .. 13: entry
`16 c + d` names inode 1 and has the two-letter name `('A' + c, 'A' + d)`.
Inode 1 is a regular file with 176 links. Blocks 0 .. 30 are marked used:
block 31 is the only free block. -/
def tight_dir176_volume : FS :=
  { rootSB := format_sblock 32, nblocks := 32,
    disk := fun n =>
      if n = 0 then sblock_block (format_sblock 32) zero_block
      else if n = 1 then bitmap_set_upto zero_block 31
      else if n = 2 then
        block_set_inode
          (block_set_inode zero_block 0
            { type := IFDIR, nlinks := 0, size := 11264,
              dir_block := [3, 4, 5, 6, 7, 8, 9, 10, 11, 12, 13], indir_block := 0 })
          1 { zero_inode with type := IFREG, nlinks := 176 }
      else if 3 ≤ n ∧ n < 14 then
        (fun o =>
          if o % 64 = 0 then 1
          else if o % 64 = 2 then 65 + (n - 3)
          else if o % 64 = 3 then 65 + o / 64
          else 0)
      else zero_block }

/-- The tight volume after the failed `fs_create("/a")`. -/
def tight_failed_volume : FS :=
  state_of (fs_create tight_dir176_volume [47, 97]) tight_dir176_volume

/-- The state that `fs_format` leaves on a blank device of 262144 blocks. -/
def fresh_wrapped_volume : FS :=
  state_of (fs_format (blank_device 262144) zero_block) (blank_device 262144)

/-! ## Listing a directory -/

/-- The values that one `printf` of the listing loop of `fs_ls` prints: inode
number, type letter, link count, size, and the characters of the name. -/
structure ls_line where
  d_ino : Nat
  type : Char
  nlinks : Nat
  size : Nat
  d_name : CStr
deriving DecidableEq, Repr

/-- The inner `for` loop of `fs_ls` over the entries of one block, from entry
`d`: one line for every in-use entry whose inode `inode_load` accepts. The
name is what `%s` prints: the characters up to the first NUL, or up to the end
of the block buffer. -/
def fs_ls_scan (st : FS) (block : Block) (remaining_dirents : Nat) :
    Nat → Nat → Option (List ls_line)
  | 0, _ => some []
  | fuel + 1, d =>
    if d < DIRENTS_PER_BLOCK ∧ d < remaining_dirents then
      if dirent_ino block d ≠ FREE then
        match inode_load st (dirent_ino block d) zero_inode with
        | none => none
        | some (r, entry_inode) =>
          match fs_ls_scan st block remaining_dirents fuel (d + 1) with
          | none => none
          | some rest =>
            if r ≠ -1 then
              some ({ d_ino := dirent_ino block d,
                      type := if entry_inode.type = IFDIR then 'D'
                        else if entry_inode.type = IFREG then 'F' else '?',
                      nlinks := entry_inode.nlinks, size := entry_inode.size,
                      d_name := cstr_of (fun k => byte block (DIRENTSZ * d + 2 + k))
                        (BLOCKSZ - (DIRENTSZ * d + 2)) 0 } :: rest)
            else some rest
      else fs_ls_scan st block remaining_dirents fuel (d + 1)
    else some []

/-- The `while (remaining_dirents > 0)` loop of `fs_ls`; it is left at the
first block number that is -1 or 0. -/
def fs_ls_loop (st : FS) (inode_of_dir : fs_inode) : Nat → Nat → Nat → Option (List ls_line)
  | 0, _, _ => some []
  | fuel + 1, remaining_dirents, offset =>
    if remaining_dirents > 0 then
      match offset2block st inode_of_dir offset with
      | none => none
      | some currBlock =>
        if currBlock = -1 ∨ currBlock = 0 then some []
        else
          match disk_read st (to_unsigned currBlock) with
          | none => none
          | some block =>
            match fs_ls_scan st block remaining_dirents DIRENTS_PER_BLOCK 0 with
            | none => none
            | some lines =>
              match fs_ls_loop st inode_of_dir fuel
                  (remaining_dirents - DIRENTS_PER_BLOCK) (offset + DIRENTS_PER_BLOCK * DIRENTSZ) with
              | none => none
              | some rest => some (lines ++ rest)
    else some []

/-- The C function `fs_ls`; `dirname = none` is the `NULL` argument. The result
is the return value and the lines of the listing (no call writes to the disk). -/
def fs_ls (st : FS) (dirname : Option CStr) : Option (Int × List ls_line) :=
  if check_rootSB st = -1 then some (-1, [])
  else
    match get_inode st (dirname.getD [SLASH]) with
    | none => none
    | some number_of_ino =>
      if number_of_ino = -1 then some (-1, [])
      else
        match inode_load st number_of_ino zero_inode with
        | none => none
        | some (r, inode_of_dir) =>
          if r = -1 then some (-1, [])
          else if inode_of_dir.type ≠ IFDIR then some (-1, [])
          else
            match fs_ls_loop st inode_of_dir (inode_of_dir.size / DIRENTSZ)
                (inode_of_dir.size / DIRENTSZ) 0 with
            | none => none
            | some lines => some (0, lines)

/-! ## Link counts and block ownership (specification side) -/

/-- The inode number held in entry `e` of a directory, as the loops of `fs.c`
reach it: the block number comes from `offset2block` at the offset of the
entry and the block is read with `disk_read`. `none` when `offset2block`
gives no block (-1, or 0 for a hole) or when a read aborts. -/
def dirent_target (st : FS) (ino : fs_inode) (e : Nat) : Option Nat :=
  match offset2block st ino (e * DIRENTSZ) with
  | none => none
  | some currBlock =>
    if currBlock = -1 ∨ currBlock = 0 then none
    else
      match disk_read st (to_unsigned currBlock) with
      | none => none
      | some block => some (dirent_ino block (e % DIRENTS_PER_BLOCK))

/-- The number of entries of the directory record `ino` whose inode number
is `x` (in-use entries, for `x` other than 0). -/
def dir_refs (st : FS) (ino : fs_inode) (x : Nat) : Nat :=
  ((Finset.range (dir_entries ino)).filter (fun e => dirent_target st ino e = some x)).card

/-- The number of in-use directory entries, over all directories of the inode
table, whose inode number is `x`. -/
def link_count (st : FS) (x : Nat) : Nat :=
  Finset.sum (Finset.range st.rootSB.inode_cnt)
    (fun q => if (inode_at st q).type = IFDIR then dir_refs st (inode_at st q) x else 0)

/-- The link counts are right: the `nlinks` of every regular file is the
number of in-use directory entries that name it, and every in-use entry of a
directory names an inode of the table whose type is not free. -/
structure LinksCounted (st : FS) : Prop where
  links : ∀ x, x < st.rootSB.inode_cnt → (inode_at st x).type = IFREG →
    (inode_at st x).nlinks = link_count st x
  targets : ∀ q, q < st.rootSB.inode_cnt → (inode_at st q).type = IFDIR →
    ∀ e, e < dir_entries (inode_at st q) → ∀ t, dirent_target st (inode_at st q) e = some t →
      t ≠ FREE → t < st.rootSB.inode_cnt ∧ (inode_at st t).type ≠ IFFREE

/-- The places of an inode that hold a block number: direct slot `j`, the
indirect slot, entry `k` of the indirect table. -/
inductive block_slot where
  | direct (j : Nat)
  | indirect
  | table (k : Nat)
deriving DecidableEq, Repr

/-- The slots that an inode has: 11 direct slots, the indirect slot, and the
512 entries of the indirect table. -/
def slot_valid : block_slot → Prop
  | block_slot.direct j => j < DIRBLOCK_PER_INODE
  | block_slot.indirect => True
  | block_slot.table k => k < BLOCKSZ / 2

/-- The block number that a slot of the inode record `ino` holds; the entries
of the indirect table are read from the indirect block, and are 0 for an
inode without an indirect block. -/
def slot_block (st : FS) (ino : fs_inode) : block_slot → Nat
  | block_slot.direct j => ino.dir_block.getD j 0
  | block_slot.indirect => ino.indir_block
  | block_slot.table k => if ino.indir_block = 0 then 0 else block_u16 (st.disk ino.indir_block) k

/-- The block numbers are sound: every non-zero block number in a slot of an
inode is a data block of the volume, marked used in the bitmap and held by no
other slot of any inode; and every entry index of a directory maps through
`offset2block` to the non-zero block number of one of its slots. -/
structure BlocksOwned (st : FS) : Prop where
  held : ∀ q, q < st.rootSB.inode_cnt → ∀ s, slot_valid s →
    slot_block st (inode_at st q) s ≠ 0 →
    st.rootSB.first_datablk ≤ slot_block st (inode_at st q) s ∧
    slot_block st (inode_at st q) s < st.rootSB.block_cnt ∧
    bitmap_bit st (slot_block st (inode_at st q) s) ≠ 0
  once : ∀ q q1, q < st.rootSB.inode_cnt → q1 < st.rootSB.inode_cnt → ∀ s s1,
    slot_valid s → slot_valid s1 → slot_block st (inode_at st q) s ≠ 0 →
    slot_block st (inode_at st q) s = slot_block st (inode_at st q1) s1 → q = q1 ∧ s = s1
  mapped : ∀ q, q < st.rootSB.inode_cnt → (inode_at st q).type = IFDIR →
    ∀ e, e < dir_entries (inode_at st q) → ∃ s, slot_valid s ∧
      slot_block st (inode_at st q) s ≠ 0 ∧
      offset2block st (inode_at st q) (e * DIRENTSZ)
        = some ((slot_block st (inode_at st q) s : Nat) : Int)

/-- Every directory can take one more entry: it has fewer than 8368 entries
(the capacity of 11 direct and 512 indirect blocks) or a free entry. -/
def HasRoom (st : FS) : Prop :=
  ∀ q, q < st.rootSB.inode_cnt → (inode_at st q).type = IFDIR →
    dir_entries (inode_at st q) < 8368 ∨
    ∃ e, e < dir_entries (inode_at st q) ∧ dirent_target st (inode_at st q) e = some FREE

/-- No regular file is at the largest link count that `nlinks` can hold. -/
def FewLinks (st : FS) : Prop :=
  ∀ x, x < st.rootSB.inode_cnt → (inode_at st x).type = IFREG → (inode_at st x).nlinks < 65535

/-- The states reached from the volume that `fs_format` makes on the device
`dev` by a sequence of calls of `fs_create`, `fs_mkdir`, `fs_link` and
`fs_unlink` on paths that are C strings, where every call that adds an entry
is made in a state that satisfies `room`, and every `fs_link` in a state that
satisfies `lim`. -/
inductive Reached (room lim : FS → Prop) (dev : FS) (mem : Block) : FS → Prop where
  | fresh (st0 : FS) : fs_format dev mem = some (0, st0) → Reached room lim dev mem st0
  | create (st : FS) (P : CStr) (r : Int) (st1 : FS) : Reached room lim dev mem st →
      IsCStr P → room st → fs_create st P = some (r, st1) → Reached room lim dev mem st1
  | mkdir (st : FS) (P : CStr) (r : Int) (st1 : FS) : Reached room lim dev mem st →
      IsCStr P → room st → fs_mkdir st P = some (r, st1) → Reached room lim dev mem st1
  | link (st : FS) (E N : CStr) (r : Int) (st1 : FS) : Reached room lim dev mem st →
      IsCStr E → IsCStr N → room st → lim st → fs_link st E N = some (r, st1) →
      Reached room lim dev mem st1
  | unlink (st : FS) (P : CStr) (r : Int) (st1 : FS) : Reached room lim dev mem st →
      IsCStr P → fs_unlink st P = some (r, st1) → Reached room lim dev mem st1

/-- Any state: the condition that holds always. -/
def Always (_st : FS) : Prop := True

/-- The part of the invariant of the reached states that is about blocks: the
volume is mounted and well formed, with at most 65536 blocks and inodes, and
an inode that is not a directory holds no block. -/
structure BlockInv (st : FS) : Prop where
  wf : VolumeWF st
  mounted : check_rootSB st = 0
  b16 : st.rootSB.block_cnt ≤ 65536
  i16 : st.rootSB.inode_cnt ≤ 65536
  files : ∀ q, q < st.rootSB.inode_cnt → (inode_at st q).type ≠ IFDIR →
    (∀ j, (inode_at st q).dir_block.getD j 0 = 0) ∧ (inode_at st q).indir_block = 0

/-- The invariant of the reached states: the volume is mounted and well
formed, with at most 65536 blocks and inodes; inode 0 is a directory; an
inode that is not a directory holds no block; every in-use entry names an
inode of the table that is not free; and the `nlinks` of every regular file
counts the entries that name it. -/
structure VolumeInv (st : FS) : Prop where
  wf : VolumeWF st
  mounted : check_rootSB st = 0
  b16 : st.rootSB.block_cnt ≤ 65536
  i16 : st.rootSB.inode_cnt ≤ 65536
  root : 0 < st.rootSB.inode_cnt ∧ (inode_at st 0).type = IFDIR
  files : ∀ q, q < st.rootSB.inode_cnt → (inode_at st q).type ≠ IFDIR →
    (∀ j, (inode_at st q).dir_block.getD j 0 = 0) ∧ (inode_at st q).indir_block = 0
  targets : ∀ q, q < st.rootSB.inode_cnt → (inode_at st q).type = IFDIR →
    ∀ e, e < dir_entries (inode_at st q) → entry_ino st (inode_at st q) e ≠ FREE →
      entry_ino st (inode_at st q) e < st.rootSB.inode_cnt ∧
      (inode_at st (entry_ino st (inode_at st q) e)).type ≠ IFFREE
  links : ∀ x, x < st.rootSB.inode_cnt → (inode_at st x).type = IFREG →
    (inode_at st x).nlinks = link_count st x

/-! ## A long run that fills the root directory -/

/-- The name of link number `k` of the long run: three lower-case letters. -/
def run_name (k : Nat) : CStr := [97 + k / 676, 97 + k / 26 % 26, 97 + k % 26]

/-- The long run on a blank device of 1024 blocks: `fs_format`, then
`fs_create("/f")`, then `k` calls `fs_link("/f", "/" ++ run_name j)` for
`j = 0, .., k - 1`. -/
def long_run : Nat → FS
  | 0 => state_of (fs_create (formatted (blank_device 1024) zero_block) [47, 102])
      (formatted (blank_device 1024) zero_block)
  | k + 1 => state_of (fs_link (long_run k) [47, 102] (SLASH :: run_name k)) (long_run k)

/-- What holds in the long run after `k` links: the invariant of the reached
states; inode 1 is the file, with `k + 1` links; the other inodes but the root
directory are free; the root directory holds `k + 1` entries, all in use; the
name `f` is found, the names of the links still to come are not; the blocks
from `10 + ceil((k + 1) / 16)` on (one more once the indirect table exists)
are free; and the 16-bit word that follows the indirect table reads 0. -/
structure LongRun (k : Nat) (st : FS) : Prop where
  inv : VolumeInv st
  sb : st.rootSB = format_sblock 1024
  free : ∀ q, 2 ≤ q → q < 256 → (inode_at st q).type = IFFREE
  file : (inode_at st 1).type = IFREG ∧ (inode_at st 1).nlinks = k + 1
  count : dir_entries (inode_at st 0) = k + 1
  used : ∀ e, e < k + 1 → entry_ino st (inode_at st 0) e ≠ FREE
  found : dir_lookup st (inode_at st 0) [102] = 1
  absent : ∀ j, k ≤ j → j < 17576 → dir_lookup st (inode_at st 0) (run_name j) = -1
  clear : ∀ m, 10 + (k + 16) / 16 + (if 176 < k + 1 then 1 else 0) ≤ m → m < 1024 →
    bitmap_bit st m = 0
  beyond : 176 < k + 1 → block_u16 (st.disk (inode_at st 0).indir_block) 512 = 0

/-! # Theorems -/

theorem byte_lt (b : Block) (o : Nat) : byte b o < 256 := Nat.mod_lt _ (by decide)

theorem bitmap_get_eq (b : Block) (n : Nat) :
    bitmap_get b n = ((byte b (n / 8)).testBit (n % 8)).toNat := by
  unfold bitmap_get
  simp only [WORDSZ]
  rw [Nat.and_one_is_mod, Nat.testBit_to_div_mod, Nat.shiftRight_eq_div_pow]
  rcases Nat.mod_two_eq_zero_or_one (byte b (n / 8) / 2 ^ (n % 8)) with h0 | h0 <;> simp [h0]

theorem bitmap_get_le_one (b : Block) (n : Nat) : bitmap_get b n = 0 ∨ bitmap_get b n = 1 := by
  rw [bitmap_get_eq]; cases (byte b (n / 8)).testBit (n % 8) <;> simp

theorem byte_update_same (b : Block) (o v : Nat) : byte (Function.update b o v) o = v % 256 := by
  simp [byte]

theorem byte_update_other (b : Block) (o o' v : Nat) (h : o' ≠ o) :
    byte (Function.update b o v) o' = byte b o' := by
  simp [byte, Function.update_noteq h]

theorem bitmap_get_set_same (b : Block) (n : Nat) : bitmap_get (bitmap_set b n) n = 1 := by
  rw [bitmap_get_eq]
  simp only [bitmap_set, WORDSZ, byte_update_same]
  have h8 : n % 8 < 8 := Nat.mod_lt _ (by decide)
  rw [show (256 : Nat) = 2 ^ 8 from rfl, Nat.testBit_mod_two_pow, Nat.testBit_or,
      Nat.one_shiftLeft, Nat.testBit_two_pow]
  simp [h8]

theorem bitmap_get_set_other (b : Block) (n m : Nat) (h : m ≠ n) :
    bitmap_get (bitmap_set b n) m = bitmap_get b m := by
  rw [bitmap_get_eq, bitmap_get_eq]
  simp only [bitmap_set, WORDSZ]
  by_cases hw : m / 8 = n / 8
  · rw [hw, byte_update_same]
    have h8 : m % 8 < 8 := Nat.mod_lt _ (by decide)
    have hne : n % 8 ≠ m % 8 := by omega
    rw [show (256 : Nat) = 2 ^ 8 from rfl, Nat.testBit_mod_two_pow, Nat.testBit_or,
        Nat.one_shiftLeft, Nat.testBit_two_pow]
    simp [h8, hne]
  · rw [byte_update_other _ _ _ _ hw]

theorem testBit_clear_mask (k i : Nat) (hk : k < 8) (hi : i < 8) :
    (255 - 1 <<< k).testBit i = decide (i ≠ k) := by
  interval_cases k <;> interval_cases i <;> decide

theorem bitmap_get_clear_same (b : Block) (n : Nat) : bitmap_get (bitmap_clear b n) n = 0 := by
  rw [bitmap_get_eq]
  simp only [bitmap_clear, WORDSZ, byte_update_same]
  have h8 : n % 8 < 8 := Nat.mod_lt _ (by decide)
  rw [show (256 : Nat) = 2 ^ 8 from rfl, Nat.testBit_mod_two_pow, Nat.testBit_and,
      testBit_clear_mask _ _ h8 h8]
  simp

theorem bitmap_get_clear_other (b : Block) (n m : Nat) (h : m ≠ n) :
    bitmap_get (bitmap_clear b n) m = bitmap_get b m := by
  rw [bitmap_get_eq, bitmap_get_eq]
  simp only [bitmap_clear, WORDSZ]
  by_cases hw : m / 8 = n / 8
  · rw [hw, byte_update_same]
    have h8 : m % 8 < 8 := Nat.mod_lt _ (by decide)
    have h8n : n % 8 < 8 := Nat.mod_lt _ (by decide)
    have hne : m % 8 ≠ n % 8 := by omega
    rw [show (256 : Nat) = 2 ^ 8 from rfl, Nat.testBit_mod_two_pow, Nat.testBit_and,
        testBit_clear_mask _ _ h8n h8]
    simp [h8, hne]
  · rw [byte_update_other _ _ _ _ hw]

theorem block_alloc_scan_eq_some (cnt : Nat) (blk : Block) (k j : Nat)
    (hj : j < 8192) (hcnt : k * 8192 + j < cnt) (hclear : bitmap_get blk j = 0) :
    ∀ fuel i, i ≤ j → j < i + fuel → (∀ m, i ≤ m → m < j → bitmap_get blk m ≠ 0) →
      block_alloc_scan cnt blk k fuel i = some j := by
  intro fuel
  induction fuel with
  | zero => intro i h1 h2; omega
  | succ fuel ih =>
    intro i h1 h2 hset
    unfold block_alloc_scan
    have hg : i < BLOCKSZ * 8 ∧ k * BLOCKSZ * 8 + i < cnt := by
      constructor <;> simp only [BLOCKSZ, DISK_BLOCK_SIZE] <;> omega
    rw [if_pos hg]
    by_cases hij : i = j
    · subst hij; rw [if_pos hclear]
    · rw [if_neg (hset i (le_refl _) (by omega))]
      exact ih (i + 1) (by omega) (by omega) (fun m hm1 hm2 => hset m (by omega) hm2)

theorem block_alloc_scan_eq_none (cnt : Nat) (blk : Block) (k : Nat) :
    ∀ fuel i, (∀ m, i ≤ m → m < 8192 → k * 8192 + m < cnt → bitmap_get blk m ≠ 0) →
      block_alloc_scan cnt blk k fuel i = none := by
  intro fuel
  induction fuel with
  | zero => intro i _; rfl
  | succ fuel ih =>
    intro i hset
    unfold block_alloc_scan
    split
    · rename_i hg
      simp only [BLOCKSZ, DISK_BLOCK_SIZE] at hg
      rw [if_neg (hset i (le_refl _) hg.1 (by omega))]
      exact ih (i + 1) (fun m hm1 hm2 hm3 => hset m (by omega) hm2 hm3)
    · rfl

theorem bitmap_bit_eq (st : FS) (k m : Nat) (hm : m < 8192) :
    bitmap_bit st (k * 8192 + m) = bitmap_get (st.disk (1 + k)) m := by
  unfold bitmap_bit
  simp only [BLOCKSZ, DISK_BLOCK_SIZE, BITMAPSTART]
  have h1 : (k * 8192 + m) / 8192 = k := by omega
  have h2 : (k * 8192 + m) % 8192 = m := by omega
  show bitmap_get (st.disk (1 + (k * 8192 + m) / 8192)) ((k * 8192 + m) % 8192) = _
  rw [h1, h2]

theorem disk_read_eq (st : FS) (n : Nat) (h : n < st.nblocks) : disk_read st n = some (st.disk n) := by
  unfold disk_read; rw [if_neg (by omega)]

theorem disk_write_eq (st : FS) (n : Nat) (data : Block) (h : n < st.nblocks) :
    disk_write st n data = some { st with disk := Function.update st.disk n data } := by
  unfold disk_write; rw [if_neg (by omega)]

theorem block_alloc_loop_eq (st : FS) (hg : BitmapGeom st) (b : Nat)
    (hb : b < st.rootSB.block_cnt) (hclear : bitmap_bit st b = 0)
    (hmin : ∀ m, m < b → bitmap_bit st m ≠ 0) :
    ∀ fuel k, k ≤ b / 8192 → b / 8192 < k + fuel →
      block_alloc_loop st fuel k = some ((b : Int), mark_used st b) := by
  have hcov := hg.cover
  have hdev := hg.ondev
  simp only [BLOCKSZ, DISK_BLOCK_SIZE, BITMAPSTART] at hcov hdev
  intro fuel
  induction fuel with
  | zero => intro k h1 h2; omega
  | succ fuel ih =>
    intro k h1 h2
    unfold block_alloc_loop
    have hk : 1 + k < st.nblocks := by omega
    simp only [BITMAPSTART]
    rw [disk_read_eq st (1 + k) hk]
    by_cases hkb : k = b / 8192
    · have hj : b % 8192 < 8192 := Nat.mod_lt _ (by decide)
      have hbe : k * 8192 + b % 8192 = b := by omega
      have hscan : block_alloc_scan st.rootSB.block_cnt (st.disk (1 + k)) k (BLOCKSZ * 8) 0
          = some (b % 8192) := by
        apply block_alloc_scan_eq_some _ _ _ _ hj (by omega)
        · rw [← bitmap_bit_eq st k _ hj, hbe]; exact hclear
        · omega
        · simp only [BLOCKSZ, DISK_BLOCK_SIZE]; omega
        · intro m _ hm
          rw [← bitmap_bit_eq st k m (by omega)]
          exact hmin _ (by omega)
      simp only [hscan]
      rw [disk_write_eq st (1 + k) _ hk]
      simp only [mark_used, BLOCKSZ, DISK_BLOCK_SIZE, BITMAPSTART, ← hkb]
      have : k * 1024 * 8 + b % 8192 = b := by omega
      rw [this]
    · have hscan : block_alloc_scan st.rootSB.block_cnt (st.disk (1 + k)) k (BLOCKSZ * 8) 0
          = none := by
        apply block_alloc_scan_eq_none
        intro m _ hm _
        rw [← bitmap_bit_eq st k m hm]
        exact hmin _ (by omega)
      simp only [hscan]
      rw [if_pos (by omega)]
      exact ih (k + 1) (by omega) (by omega)

theorem block_alloc_eq (st : FS) (hg : BitmapGeom st) (b : Nat)
    (hb : b < st.rootSB.block_cnt) (hclear : bitmap_bit st b = 0)
    (hmin : ∀ m, m < b → bitmap_bit st m ≠ 0) :
    block_alloc st = some ((b : Int), mark_used st b) := by
  have hcov := hg.cover
  simp only [BLOCKSZ, DISK_BLOCK_SIZE] at hcov
  unfold block_alloc
  apply block_alloc_loop_eq st hg b hb hclear hmin
  · omega
  · have : b / 8192 < st.rootSB.bmap_size := by omega
    omega

theorem block_alloc_loop_full (st : FS) (hg : BitmapGeom st)
    (hfull : ∀ m, m < st.rootSB.block_cnt → bitmap_bit st m ≠ 0) :
    ∀ fuel k, k < st.rootSB.bmap_size → block_alloc_loop st fuel k = some (-1, st) := by
  have hdev := hg.ondev
  simp only [BITMAPSTART] at hdev
  intro fuel
  induction fuel with
  | zero => intro k _; rfl
  | succ fuel ih =>
    intro k hk
    unfold block_alloc_loop
    simp only [BITMAPSTART]
    rw [disk_read_eq st (1 + k) (by omega)]
    have hscan : block_alloc_scan st.rootSB.block_cnt (st.disk (1 + k)) k (BLOCKSZ * 8) 0
        = none := by
      apply block_alloc_scan_eq_none
      intro m _ hm hc
      rw [← bitmap_bit_eq st k m hm]
      exact hfull _ hc
    simp only [hscan]
    split
    · exact ih (k + 1) (by assumption)
    · rfl

theorem block_alloc_full (st : FS) (hg : BitmapGeom st)
    (hfull : ∀ m, m < st.rootSB.block_cnt → bitmap_bit st m ≠ 0) :
    block_alloc st = some (-1, st) :=
  block_alloc_loop_full st hg hfull _ 0 hg.one_le

theorem bitmap_bit_mark_used_same (st : FS) (b : Nat) : bitmap_bit (mark_used st b) b = 1 := by
  simp [bitmap_bit, mark_used, bitmap_get_set_same]

theorem bitmap_bit_mark_used_other (st : FS) (b m : Nat) (h : m ≠ b) :
    bitmap_bit (mark_used st b) m = bitmap_bit st m := by
  simp only [bitmap_bit, mark_used]
  by_cases hk : m / (BLOCKSZ * 8) = b / (BLOCKSZ * 8)
  · rw [hk, Function.update_same]
    apply bitmap_get_set_other
    simp only [BLOCKSZ, DISK_BLOCK_SIZE] at hk ⊢
    omega
  · rw [Function.update_noteq (by omega)]

theorem bitmap_bit_mark_free_same (st : FS) (b : Nat) : bitmap_bit (mark_free st b) b = 0 := by
  simp [bitmap_bit, mark_free, bitmap_get_clear_same]

theorem bitmap_bit_mark_free_other (st : FS) (b m : Nat) (h : m ≠ b) :
    bitmap_bit (mark_free st b) m = bitmap_bit st m := by
  simp only [bitmap_bit, mark_free]
  by_cases hk : m / (BLOCKSZ * 8) = b / (BLOCKSZ * 8)
  · rw [hk, Function.update_same]
    apply bitmap_get_clear_other
    simp only [BLOCKSZ, DISK_BLOCK_SIZE] at hk ⊢
    omega
  · rw [Function.update_noteq (by omega)]

theorem to_unsigned_natCast (n : Nat) (h : n < 4294967296) : to_unsigned (n : Int) = n := by
  unfold to_unsigned
  have : ((n : Int) % 4294967296) = (n : Int) := Int.emod_eq_of_lt (by omega) (by omega)
  rw [this]; simp

theorem block_free_eq (st : FS) (hg : BitmapGeom st) (n : Nat) (hn : n < st.rootSB.block_cnt) :
    block_free st (n : Int) = some (0, mark_free st n) := by
  have hcov := hg.cover
  have hdev := hg.ondev
  simp only [BLOCKSZ, DISK_BLOCK_SIZE, BITMAPSTART] at hcov hdev
  have hk : n / 8192 < st.rootSB.bmap_size := by omega
  unfold block_free
  simp only [BLOCKSZ, DISK_BLOCK_SIZE, BITMAPSTART]
  have h1 : Int.tdiv (n : Int) ((1024 : Nat) * 8 : Nat) = ((n / 8192 : Nat) : Int) := by
    simp [Int.tdiv]
  have h2 : Int.tmod (n : Int) ((1024 : Nat) * 8 : Nat) = ((n % 8192 : Nat) : Int) := by
    simp [Int.tmod]
  simp only [Nat.cast_ofNat, Nat.cast_mul] at h1 h2 ⊢
  rw [h1, h2]
  have hc : ¬ (((n / 8192 : Nat) : Int) ≥ (st.rootSB.bmap_size : Int) ∨ ((n / 8192 : Nat) : Int) < 0) := by
    omega
  rw [if_neg hc]
  simp only [Int.toNat_ofNat]
  rw [disk_read_eq st _ (by omega), to_unsigned_natCast _ (by omega)]
  simp only []
  rw [if_neg (by omega), disk_write_eq st _ _ (by omega)]
  rfl

/-- C6: on a mounted volume whose bitmap covers the volume, when `b` is the
smallest block number below `block_cnt` with a clear bitmap bit, `block_alloc`
returns `b`, sets bit `b`, and leaves every other bitmap bit, every block that
is not a bitmap block, the superblock in memory and the device size unchanged. -/
theorem block_alloc_first_fit (st : FS) (hg : BitmapGeom st) (b : Nat)
    (hb : b < st.rootSB.block_cnt) (hclear : bitmap_bit st b = 0)
    (hmin : ∀ m, m < b → bitmap_bit st m ≠ 0) :
    ∃ st1, block_alloc st = some ((b : Int), st1) ∧
      bitmap_bit st1 b = 1 ∧
      (∀ m, m ≠ b → bitmap_bit st1 m = bitmap_bit st m) ∧
      (∀ k, (k < BITMAPSTART ∨ BITMAPSTART + st.rootSB.bmap_size ≤ k) → st1.disk k = st.disk k) ∧
      st1.rootSB = st.rootSB ∧ st1.nblocks = st.nblocks := by
  refine ⟨mark_used st b, block_alloc_eq st hg b hb hclear hmin, bitmap_bit_mark_used_same st b,
    fun m hm => bitmap_bit_mark_used_other st b m hm, ?_, rfl, rfl⟩
  intro k hk
  have hcov := hg.cover
  simp only [BLOCKSZ, DISK_BLOCK_SIZE, BITMAPSTART] at hcov hk
  have : b / 8192 < st.rootSB.bmap_size := by omega
  simp only [mark_used, BLOCKSZ, DISK_BLOCK_SIZE, BITMAPSTART]
  rw [Function.update_noteq (by omega)]

theorem example_volume_geom : BitmapGeom example_volume :=
  ⟨by decide, by decide, by decide⟩

theorem block_alloc_first_fit_witness :
    ∃ st1, block_alloc example_volume = some (((3 : Nat) : Int), st1) ∧
      bitmap_bit st1 3 = 1 ∧
      (∀ m, m ≠ 3 → bitmap_bit st1 m = bitmap_bit example_volume m) ∧
      (∀ k, (k < BITMAPSTART ∨ BITMAPSTART + example_volume.rootSB.bmap_size ≤ k) →
        st1.disk k = example_volume.disk k) ∧
      st1.rootSB = example_volume.rootSB ∧ st1.nblocks = example_volume.nblocks :=
  block_alloc_first_fit example_volume example_volume_geom 3 (by decide) (by decide) (by decide)

/-- C7: when every bitmap bit of a block number below `block_cnt` is set,
`block_alloc` returns -1 and leaves the whole state unchanged, whatever the
padding bits beyond `block_cnt` are; after `block_free(n)` with
`0 <= n < block_cnt`, which returns 0, the next `block_alloc` returns `n`. -/
theorem block_alloc_exhausted (st : FS) (hg : BitmapGeom st)
    (hfull : ∀ m, m < st.rootSB.block_cnt → bitmap_bit st m ≠ 0)
    (n : Nat) (hn : n < st.rootSB.block_cnt) :
    block_alloc st = some (-1, st) ∧
    ∃ st1 st2, block_free st (n : Int) = some (0, st1) ∧
      block_alloc st1 = some ((n : Int), st2) := by
  refine ⟨block_alloc_full st hg hfull, mark_free st n, mark_used (mark_free st n) n,
    block_free_eq st hg n hn, ?_⟩
  apply block_alloc_eq (mark_free st n) ⟨hg.one_le, hg.cover, hg.ondev⟩ n hn
  · exact bitmap_bit_mark_free_same st n
  · intro m hm
    rw [bitmap_bit_mark_free_other st n m (by omega)]
    exact hfull m (by omega)

theorem example_full_volume_geom : BitmapGeom example_full_volume :=
  ⟨by decide, by decide, by decide⟩

theorem block_alloc_exhausted_witness :
    bitmap_bit example_full_volume 4 = 0 ∧
    block_alloc example_full_volume = some (-1, example_full_volume) ∧
    ∃ st1 st2, block_free example_full_volume ((3 : Nat) : Int) = some (0, st1) ∧
      block_alloc st1 = some (((3 : Nat) : Int), st2) :=
  ⟨by decide, block_alloc_exhausted example_full_volume example_full_volume_geom
    (by decide) 3 (by decide)⟩

theorem write_zero_blocks_eq (st : FS) (start : Nat) :
    ∀ cnt, start + cnt ≤ st.nblocks →
      write_zero_blocks st start cnt = some { st with
        disk := fun k => if start ≤ k ∧ k < start + cnt then zero_block else st.disk k } := by
  intro cnt
  induction cnt with
  | zero =>
    intro _
    unfold write_zero_blocks
    congr 1
    cases st; simp only [FS.mk.injEq, true_and]
    funext k
    rw [if_neg (by omega)]
  | succ cnt ih =>
    intro h
    unfold write_zero_blocks
    rw [ih (by omega)]
    simp only []
    rw [disk_write_eq _ _ _ (by simpa using (by omega : start + cnt < st.nblocks))]
    congr 1
    simp only [FS.mk.injEq, true_and]
    funext k
    by_cases hk : k = start + cnt
    · subst hk; rw [Function.update_same, if_pos (by omega)]
    · rw [Function.update_noteq hk]
      by_cases h2 : start ≤ k ∧ k < start + cnt
      · rw [if_pos h2, if_pos (by omega)]
      · rw [if_neg h2, if_neg (by omega)]

theorem byte_zero_block (o : Nat) : byte zero_block o = 0 := rfl

theorem bitmap_get_zero_block (i : Nat) : bitmap_get zero_block i = 0 := by
  rw [bitmap_get_eq, byte_zero_block]; simp

theorem bitmap_get_set_upto (i : Nat) : ∀ n,
    bitmap_get (bitmap_set_upto zero_block n) i = if i < n then 1 else 0 := by
  intro n
  induction n with
  | zero => simp [bitmap_set_upto, bitmap_get_zero_block]
  | succ n ih =>
    unfold bitmap_set_upto
    by_cases h : i = n
    · subst h; rw [bitmap_get_set_same, if_pos (by omega)]
    · rw [bitmap_get_set_other _ _ _ h, ih]
      by_cases h2 : i < n
      · rw [if_pos h2, if_pos (by omega)]
      · rw [if_neg h2, if_neg (by omega)]

theorem get16_zero_block (o : Nat) : get16 zero_block o = 0 := rfl

theorem block_inode_zero_type (k : Nat) : (block_inode zero_block k).type = 0 := rfl

theorem inode_alloc_first_free (st : FS) (h : st.rootSB.first_inodeblk < st.nblocks)
    (hfree : (block_inode (st.disk st.rootSB.first_inodeblk) 0).type = IFFREE) :
    inode_alloc st = some 0 := by
  unfold inode_alloc
  obtain ⟨f, hf⟩ : ∃ f, max st.rootSB.inode_blocks 1 = f + 1 := ⟨max st.rootSB.inode_blocks 1 - 1, by omega⟩
  rw [hf]
  unfold inode_alloc_loop
  rw [disk_read_eq _ _ (by simpa using h)]
  simp only [Nat.add_zero]
  have : inode_alloc_scan (st.disk st.rootSB.first_inodeblk) INODES_PER_BLOCK 0 = some 0 := by
    show inode_alloc_scan (st.disk st.rootSB.first_inodeblk) (31 + 1) 0 = some 0
    unfold inode_alloc_scan
    rw [if_pos (by decide), if_pos hfree]
  rw [this]
  rfl

theorem INODES_PER_BLOCK_eq : INODES_PER_BLOCK = 32 := rfl

theorem DIRENTS_PER_BLOCK_eq : DIRENTS_PER_BLOCK = 16 := rfl

/-- The state after `block.inode[..] = ino` was written back for inode `n`. -/
theorem inode_save_eq (st : FS) (n : Int) (ino : fs_inode) (h0 : 0 ≤ n)
    (hn : n < st.rootSB.inode_cnt)
    (hdev : st.rootSB.first_inodeblk + n.toNat / 32 < st.nblocks) :
    inode_save st n ino = some (0, { st with
      disk := Function.update st.disk (st.rootSB.first_inodeblk + n.toNat / 32)
        (block_set_inode (st.disk (st.rootSB.first_inodeblk + n.toNat / 32)) (n.toNat % 32) ino) }) := by
  unfold inode_save
  rw [if_neg (by omega)]
  simp only [INODES_PER_BLOCK_eq]
  rw [disk_read_eq _ _ hdev]
  simp only []
  rw [disk_write_eq _ _ _ hdev]

theorem inode_save_out_of_range (st : FS) (n : Int) (ino : fs_inode)
    (hn : n < 0 ∨ n ≥ st.rootSB.inode_cnt) : inode_save st n ino = some (-1, st) := by
  unfold inode_save
  rw [if_pos hn]

theorem fs_format_eq (st : FS) (mem : Block) (hm : st.rootSB.magic ≠ FS_MAGIC)
    (hn : 1 ≤ st.nblocks)
    (hfi : (format_sblock st.nblocks).first_inodeblk = 1 + (format_sblock st.nblocks).bmap_size)
    (hb : 1 ≤ (format_sblock st.nblocks).bmap_size)
    (hi : 1 ≤ (format_sblock st.nblocks).inode_blocks)
    (hfit : (format_sblock st.nblocks).first_inodeblk + (format_sblock st.nblocks).inode_blocks
      ≤ st.nblocks) :
    fs_format st mem = some (0, formatted st mem) := by
  unfold fs_format
  have hc : ¬ check_rootSB st = 0 := by
    unfold check_rootSB; rw [if_pos hm]; decide
  rw [if_neg hc]
  simp only []
  rw [if_neg (by omega)]
  generalize hsb : format_sblock st.nblocks = sb at hfi hb hi hfit
  rw [disk_write_eq _ _ _ (by show 0 < st.nblocks; omega)]
  simp only []
  rw [disk_write_eq _ _ _ (by show 1 < st.nblocks; omega)]
  simp only [BITMAPSTART]
  rw [write_zero_blocks_eq _ _ _ (by show 1 + 1 + (sb.bmap_size - 1) ≤ st.nblocks; omega)]
  simp only []
  rw [write_zero_blocks_eq _ _ _ (by show sb.first_inodeblk + sb.inode_blocks ≤ st.nblocks; omega)]
  simp only []
  rw [inode_alloc_first_free _ (by show sb.first_inodeblk < st.nblocks; omega)
    (by
      show (block_inode (if sb.first_inodeblk ≤ sb.first_inodeblk ∧
        sb.first_inodeblk < sb.first_inodeblk + sb.inode_blocks then zero_block else _) 0).type = 0
      rw [if_pos (by omega)]; rfl)]
  simp only []
  by_cases hcnt : 0 < sb.inode_cnt
  · rw [inode_save_eq _ 0 rootdir (le_refl _) ?_ ?_]
    rotate_left
    · show (0 : Int) < (sb.inode_cnt : Int); omega
    · show sb.first_inodeblk + (0 : Int).toNat / 32 < st.nblocks; simp; omega
    have e1 : sb.first_inodeblk + (0 : Int).toNat / 32 = sb.first_inodeblk := by simp
    have e2 : (0 : Int).toNat % 32 = 0 := by simp
    simp only [formatted, hsb, Option.some.injEq, Prod.mk.injEq, true_and, FS.mk.injEq, e1, e2]
    funext k
    simp only [SBLOCK]
    by_cases h0 : k = 0
    · subst h0
      rw [Function.update_noteq (by omega), if_neg (by omega), if_neg (by omega), if_pos rfl,
        Function.update_noteq (by omega), Function.update_same]
    · rw [if_neg h0]
      by_cases h1 : k = 1
      · subst h1
        rw [Function.update_noteq (by omega), if_neg (by omega), if_neg (by omega), if_pos rfl,
          Function.update_same]
      · rw [if_neg h1]
        by_cases h2 : k < 1 + sb.bmap_size
        · rw [Function.update_noteq (by omega), if_neg (by omega), if_pos (by omega), if_pos h2]
        · rw [if_neg h2]
          by_cases h3 : k = sb.first_inodeblk
          · subst h3
            rw [Function.update_same, if_pos rfl, if_pos hcnt, if_pos (by omega)]
          · rw [Function.update_noteq h3, if_neg h3]
            by_cases h4 : k < sb.first_inodeblk + sb.inode_blocks
            · rw [if_pos (by omega), if_pos h4]
            · rw [if_neg (by omega), if_neg (by omega), if_neg h4,
                Function.update_noteq h1, Function.update_noteq h0]
  · rw [inode_save_out_of_range _ 0 rootdir ?_]
    rotate_left
    · right; show (0 : Int) ≥ (sb.inode_cnt : Int); omega
    simp only [formatted, hsb, Option.some.injEq, Prod.mk.injEq, true_and, FS.mk.injEq]
    funext k
    simp only [SBLOCK]
    by_cases h0 : k = 0
    · subst h0
      rw [if_neg (by omega), if_neg (by omega), if_pos rfl,
        Function.update_noteq (by omega), Function.update_same]
    · rw [if_neg h0]
      by_cases h1 : k = 1
      · subst h1
        rw [if_neg (by omega), if_neg (by omega), if_pos rfl, Function.update_same]
      · rw [if_neg h1]
        by_cases h2 : k < 1 + sb.bmap_size
        · rw [if_neg (by omega), if_pos (by omega), if_pos h2]
        · rw [if_neg h2]
          by_cases h3 : k = sb.first_inodeblk
          · subst h3
            rw [if_pos (by omega), if_pos rfl, if_neg hcnt]
          · rw [if_neg h3]
            by_cases h4 : k < sb.first_inodeblk + sb.inode_blocks
            · rw [if_pos (by omega), if_pos h4]
            · rw [if_neg (by omega), if_neg (by omega), if_neg h4,
                Function.update_noteq h1, Function.update_noteq h0]

/-- The bitmap that `fs_format` leaves when the reserved blocks fit in the first
bitmap block: bit `i` is set exactly when `i < first_datablk`, for every bit of
the bitmap blocks. -/
theorem formatted_bitmap_bit (st : FS) (mem : Block)
    (hfd : (format_sblock st.nblocks).first_datablk ≤ 8192) (i : Nat)
    (hi : i / 8192 < (format_sblock st.nblocks).bmap_size) :
    bitmap_bit (formatted st mem) i
      = if i < (format_sblock st.nblocks).first_datablk then 1 else 0 := by
  unfold bitmap_bit formatted
  simp only [BLOCKSZ, DISK_BLOCK_SIZE, BITMAPSTART]
  rw [if_neg (by omega)]
  by_cases h : i < 8192
  · have e1 : i / 8192 = 0 := by omega
    have e2 : i % 8192 = i := by omega
    simp only [Nat.reduceMul, e1, e2, Nat.add_zero, if_true]
    exact bitmap_get_set_upto i _
  · simp only [Nat.reduceMul]
    rw [if_neg (by omega), if_pos (by omega), bitmap_get_zero_block, if_neg (by omega)]

/-- C9 (the code at a failing input): on a blank device of 262144 blocks
`fs_format` returns 0 with `inode_cnt = 0` (65536 truncated to 16 bits), so
`inode_save` rejects inode number 0: the root directory is never written,
inode 0 is free on disk and `inode_load(0)` fails. -/
theorem fs_format_root_missing :
    ∃ st1, fs_format (blank_device 262144) zero_block = some (0, st1) ∧
      st1.rootSB.inode_cnt = 0 ∧
      (block_inode (st1.disk st1.rootSB.first_inodeblk) 0).type = IFFREE ∧
      (inode_load st1 0 zero_inode).map Prod.fst = some (-1) := by
  refine ⟨formatted (blank_device 262144) zero_block, ?_, ?_, ?_, ?_⟩
  · exact fs_format_eq _ _ (by decide) (by decide) (by decide) (by decide) (by decide) (by decide)
  · decide
  · decide
  · decide

/-! ### `first_index` -/

theorem first_index_congr (p q : Nat → Bool) : ∀ n i,
    (∀ e, i ≤ e → e < i + n → p e = q e) → first_index p n i = first_index q n i := by
  intro n
  induction n with
  | zero => intro i _; rfl
  | succ n ih =>
    intro i h
    unfold first_index
    rw [h i (le_refl _) (by omega), ih (i + 1) (fun e h1 h2 => h e (by omega) (by omega))]

theorem first_index_some (p : Nat → Bool) : ∀ n i e, first_index p n i = some e →
    i ≤ e ∧ e < i + n ∧ p e = true ∧ ∀ e', i ≤ e' → e' < e → p e' = false := by
  intro n
  induction n with
  | zero => intro i e h; simp [first_index] at h
  | succ n ih =>
    intro i e h
    unfold first_index at h
    by_cases hp : p i = true
    · rw [if_pos hp] at h
      injection h with h; subst h
      exact ⟨le_refl _, by omega, hp, fun e' h1 h2 => by omega⟩
    · rw [if_neg hp] at h
      obtain ⟨h1, h2, h3, h4⟩ := ih (i + 1) e h
      refine ⟨by omega, by omega, h3, fun e' h5 h6 => ?_⟩
      by_cases he : e' = i
      · subst he; simpa using hp
      · exact h4 e' (by omega) h6

theorem first_index_none (p : Nat → Bool) : ∀ n i, first_index p n i = none →
    ∀ e, i ≤ e → e < i + n → p e = false := by
  intro n
  induction n with
  | zero => intro i _ e h1 h2; omega
  | succ n ih =>
    intro i h e h1 h2
    unfold first_index at h
    by_cases hp : p i = true
    · rw [if_pos hp] at h; cases h
    · rw [if_neg hp] at h
      by_cases he : e = i
      · subst he; simpa using hp
      · exact ih (i + 1) h e (by omega) (by omega)

theorem first_index_eq_some (p : Nat → Bool) (e : Nat) (hp : p e = true) : ∀ n i,
    i ≤ e → e < i + n → (∀ e', i ≤ e' → e' < e → p e' = false) → first_index p n i = some e := by
  intro n
  induction n with
  | zero => intro i h1 h2; omega
  | succ n ih =>
    intro i h1 h2 h3
    unfold first_index
    by_cases he : i = e
    · subst he; rw [if_pos hp]
    · have : p i = false := h3 i (le_refl _) (by omega)
      rw [if_neg (by simp [this])]
      exact ih (i + 1) (by omega) (by omega) (fun e' h4 h5 => h3 e' (by omega) h5)

theorem first_index_eq_none (p : Nat → Bool) : ∀ n i,
    (∀ e, i ≤ e → e < i + n → p e = false) → first_index p n i = none := by
  intro n
  induction n with
  | zero => intro i _; rfl
  | succ n ih =>
    intro i h
    unfold first_index
    have : p i = false := h i (le_refl _) (by omega)
    rw [if_neg (by simp [this])]
    exact ih (i + 1) (fun e h1 h2 => h e (by omega) (by omega))

theorem first_index_succ (p : Nat → Bool) (n i : Nat) :
    first_index p (n + 1) i = if p i then some i else first_index p n (i + 1) := rfl

theorem first_index_add (p : Nat → Bool) : ∀ n m i,
    first_index p (n + m) i =
      match first_index p n i with
      | some e => some e
      | none => first_index p m (i + n) := by
  intro n
  induction n with
  | zero => intro m i; simp [first_index]
  | succ n ih =>
    intro m i
    rw [show n + 1 + m = (n + m) + 1 by omega, first_index_succ, first_index_succ]
    by_cases hp : p i = true
    · simp [hp]
    · have hp' : p i = false := by simpa using hp
      rw [hp', ih m (i + 1), show i + 1 + n = i + (n + 1) by omega]
      simp

/-! ### `offset2block` and the lookup loop -/

theorem offset2block_chunk (st : FS) (ino : fs_inode) (off : Nat)
    (hcap : off / 1024 < 523) (hind : 11 ≤ off / 1024 → ino.indir_block < st.nblocks) :
    offset2block st ino off = some ((chunk_block st ino (off / 1024) : Nat) : Int) := by
  unfold offset2block chunk_block
  simp only [BLOCKSZ, DISK_BLOCK_SIZE, DIRBLOCK_PER_INODE]
  by_cases h : off / 1024 < 11
  · rw [if_pos h, if_pos h]
  · rw [if_neg h, if_neg h, if_pos (by omega), disk_read_eq _ _ (hind (by omega))]

theorem dir_findname_scan_eq (block : Block) (name : CStr) (remaining : Nat) :
    ∀ fuel d, d + fuel = 16 →
      dir_findname_scan block name remaining fuel d =
        (first_index (fun d => decide (dirent_ino block d ≠ FREE ∧
          strncmp (dirent_name block d) (cstr_at name) MAXFILENAME 0 = 0))
          (min 16 remaining - d) d).map (dirent_ino block) := by
  intro fuel
  induction fuel with
  | zero =>
    intro d hd
    have : min 16 remaining - d = 0 := by omega
    rw [this]; rfl
  | succ fuel ih =>
    intro d hd
    unfold dir_findname_scan
    simp only [DIRENTS_PER_BLOCK_eq]
    by_cases hg : d < 16 ∧ d < remaining
    · rw [if_pos hg]
      obtain ⟨k, hk⟩ : ∃ k, min 16 remaining - d = k + 1 := ⟨min 16 remaining - d - 1, by omega⟩
      rw [hk]
      unfold first_index
      by_cases hm : dirent_ino block d ≠ FREE ∧
          strncmp (dirent_name block d) (cstr_at name) MAXFILENAME 0 = 0
      · rw [if_pos hm]; simp [hm]
      · rw [if_neg hm]
        simp only [hm, decide_False, Bool.false_eq_true, if_false]
        rw [ih (d + 1) (by omega), show min 16 remaining - (d + 1) = k by omega]
    · rw [if_neg hg]
      have : min 16 remaining - d = 0 := by omega
      rw [this]; rfl

theorem first_index_shift (p : Nat → Bool) (s : Nat) : ∀ n i,
    first_index p n (s + i) = (first_index (fun d => p (s + d)) n i).map (fun d => s + d) := by
  intro n
  induction n with
  | zero => intro i; rfl
  | succ n ih =>
    intro i
    rw [first_index_succ, first_index_succ]
    by_cases hp : p (s + i) = true
    · simp [hp]
    · have hp' : p (s + i) = false := by simpa using hp
      simp only [hp', Bool.false_eq_true, if_false]
      exact ih (i + 1)

theorem entry_data_chunk (st : FS) (ino : fs_inode) (c d : Nat) (hd : d < 16) :
    entry_data st ino (16 * c + d) = st.disk (chunk_block st ino c) := by
  unfold entry_data
  rw [DIRENTS_PER_BLOCK_eq, show (16 * c + d) / 16 = c by omega]

theorem entry_ino_chunk (st : FS) (ino : fs_inode) (c d : Nat) (hd : d < 16) :
    entry_ino st ino (16 * c + d) = dirent_ino (st.disk (chunk_block st ino c)) d := by
  unfold entry_ino
  rw [entry_data_chunk st ino c d hd, DIRENTS_PER_BLOCK_eq, show (16 * c + d) % 16 = d by omega]

theorem entry_matches_chunk (st : FS) (ino : fs_inode) (name : CStr) (c d : Nat) (hd : d < 16) :
    entry_matches st ino name (16 * c + d) =
      decide (dirent_ino (st.disk (chunk_block st ino c)) d ≠ FREE ∧
        strncmp (dirent_name (st.disk (chunk_block st ino c)) d) (cstr_at name) MAXFILENAME 0 = 0) := by
  unfold entry_matches
  rw [entry_ino_chunk st ino c d hd, entry_data_chunk st ino c d hd, DIRENTS_PER_BLOCK_eq,
    show (16 * c + d) % 16 = d by omega]

/-- The result of the lookup loop from chunk `c` on. -/
theorem dir_findname_loop_eq (st : FS) (ino : fs_inode) (name : CStr) (hr : DirReadable st ino) :
    ∀ fuel c, dir_entries ino - 16 * c ≤ fuel →
      dir_findname_loop st ino name fuel (dir_entries ino - 16 * c) (1024 * c) =
        some (match first_index (entry_matches st ino name) (dir_entries ino - 16 * c) (16 * c) with
          | some e => ((entry_ino st ino e : Nat) : Int)
          | none => -1) := by
  have hcap := hr.cap
  have hind := hr.indir
  have hblk := hr.blocks
  have hdev := hr.dev
  simp only [DIRBLOCK_PER_INODE, BLOCKSZ, DISK_BLOCK_SIZE, DIRENTS_PER_BLOCK_eq] at hcap hind hblk
  intro fuel
  induction fuel with
  | zero =>
    intro c h
    have : dir_entries ino - 16 * c = 0 := by omega
    rw [this]; rfl
  | succ fuel ih =>
    intro c h
    unfold dir_findname_loop
    by_cases hrem : dir_entries ino - 16 * c > 0
    · rw [if_pos hrem]
      have h1024 : 1024 * c / 1024 = c := by omega
      rw [offset2block_chunk st ino (1024 * c) (by omega) (fun h11 => hind (by omega))]
      simp only [h1024]
      have hb := hblk c (by omega)
      rw [to_unsigned_natCast _ (by omega), disk_read_eq _ _ hb]
      simp only []
      rw [dir_findname_scan_eq _ _ _ DIRENTS_PER_BLOCK 0 (by simp [DIRENTS_PER_BLOCK_eq])]
      rw [show dir_entries ino - 16 * c
          = (min 16 (dir_entries ino - 16 * c) - 0) + (dir_entries ino - 16 * (c + 1)) by omega,
        first_index_add]
      rw [show (min 16 (dir_entries ino - 16 * c) - 0) + (dir_entries ino - 16 * (c + 1))
          = dir_entries ino - 16 * c by omega]
      have hshift := first_index_shift (entry_matches st ino name) (16 * c)
        (min 16 (dir_entries ino - 16 * c) - 0) 0
      rw [Nat.add_zero] at hshift
      rw [hshift]
      have hcongr := first_index_congr (fun d => entry_matches st ino name (16 * c + d))
        (fun d => decide (dirent_ino (st.disk (chunk_block st ino c)) d ≠ FREE ∧
          strncmp (dirent_name (st.disk (chunk_block st ino c)) d) (cstr_at name) MAXFILENAME 0 = 0))
        (min 16 (dir_entries ino - 16 * c) - 0) 0
        (fun e _ he => entry_matches_chunk st ino name c e (by omega))
      rw [hcongr]
      cases hfi : first_index (fun d => decide (dirent_ino (st.disk (chunk_block st ino c)) d ≠ FREE ∧
          strncmp (dirent_name (st.disk (chunk_block st ino c)) d) (cstr_at name) MAXFILENAME 0 = 0))
          (min 16 (dir_entries ino - 16 * c) - 0) 0 with
      | some d =>
        have hd := (first_index_some _ _ _ _ hfi).2.1
        simp only [Option.map_some']
        rw [entry_ino_chunk st ino c d (by omega)]
      | none =>
        simp only [Option.map_none']
        have := ih (c + 1) (by omega)
        rw [show dir_entries ino - 16 * c - DIRENTS_PER_BLOCK = dir_entries ino - 16 * (c + 1) by
            rw [DIRENTS_PER_BLOCK_eq]; omega,
          show 1024 * c + DIRENTS_PER_BLOCK * DIRENTSZ = 1024 * (c + 1) by
            rw [DIRENTS_PER_BLOCK_eq]; simp only [DIRENTSZ]; omega,
          this]
        rcases (by omega : 16 * c + (min 16 (dir_entries ino - 16 * c) - 0) = 16 * (c + 1) ∨
            dir_entries ino - 16 * (c + 1) = 0) with h2 | h2
        · rw [h2]
        · rw [h2]; rfl
    · rw [if_neg hrem]
      have : dir_entries ino - 16 * c = 0 := by omega
      rw [this]; rfl

theorem dir_findname_eq (st : FS) (ino : fs_inode) (name : CStr) (hd : ino.type = IFDIR)
    (hr : DirReadable st ino) : dir_findname st ino name = some (dir_lookup st ino name) := by
  unfold dir_findname dir_lookup
  rw [if_neg (by simp [hd])]
  have := dir_findname_loop_eq st ino name hr (dir_entries ino) 0 (by omega)
  simp only [Nat.mul_zero, Nat.sub_zero] at this
  exact this

/-! ### Bytes of records -/

theorem get16_lt (b : Block) (o : Nat) : get16 b o < 65536 := by
  unfold get16
  have := byte_lt b o
  have := byte_lt b (o + 1)
  omega

theorem get32_lt (b : Block) (o : Nat) : get32 b o < 4294967296 := by
  unfold get32
  have := byte_lt b o
  have := byte_lt b (o + 1)
  have := byte_lt b (o + 2)
  have := byte_lt b (o + 3)
  omega

theorem le_byte_zero (v : Nat) : le_byte v 0 = v % 256 := by simp [le_byte]

theorem le_byte_one (v : Nat) : le_byte v 1 = v / 256 % 256 := by simp [le_byte]

theorem le_byte_two (v : Nat) : le_byte v 2 = v / 65536 % 256 := by simp [le_byte]

theorem le_byte_three (v : Nat) : le_byte v 3 = v / 16777216 % 256 := by simp [le_byte]

theorem le_byte_lt (v i : Nat) : le_byte v i < 256 := Nat.mod_lt _ (by decide)

theorem get16_of_bytes (b : Block) (o v : Nat) (h0 : byte b o = le_byte v 0)
    (h1 : byte b (o + 1) = le_byte v 1) : get16 b o = v % 65536 := by
  unfold get16
  rw [h0, h1, le_byte_zero, le_byte_one]
  omega

theorem get32_of_bytes (b : Block) (o v : Nat) (h0 : byte b o = le_byte v 0)
    (h1 : byte b (o + 1) = le_byte v 1) (h2 : byte b (o + 2) = le_byte v 2)
    (h3 : byte b (o + 3) = le_byte v 3) : get32 b o = v % 4294967296 := by
  unfold get32
  rw [h0, h1, h2, h3, le_byte_zero, le_byte_one, le_byte_two, le_byte_three]
  omega

theorem get16_congr (b b' : Block) (o : Nat) (h0 : byte b o = byte b' o)
    (h1 : byte b (o + 1) = byte b' (o + 1)) : get16 b o = get16 b' o := by
  unfold get16; rw [h0, h1]

/-! ### Directory entries in a block -/

theorem byte_set_dirent_in (b : Block) (d c : Nat) (s : CStr) (hs : IsCStr s) (k : Nat)
    (hk : k < 62) :
    byte (block_set_dirent b d c s) (64 * d + 2 + k) = name_field s k := by
  unfold byte block_set_dirent
  simp only [DIRENTSZ]
  rw [if_neg (by omega), if_neg (by omega), if_pos (by omega),
    show 64 * d + 2 + k - (64 * d + 2) = k by omega]
  apply Nat.mod_eq_of_lt
  unfold name_field
  split
  · decide
  · split
    · rename_i h
      unfold cstr_at
      rw [List.getD_eq_getElem _ _ h]
      exact (hs _ (List.getElem_mem _)).2
    · decide

theorem byte_set_dirent_out (b : Block) (d c : Nat) (s : CStr) (o : Nat)
    (ho : o < 64 * d ∨ 64 * d + 64 ≤ o) :
    byte (block_set_dirent b d c s) o = byte b o := by
  unfold byte block_set_dirent
  simp only [DIRENTSZ]
  rw [if_neg (by omega), if_neg (by omega), if_neg (by omega)]

theorem dirent_ino_set_same (b : Block) (d c : Nat) (s : CStr) :
    dirent_ino (block_set_dirent b d c s) d = c % 65536 := by
  unfold dirent_ino
  apply get16_of_bytes
  · unfold byte block_set_dirent
    rw [if_pos rfl]; exact Nat.mod_eq_of_lt (le_byte_lt _ _)
  · unfold byte block_set_dirent
    rw [if_neg (by omega), if_pos rfl]; exact Nat.mod_eq_of_lt (le_byte_lt _ _)

theorem dirent_ino_set_other (b : Block) (d d' c : Nat) (s : CStr) (h : d' ≠ d) :
    dirent_ino (block_set_dirent b d c s) d' = dirent_ino b d' := by
  unfold dirent_ino
  simp only [DIRENTSZ]
  apply get16_congr <;> apply byte_set_dirent_out <;> omega

theorem dirent_name_set_same (b : Block) (d c : Nat) (s : CStr) (hs : IsCStr s) (k : Nat)
    (hk : k < 62) : dirent_name (block_set_dirent b d c s) d k = name_field s k := by
  unfold dirent_name
  exact byte_set_dirent_in b d c s hs k hk

theorem dirent_name_set_other (b : Block) (d d' c : Nat) (s : CStr) (h : d' ≠ d) (k : Nat)
    (hk : k < 62) : dirent_name (block_set_dirent b d c s) d' k = dirent_name b d' k := by
  unfold dirent_name
  simp only [DIRENTSZ]
  apply byte_set_dirent_out; omega

theorem dirent_ino_zero_block (d : Nat) : dirent_ino zero_block d = 0 := rfl

theorem block_u16_zero_block (k : Nat) : block_u16 zero_block k = 0 := rfl

theorem byte_set16_same0 (b : Block) (o v : Nat) : byte (set16 b o v) o = le_byte v 0 := by
  unfold byte set16; rw [if_pos rfl]; exact Nat.mod_eq_of_lt (le_byte_lt _ _)

theorem byte_set16_same1 (b : Block) (o v : Nat) : byte (set16 b o v) (o + 1) = le_byte v 1 := by
  unfold byte set16; rw [if_neg (by omega), if_pos rfl]; exact Nat.mod_eq_of_lt (le_byte_lt _ _)

theorem byte_set16_other (b : Block) (o v o' : Nat) (h0 : o' ≠ o) (h1 : o' ≠ o + 1) :
    byte (set16 b o v) o' = byte b o' := by
  unfold byte set16; rw [if_neg h0, if_neg h1]

theorem block_u16_set16_same (b : Block) (i v : Nat) :
    block_u16 (set16 b (2 * i) v) i = v % 65536 := by
  unfold block_u16
  exact get16_of_bytes _ _ _ (byte_set16_same0 _ _ _) (byte_set16_same1 _ _ _)

theorem block_u16_set16_other (b : Block) (i j v : Nat) (h : j ≠ i) :
    block_u16 (set16 b (2 * i) v) j = block_u16 b j := by
  unfold block_u16
  apply get16_congr <;> apply byte_set16_other <;> omega

/-! ### Inode records in a block -/

theorem byte_set_inode_in (b : Block) (k : Nat) (ino : fs_inode) (r : Nat) (hr : r < 32) :
    byte (block_set_inode b k ino) (32 * k + r) = inode_byte ino r := by
  unfold byte block_set_inode
  simp only [INODESZ]
  rw [if_pos (by omega), show 32 * k + r - 32 * k = r by omega]
  apply Nat.mod_eq_of_lt
  unfold inode_byte
  repeat' split
  all_goals exact le_byte_lt _ _

theorem byte_set_inode_out (b : Block) (k : Nat) (ino : fs_inode) (o : Nat)
    (ho : o < 32 * k ∨ 32 * k + 32 ≤ o) :
    byte (block_set_inode b k ino) o = byte b o := by
  unfold byte block_set_inode
  simp only [INODESZ]
  rw [if_neg (by omega)]

theorem block_inode_in_range (b : Block) (k : Nat) : InodeInRange (block_inode b k) := by
  refine ⟨get16_lt _ _, get16_lt _ _, get32_lt _ _, by simp [block_inode], ?_, get16_lt _ _⟩
  intro j
  simp only [block_inode]
  by_cases hj : j < 11
  · rw [List.getD_eq_getElem _ _ (by simpa using hj)]
    simp only [List.getElem_map, List.getElem_range]
    exact get16_lt _ _
  · rw [List.getD_eq_default _ _ (by simpa using (by omega : 11 ≤ j))]
    decide

theorem block_inode_set_same (b : Block) (k : Nat) (ino : fs_inode) (h : InodeInRange ino) :
    block_inode (block_set_inode b k ino) k = ino := by
  have e0 : get16 (block_set_inode b k ino) (32 * k) = ino.type := by
    rw [get16_of_bytes _ _ ino.type, Nat.mod_eq_of_lt h.type_lt]
    · have := byte_set_inode_in b k ino 0 (by omega); simpa [inode_byte] using this
    · have := byte_set_inode_in b k ino 1 (by omega); simpa [inode_byte] using this
  have e1 : get16 (block_set_inode b k ino) (32 * k + 2) = ino.nlinks := by
    rw [get16_of_bytes _ _ ino.nlinks, Nat.mod_eq_of_lt h.nlinks_lt]
    · have := byte_set_inode_in b k ino 2 (by omega); simpa [inode_byte] using this
    · have := byte_set_inode_in b k ino 3 (by omega); simpa [inode_byte] using this
  have e2 : get32 (block_set_inode b k ino) (32 * k + 4) = ino.size := by
    rw [get32_of_bytes _ _ ino.size, Nat.mod_eq_of_lt h.size_lt]
    · have := byte_set_inode_in b k ino 4 (by omega); simpa [inode_byte] using this
    · have := byte_set_inode_in b k ino 5 (by omega); simpa [inode_byte] using this
    · have := byte_set_inode_in b k ino 6 (by omega); simpa [inode_byte] using this
    · have := byte_set_inode_in b k ino 7 (by omega); simpa [inode_byte] using this
  have e3 : get16 (block_set_inode b k ino) (32 * k + 30) = ino.indir_block := by
    rw [get16_of_bytes _ _ ino.indir_block, Nat.mod_eq_of_lt h.indir_lt]
    · have := byte_set_inode_in b k ino 30 (by omega); simpa [inode_byte] using this
    · have := byte_set_inode_in b k ino 31 (by omega); simpa [inode_byte] using this
  have e4 : ∀ j, j < 11 → get16 (block_set_inode b k ino) (32 * k + 8 + 2 * j)
      = ino.dir_block.getD j 0 := by
    intro j hj
    rw [get16_of_bytes _ _ (ino.dir_block.getD j 0), Nat.mod_eq_of_lt (h.dir_lt j)]
    · have := byte_set_inode_in b k ino (8 + 2 * j) (by omega)
      rw [show 32 * k + (8 + 2 * j) = 32 * k + 8 + 2 * j by omega] at this
      rw [this]
      unfold inode_byte
      rw [if_neg (by omega), if_neg (by omega), if_neg (by omega), if_pos (by omega),
        show (8 + 2 * j - 8) / 2 = j by omega, show (8 + 2 * j - 8) % 2 = 0 by omega]
    · have := byte_set_inode_in b k ino (8 + 2 * j + 1) (by omega)
      rw [show 32 * k + (8 + 2 * j + 1) = 32 * k + 8 + 2 * j + 1 by omega] at this
      rw [this]
      unfold inode_byte
      rw [if_neg (by omega), if_neg (by omega), if_neg (by omega), if_pos (by omega),
        show (8 + 2 * j + 1 - 8) / 2 = j by omega, show (8 + 2 * j + 1 - 8) % 2 = 1 by omega]
  have hlen := h.dir_len
  cases ino with
  | mk type nlinks size dir_block indir_block =>
    simp only [block_inode, INODESZ, DIRBLOCK_PER_INODE] at *
    simp only [e0, e1, e2, e3, fs_inode.mk.injEq, true_and, and_true]
    apply List.ext_getElem
    · simp [hlen]
    · intro j h1 h2
      simp only [List.getElem_map, List.getElem_range]
      have hj : j < 11 := by simpa using h1
      rw [e4 j hj, List.getD_eq_getElem _ _ h2]

theorem get32_congr (b b' : Block) (o : Nat) (h0 : byte b o = byte b' o)
    (h1 : byte b (o + 1) = byte b' (o + 1)) (h2 : byte b (o + 2) = byte b' (o + 2))
    (h3 : byte b (o + 3) = byte b' (o + 3)) : get32 b o = get32 b' o := by
  unfold get32; rw [h0, h1, h2, h3]

theorem block_inode_congr (b b' : Block) (k : Nat)
    (hb : ∀ o, 32 * k ≤ o → o < 32 * k + 32 → byte b o = byte b' o) :
    block_inode b k = block_inode b' k := by
  simp only [block_inode, INODESZ, fs_inode.mk.injEq]
  refine ⟨?_, ?_, ?_, ?_, ?_⟩
  · apply get16_congr <;> apply hb <;> omega
  · apply get16_congr <;> apply hb <;> omega
  · apply get32_congr <;> apply hb <;> omega
  · apply List.map_congr_left
    intro j hj
    have hj' : j < 11 := by simpa using hj
    apply get16_congr <;> apply hb <;> omega
  · apply get16_congr <;> apply hb <;> omega

theorem block_inode_set_other (b : Block) (k k' : Nat) (ino : fs_inode) (h : k' ≠ k) :
    block_inode (block_set_inode b k ino) k' = block_inode b k' :=
  block_inode_congr _ _ _ (fun o h1 h2 => byte_set_inode_out b k ino o (by omega))

/-! ### `strncmp` -/

theorem strncmp_succ (f g : Nat → Nat) (n i : Nat) :
    strncmp f g (n + 1) i =
      if f i ≠ g i then (f i : Int) - (g i : Int)
      else if f i = 0 then 0 else strncmp f g n (i + 1) := rfl

theorem strncmp_congr (f f' g : Nat → Nat) : ∀ n i,
    (∀ k, i ≤ k → k < i + n → f k = f' k) → strncmp f g n i = strncmp f' g n i := by
  intro n
  induction n with
  | zero => intro i _; rfl
  | succ n ih =>
    intro i h
    rw [strncmp_succ, strncmp_succ, h i (le_refl _) (by omega),
      ih (i + 1) (fun k h1 h2 => h k (by omega) (by omega))]

theorem strncmp_eq_zero_iff (f g : Nat → Nat) : ∀ n i,
    strncmp f g n i = 0 ↔
      ∀ k, i ≤ k → k < i + n → (∀ j, i ≤ j → j < k → f j ≠ 0) → f k = g k := by
  intro n
  induction n with
  | zero =>
    intro i
    constructor
    · intro _ k h1 h2; omega
    · intro _; rfl
  | succ n ih =>
    intro i
    rw [strncmp_succ]
    by_cases hne : f i ≠ g i
    · rw [if_pos hne]
      constructor
      · intro h
        exfalso
        apply hne
        have : (f i : Int) = (g i : Int) := by omega
        exact_mod_cast this
      · intro h
        exact absurd (h i (le_refl _) (by omega) (fun j h1 h2 => by omega)) hne
    · rw [if_neg hne]
      have heq : f i = g i := by simpa using hne
      by_cases hz : f i = 0
      · rw [if_pos hz]
        constructor
        · intro _ k h1 h2 h3
          by_cases hk : k = i
          · subst hk; exact heq
          · exact absurd hz (h3 i (le_refl _) (by omega))
        · intro _; rfl
      · rw [if_neg hz, ih (i + 1)]
        constructor
        · intro h k h1 h2 h3
          by_cases hk : k = i
          · subst hk; exact heq
          · exact h k (by omega) (by omega) (fun j h4 h5 => h3 j (by omega) h5)
        · intro h k h1 h2 h3
          refine h k (by omega) (by omega) (fun j h4 h5 => ?_)
          by_cases hj : j = i
          · subst hj; exact hz
          · exact h3 j (by omega) h5

theorem cstr_at_lt (s : CStr) (hs : IsCStr s) (k : Nat) (hk : k < s.length) :
    cstr_at s k ≠ 0 := by
  unfold cstr_at
  rw [List.getD_eq_getElem _ _ hk]
  have := (hs _ (List.getElem_mem hk)).1
  omega

theorem cstr_at_ge (s : CStr) (k : Nat) (hk : s.length ≤ k) : cstr_at s k = 0 := by
  unfold cstr_at
  exact List.getD_eq_default _ _ hk

theorem cstr_ext (s t : CStr) (hs : IsCStr s) (ht : IsCStr t)
    (h : ∀ k, k ≤ s.length → cstr_at s k = cstr_at t k) : t = s := by
  have h1 : t.length ≤ s.length := by
    by_contra hlt
    have := h s.length (le_refl _)
    rw [cstr_at_ge s _ (le_refl _)] at this
    exact cstr_at_lt t ht _ (by omega) this.symm
  have h2 : s.length ≤ t.length := by
    by_contra hlt
    have := h t.length (by omega)
    rw [cstr_at_ge t _ (le_refl _)] at this
    exact cstr_at_lt s hs _ (by omega) this
  apply List.ext_getElem (by omega)
  intro k hk1 hk2
  have := h k (by omega)
  unfold cstr_at at this
  rw [List.getD_eq_getElem _ _ hk1, List.getD_eq_getElem _ _ hk2] at this
  exact this.symm

theorem name_field_eq (s : CStr) (hlen : s.length ≤ 61) (k : Nat) :
    name_field s k = cstr_at s k := by
  unfold name_field
  simp only [MAXFILENAME]
  split
  · rename_i h; rw [cstr_at_ge s k (by omega)]
  · split
    · rfl
    · rw [cstr_at_ge s k (by omega)]

/-- A stored name of at most 61 bytes compares equal to exactly one string. -/
theorem strncmp_name_field (f : Nat → Nat) (s t : CStr) (hs : IsCStr s) (ht : IsCStr t)
    (hlen : s.length ≤ 61) (hf : ∀ k, k < MAXFILENAME → f k = name_field s k) :
    strncmp f (cstr_at t) MAXFILENAME 0 = 0 ↔ t = s := by
  rw [strncmp_congr f (cstr_at s) (cstr_at t) MAXFILENAME 0
    (fun k _ hk => by rw [hf k (by omega), name_field_eq s hlen]), strncmp_eq_zero_iff]
  constructor
  · intro h
    apply cstr_ext s t hs ht
    intro k hk
    exact h k (by omega) (by simp only [MAXFILENAME]; omega)
      (fun j _ hj => cstr_at_lt s hs j (by omega))
  · intro h _ _ _ _
    rw [h]

/-! ### Lookups after an entry was put -/

theorem entry_matches_put_new (st : FS) (ino : fs_inode) (st1 : FS) (ino1 : fs_inode)
    (e0 c : Nat) (s : CStr) (hp : EntryPut st ino st1 ino1 e0 c s) (hc : c ≠ 0)
    (hs : IsCStr s) (hlen : s.length ≤ 61) (t : CStr) (ht : IsCStr t) :
    entry_matches st1 ino1 t e0 = decide (t = s) := by
  unfold entry_matches
  rw [hp.ino_new, decide_eq_decide, strncmp_name_field _ s t hs ht hlen hp.name_new]
  simp [FREE, hc]

theorem entry_matches_put_old (st : FS) (ino : fs_inode) (st1 : FS) (ino1 : fs_inode)
    (e0 c : Nat) (s : CStr) (hp : EntryPut st ino st1 ino1 e0 c s) (t : CStr) (e : Nat)
    (he : e < dir_entries ino) (hne : e ≠ e0) :
    entry_matches st1 ino1 t e = entry_matches st ino t e := by
  unfold entry_matches
  rw [hp.ino_old e he hne,
    strncmp_congr _ _ (cstr_at t) MAXFILENAME 0 (fun k _ hk => hp.name_old e he hne k (by omega))]

theorem entry_matches_free (st : FS) (ino : fs_inode) (t : CStr) (e : Nat)
    (h : entry_ino st ino e = FREE) : entry_matches st ino t e = false := by
  unfold entry_matches
  simp [h]

theorem dir_lookup_eq_neg_one (st : FS) (ino : fs_inode) (t : CStr)
    (h : dir_lookup st ino t = -1) :
    first_index (entry_matches st ino t) (dir_entries ino) 0 = none := by
  unfold dir_lookup at h
  cases hfi : first_index (entry_matches st ino t) (dir_entries ino) 0 with
  | none => rfl
  | some e => rw [hfi] at h; simp only at h; omega

/-- After an entry `(c, s)` was put into a directory that had no entry named
`s`, the lookup of `s` gives `c`. -/
theorem dir_lookup_put_same (st : FS) (ino : fs_inode) (st1 : FS) (ino1 : fs_inode)
    (e0 c : Nat) (s : CStr) (hp : EntryPut st ino st1 ino1 e0 c s) (hc : c ≠ 0)
    (hs : IsCStr s) (hlen : s.length ≤ 61) (habs : dir_lookup st ino s = -1) :
    dir_lookup st1 ino1 s = (c : Int) := by
  have hnone := first_index_none _ _ _ (dir_lookup_eq_neg_one st ino s habs)
  have hle := hp.le
  have hfi : first_index (entry_matches st1 ino1 s) (dir_entries ino1) 0 = some e0 := by
    apply first_index_eq_some
    · rw [entry_matches_put_new st ino st1 ino1 e0 c s hp hc hs hlen s hs]; simp
    · omega
    · rw [hp.count]; omega
    · intro e _ he
      rw [entry_matches_put_old st ino st1 ino1 e0 c s hp s e (by omega) (by omega)]
      exact hnone e (by omega) (by omega)
  unfold dir_lookup
  rw [hfi]
  simp only [hp.ino_new]

/-- After an entry `(c, s)` was put into a directory, the lookup of every
other name is unchanged. -/
theorem dir_lookup_put_other (st : FS) (ino : fs_inode) (st1 : FS) (ino1 : fs_inode)
    (e0 c : Nat) (s : CStr) (hp : EntryPut st ino st1 ino1 e0 c s) (hc : c ≠ 0)
    (hs : IsCStr s) (hlen : s.length ≤ 61) (t : CStr) (ht : IsCStr t) (hne : t ≠ s) :
    dir_lookup st1 ino1 t = dir_lookup st ino t := by
  have hle := hp.le
  have hnew : entry_matches st1 ino1 t e0 = false := by
    rw [entry_matches_put_new st ino st1 ino1 e0 c s hp hc hs hlen t ht]; simp [hne]
  have hall : ∀ e, e < dir_entries ino → entry_matches st1 ino1 t e = entry_matches st ino t e := by
    intro e he
    by_cases h0 : e = e0
    · subst h0
      rw [hnew, entry_matches_free st ino t e (hp.was_free he)]
    · exact entry_matches_put_old st ino st1 ino1 e0 c s hp t e he h0
  have hfi : first_index (entry_matches st1 ino1 t) (dir_entries ino1) 0
      = first_index (entry_matches st ino t) (dir_entries ino) 0 := by
    rcases Nat.lt_or_ge e0 (dir_entries ino) with hlt | hge
    · rw [hp.count, show max (dir_entries ino) (e0 + 1) = dir_entries ino by omega]
      exact first_index_congr _ _ _ _ (fun e _ he => hall e (by omega))
    · have he0 : e0 = dir_entries ino := by omega
      rw [hp.count, show max (dir_entries ino) (e0 + 1) = dir_entries ino + 1 by omega,
        first_index_add, first_index_congr _ _ _ _ (fun e _ he => hall e (by omega))]
      cases first_index (entry_matches st ino t) (dir_entries ino) 0 with
      | some e => rfl
      | none =>
        simp only [Nat.zero_add]
        rw [first_index_succ, ← he0, hnew]
        rfl
  unfold dir_lookup
  rw [hfi]
  cases hf : first_index (entry_matches st ino t) (dir_entries ino) 0 with
  | none => rfl
  | some e =>
    have h1 := first_index_some _ _ _ _ hf
    have hlt : e < dir_entries ino := by omega
    have hne0 : e ≠ e0 := by
      intro h0
      have := h1.2.2.1
      rw [h0, entry_matches_free st ino t e0 (hp.was_free (by omega))] at this
      cases this
    simp only [hp.ino_old e hlt hne0]

theorem DirWF.readable {st : FS} {ino : fs_inode} (hg : VolumeGeom st) (h : DirWF st ino) :
    DirReadable st ino := by
  refine ⟨hg.dev, h.cap, fun hi => ?_, fun c hc => ?_⟩
  · have := (h.indir_data hi).2
    have := hg.cnt_dev
    omega
  · have := (h.chunk_data c hc).2
    have := hg.cnt_dev
    omega

theorem VolumeGeom.one_le_data {st : FS} (hg : VolumeGeom st) : 1 ≤ st.rootSB.first_datablk := by
  have := hg.inode_start
  have := hg.data_start
  simp only [BITMAPSTART] at *
  omega

/-- The search for a free entry, as a search over the entry array. -/
theorem add_entry_reuse_eq (st : FS) (ino : fs_inode) (name : CStr) (child : Int)
    (hr : DirReadable st ino)
    (hnz : ∀ c, c * 16 < dir_entries ino → chunk_block st ino c ≠ 0) :
    ∀ fuel e blk (last : Int), dir_entries ino - e ≤ fuel →
      (last = -1 ∨ (0 ≤ last ∧ blk = st.disk last.toNat)) →
      add_entry_reuse st ino name child (dir_entries ino) fuel e blk last =
        some (match first_index (fun e => decide (entry_ino st ino e = FREE))
            (dir_entries ino - e) e with
          | some e0 => some (put_dirent st (chunk_block st ino (e0 / 16)) e0 (to_unsigned child) name)
          | none => none) := by
  have hcap := hr.cap
  have hind := hr.indir
  have hblk := hr.blocks
  have hdev := hr.dev
  simp only [DIRBLOCK_PER_INODE, BLOCKSZ, DISK_BLOCK_SIZE, DIRENTS_PER_BLOCK_eq] at hcap hind hblk
  intro fuel
  induction fuel with
  | zero =>
    intro e blk last h _
    have : dir_entries ino - e = 0 := by omega
    rw [this]; rfl
  | succ fuel ih =>
    intro e blk last h hinv
    unfold add_entry_reuse
    by_cases he : e < dir_entries ino
    · rw [if_pos he]
      have h16 : e * DIRENTSZ / 1024 = e / 16 := by simp only [DIRENTSZ]; omega
      rw [offset2block_chunk st ino (e * DIRENTSZ) (by rw [h16]; omega)
        (fun h11 => hind (by rw [h16] at h11; omega)), h16]
      simp only []
      have hc16 : e / 16 * 16 < dir_entries ino := by omega
      have hb := hblk (e / 16) hc16
      have hne := hnz (e / 16) hc16
      rw [if_neg (by omega)]
      have hread : (if ((chunk_block st ino (e / 16) : Nat) : Int) ≠ last
          then disk_read st (to_unsigned ((chunk_block st ino (e / 16) : Nat) : Int))
          else some blk) = some (st.disk (chunk_block st ino (e / 16))) := by
        split
        · rw [to_unsigned_natCast _ (by omega), disk_read_eq _ _ hb]
        · rename_i heq
          have heq' : ((chunk_block st ino (e / 16) : Nat) : Int) = last := by
            by_contra hx; exact heq hx
          rcases hinv with h1 | ⟨h1, h2⟩
          · omega
          · have : chunk_block st ino (e / 16) = last.toNat := by omega
            rw [h2, this]
      rw [hread]
      simp only []
      obtain ⟨k, hk⟩ : ∃ k, dir_entries ino - e = k + 1 := ⟨dir_entries ino - e - 1, by omega⟩
      rw [hk, first_index_succ]
      have hino : dirent_ino (st.disk (chunk_block st ino (e / 16))) (e % DIRENTS_PER_BLOCK)
          = entry_ino st ino e := by
        unfold entry_ino entry_data; rw [DIRENTS_PER_BLOCK_eq]
      rw [hino]
      by_cases hfree : entry_ino st ino e = FREE
      · rw [if_pos hfree, to_unsigned_natCast _ (by omega), disk_write_eq _ _ _ hb]
        simp only [hfree, decide_True, if_true]
        rfl
      · rw [if_neg hfree]
        simp only [hfree, decide_False, Bool.false_eq_true, if_false]
        rw [ih (e + 1) _ _ (by omega) (Or.inr ⟨by omega, by simp⟩),
          show dir_entries ino - (e + 1) = k by omega]
    · rw [if_neg he]
      have : dir_entries ino - e = 0 := by omega
      rw [this]; rfl

theorem inode_table_block_lt {st : FS} (hg : VolumeGeom st) {q : Nat}
    (hq : q < st.rootSB.inode_cnt) :
    st.rootSB.first_inodeblk + q / 32 < st.rootSB.first_datablk := by
  have h1 := hg.inode_cnt_le
  have h2 := hg.data_start
  rw [INODES_PER_BLOCK_eq] at h1
  omega

theorem inode_table_block_dev {st : FS} (hg : VolumeGeom st) {q : Nat}
    (hq : q < st.rootSB.inode_cnt) :
    st.rootSB.first_inodeblk + q / 32 < st.nblocks := by
  have := inode_table_block_lt hg hq
  have := hg.data_le
  have := hg.cnt_dev
  omega

theorem inode_load_eq (st : FS) (hg : VolumeGeom st) (q : Nat) (hq : q < st.rootSB.inode_cnt)
    (ino0 : fs_inode) : inode_load st (q : Int) ino0 = some (0, inode_at st q) := by
  unfold inode_load
  rw [if_neg (by omega)]
  simp only [Int.toNat_ofNat, INODES_PER_BLOCK_eq]
  rw [disk_read_eq _ _ (inode_table_block_dev hg hq)]
  rfl

theorem inode_load_out_of_range (st : FS) (q : Int) (ino0 : fs_inode)
    (hq : q < 0 ∨ q ≥ st.rootSB.inode_cnt) :
    inode_load st q ino0 = some (-1, { ino0 with type := FREE }) := by
  unfold inode_load
  rw [if_pos hq]

theorem inode_at_in_range (st : FS) (q : Nat) : InodeInRange (inode_at st q) :=
  block_inode_in_range _ _

/-- The bitmap bit of a block of the volume depends only on the bitmap blocks. -/
theorem bitmap_bit_congr (st st1 : FS) (m : Nat)
    (h : st1.disk (1 + m / 8192) = st.disk (1 + m / 8192)) :
    bitmap_bit st1 m = bitmap_bit st m := by
  unfold bitmap_bit
  simp only [BITMAPSTART, BLOCKSZ, DISK_BLOCK_SIZE]
  rw [h]

theorem bitmap_block_lt {st : FS} (hg : VolumeGeom st) {m : Nat}
    (hm : m < st.rootSB.block_cnt) : 1 + m / 8192 < st.rootSB.first_datablk := by
  have h1 := hg.bitmap.cover
  have h2 := hg.inode_start
  have h3 := hg.data_start
  simp only [BITMAPSTART, BLOCKSZ, DISK_BLOCK_SIZE] at h1 h2 h3
  omega

theorem chunk_block_congr (st st1 : FS) (ino ino1 : fs_inode) (c : Nat)
    (hd : c < 11 → ino1.dir_block.getD c 0 = ino.dir_block.getD c 0)
    (hi : 11 ≤ c → block_u16 (st1.disk ino1.indir_block) (c - 11)
      = block_u16 (st.disk ino.indir_block) (c - 11)) :
    chunk_block st1 ino1 c = chunk_block st ino c := by
  unfold chunk_block
  simp only [DIRBLOCK_PER_INODE]
  by_cases h : c < 11
  · rw [if_pos h, if_pos h, hd h]
  · rw [if_neg h, if_neg h, hi (by omega)]

/-- A volume keeps its layout when superblock and device size stay and the
reserved blocks stay marked used. -/
theorem VolumeGeom.carry_geom {st st1 : FS} (hg : VolumeGeom st) (hsb : st1.rootSB = st.rootSB)
    (hnb : st1.nblocks = st.nblocks)
    (hres : ∀ i, i < st.rootSB.first_datablk → bitmap_bit st1 i ≠ 0) : VolumeGeom st1 := by
  refine ⟨⟨?_, ?_, ?_⟩, ?_, ?_, ?_, ?_, ?_, ?_, ?_⟩
  · rw [hsb]; exact hg.bitmap.one_le
  · rw [hsb]; exact hg.bitmap.cover
  · rw [hsb, hnb]; exact hg.bitmap.ondev
  · rw [hnb]; exact hg.dev
  · rw [hsb, hnb]; exact hg.cnt_dev
  · rw [hsb]; exact hg.inode_start
  · rw [hsb]; exact hg.data_start
  · rw [hsb]; exact hg.data_le
  · rw [hsb]; exact hg.inode_cnt_le
  · rw [hsb]; exact hres

/-- A directory stays well formed when its record, the blocks that hold its
entries, its indirect table and the bitmap bits of these blocks stay. -/
theorem DirWF.transport {st st1 : FS} {ino : fs_inode} (h : DirWF st ino)
    (hsb : st1.rootSB = st.rootSB)
    (hind : 11 * 16 < dir_entries ino → st1.disk ino.indir_block = st.disk ino.indir_block)
    (hbits : ∀ k, DirOwns st ino k → bitmap_bit st1 k ≠ 0) : DirWF st1 ino := by
  have hc : ∀ c, chunk_block st1 ino c = chunk_block st ino c ∨ dir_entries ino ≤ 11 * 16 := by
    intro c
    by_cases hN : 11 * 16 < dir_entries ino
    · left
      exact chunk_block_congr st st1 ino ino c (fun _ => rfl) (fun _ => by rw [hind hN])
    · right; omega
  have hc' : ∀ c, c * 16 < dir_entries ino → chunk_block st1 ino c = chunk_block st ino c := by
    intro c hlt
    rcases hc c with h1 | h1
    · exact h1
    · exact chunk_block_congr st st1 ino ino c (fun _ => rfl) (fun h11 => by omega)
  have h1 := h.chunk_data
  have h2 := h.chunk_used
  have h3 := h.chunk_inj
  have h4 := h.indir_data
  have h6 := h.indir_ne
  have h9 := h.table_unused
  simp only [DIRBLOCK_PER_INODE, BLOCKSZ, DISK_BLOCK_SIZE, DIRENTS_PER_BLOCK_eq] at h1 h2 h3 h4 h6 h9
  refine ⟨h.type, h.cap, ?_, ?_, ?_, ?_, ?_, ?_, h.direct_unused, h.indir_unused, ?_⟩
  all_goals simp only [DIRBLOCK_PER_INODE, BLOCKSZ, DISK_BLOCK_SIZE, DIRENTS_PER_BLOCK_eq]
  · intro c hlt; rw [hc' c hlt, hsb]; exact h1 c hlt
  · intro c hlt; rw [hc' c hlt]
    exact hbits _ (Or.inl ⟨c, by rw [DIRENTS_PER_BLOCK_eq]; exact hlt, rfl⟩)
  · intro c c' hlt hlt' heq
    rw [hc' c hlt, hc' c' hlt'] at heq
    exact h3 c c' hlt hlt' heq
  · intro hN; rw [hsb]; exact h4 hN
  · intro hN
    exact hbits _ (Or.inr ⟨by simp only [DIRBLOCK_PER_INODE, DIRENTS_PER_BLOCK_eq]; exact hN, rfl⟩)
  · intro hN c hlt; rw [hc' c hlt]; exact h6 hN c hlt
  · intro hN c hge h11 h523
    rw [hind hN]; exact h9 hN c hge h11 h523

theorem entry_data_eq (st : FS) (ino : fs_inode) (e : Nat) :
    entry_data st ino e = st.disk (chunk_block st ino (e / 16)) := rfl

theorem entry_ino_eq (st : FS) (ino : fs_inode) (e : Nat) :
    entry_ino st ino e = dirent_ino (st.disk (chunk_block st ino (e / 16))) (e % 16) := rfl

/-- An entry put into block `X`, the block of its chunk, with the other
entries of the chunk and the other chunks kept, is an `EntryPut`. -/
theorem EntryPut.of_blocks (st : FS) (ino : fs_inode) (st1 : FS) (ino1 : fs_inode)
    (e0 X c : Nat) (s : CStr) (base : Block) (hs : IsCStr s) (hc : c < 65536)
    (hN : dir_entries ino1 = max (dir_entries ino) (e0 + 1)) (hle : e0 ≤ dir_entries ino)
    (hfree : e0 < dir_entries ino → entry_ino st ino e0 = FREE)
    (hX : chunk_block st1 ino1 (e0 / 16) = X)
    (hdata : st1.disk X = block_set_dirent base (e0 % 16) c s)
    (hbase : ∀ e, e < dir_entries ino → e / 16 = e0 / 16 →
      base = st.disk (chunk_block st ino (e0 / 16)))
    (hothers : ∀ c', c' * 16 < dir_entries ino → c' ≠ e0 / 16 →
      st1.disk (chunk_block st1 ino1 c') = st.disk (chunk_block st ino c')) :
    EntryPut st ino st1 ino1 e0 c s := by
  refine ⟨hN, hle, hfree, ?_, ?_, ?_, ?_⟩
  · rw [entry_ino_eq, hX, hdata, dirent_ino_set_same, Nat.mod_eq_of_lt hc]
  · intro k hk
    rw [entry_data_eq, hX, hdata, DIRENTS_PER_BLOCK_eq]
    exact dirent_name_set_same _ _ _ _ hs k hk
  · intro e he hne
    rw [entry_ino_eq, entry_ino_eq]
    by_cases hch : e / 16 = e0 / 16
    · rw [hch, hX, hdata, dirent_ino_set_other _ _ _ _ _ (by omega), hbase e he hch]
    · rw [hothers (e / 16) (by omega) hch]
  · intro e he hne k hk
    rw [entry_data_eq, entry_data_eq, DIRENTS_PER_BLOCK_eq]
    by_cases hch : e / 16 = e0 / 16
    · rw [hch, hX, hdata, dirent_name_set_other _ _ _ _ _ (by omega) k hk, hbase e he hch]
    · rw [hothers (e / 16) (by omega) hch]

/-! ### The reuse of a free entry -/

section reuse

variable (st : FS) (ino : fs_inode) (e0 c : Nat) (s : CStr)

theorem put_dirent_disk_other (B k : Nat) (h : k ≠ B) :
    (put_dirent st B e0 c s).disk k = st.disk k := by
  simp only [put_dirent]
  exact Function.update_noteq h _ _

theorem put_dirent_disk_same (B : Nat) :
    (put_dirent st B e0 c s).disk B = block_set_dirent (st.disk B) (e0 % 16) c s := by
  simp only [put_dirent, DIRENTS_PER_BLOCK_eq]
  exact Function.update_same _ _ _

theorem put_dirent_bitmap_bit (hg : VolumeGeom st) (B : Nat) (hB : st.rootSB.first_datablk ≤ B)
    (m : Nat) (hm : m < st.rootSB.block_cnt) :
    bitmap_bit (put_dirent st B e0 c s) m = bitmap_bit st m := by
  apply bitmap_bit_congr
  apply put_dirent_disk_other
  have := bitmap_block_lt hg hm
  omega

theorem put_dirent_inode_at (hg : VolumeGeom st) (B : Nat) (hB : st.rootSB.first_datablk ≤ B)
    (q : Nat) (hq : q < st.rootSB.inode_cnt) :
    inode_at (put_dirent st B e0 c s) q = inode_at st q := by
  unfold inode_at
  rw [show (put_dirent st B e0 c s).rootSB = st.rootSB from rfl, INODES_PER_BLOCK_eq,
    put_dirent_disk_other]
  have := inode_table_block_lt hg hq
  omega

theorem put_dirent_geom (hg : VolumeGeom st) (B : Nat) (hB : st.rootSB.first_datablk ≤ B) :
    VolumeGeom (put_dirent st B e0 c s) := by
  refine VolumeGeom.carry_geom hg (show (put_dirent st B e0 c s).rootSB = st.rootSB from rfl)
    rfl ?_
  intro i hi
  rw [put_dirent_bitmap_bit st e0 c s hg B hB i (by have := hg.data_le; omega)]
  exact hg.reserved i hi

theorem put_dirent_wf (hg : VolumeGeom st) (hwf : DirWF st ino)
    (hc16 : e0 / 16 * 16 < dir_entries ino) :
    DirWF (put_dirent st (chunk_block st ino (e0 / 16)) e0 c s) ino := by
  have hd := hwf.chunk_data (e0 / 16) (by rw [DIRENTS_PER_BLOCK_eq]; exact hc16)
  refine DirWF.transport hwf
    (show (put_dirent st (chunk_block st ino (e0 / 16)) e0 c s).rootSB = st.rootSB from rfl)
    ?_ ?_
  · intro hN
    apply put_dirent_disk_other
    have := hwf.indir_ne (by simp only [DIRBLOCK_PER_INODE, DIRENTS_PER_BLOCK_eq]; exact hN)
      (e0 / 16) (by rw [DIRENTS_PER_BLOCK_eq]; exact hc16)
    exact fun h => this h.symm
  · intro k hk
    have hkd : k < st.rootSB.block_cnt ∧ bitmap_bit st k ≠ 0 := by
      rcases hk with ⟨c', h1, h2⟩ | ⟨h1, h2⟩
      · rw [← h2]; exact ⟨(hwf.chunk_data c' h1).2, hwf.chunk_used c' h1⟩
      · rw [← h2]; exact ⟨(hwf.indir_data h1).2, hwf.indir_used h1⟩
    rw [put_dirent_bitmap_bit st e0 c s hg _ hd.1 k hkd.1]
    exact hkd.2

theorem put_dirent_entry_put (hg : VolumeGeom st) (hwf : DirWF st ino) (hs : IsCStr s)
    (hc : c < 65536) (he : e0 < dir_entries ino) (hfree : entry_ino st ino e0 = FREE) :
    EntryPut st ino (put_dirent st (chunk_block st ino (e0 / 16)) e0 c s) ino e0 c s := by
  have hc16 : e0 / 16 * 16 < dir_entries ino := by omega
  have hch : ∀ c', c' * 16 < dir_entries ino →
      chunk_block (put_dirent st (chunk_block st ino (e0 / 16)) e0 c s) ino c'
        = chunk_block st ino c' := by
    intro c' hc'
    apply chunk_block_congr _ _ _ _ _ (fun _ => rfl)
    intro h11
    rw [put_dirent_disk_other]
    have := hwf.indir_ne (by simp only [DIRBLOCK_PER_INODE, DIRENTS_PER_BLOCK_eq]; omega)
      (e0 / 16) (by rw [DIRENTS_PER_BLOCK_eq]; exact hc16)
    exact fun h => this h.symm
  apply EntryPut.of_blocks st ino _ ino e0 (chunk_block st ino (e0 / 16)) c s
    (st.disk (chunk_block st ino (e0 / 16))) hs hc
  · omega
  · omega
  · exact fun _ => hfree
  · exact hch _ hc16
  · exact put_dirent_disk_same st e0 c s _
  · intro _ _ _; rfl
  · intro c' hc' hne
    rw [hch c' hc', put_dirent_disk_other]
    intro h
    exact hne (hwf.chunk_inj c' (e0 / 16) (by rw [DIRENTS_PER_BLOCK_eq]; exact hc')
      (by rw [DIRENTS_PER_BLOCK_eq]; exact hc16) h)

end reuse

theorem inode_save_eq_save (st : FS) (hg : VolumeGeom st) (q : Nat)
    (hq : q < st.rootSB.inode_cnt) (ino : fs_inode) :
    inode_save st (q : Int) ino = some (0, save_inode st q ino) := by
  rw [inode_save_eq st (q : Int) ino (by omega) (by omega)
    (by simpa using inode_table_block_dev hg hq)]
  simp [save_inode, INODES_PER_BLOCK_eq]

theorem save_inode_disk_data (st : FS) (hg : VolumeGeom st) (q : Nat)
    (hq : q < st.rootSB.inode_cnt) (ino : fs_inode) (k : Nat)
    (hk : st.rootSB.first_datablk ≤ k ∨ k < st.rootSB.first_inodeblk) :
    (save_inode st q ino).disk k = st.disk k := by
  simp only [save_inode, INODES_PER_BLOCK_eq]
  apply Function.update_noteq
  have := inode_table_block_lt hg hq
  omega

theorem save_inode_same (st : FS) (q : Nat) (ino : fs_inode) (h : InodeInRange ino) :
    inode_at (save_inode st q ino) q = ino := by
  simp only [inode_at, save_inode, INODES_PER_BLOCK_eq, Function.update_same]
  exact block_inode_set_same _ _ _ h

theorem save_inode_other (st : FS) (q q' : Nat) (ino : fs_inode) (h : q' ≠ q) :
    inode_at (save_inode st q ino) q' = inode_at st q' := by
  simp only [inode_at, save_inode, INODES_PER_BLOCK_eq]
  by_cases hb : q' / 32 = q / 32
  · rw [hb, Function.update_same]
    exact block_inode_set_other _ _ _ _ (by omega)
  · rw [Function.update_noteq (by omega)]

theorem save_inode_bitmap_bit (st : FS) (hg : VolumeGeom st) (q : Nat)
    (hq : q < st.rootSB.inode_cnt) (ino : fs_inode) (m : Nat) (hm : m < st.rootSB.block_cnt) :
    bitmap_bit (save_inode st q ino) m = bitmap_bit st m := by
  apply bitmap_bit_congr
  apply save_inode_disk_data st hg q hq
  right
  have h1 := hg.bitmap.cover
  have h2 := hg.inode_start
  simp only [BITMAPSTART, BLOCKSZ, DISK_BLOCK_SIZE] at h1 h2
  omega

theorem save_inode_geom (st : FS) (hg : VolumeGeom st) (q : Nat)
    (hq : q < st.rootSB.inode_cnt) (ino : fs_inode) : VolumeGeom (save_inode st q ino) := by
  refine VolumeGeom.carry_geom hg (show (save_inode st q ino).rootSB = st.rootSB from rfl) rfl ?_
  intro i hi
  rw [save_inode_bitmap_bit st hg q hq ino i (by have := hg.data_le; omega)]
  exact hg.reserved i hi

/-- The record saved at the end of an append. -/
theorem add_entry_finish_eq (st : FS) (hg : VolumeGeom st) (p : Nat)
    (hp : p < st.rootSB.inode_cnt) (ino : fs_inode) (hsz : ino.size + 64 < 4294967296) :
    add_entry_finish st (p : Int) ino
      = some (0, save_inode st p { ino with size := ino.size + 64 }) := by
  unfold add_entry_finish
  rw [inode_save_eq_save st hg p hp]
  simp only [DIRENTSZ]
  rw [Nat.mod_eq_of_lt hsz]

theorem dir_entries_size (ino : fs_inode) : dir_entries ino = ino.size / 64 := rfl

theorem DirWF.size_lt {st : FS} {ino : fs_inode} (h : DirWF st ino) :
    ino.size + 64 < 4294967296 := by
  have := h.cap
  simp only [dir_entries_size, DIRBLOCK_PER_INODE, BLOCKSZ, DISK_BLOCK_SIZE,
    DIRENTS_PER_BLOCK_eq] at this
  omega

/-- The append into the last block of a directory that still has room. -/
theorem add_entry_append_existing (st : FS) (hg : VolumeGeom st) (p : Nat)
    (hp : p < st.rootSB.inode_cnt) (ino : fs_inode) (hwf : DirWF st ino)
    (s : CStr) (c : Nat) (hc : c < 4294967296) (hmod : dir_entries ino % 16 ≠ 0) :
    add_entry_append st (p : Int) ino s (c : Int) = some (0,
      save_inode (put_dirent st (chunk_block st ino (dir_entries ino / 16)) (dir_entries ino) c s)
        p { ino with size := ino.size + 64 }) := by
  have hN : dir_entries ino / 16 * 16 < dir_entries ino := by omega
  have hd := hwf.chunk_data _ (by rw [DIRENTS_PER_BLOCK_eq]; exact hN)
  have h1 := hg.one_le_data
  have hdev := hg.cnt_dev
  have hB : chunk_block st ino (dir_entries ino / 16) < st.nblocks := by omega
  have hfin := add_entry_finish_eq
    (put_dirent st (chunk_block st ino (dir_entries ino / 16)) (dir_entries ino) c s)
    (put_dirent_geom st _ c s hg _ hd.1) p hp ino hwf.size_lt
  unfold add_entry_append
  simp only [← dir_entries_size, DIRENTS_PER_BLOCK_eq, DIRBLOCK_PER_INODE, DIRENTSZ]
  rw [to_unsigned_natCast c hc]
  by_cases h11 : dir_entries ino / 16 < 11
  · have hcb : chunk_block st ino (dir_entries ino / 16)
        = ino.dir_block.getD (dir_entries ino / 16) 0 := by
      unfold chunk_block; rw [if_pos (by simpa using h11)]
    rw [if_pos h11, ← hcb, if_neg (by omega), disk_read_eq _ _ hB]
    simp only []
    rw [disk_write_eq _ _ _ hB]
    exact hfin
  · have hcb : chunk_block st ino (dir_entries ino / 16)
        = block_u16 (st.disk ino.indir_block) (dir_entries ino / 16 - 11) := by
      unfold chunk_block; rw [if_neg (by simpa using h11)]
    have hind := hwf.indir_data (by simp only [DIRBLOCK_PER_INODE, DIRENTS_PER_BLOCK_eq]; omega)
    rw [if_neg h11, if_neg (by omega), disk_read_eq _ _ (by omega)]
    simp only []
    rw [← hcb, if_neg (by omega), disk_read_eq _ _ hB]
    simp only []
    rw [disk_write_eq _ _ _ hB]
    exact hfin

/-! ### Frame facts of the state transformers -/

theorem mark_used_disk_other (st : FS) (b k : Nat) (h : k ≠ 1 + b / 8192) :
    (mark_used st b).disk k = st.disk k := by
  simp only [mark_used, BITMAPSTART, BLOCKSZ, DISK_BLOCK_SIZE]
  exact Function.update_noteq h _ _

theorem mark_used_disk_data (st : FS) (hg : VolumeGeom st) (b : Nat) (hb : b < st.rootSB.block_cnt)
    (k : Nat) (hk : st.rootSB.first_inodeblk ≤ k) : (mark_used st b).disk k = st.disk k := by
  apply mark_used_disk_other
  have h1 := hg.bitmap.cover
  have h2 := hg.inode_start
  simp only [BITMAPSTART, BLOCKSZ, DISK_BLOCK_SIZE] at h1 h2
  omega

theorem mark_used_bit (st : FS) (b m : Nat) :
    bitmap_bit (mark_used st b) m = if m = b then 1 else bitmap_bit st m := by
  by_cases h : m = b
  · subst h; rw [if_pos rfl]; exact bitmap_bit_mark_used_same st m
  · rw [if_neg h]; exact bitmap_bit_mark_used_other st b m h

theorem mark_used_bit_ne_zero (st : FS) (b m : Nat) (h : bitmap_bit st m ≠ 0) :
    bitmap_bit (mark_used st b) m ≠ 0 := by
  rw [mark_used_bit]; split
  · decide
  · exact h

theorem mark_used_geom (st : FS) (hg : VolumeGeom st) (b : Nat) : VolumeGeom (mark_used st b) :=
  VolumeGeom.carry_geom hg (show (mark_used st b).rootSB = st.rootSB from rfl) rfl
    (fun i hi => mark_used_bit_ne_zero st b i (hg.reserved i hi))

theorem mark_used_inode_at (st : FS) (hg : VolumeGeom st) (b : Nat) (hb : b < st.rootSB.block_cnt)
    (q : Nat) : inode_at (mark_used st b) q = inode_at st q := by
  unfold inode_at
  rw [show (mark_used st b).rootSB = st.rootSB from rfl,
    mark_used_disk_data st hg b hb _ (Nat.le_add_right _ _)]

theorem write_block_disk_same (st : FS) (k : Nat) (data : Block) :
    (write_block st k data).disk k = data := by
  simp only [write_block]; exact Function.update_same _ _ _

theorem write_block_disk_other (st : FS) (k k' : Nat) (data : Block) (h : k' ≠ k) :
    (write_block st k data).disk k' = st.disk k' := by
  simp only [write_block]; exact Function.update_noteq h _ _

theorem write_block_bitmap_bit (st : FS) (hg : VolumeGeom st) (k : Nat) (data : Block)
    (hk : st.rootSB.first_datablk ≤ k) (m : Nat) (hm : m < st.rootSB.block_cnt) :
    bitmap_bit (write_block st k data) m = bitmap_bit st m := by
  apply bitmap_bit_congr
  apply write_block_disk_other
  have := bitmap_block_lt hg hm
  omega

theorem write_block_geom (st : FS) (hg : VolumeGeom st) (k : Nat) (data : Block)
    (hk : st.rootSB.first_datablk ≤ k) : VolumeGeom (write_block st k data) := by
  refine VolumeGeom.carry_geom hg (show (write_block st k data).rootSB = st.rootSB from rfl) rfl ?_
  intro i hi
  rw [write_block_bitmap_bit st hg k data hk i (by have := hg.data_le; omega)]
  exact hg.reserved i hi

theorem write_block_inode_at (st : FS) (hg : VolumeGeom st) (k : Nat) (data : Block)
    (hk : st.rootSB.first_datablk ≤ k) (q : Nat) (hq : q < st.rootSB.inode_cnt) :
    inode_at (write_block st k data) q = inode_at st q := by
  unfold inode_at
  rw [show (write_block st k data).rootSB = st.rootSB from rfl, INODES_PER_BLOCK_eq,
    write_block_disk_other]
  have := inode_table_block_lt hg hq
  omega

theorem disk_write_eq_write (st : FS) (k : Nat) (data : Block) (h : k < st.nblocks) :
    disk_write st k data = some (write_block st k data) := disk_write_eq st k data h

/-- The two outcomes of `block_alloc` on a well-laid-out volume: no block, or a
free data block, which is marked used. -/
theorem block_alloc_cases (st : FS) (hg : VolumeGeom st) :
    block_alloc st = some (-1, st) ∨
    ∃ b, st.rootSB.first_datablk ≤ b ∧ b < st.rootSB.block_cnt ∧ bitmap_bit st b = 0 ∧
      (∀ m, m < b → bitmap_bit st m ≠ 0) ∧
      block_alloc st = some ((b : Int), mark_used st b) := by
  by_cases h : ∃ m, m < st.rootSB.block_cnt ∧ bitmap_bit st m = 0
  · right
    classical
    refine ⟨Nat.find h, ?_, (Nat.find_spec h).1, (Nat.find_spec h).2, ?_, ?_⟩
    · by_contra hlt
      exact hg.reserved _ (by omega) (Nat.find_spec h).2
    · intro m hm hz
      exact Nat.find_min h hm ⟨by have := (Nat.find_spec h).1; omega, hz⟩
    · apply block_alloc_eq st hg.bitmap _ (Nat.find_spec h).1 (Nat.find_spec h).2
      intro m hm hz
      exact Nat.find_min h hm ⟨by have := (Nat.find_spec h).1; omega, hz⟩
  · left
    apply block_alloc_full st hg.bitmap
    intro m hm hz
    exact h ⟨m, hm, hz⟩

theorem getD_set (l : List Nat) (i j v : Nat) :
    (l.set i v).getD j 0 = if j = i ∧ i < l.length then v else l.getD j 0 := by
  rw [List.getD_eq_getElem?_getD, List.getD_eq_getElem?_getD, List.getElem?_set]
  by_cases h : i = j
  · subst h
    by_cases h2 : i < l.length
    · simp [h2]
    · simp [h2, List.getElem?_eq_none (by omega : l.length ≤ i)]
  · have h' : ¬ j = i := fun h2 => h h2.symm
    simp [h, h']

theorem chunk_block_direct (st : FS) (ino : fs_inode) (c : Nat) (h : c < 11) :
    chunk_block st ino c = ino.dir_block.getD c 0 := by
  unfold chunk_block; rw [if_pos (by simpa using h)]

theorem chunk_block_indirect (st : FS) (ino : fs_inode) (c : Nat) (h : 11 ≤ c) :
    chunk_block st ino c = block_u16 (st.disk ino.indir_block) (c - 11) := by
  unfold chunk_block; rw [if_neg (by simp only [DIRBLOCK_PER_INODE]; omega)]

/-- The append that allocates a new block in a direct slot. -/
theorem add_entry_append_direct_new (st : FS) (hg : VolumeGeom st)
    (h16 : st.rootSB.block_cnt ≤ 65536) (p : Nat)
    (hp : p < st.rootSB.inode_cnt) (ino : fs_inode) (hwf : DirWF st ino)
    (s : CStr) (c : Nat) (hc : c < 4294967296) (hmod : dir_entries ino % 16 = 0)
    (h11 : dir_entries ino / 16 < 11) :
    (block_alloc st = some (-1, st) ∧ add_entry_append st (p : Int) ino s (c : Int) = some (-1, st)) ∨
    ∃ b, st.rootSB.first_datablk ≤ b ∧ b < st.rootSB.block_cnt ∧ bitmap_bit st b = 0 ∧
      block_alloc st = some ((b : Int), mark_used st b) ∧
      add_entry_append st (p : Int) ino s (c : Int) = some (0,
        save_inode (write_block (mark_used st b) b (block_set_dirent zero_block 0 c s)) p
          { ino with size := ino.size + 64,
                     dir_block := ino.dir_block.set (dir_entries ino / 16) b }) := by
  have hslot : ino.dir_block.getD (dir_entries ino / 16) 0 = 0 :=
    hwf.direct_unused _ (by rw [DIRENTS_PER_BLOCK_eq]; omega) h11
  have hdev := hg.cnt_dev
  unfold add_entry_append
  simp only [← dir_entries_size, DIRENTS_PER_BLOCK_eq, DIRBLOCK_PER_INODE, DIRENTSZ]
  rw [to_unsigned_natCast c hc, if_pos h11, hslot, if_pos rfl]
  rcases block_alloc_cases st hg with hfull | ⟨b, hb1, hb2, hb3, _, hb4⟩
  · left
    rw [hfull]
    exact ⟨rfl, rfl⟩
  · right
    refine ⟨b, hb1, hb2, hb3, hb4, ?_⟩
    rw [hb4]
    simp only []
    rw [if_neg (by omega), to_unsigned_natCast b (by omega),
      Nat.mod_eq_of_lt (show b < 65536 by omega),
      disk_write_eq_write _ _ _ (by show b < st.nblocks; omega)]
    simp only [hmod]
    have hgeo : VolumeGeom (write_block (mark_used st b) b (block_set_dirent zero_block 0 c s)) :=
      write_block_geom _ (mark_used_geom st hg b) _ _ hb1
    exact add_entry_finish_eq _ hgeo p hp _ hwf.size_lt



/-- The append that allocates a new block through the existing indirect table. -/
theorem add_entry_append_indirect_new (st : FS) (hg : VolumeGeom st)
    (h16 : st.rootSB.block_cnt ≤ 65536) (p : Nat)
    (hp : p < st.rootSB.inode_cnt) (ino : fs_inode) (hwf : DirWF st ino)
    (s : CStr) (c : Nat) (hc : c < 4294967296) (hmod : dir_entries ino % 16 = 0)
    (h176 : 176 < dir_entries ino) (h523 : dir_entries ino / 16 < 523) :
    (block_alloc st = some (-1, st) ∧ add_entry_append st (p : Int) ino s (c : Int) = some (-1, st)) ∨
    ∃ b, st.rootSB.first_datablk ≤ b ∧ b < st.rootSB.block_cnt ∧ bitmap_bit st b = 0 ∧
      block_alloc st = some ((b : Int), mark_used st b) ∧
      add_entry_append st (p : Int) ino s (c : Int) = some (0,
        save_inode (write_block (write_block (mark_used st b) ino.indir_block
            (set16 (st.disk ino.indir_block) (2 * (dir_entries ino / 16 - 11)) b))
          b (block_set_dirent zero_block 0 c s)) p
          { ino with size := ino.size + 64 }) := by
  have hN : 11 * 16 < dir_entries ino := h176
  have hind := hwf.indir_data (by simp only [DIRBLOCK_PER_INODE, DIRENTS_PER_BLOCK_eq]; exact hN)
  have hslot : block_u16 (st.disk ino.indir_block) (dir_entries ino / 16 - 11) = 0 :=
    hwf.table_unused (by simp only [DIRBLOCK_PER_INODE, DIRENTS_PER_BLOCK_eq]; exact hN) _
      (by rw [DIRENTS_PER_BLOCK_eq]; omega) (by simp only [DIRBLOCK_PER_INODE]; omega)
      (by simp only [DIRBLOCK_PER_INODE, BLOCKSZ, DISK_BLOCK_SIZE]; omega)
  have hdev := hg.cnt_dev
  have h1 := hg.one_le_data
  unfold add_entry_append
  simp only [← dir_entries_size, DIRENTS_PER_BLOCK_eq, DIRBLOCK_PER_INODE, DIRENTSZ]
  rw [to_unsigned_natCast c hc, if_neg (by omega), if_neg (by omega),
    disk_read_eq _ _ (by omega)]
  simp only [hslot, if_true]
  rcases block_alloc_cases st hg with hfull | ⟨b, hb1, hb2, hb3, _, hb4⟩
  · left
    rw [hfull]
    exact ⟨rfl, rfl⟩
  · right
    refine ⟨b, hb1, hb2, hb3, hb4, ?_⟩
    rw [hb4]
    simp only []
    rw [if_neg (by omega), to_unsigned_natCast b (by omega),
      to_unsigned_natCast ino.indir_block (by omega),
      disk_write_eq_write _ _ _ (by show ino.indir_block < st.nblocks; omega)]
    simp only []
    rw [disk_write_eq_write _ _ _ (by show b < st.nblocks; omega)]
    simp only [hmod]
    have hgeo : VolumeGeom (write_block (write_block (mark_used st b) ino.indir_block
        (set16 (st.disk ino.indir_block) (2 * (dir_entries ino / 16 - 11)) b))
        b (block_set_dirent zero_block 0 c s)) :=
      write_block_geom _ (write_block_geom _ (mark_used_geom st hg b) _ _ hind.1) _ _ hb1
    exact add_entry_finish_eq _ hgeo p hp _ hwf.size_lt

/-- The append that allocates the indirect table and its first block. -/
theorem add_entry_append_table_new (st : FS) (hg : VolumeGeom st)
    (h16 : st.rootSB.block_cnt ≤ 65536) (p : Nat)
    (hp : p < st.rootSB.inode_cnt) (ino : fs_inode) (hwf : DirWF st ino)
    (s : CStr) (c : Nat) (hc : c < 4294967296) (h176 : dir_entries ino = 176) :
    (block_alloc st = some (-1, st) ∧ add_entry_append st (p : Int) ino s (c : Int) = some (-1, st)) ∨
    ∃ b1, st.rootSB.first_datablk ≤ b1 ∧ b1 < st.rootSB.block_cnt ∧ bitmap_bit st b1 = 0 ∧
      block_alloc st = some ((b1 : Int), mark_used st b1) ∧
      (add_entry_append st (p : Int) ino s (c : Int)
          = some (-1, write_block (mark_used st b1) b1 zero_block) ∨
       ∃ b2, st.rootSB.first_datablk ≤ b2 ∧ b2 < st.rootSB.block_cnt ∧ bitmap_bit st b2 = 0 ∧
        b2 ≠ b1 ∧
        block_alloc (write_block (mark_used st b1) b1 zero_block)
          = some ((b2 : Int), mark_used (write_block (mark_used st b1) b1 zero_block) b2) ∧
        add_entry_append st (p : Int) ino s (c : Int) = some (0,
          save_inode (write_block (write_block
              (mark_used (write_block (mark_used st b1) b1 zero_block) b2) b1
              (set16 zero_block 0 b2))
            b2 (block_set_dirent zero_block 0 c s)) p
            { ino with size := ino.size + 64, indir_block := b1 })) := by
  have hind : ino.indir_block = 0 :=
    hwf.indir_unused (by simp only [DIRBLOCK_PER_INODE, DIRENTS_PER_BLOCK_eq]; omega)
  have hdev := hg.cnt_dev
  unfold add_entry_append
  simp only [← dir_entries_size, DIRENTS_PER_BLOCK_eq, DIRBLOCK_PER_INODE, DIRENTSZ]
  rw [to_unsigned_natCast c hc, if_neg (by omega), hind]
  simp only [if_true]
  rcases block_alloc_cases st hg with hfull | ⟨b1, hb1, hb2, hb3, _, hb4⟩
  · left
    rw [hfull]
    exact ⟨rfl, rfl⟩
  · right
    refine ⟨b1, hb1, hb2, hb3, hb4, ?_⟩
    rw [hb4]
    simp only []
    rw [if_neg (by omega), to_unsigned_natCast b1 (by omega),
      disk_write_eq_write _ _ _ (by show b1 < st.nblocks; omega),
      Nat.mod_eq_of_lt (show b1 < 65536 by omega)]
    simp only [h176, show (176 : Nat) / 16 - 11 = 0 from rfl, block_u16_zero_block, if_true]
    have hg2 : VolumeGeom (write_block (mark_used st b1) b1 zero_block) :=
      write_block_geom _ (mark_used_geom st hg b1) _ _ hb1
    rcases block_alloc_cases _ hg2 with hfull | ⟨b2, hc1, hc2, hc3, _, hc4⟩
    · left
      rw [hfull]
      rfl
    · right
      have hbit2 : bitmap_bit (write_block (mark_used st b1) b1 zero_block) b2
          = if b2 = b1 then 1 else bitmap_bit st b2 := by
        rw [write_block_bitmap_bit _ (mark_used_geom st hg b1) _ _ hb1 _ hc2, mark_used_bit]
      have hne : b2 ≠ b1 := by
        intro h; rw [hbit2, if_pos h] at hc3; cases hc3
      rw [hbit2, if_neg hne] at hc3
      refine ⟨b2, hc1, hc2, hc3, hne, hc4, ?_⟩
      rw [hc4]
      simp only []
      rw [if_neg (by omega), to_unsigned_natCast b2 (by show b2 < 4294967296; have : b2 < st.rootSB.block_cnt := hc2; omega),
        to_unsigned_natCast b1 (by omega),
        disk_write_eq_write _ _ _ (by show b1 < st.nblocks; omega)]
      simp only []
      rw [disk_write_eq_write _ _ _ (by show b2 < st.nblocks; have : b2 < st.rootSB.block_cnt := hc2; omega)]
      simp only [show (176 : Nat) % 16 = 0 from rfl, Nat.mul_zero]
      have hgeo : VolumeGeom (write_block (write_block
              (mark_used (write_block (mark_used st b1) b1 zero_block) b2) b1
              (set16 zero_block 0 b2))
            b2 (block_set_dirent zero_block 0 c s)) :=
        write_block_geom _ (write_block_geom _ (mark_used_geom _ hg2 b2) _ _ hb1) _ _ hc1
      exact add_entry_finish_eq _ hgeo p hp _ hwf.size_lt

@[simp] theorem write_block_rootSB (st : FS) (k : Nat) (d : Block) :
    (write_block st k d).rootSB = st.rootSB := rfl

@[simp] theorem write_block_nblocks (st : FS) (k : Nat) (d : Block) :
    (write_block st k d).nblocks = st.nblocks := rfl

@[simp] theorem mark_used_rootSB (st : FS) (b : Nat) : (mark_used st b).rootSB = st.rootSB := rfl

@[simp] theorem mark_used_nblocks (st : FS) (b : Nat) : (mark_used st b).nblocks = st.nblocks := rfl

@[simp] theorem mark_free_rootSB (st : FS) (b : Nat) : (mark_free st b).rootSB = st.rootSB := rfl

@[simp] theorem mark_free_nblocks (st : FS) (b : Nat) : (mark_free st b).nblocks = st.nblocks := rfl

@[simp] theorem save_inode_rootSB (st : FS) (q : Nat) (ino : fs_inode) :
    (save_inode st q ino).rootSB = st.rootSB := rfl

@[simp] theorem save_inode_nblocks (st : FS) (q : Nat) (ino : fs_inode) :
    (save_inode st q ino).nblocks = st.nblocks := rfl

@[simp] theorem put_dirent_rootSB (st : FS) (B e c : Nat) (s : CStr) :
    (put_dirent st B e c s).rootSB = st.rootSB := rfl

@[simp] theorem put_dirent_nblocks (st : FS) (B e c : Nat) (s : CStr) :
    (put_dirent st B e c s).nblocks = st.nblocks := rfl

theorem put_dirent_eq_write (st : FS) (B e c : Nat) (s : CStr) :
    put_dirent st B e c s = write_block st B (block_set_dirent (st.disk B) (e % 16) c s) := rfl

/-- A directory record with one more entry in its last, partly filled block is
well formed when the record before was. -/
theorem DirWF.resize {st : FS} {ino ino1 : fs_inode} (h : DirWF st ino)
    (hmod : dir_entries ino % 16 ≠ 0) (hN : dir_entries ino1 = dir_entries ino + 1)
    (htype : ino1.type = ino.type) (hdir : ino1.dir_block = ino.dir_block)
    (hind : ino1.indir_block = ino.indir_block) : DirWF st ino1 := by
  have hc : ∀ c, chunk_block st ino1 c = chunk_block st ino c := by
    intro c; unfold chunk_block; rw [hdir, hind]
  have h0 := h.cap
  have h1 := h.chunk_data
  have h2 := h.chunk_used
  have h3 := h.chunk_inj
  have h4 := h.indir_data
  have h5 := h.indir_used
  have h6 := h.indir_ne
  have h7 := h.direct_unused
  have h8 := h.indir_unused
  have h9 := h.table_unused
  simp only [DIRBLOCK_PER_INODE, BLOCKSZ, DISK_BLOCK_SIZE, DIRENTS_PER_BLOCK_eq] at *
  refine ⟨by rw [htype]; exact h.type, ?_, ?_, ?_, ?_, ?_, ?_, ?_, ?_, ?_, ?_⟩
  all_goals simp only [DIRBLOCK_PER_INODE, BLOCKSZ, DISK_BLOCK_SIZE, DIRENTS_PER_BLOCK_eq, hN, hc,
    hind, hdir]
  · omega
  · intro c hlt; exact h1 c (by omega)
  · intro c hlt; exact h2 c (by omega)
  · intro c c' hlt hlt'; exact h3 c c' (by omega) (by omega)
  · intro hlt; exact h4 (by omega)
  · intro hlt; exact h5 (by omega)
  · intro hlt c hc'; exact h6 (by omega) c (by omega)
  · intro c hge; exact h7 c (by omega)
  · intro hle; exact h8 (by omega)
  · intro hlt c hge; exact h9 (by omega) c (by omega)

/-- A directory record that got a new last block `X` is well formed when the
record before was, `X` and (when it is new) the indirect table were free data
blocks, and the slots beyond are still 0. -/
theorem DirWF.extend {st st1 : FS} {ino ino1 : fs_inode} (h : DirWF st ino) (X : Nat)
    (hsb : st1.rootSB = st.rootSB)
    (hmod : dir_entries ino % 16 = 0) (hcap : dir_entries ino / 16 < 523)
    (hN : dir_entries ino1 = dir_entries ino + 1) (htype : ino1.type = ino.type)
    (hold : ∀ c, c < dir_entries ino / 16 → chunk_block st1 ino1 c = chunk_block st ino c)
    (hnew : chunk_block st1 ino1 (dir_entries ino / 16) = X)
    (hX : st.rootSB.first_datablk ≤ X ∧ X < st.rootSB.block_cnt)
    (hXfree : bitmap_bit st X = 0) (hXused : bitmap_bit st1 X ≠ 0)
    (hbits : ∀ m, m < st.rootSB.block_cnt → bitmap_bit st m ≠ 0 → bitmap_bit st1 m ≠ 0)
    (hdirect : ∀ c, dir_entries ino / 16 < c → c < 11 → ino1.dir_block.getD c 0 = 0)
    (hindir0 : dir_entries ino / 16 < 11 → ino1.indir_block = 0)
    (hindir : 11 ≤ dir_entries ino / 16 →
      st.rootSB.first_datablk ≤ ino1.indir_block ∧ ino1.indir_block < st.rootSB.block_cnt ∧
      bitmap_bit st1 ino1.indir_block ≠ 0 ∧ ino1.indir_block ≠ X ∧
      ∀ c, c < dir_entries ino / 16 → chunk_block st ino c ≠ ino1.indir_block)
    (htable : 11 ≤ dir_entries ino / 16 → ∀ c, dir_entries ino / 16 < c → c < 523 →
      block_u16 (st1.disk ino1.indir_block) (c - 11) = 0) : DirWF st1 ino1 := by
  have h0 := h.cap
  have h1 := h.chunk_data
  have h2 := h.chunk_used
  have h3 := h.chunk_inj
  simp only [DIRBLOCK_PER_INODE, BLOCKSZ, DISK_BLOCK_SIZE, DIRENTS_PER_BLOCK_eq] at h0 h1 h2 h3
  have hcase : ∀ c, c * 16 < dir_entries ino + 1 →
      (c < dir_entries ino / 16 ∧ c * 16 < dir_entries ino) ∨ c = dir_entries ino / 16 := by
    intro c hc; omega
  refine ⟨by rw [htype]; exact h.type, ?_, ?_, ?_, ?_, ?_, ?_, ?_, ?_, ?_, ?_⟩
  all_goals simp only [DIRBLOCK_PER_INODE, BLOCKSZ, DISK_BLOCK_SIZE, DIRENTS_PER_BLOCK_eq, hN, hsb]
  · omega
  · intro c hlt
    rcases hcase c hlt with ⟨hc1, hc2⟩ | hc1
    · rw [hold c hc1]; exact h1 c hc2
    · rw [hc1, hnew]; exact hX
  · intro c hlt
    rcases hcase c hlt with ⟨hc1, hc2⟩ | hc1
    · rw [hold c hc1]; exact hbits _ (h1 c hc2).2 (h2 c hc2)
    · rw [hc1, hnew]; exact hXused
  · intro c c' hlt hlt' heq
    rcases hcase c hlt with ⟨hc1, hc2⟩ | hc1 <;> rcases hcase c' hlt' with ⟨hd1, hd2⟩ | hd1
    · rw [hold c hc1, hold c' hd1] at heq; exact h3 c c' hc2 hd2 heq
    · rw [hold c hc1, hd1, hnew] at heq
      exact absurd hXfree (by rw [← heq]; exact h2 c hc2)
    · rw [hc1, hnew, hold c' hd1] at heq
      exact absurd hXfree (by rw [heq]; exact h2 c' hd2)
    · omega
  · intro hlt; have := hindir (by omega); exact ⟨this.1, this.2.1⟩
  · intro hlt; exact (hindir (by omega)).2.2.1
  · intro hlt c hc
    have hi := hindir (by omega)
    rcases hcase c hc with ⟨hc1, hc2⟩ | hc1
    · rw [hold c hc1]; exact hi.2.2.2.2 c hc1
    · rw [hc1, hnew]; exact fun e => hi.2.2.2.1 e.symm
  · intro c hge h11; exact hdirect c (by omega) h11
  · intro hle; exact hindir0 (by omega)
  · intro hlt c hge h11 h523; exact htable (by omega) c (by omega) h523

theorem put_dirent_chunk_block (st : FS) {ino : fs_inode} (hwf : DirWF st ino) (e0 c : Nat) (s : CStr)
    (hc16 : e0 / 16 * 16 < dir_entries ino) (c' : Nat) :
    chunk_block (put_dirent st (chunk_block st ino (e0 / 16)) e0 c s) ino c'
      = chunk_block st ino c' ∨ dir_entries ino ≤ 176 := by
  by_cases hN : 176 < dir_entries ino
  · left
    apply chunk_block_congr _ _ _ _ _ (fun _ => rfl)
    intro _
    rw [put_dirent_disk_other]
    have := hwf.indir_ne (by simp only [DIRBLOCK_PER_INODE, DIRENTS_PER_BLOCK_eq]; omega)
      (e0 / 16) (by rw [DIRENTS_PER_BLOCK_eq]; exact hc16)
    exact fun h => this h.symm
  · right; omega

theorem put_dirent_chunk_block_used (st : FS) {ino : fs_inode} (hwf : DirWF st ino) (e0 c : Nat) (s : CStr)
    (hc16 : e0 / 16 * 16 < dir_entries ino) (c' : Nat) (hc' : c' * 16 < dir_entries ino) :
    chunk_block (put_dirent st (chunk_block st ino (e0 / 16)) e0 c s) ino c'
      = chunk_block st ino c' := by
  rcases put_dirent_chunk_block st hwf e0 c s hc16 c' with h | h
  · exact h
  · exact chunk_block_congr _ _ _ _ _ (fun _ => rfl) (fun h11 => by omega)

/-- The post-condition of the reuse of the free entry `e0`. -/
theorem add_entry_post_reuse (st : FS) (hg : VolumeGeom st) (p : Nat)
    (hp : p < st.rootSB.inode_cnt) (hwf : DirWF st (inode_at st p)) (s : CStr) (hs : IsCStr s)
    (c : Nat) (hc : c < 65536) (e0 : Nat) (he : e0 < dir_entries (inode_at st p))
    (hfree : entry_ino st (inode_at st p) e0 = FREE)
    (hlow : ∀ e, e < e0 → entry_ino st (inode_at st p) e ≠ FREE) :
    AddEntryPost st p c s
      (put_dirent st (chunk_block st (inode_at st p) (e0 / 16)) e0 c s) e0 := by
  have hc16 : e0 / 16 * 16 < dir_entries (inode_at st p) := by omega
  have hd := hwf.chunk_data (e0 / 16) (by rw [DIRENTS_PER_BLOCK_eq]; exact hc16)
  have hino : ∀ q, q < st.rootSB.inode_cnt →
      inode_at (put_dirent st (chunk_block st (inode_at st p) (e0 / 16)) e0 c s) q
        = inode_at st q := fun q hq => put_dirent_inode_at st e0 c s hg _ hd.1 q hq
  refine ⟨rfl, rfl, put_dirent_geom st e0 c s hg _ hd.1, ?_, ?_, hlow, fun q hq _ => hino q hq,
    ?_, ?_, ?_, ?_⟩
  · rw [hino p hp]; exact put_dirent_wf st _ e0 c s hg hwf hc16
  · rw [hino p hp]; exact put_dirent_entry_put st _ e0 c s hg hwf hs hc he hfree
  · intro k _ _ hown
    apply put_dirent_disk_other
    intro h
    exact hown (Or.inl ⟨e0 / 16, by rw [DIRENTS_PER_BLOCK_eq]; exact hc16, h.symm⟩)
  · intro m hm hbit
    rw [put_dirent_bitmap_bit st e0 c s hg _ hd.1 m hm]; exact hbit
  · intro k hk
    left
    rw [hino p hp] at hk
    rcases hk with ⟨c', h1, h2⟩ | ⟨h1, h2⟩
    · left
      refine ⟨c', h1, ?_⟩
      rw [← h2, put_dirent_chunk_block_used st hwf e0 c s hc16 c'
        (by rw [DIRENTS_PER_BLOCK_eq] at h1; exact h1)]
    · right; exact ⟨h1, h2⟩
  · intro _
    exact ⟨fun m hm => put_dirent_bitmap_bit st e0 c s hg _ hd.1 m hm, hino p hp⟩

theorem save_inode_chunk_block (st : FS) (hg : VolumeGeom st) (q : Nat)
    (hq : q < st.rootSB.inode_cnt) (i1 i2 : fs_inode) (c : Nat)
    (h : 11 ≤ c → st.rootSB.first_datablk ≤ i2.indir_block) :
    chunk_block (save_inode st q i1) i2 c = chunk_block st i2 c := by
  apply chunk_block_congr _ _ _ _ _ (fun _ => rfl)
  intro h11
  rw [save_inode_disk_data st hg q hq i1 _ (Or.inl (h h11))]

theorem in_range_resize (ino : fs_inode) (h : InodeInRange ino) (sz : Nat)
    (hsz : sz < 4294967296) : InodeInRange { ino with size := sz } :=
  ⟨h.type_lt, h.nlinks_lt, hsz, h.dir_len, h.dir_lt, h.indir_lt⟩

theorem dir_entries_resize (ino : fs_inode) :
    dir_entries { ino with size := ino.size + 64 } = dir_entries ino + 1 := by
  simp only [dir_entries_size]; omega

/-- The post-condition of the append into the last, partly filled block. -/
theorem add_entry_post_existing (st : FS) (hg : VolumeGeom st) (p : Nat)
    (hp : p < st.rootSB.inode_cnt) (ino : fs_inode) (hino : inode_at st p = ino)
    (hwf : DirWF st ino) (s : CStr) (hs : IsCStr s)
    (c : Nat) (hc : c < 65536) (N : Nat) (hNdef : dir_entries ino = N) (hmod : N % 16 ≠ 0)
    (hlow : ∀ e, e < N → entry_ino st ino e ≠ FREE) :
    AddEntryPost st p c s
      (save_inode (put_dirent st (chunk_block st ino (N / 16)) N c s) p
        { ino with size := ino.size + 64 }) N := by
  have hc16 : N / 16 * 16 < N := by omega
  have hc16' : N / 16 * 16 < dir_entries ino := by rw [hNdef]; exact hc16
  have hd := hwf.chunk_data (N / 16) (by rw [DIRENTS_PER_BLOCK_eq]; exact hc16')
  have hg2 : VolumeGeom (put_dirent st (chunk_block st ino (N / 16)) N c s) :=
    put_dirent_geom st N c s hg _ hd.1
  have hwf2 : DirWF (put_dirent st (chunk_block st ino (N / 16)) N c s) ino :=
    put_dirent_wf st ino N c s hg hwf hc16'
  have hN1 : dir_entries { ino with size := ino.size + 64 } = dir_entries ino + 1 :=
    dir_entries_resize ino
  have hwf3 : DirWF (put_dirent st (chunk_block st ino (N / 16)) N c s)
      { ino with size := ino.size + 64 } :=
    hwf2.resize (by rw [hNdef]; exact hmod) hN1 rfl rfl rfl
  have hrange : InodeInRange { ino with size := ino.size + 64 } :=
    in_range_resize ino (by rw [← hino]; exact inode_at_in_range st p) _ hwf.size_lt
  have hself : inode_at (save_inode (put_dirent st (chunk_block st ino (N / 16)) N c s) p
      { ino with size := ino.size + 64 }) p = { ino with size := ino.size + 64 } :=
    save_inode_same _ _ _ hrange
  have hindd : ∀ c', 11 ≤ c' → c' * 16 < N + 1 → st.rootSB.first_datablk ≤ ino.indir_block := by
    intro c' h11 hlt
    exact (hwf.indir_data (by simp only [DIRBLOCK_PER_INODE, DIRENTS_PER_BLOCK_eq]; omega)).1
  have hchunk : ∀ c', c' * 16 < N →
      chunk_block (save_inode (put_dirent st (chunk_block st ino (N / 16)) N c s) p
        { ino with size := ino.size + 64 }) { ino with size := ino.size + 64 } c'
        = chunk_block st ino c' := by
    intro c' hlt
    rw [save_inode_chunk_block _ hg2 p hp _ { ino with size := ino.size + 64 } c'
      (fun h11 => hindd c' h11 (by omega))]
    rw [show chunk_block (put_dirent st (chunk_block st ino (N / 16)) N c s)
        { ino with size := ino.size + 64 } c'
        = chunk_block (put_dirent st (chunk_block st ino (N / 16)) N c s) ino c' from rfl]
    exact put_dirent_chunk_block_used st hwf N c s hc16' c' (by rw [hNdef]; exact hlt)
  have hdisk : ∀ k, st.rootSB.first_datablk ≤ k →
      (save_inode (put_dirent st (chunk_block st ino (N / 16)) N c s) p
        { ino with size := ino.size + 64 }).disk k
      = (put_dirent st (chunk_block st ino (N / 16)) N c s).disk k :=
    fun k hk => save_inode_disk_data _ hg2 p hp _ k (Or.inl hk)
  have hbit : ∀ m, m < st.rootSB.block_cnt →
      bitmap_bit (save_inode (put_dirent st (chunk_block st ino (N / 16)) N c s) p
        { ino with size := ino.size + 64 }) m = bitmap_bit st m := by
    intro m hm
    rw [save_inode_bitmap_bit _ hg2 p hp _ m hm, put_dirent_bitmap_bit st N c s hg _ hd.1 m hm]
  subst hino
  refine ⟨rfl, rfl, save_inode_geom _ hg2 p hp _, ?_, ?_, ?_, ?_, ?_, ?_, ?_, ?_⟩
  · rw [hself]
    refine DirWF.transport hwf3 rfl ?_ ?_
    · intro hN
      exact hdisk _ (hwf3.indir_data
        (by simp only [DIRBLOCK_PER_INODE, DIRENTS_PER_BLOCK_eq]; exact hN)).1
    · intro k hk
      have hkd : k < st.rootSB.block_cnt ∧
          bitmap_bit (put_dirent st (chunk_block st (inode_at st p) (N / 16)) N c s) k ≠ 0 := by
        rcases hk with ⟨c', h1, h2⟩ | ⟨h1, h2⟩
        · rw [← h2]; exact ⟨(hwf3.chunk_data c' h1).2, hwf3.chunk_used c' h1⟩
        · rw [← h2]; exact ⟨(hwf3.indir_data h1).2, hwf3.indir_used h1⟩
      rw [save_inode_bitmap_bit _ hg2 p hp _ k hkd.1]
      exact hkd.2
  · rw [hself]
    apply EntryPut.of_blocks st (inode_at st p) _ _ N (chunk_block st (inode_at st p) (N / 16)) c s
      (st.disk (chunk_block st (inode_at st p) (N / 16))) hs hc
    · rw [hN1, hNdef]; omega
    · omega
    · intro h; omega
    · exact hchunk _ hc16
    · rw [hdisk _ hd.1]; exact put_dirent_disk_same st N c s _
    · intro _ _ _; rfl
    · intro c' hc' hne
      rw [hNdef] at hc'
      rw [hchunk c' hc', hdisk _ (hwf.chunk_data c'
        (by rw [DIRENTS_PER_BLOCK_eq, hNdef]; exact hc')).1, put_dirent_disk_other]
      intro h
      exact hne (hwf.chunk_inj c' (N / 16) (by rw [DIRENTS_PER_BLOCK_eq, hNdef]; exact hc')
        (by rw [DIRENTS_PER_BLOCK_eq]; exact hc16') h)
  · exact hlow
  · intro q hq hne
    rw [save_inode_other _ _ _ _ hne, put_dirent_inode_at st N c s hg _ hd.1 q hq]
  · intro k hk _ hown
    rw [hdisk k hk]
    apply put_dirent_disk_other
    intro h
    exact hown (Or.inl ⟨N / 16, by rw [DIRENTS_PER_BLOCK_eq]; exact hc16', h.symm⟩)
  · intro m hm hb; rw [hbit m hm]; exact hb
  · intro k hk
    left
    rw [hself] at hk
    rcases hk with ⟨c', h1, h2⟩ | ⟨h1, h2⟩
    · left
      rw [hN1, DIRENTS_PER_BLOCK_eq, hNdef] at h1
      refine ⟨c', by rw [DIRENTS_PER_BLOCK_eq, hNdef]; omega, ?_⟩
      rw [← h2, hchunk c' (by omega)]
    · right
      rw [hN1] at h1
      simp only [DIRBLOCK_PER_INODE, DIRENTS_PER_BLOCK_eq, hNdef] at h1 ⊢
      exact ⟨by omega, h2⟩
  · intro h; rw [hNdef] at h; omega

/-- The post-condition of an append that put the entry into a new block `X`,
from the facts each of the three allocating paths establishes. -/
theorem add_entry_post_new (st : FS) (hg : VolumeGeom st) (p : Nat)
    (ino : fs_inode) (hino : inode_at st p = ino)
    (hwf : DirWF st ino) (s : CStr) (hs : IsCStr s)
    (c : Nat) (hc : c < 65536) (N : Nat) (hNdef : dir_entries ino = N) (hmod : N % 16 = 0)
    (hcap : N / 16 < 523) (hlow : ∀ e, e < N → entry_ino st ino e ≠ FREE)
    (st1 : FS) (ino1 : fs_inode) (X : Nat)
    (hsb : st1.rootSB = st.rootSB) (hnb : st1.nblocks = st.nblocks)
    (hself : inode_at st1 p = ino1) (hN1 : dir_entries ino1 = N + 1)
    (htype : ino1.type = ino.type)
    (hinodes : ∀ q, q < st.rootSB.inode_cnt → q ≠ p → inode_at st1 q = inode_at st q)
    (hX : st.rootSB.first_datablk ≤ X ∧ X < st.rootSB.block_cnt)
    (hXfree : bitmap_bit st X = 0) (hXused : bitmap_bit st1 X ≠ 0)
    (hmono : ∀ m, m < st.rootSB.block_cnt → bitmap_bit st m ≠ 0 → bitmap_bit st1 m ≠ 0)
    (hdiskX : st1.disk X = block_set_dirent zero_block 0 c s)
    (hframe : ∀ k, st.rootSB.first_datablk ≤ k → bitmap_bit st k ≠ 0 →
      ¬ (176 < N ∧ k = ino.indir_block) → st1.disk k = st.disk k)
    (hold : ∀ c', c' < N / 16 → chunk_block st1 ino1 c' = chunk_block st ino c')
    (hnew : chunk_block st1 ino1 (N / 16) = X)
    (hdirect : ∀ c', N / 16 < c' → c' < 11 → ino1.dir_block.getD c' 0 = 0)
    (hindir0 : N / 16 < 11 → ino1.indir_block = 0)
    (hindir : 11 ≤ N / 16 →
      st.rootSB.first_datablk ≤ ino1.indir_block ∧ ino1.indir_block < st.rootSB.block_cnt ∧
      bitmap_bit st1 ino1.indir_block ≠ 0 ∧ ino1.indir_block ≠ X ∧
      ((176 < N ∧ ino1.indir_block = ino.indir_block) ∨ bitmap_bit st ino1.indir_block = 0))
    (htable : 11 ≤ N / 16 → ∀ c', N / 16 < c' → c' < 523 →
      block_u16 (st1.disk ino1.indir_block) (c' - 11) = 0) :
    AddEntryPost st p c s st1 N := by
  subst hNdef
  have hused : ∀ c', c' * 16 < dir_entries ino →
      st.rootSB.first_datablk ≤ chunk_block st ino c' ∧ bitmap_bit st (chunk_block st ino c') ≠ 0 :=
    fun c' h => ⟨(hwf.chunk_data c' (by rw [DIRENTS_PER_BLOCK_eq]; exact h)).1,
      hwf.chunk_used c' (by rw [DIRENTS_PER_BLOCK_eq]; exact h)⟩
  have hindir' : 11 ≤ dir_entries ino / 16 →
      ∀ c', c' < dir_entries ino / 16 → chunk_block st ino c' ≠ ino1.indir_block := by
    intro h11 c' hc'
    rcases (hindir h11).2.2.2.2 with ⟨h176, heq⟩ | hfree
    · rw [heq]
      exact hwf.indir_ne (by simp only [DIRBLOCK_PER_INODE, DIRENTS_PER_BLOCK_eq]; omega) c'
        (by rw [DIRENTS_PER_BLOCK_eq]; omega)
    · intro h
      exact (hused c' (by omega)).2 (by rw [h]; exact hfree)
  have hwf1 : DirWF st1 ino1 := by
    apply DirWF.extend hwf X hsb hmod hcap hN1 htype hold hnew hX hXfree hXused hmono hdirect
      hindir0 _ htable
    intro h11
    have := hindir h11
    exact ⟨this.1, this.2.1, this.2.2.1, this.2.2.2.1, hindir' h11⟩
  subst hino
  refine ⟨hsb, hnb, ?_, ?_, ?_, hlow, hinodes, ?_, hmono, ?_, ?_⟩
  · refine VolumeGeom.carry_geom hg hsb hnb ?_
    intro i hi
    exact hmono i (by have := hg.data_le; omega) (hg.reserved i hi)
  · rw [hself]; exact hwf1
  · rw [hself]
    apply EntryPut.of_blocks st (inode_at st p) st1 ino1 _ X c s zero_block hs hc
    · rw [hN1]; omega
    · omega
    · intro h; omega
    · exact hnew
    · rw [hdiskX, hmod]
    · intro e he hch; omega
    · intro c' hc' hne
      have hlt : c' < dir_entries (inode_at st p) / 16 := by omega
      rw [hold c' hlt]
      apply hframe _ (hused c' hc').1 (hused c' hc').2
      intro ⟨h176, heq⟩
      exact hwf.indir_ne (by simp only [DIRBLOCK_PER_INODE, DIRENTS_PER_BLOCK_eq]; omega) c'
        (by rw [DIRENTS_PER_BLOCK_eq]; exact hc') heq
  · intro k hk hbit hown
    apply hframe k hk hbit
    intro ⟨h176, heq⟩
    exact hown (Or.inr ⟨by simp only [DIRBLOCK_PER_INODE, DIRENTS_PER_BLOCK_eq]; omega, heq.symm⟩)
  · intro k hk
    rw [hself] at hk
    rcases hk with ⟨c', h1, h2⟩ | ⟨h1, h2⟩
    · rw [hN1, DIRENTS_PER_BLOCK_eq] at h1
      by_cases hc' : c' < dir_entries (inode_at st p) / 16
      · left; left
        exact ⟨c', by rw [DIRENTS_PER_BLOCK_eq]; omega, by rw [← h2, hold c' hc']⟩
      · right
        have : c' = dir_entries (inode_at st p) / 16 := by omega
        rw [← h2, this, hnew]; exact hXfree
    · rw [hN1] at h1
      simp only [DIRBLOCK_PER_INODE, DIRENTS_PER_BLOCK_eq] at h1
      rcases (hindir (by omega)).2.2.2.2 with ⟨h176, heq⟩ | hfree
      · left; right
        exact ⟨by simp only [DIRBLOCK_PER_INODE, DIRENTS_PER_BLOCK_eq]; omega, by rw [← h2, heq]⟩
      · right; rw [← h2]; exact hfree
  · intro h; omega

/-- The post-condition of the append that allocates a block in a direct slot. -/
theorem add_entry_post_direct_new (st : FS) (hg : VolumeGeom st)
    (h16 : st.rootSB.block_cnt ≤ 65536) (p : Nat) (hp : p < st.rootSB.inode_cnt)
    (ino : fs_inode) (hino : inode_at st p = ino) (hwf : DirWF st ino) (s : CStr)
    (hs : IsCStr s) (c : Nat) (hc : c < 65536) (N : Nat) (hNdef : dir_entries ino = N)
    (hmod : N % 16 = 0) (h11 : N / 16 < 11) (hlow : ∀ e, e < N → entry_ino st ino e ≠ FREE)
    (b : Nat) (hb1 : st.rootSB.first_datablk ≤ b) (hb2 : b < st.rootSB.block_cnt)
    (hb3 : bitmap_bit st b = 0) :
    AddEntryPost st p c s
      (save_inode (write_block (mark_used st b) b (block_set_dirent zero_block 0 c s)) p
        { ino with size := ino.size + 64, dir_block := ino.dir_block.set (N / 16) b }) N := by
  have hgA := mark_used_geom st hg b
  have hgB := write_block_geom _ hgA b (block_set_dirent zero_block 0 c s) hb1
  have hr : InodeInRange ino := by rw [← hino]; exact inode_at_in_range st p
  have hlen := hr.dir_len
  simp only [DIRBLOCK_PER_INODE] at hlen
  have hbit : ∀ m, m < st.rootSB.block_cnt →
      bitmap_bit (save_inode (write_block (mark_used st b) b (block_set_dirent zero_block 0 c s)) p
        { ino with size := ino.size + 64, dir_block := ino.dir_block.set (N / 16) b }) m
      = if m = b then 1 else bitmap_bit st m := by
    intro m hm
    rw [save_inode_bitmap_bit _ hgB p hp _ m hm, write_block_bitmap_bit _ hgA _ _ hb1 m hm,
      mark_used_bit]
  have hdisk : ∀ k, st.rootSB.first_datablk ≤ k → k ≠ b →
      (save_inode (write_block (mark_used st b) b (block_set_dirent zero_block 0 c s)) p
        { ino with size := ino.size + 64, dir_block := ino.dir_block.set (N / 16) b }).disk k
      = st.disk k := by
    intro k hk hne
    rw [save_inode_disk_data _ hgB p hp _ k (Or.inl hk), write_block_disk_other _ _ _ _ hne,
      mark_used_disk_data st hg b hb2 k (by have := hg.data_start; omega)]
  have hN176 : N ≤ 176 := by omega
  refine add_entry_post_new st hg p ino hino hwf s hs c hc N hNdef hmod (by omega) hlow _
    { ino with size := ino.size + 64, dir_block := ino.dir_block.set (N / 16) b } b
    ?_ ?_ ?_ ?_ ?_ ?_ ?_ ?_ ?_ ?_ ?_ ?_ ?_ ?_ ?_ ?_ ?_ ?_
  · rfl
  · rfl
  · apply save_inode_same
    refine ⟨hr.type_lt, hr.nlinks_lt, hwf.size_lt, ?_, ?_, hr.indir_lt⟩
    · simp only [List.length_set]; exact hr.dir_len
    · intro j
      simp only [getD_set]
      split
      · omega
      · exact hr.dir_lt j
  · simp only [dir_entries_size] at hNdef ⊢; omega
  · rfl
  · intro q hq hne
    rw [save_inode_other _ _ _ _ hne, write_block_inode_at _ hgA _ _ hb1 q hq,
      mark_used_inode_at st hg b hb2 q]
  · exact ⟨hb1, hb2⟩
  · exact hb3
  · rw [hbit b hb2, if_pos rfl]; decide
  · intro m hm hbm
    rw [hbit m hm]; split
    · decide
    · exact hbm
  · rw [save_inode_disk_data _ hgB p hp _ b (Or.inl hb1), write_block_disk_same]
  · intro k hk hbk _
    apply hdisk k hk
    intro h; rw [h] at hbk; exact hbk hb3
  · intro c' hc'
    rw [chunk_block_direct _ _ c' (by omega), chunk_block_direct _ _ c' (by omega)]
    simp only [getD_set]
    rw [if_neg (by omega)]
  · rw [chunk_block_direct _ _ _ h11]
    rw [getD_set, if_pos ⟨rfl, by omega⟩]
  · intro c' hc' hc11
    simp only [getD_set]
    rw [if_neg (by omega)]
    exact hwf.direct_unused c' (by rw [DIRENTS_PER_BLOCK_eq, hNdef]; omega) hc11
  · intro _
    exact hwf.indir_unused (by simp only [DIRBLOCK_PER_INODE, DIRENTS_PER_BLOCK_eq]; omega)
  · intro h; omega
  · intro h; omega

/-- The post-condition of the append that allocates a block through the
existing indirect table. -/
theorem add_entry_post_indirect_new (st : FS) (hg : VolumeGeom st)
    (h16 : st.rootSB.block_cnt ≤ 65536) (p : Nat) (hp : p < st.rootSB.inode_cnt)
    (ino : fs_inode) (hino : inode_at st p = ino) (hwf : DirWF st ino) (s : CStr)
    (hs : IsCStr s) (c : Nat) (hc : c < 65536) (N : Nat) (hNdef : dir_entries ino = N)
    (hmod : N % 16 = 0) (h176 : 176 < N) (h523 : N / 16 < 523)
    (hlow : ∀ e, e < N → entry_ino st ino e ≠ FREE)
    (b : Nat) (hb1 : st.rootSB.first_datablk ≤ b) (hb2 : b < st.rootSB.block_cnt)
    (hb3 : bitmap_bit st b = 0) :
    AddEntryPost st p c s
      (save_inode (write_block (write_block (mark_used st b) ino.indir_block
          (set16 (st.disk ino.indir_block) (2 * (N / 16 - 11)) b))
        b (block_set_dirent zero_block 0 c s)) p
        { ino with size := ino.size + 64 }) N := by
  have hN : 11 * 16 < dir_entries ino := by omega
  have hT := hwf.indir_data (by simp only [DIRBLOCK_PER_INODE, DIRENTS_PER_BLOCK_eq]; exact hN)
  have hTu := hwf.indir_used (by simp only [DIRBLOCK_PER_INODE, DIRENTS_PER_BLOCK_eq]; exact hN)
  have hTb : ino.indir_block ≠ b := by
    intro h; rw [h] at hTu; exact hTu hb3
  have hgA := mark_used_geom st hg b
  have hgB := write_block_geom _ hgA ino.indir_block
    (set16 (st.disk ino.indir_block) (2 * (N / 16 - 11)) b) hT.1
  have hgC := write_block_geom _ hgB b (block_set_dirent zero_block 0 c s) hb1
  have hr : InodeInRange ino := by rw [← hino]; exact inode_at_in_range st p
  have hbit : ∀ m, m < st.rootSB.block_cnt →
      bitmap_bit (save_inode (write_block (write_block (mark_used st b) ino.indir_block
          (set16 (st.disk ino.indir_block) (2 * (N / 16 - 11)) b))
        b (block_set_dirent zero_block 0 c s)) p { ino with size := ino.size + 64 }) m
      = if m = b then 1 else bitmap_bit st m := by
    intro m hm
    rw [save_inode_bitmap_bit _ hgC p hp _ m hm, write_block_bitmap_bit _ hgB _ _ hb1 m hm,
      write_block_bitmap_bit _ hgA _ _ hT.1 m hm, mark_used_bit]
  have hdiskT : (save_inode (write_block (write_block (mark_used st b) ino.indir_block
          (set16 (st.disk ino.indir_block) (2 * (N / 16 - 11)) b))
        b (block_set_dirent zero_block 0 c s)) p { ino with size := ino.size + 64 }).disk
        ino.indir_block = set16 (st.disk ino.indir_block) (2 * (N / 16 - 11)) b := by
    rw [save_inode_disk_data _ hgC p hp _ _ (Or.inl hT.1), write_block_disk_other _ _ _ _ hTb,
      write_block_disk_same]
  refine add_entry_post_new st hg p ino hino hwf s hs c hc N hNdef hmod h523 hlow _
    { ino with size := ino.size + 64 } b
    ?_ ?_ ?_ ?_ ?_ ?_ ?_ ?_ ?_ ?_ ?_ ?_ ?_ ?_ ?_ ?_ ?_ ?_
  · rfl
  · rfl
  · exact save_inode_same _ _ _ (in_range_resize ino hr _ hwf.size_lt)
  · rw [dir_entries_resize, hNdef]
  · rfl
  · intro q hq hne
    rw [save_inode_other _ _ _ _ hne, write_block_inode_at _ hgB _ _ hb1 q hq,
      write_block_inode_at _ hgA _ _ hT.1 q hq, mark_used_inode_at st hg b hb2 q]
  · exact ⟨hb1, hb2⟩
  · exact hb3
  · rw [hbit b hb2, if_pos rfl]; decide
  · intro m hm hbm
    rw [hbit m hm]; split
    · decide
    · exact hbm
  · rw [save_inode_disk_data _ hgC p hp _ b (Or.inl hb1), write_block_disk_same]
  · intro k hk hbk hnT
    have hkb : k ≠ b := by intro h; rw [h] at hbk; exact hbk hb3
    have hkT : k ≠ ino.indir_block := fun h => hnT ⟨h176, h⟩
    rw [save_inode_disk_data _ hgC p hp _ k (Or.inl hk), write_block_disk_other _ _ _ _ hkb,
      write_block_disk_other _ _ _ _ hkT,
      mark_used_disk_data st hg b hb2 k (by have := hg.data_start; omega)]
  · intro c' hc'
    apply chunk_block_congr _ _ _ _ _ (fun _ => rfl)
    intro hc11
    rw [show ({ ino with size := ino.size + 64 } : fs_inode).indir_block = ino.indir_block from rfl,
      hdiskT, block_u16_set16_other _ _ _ _ (by omega)]
  · rw [chunk_block_indirect _ _ _ (by omega)]
    rw [show ({ ino with size := ino.size + 64 } : fs_inode).indir_block = ino.indir_block from rfl,
      hdiskT, block_u16_set16_same, Nat.mod_eq_of_lt (by omega)]
  · intro c' hc' hc11; omega
  · intro h; omega
  · intro _
    refine ⟨hT.1, hT.2, ?_, hTb, Or.inl ⟨h176, rfl⟩⟩
    show bitmap_bit _ ino.indir_block ≠ 0
    rw [hbit _ hT.2]; split
    · decide
    · exact hTu
  · intro _ c' hc' hc523
    rw [show ({ ino with size := ino.size + 64 } : fs_inode).indir_block = ino.indir_block from rfl,
      hdiskT, block_u16_set16_other _ _ _ _ (by omega)]
    exact hwf.table_unused (by simp only [DIRBLOCK_PER_INODE, DIRENTS_PER_BLOCK_eq]; exact hN) c'
      (by rw [DIRENTS_PER_BLOCK_eq, hNdef]; omega) (by simp only [DIRBLOCK_PER_INODE]; omega)
      (by simp only [DIRBLOCK_PER_INODE, BLOCKSZ, DISK_BLOCK_SIZE]; omega)

/-- The post-condition of the append that allocates the indirect table `b1`
and its first block `b2`. -/
theorem add_entry_post_table_new (st : FS) (hg : VolumeGeom st)
    (h16 : st.rootSB.block_cnt ≤ 65536) (p : Nat) (hp : p < st.rootSB.inode_cnt)
    (ino : fs_inode) (hino : inode_at st p = ino) (hwf : DirWF st ino) (s : CStr)
    (hs : IsCStr s) (c : Nat) (hc : c < 65536) (hNdef : dir_entries ino = 176)
    (hlow : ∀ e, e < 176 → entry_ino st ino e ≠ FREE)
    (b1 : Nat) (hb1 : st.rootSB.first_datablk ≤ b1) (hb2 : b1 < st.rootSB.block_cnt)
    (hb3 : bitmap_bit st b1 = 0)
    (b2 : Nat) (hc1 : st.rootSB.first_datablk ≤ b2) (hc2 : b2 < st.rootSB.block_cnt)
    (hc3 : bitmap_bit st b2 = 0) (hne : b2 ≠ b1) :
    AddEntryPost st p c s
      (save_inode (write_block (write_block
          (mark_used (write_block (mark_used st b1) b1 zero_block) b2) b1
          (set16 zero_block 0 b2))
        b2 (block_set_dirent zero_block 0 c s)) p
        { ino with size := ino.size + 64, indir_block := b1 }) 176 := by
  have hg1 := mark_used_geom st hg b1
  have hg2 := write_block_geom _ hg1 b1 zero_block hb1
  have hg3 := mark_used_geom _ hg2 b2
  have hg4 := write_block_geom _ hg3 b1 (set16 zero_block 0 b2) hb1
  have hg5 := write_block_geom _ hg4 b2 (block_set_dirent zero_block 0 c s) hc1
  have hr : InodeInRange ino := by rw [← hino]; exact inode_at_in_range st p
  have hfi : st.rootSB.first_inodeblk ≤ st.rootSB.first_datablk := by
    have := hg.data_start; omega
  have hbit : ∀ m, m < st.rootSB.block_cnt →
      bitmap_bit (save_inode (write_block (write_block
          (mark_used (write_block (mark_used st b1) b1 zero_block) b2) b1
          (set16 zero_block 0 b2))
        b2 (block_set_dirent zero_block 0 c s)) p
        { ino with size := ino.size + 64, indir_block := b1 }) m
      = if m = b2 then 1 else if m = b1 then 1 else bitmap_bit st m := by
    intro m hm
    rw [save_inode_bitmap_bit _ hg5 p hp _ m hm, write_block_bitmap_bit _ hg4 _ _ hc1 m hm,
      write_block_bitmap_bit _ hg3 _ _ hb1 m hm, mark_used_bit,
      write_block_bitmap_bit _ hg1 _ _ hb1 m hm, mark_used_bit]
  have hdisk1 : (save_inode (write_block (write_block
          (mark_used (write_block (mark_used st b1) b1 zero_block) b2) b1
          (set16 zero_block 0 b2))
        b2 (block_set_dirent zero_block 0 c s)) p
        { ino with size := ino.size + 64, indir_block := b1 }).disk b1
      = set16 zero_block 0 b2 := by
    rw [save_inode_disk_data _ hg5 p hp _ _ (Or.inl hb1),
      write_block_disk_other _ _ _ _ (fun h => hne h.symm), write_block_disk_same]
  refine add_entry_post_new st hg p ino hino hwf s hs c hc 176 hNdef (by decide) (by decide) hlow _
    { ino with size := ino.size + 64, indir_block := b1 } b2
    ?_ ?_ ?_ ?_ ?_ ?_ ?_ ?_ ?_ ?_ ?_ ?_ ?_ ?_ ?_ ?_ ?_ ?_
  · rfl
  · rfl
  · apply save_inode_same
    exact ⟨hr.type_lt, hr.nlinks_lt, hwf.size_lt, hr.dir_len, hr.dir_lt, by show b1 < 65536; omega⟩
  · simp only [dir_entries_size] at hNdef ⊢; omega
  · rfl
  · intro q hq hneq
    rw [save_inode_other _ _ _ _ hneq, write_block_inode_at _ hg4 _ _ hc1 q hq,
      write_block_inode_at _ hg3 _ _ hb1 q hq,
      mark_used_inode_at _ hg2 b2 hc2 q, write_block_inode_at _ hg1 _ _ hb1 q hq,
      mark_used_inode_at st hg b1 hb2 q]
  · exact ⟨hc1, hc2⟩
  · exact hc3
  · rw [hbit b2 hc2, if_pos rfl]; decide
  · intro m hm hbm
    rw [hbit m hm]
    split
    · decide
    · split
      · decide
      · exact hbm
  · rw [save_inode_disk_data _ hg5 p hp _ b2 (Or.inl hc1), write_block_disk_same]
  · intro k hk hbk _
    have hk2 : k ≠ b2 := by intro h; rw [h] at hbk; exact hbk hc3
    have hk1 : k ≠ b1 := by intro h; rw [h] at hbk; exact hbk hb3
    rw [save_inode_disk_data _ hg5 p hp _ k (Or.inl hk), write_block_disk_other _ _ _ _ hk2,
      write_block_disk_other _ _ _ _ hk1,
      mark_used_disk_data _ hg2 b2 hc2 k (by show st.rootSB.first_inodeblk ≤ k; omega),
      write_block_disk_other _ _ _ _ hk1,
      mark_used_disk_data st hg b1 hb2 k (by omega)]
  · intro c' hc'
    have : c' < 11 := by omega
    rw [chunk_block_direct _ _ c' this, chunk_block_direct _ _ c' this]
  · rw [chunk_block_indirect _ _ _ (by decide)]
    show block_u16 ((_ : FS).disk b1) _ = b2
    rw [hdisk1, show (176 : Nat) / 16 - 11 = 0 from rfl,
      show set16 zero_block 0 b2 = set16 zero_block (2 * 0) b2 from rfl, block_u16_set16_same,
      Nat.mod_eq_of_lt (by omega)]
  · intro c' hc' hc11; omega
  · intro h; omega
  · intro _
    refine ⟨hb1, hb2, ?_, fun h => hne h.symm, Or.inr hb3⟩
    show bitmap_bit _ b1 ≠ 0
    rw [hbit _ hb2, if_neg (fun h => hne h.symm), if_pos rfl]; decide
  · intro _ c' hc' hc523
    show block_u16 ((_ : FS).disk b1) _ = 0
    rw [hdisk1, show set16 zero_block 0 b2 = set16 zero_block (2 * 0) b2 from rfl,
      block_u16_set16_other _ 0 _ _ (by omega)]
    rfl

/-- `add_entry_to_directory` on a well-formed directory: the reuse of the
lowest free entry, or the append when no entry is free. -/
theorem add_entry_to_directory_eq (st : FS) (hg : VolumeGeom st) (p : Nat)
    (hp : p < st.rootSB.inode_cnt) (hwf : DirWF st (inode_at st p)) (s : CStr) (c : Nat)
    (hc : c < 4294967296) :
    add_entry_to_directory st (p : Int) s (c : Int) =
      match first_index (fun e => decide (entry_ino st (inode_at st p) e = FREE))
          (dir_entries (inode_at st p)) 0 with
      | some e0 =>
        some (0, put_dirent st (chunk_block st (inode_at st p) (e0 / 16)) e0 c s)
      | none => add_entry_append st (p : Int) (inode_at st p) s (c : Int) := by
  unfold add_entry_to_directory
  rw [inode_load_eq st hg p hp]
  simp only []
  rw [if_neg (by decide)]
  have hnz : ∀ c', c' * 16 < dir_entries (inode_at st p) →
      chunk_block st (inode_at st p) c' ≠ 0 := by
    intro c' hc'
    have := (hwf.chunk_data c' (by rw [DIRENTS_PER_BLOCK_eq]; exact hc')).1
    have := hg.one_le_data
    omega
  have := add_entry_reuse_eq st (inode_at st p) s (c : Int) (hwf.readable hg) hnz
    (dir_entries (inode_at st p)) 0 zero_block (-1) (by omega) (Or.inl rfl)
  rw [Nat.sub_zero, to_unsigned_natCast c hc] at this
  rw [show (inode_at st p).size / DIRENTSZ = dir_entries (inode_at st p) from rfl, this]
  cases first_index (fun e => decide (entry_ino st (inode_at st p) e = FREE))
      (dir_entries (inode_at st p)) 0 <;> rfl

/-- The outcome of `add_entry_to_directory` on a well-formed directory of a
volume of at most 65536 blocks, when the directory has a free entry or is
below its capacity of 8368 entries: it returns 0 with the post-condition, or
it returns -1 because `block_alloc` found no free block (the state is then
the one before, or the one with the indirect table allocated and zeroed). -/
theorem add_entry_spec (st : FS) (hg : VolumeGeom st) (h16 : st.rootSB.block_cnt ≤ 65536)
    (p : Nat) (hp : p < st.rootSB.inode_cnt) (hwf : DirWF st (inode_at st p)) (s : CStr)
    (hs : IsCStr s) (c : Nat) (hc : c < 65536)
    (hroom : dir_entries (inode_at st p) < 8368 ∨
      ∃ e, e < dir_entries (inode_at st p) ∧ entry_ino st (inode_at st p) e = FREE) :
    ∃ r st1, add_entry_to_directory st (p : Int) s (c : Int) = some (r, st1) ∧
      ((r = 0 ∧ ∃ e0, AddEntryPost st p c s st1 e0) ∨
       (r = -1 ∧ (∀ e, e < dir_entries (inode_at st p) → entry_ino st (inode_at st p) e ≠ FREE) ∧
         (st1 = st ∨ ∃ b1, dir_entries (inode_at st p) = 176 ∧ bitmap_bit st b1 = 0 ∧
           st1 = write_block (mark_used st b1) b1 zero_block))) := by
  rw [add_entry_to_directory_eq st hg p hp hwf s c (by omega)]
  cases hfi : first_index (fun e => decide (entry_ino st (inode_at st p) e = FREE))
      (dir_entries (inode_at st p)) 0 with
  | some e0 =>
    obtain ⟨_, h2, h3, h4⟩ := first_index_some _ _ _ _ hfi
    refine ⟨0, _, rfl, Or.inl ⟨rfl, e0, ?_⟩⟩
    apply add_entry_post_reuse st hg p hp hwf s hs c hc e0 (by omega) (by simpa using h3)
    intro e he
    have := h4 e (by omega) he
    simpa using this
  | none =>
    have hnone := first_index_none _ _ _ hfi
    have hlow : ∀ e, e < dir_entries (inode_at st p) → entry_ino st (inode_at st p) e ≠ FREE := by
      intro e he
      have := hnone e (by omega) (by omega)
      simpa using this
    have hcap : dir_entries (inode_at st p) < 8368 := by
      rcases hroom with h | ⟨e, he, hfree⟩
      · exact h
      · exact absurd hfree (hlow e he)
    simp only []
    by_cases hmod : dir_entries (inode_at st p) % 16 = 0
    · by_cases h11 : dir_entries (inode_at st p) / 16 < 11
      · rcases add_entry_append_direct_new st hg h16 p hp _ hwf s c (by omega) hmod h11 with
          ⟨_, h⟩ | ⟨b, hb1, hb2, hb3, _, h⟩
        · exact ⟨-1, st, h, Or.inr ⟨rfl, hlow, Or.inl rfl⟩⟩
        · exact ⟨0, _, h, Or.inl ⟨rfl, _, add_entry_post_direct_new st hg h16 p hp _ rfl hwf s hs
            c hc _ rfl hmod h11 hlow b hb1 hb2 hb3⟩⟩
      · by_cases h176 : dir_entries (inode_at st p) = 176
        · rcases add_entry_append_table_new st hg h16 p hp _ hwf s c (by omega) h176 with
            ⟨_, h⟩ | ⟨b1, hb1, hb2, hb3, _, h | ⟨b2, hc1, hc2, hc3, hne, _, h⟩⟩
          · exact ⟨-1, st, h, Or.inr ⟨rfl, hlow, Or.inl rfl⟩⟩
          · exact ⟨-1, _, h, Or.inr ⟨rfl, hlow, Or.inr ⟨b1, h176, hb3, rfl⟩⟩⟩
          · refine ⟨0, _, h, Or.inl ⟨rfl, 176, ?_⟩⟩
            exact add_entry_post_table_new st hg h16 p hp _ rfl hwf s hs c hc h176
              (by rw [← h176]; exact hlow) b1 hb1 hb2 hb3 b2 hc1 hc2 hc3 hne
        · rcases add_entry_append_indirect_new st hg h16 p hp _ hwf s c (by omega) hmod
            (by omega) (by omega) with ⟨_, h⟩ | ⟨b, hb1, hb2, hb3, _, h⟩
          · exact ⟨-1, st, h, Or.inr ⟨rfl, hlow, Or.inl rfl⟩⟩
          · exact ⟨0, _, h, Or.inl ⟨rfl, _, add_entry_post_indirect_new st hg h16 p hp _ rfl hwf
              s hs c hc _ rfl hmod (by omega) (by omega) hlow b hb1 hb2 hb3⟩⟩
    · rw [add_entry_append_existing st hg p hp _ hwf s c (by omega) hmod]
      exact ⟨0, _, rfl, Or.inl ⟨rfl, _, add_entry_post_existing st hg p hp _ rfl hwf s hs c hc _
        rfl hmod hlow⟩⟩

/-- The lookup after an insertion on a volume of at most 65536 blocks: for every well-formed
directory (inode `p`) that has a free entry or fewer than 8368 entries, every
name `s` of at most 61 bytes that `dir_findname` does not find in it, and every
inode number `c` with `0 < c < 65536`: if `add_entry_to_directory(p, s, c)`
returns 0, then the directory record can be loaded again, `dir_findname` on
it returns `c` for `s`, and for every other name it returns what it returned
before. -/
theorem add_entry_then_findname (st : FS) (hg : VolumeGeom st)
    (h16 : st.rootSB.block_cnt ≤ 65536) (p : Nat) (hp : p < st.rootSB.inode_cnt)
    (hwf : DirWF st (inode_at st p))
    (hroom : dir_entries (inode_at st p) < 8368 ∨
      ∃ e, e < dir_entries (inode_at st p) ∧ entry_ino st (inode_at st p) e = FREE)
    (s : CStr) (hs : IsCStr s) (hlen : s.length ≤ 61) (c : Nat) (hc0 : c ≠ 0) (hc : c < 65536)
    (habs : dir_findname st (inode_at st p) s = some (-1))
    (st1 : FS) (h : add_entry_to_directory st (p : Int) s (c : Int) = some (0, st1)) :
    inode_load st1 (p : Int) zero_inode = some (0, inode_at st1 p) ∧
    dir_findname st1 (inode_at st1 p) s = some (c : Int) ∧
    ∀ t, IsCStr t → t ≠ s →
      dir_findname st1 (inode_at st1 p) t = dir_findname st (inode_at st p) t := by
  obtain ⟨r, st1', heq, hres⟩ := add_entry_spec st hg h16 p hp hwf s hs c hc hroom
  rw [h] at heq
  injection heq with heq
  injection heq with hr hst
  subst hr hst
  rcases hres with ⟨_, e0, hpost⟩ | ⟨hr, _⟩
  · have hrd := hwf.readable hg
    have hrd1 := hpost.wf.readable hpost.geom
    rw [dir_findname_eq st _ s hwf.type hrd] at habs
    injection habs with habs
    refine ⟨inode_load_eq st1 hpost.geom p (by rw [hpost.sb]; exact hp) _, ?_, ?_⟩
    · rw [dir_findname_eq st1 _ s hpost.wf.type hrd1,
        dir_lookup_put_same st _ st1 _ e0 c s hpost.put hc0 hs hlen habs]
    · intro t ht hne
      rw [dir_findname_eq st1 _ t hpost.wf.type hrd1, dir_findname_eq st _ t hwf.type hrd,
        dir_lookup_put_other st _ st1 _ e0 c s hpost.put hc0 hs hlen t ht hne]
  · cases hr

theorem eq_some_state_of (x : Option (Int × FS)) (d : FS) (r : Int)
    (h : x.map Prod.fst = some r) : x = some (r, state_of x d) := by
  cases x with
  | none => cases h
  | some v =>
    obtain ⟨r', st⟩ := v
    simp only [Option.map_some', Option.some.injEq] at h
    subst h
    rfl

/-- The indirection boundary on a volume of at most 65536 blocks: for every well-formed
directory (inode `p`) of size 11264 whose 176 entries are all in use (its
indirect slot is then 0): if `add_entry_to_directory` returns 0, then exactly
two blocks `b1` and `b2`, free before, are marked used; `b1` is the new
indirect slot of the inode; `offset2block(dir, 11264)` returns entry 0 of
block `b1`, which is `b2`; entry 0 of block `b2` is the new entry; and `b2`
is in no direct slot. -/
theorem add_entry_indirect_boundary (st : FS) (hg : VolumeGeom st)
    (h16 : st.rootSB.block_cnt ≤ 65536) (p : Nat) (hp : p < st.rootSB.inode_cnt)
    (hwf : DirWF st (inode_at st p)) (hsize : (inode_at st p).size = 11264)
    (hused : ∀ e, e < 176 → entry_ino st (inode_at st p) e ≠ FREE)
    (s : CStr) (hs : IsCStr s) (c : Nat) (hc : c < 65536)
    (st1 : FS) (h : add_entry_to_directory st (p : Int) s (c : Int) = some (0, st1)) :
    (inode_at st p).indir_block = 0 ∧
    ∃ b1 b2, b1 ≠ b2 ∧ bitmap_bit st b1 = 0 ∧ bitmap_bit st b2 = 0 ∧
      bitmap_bit st1 b1 = 1 ∧ bitmap_bit st1 b2 = 1 ∧
      (∀ m, m < st.rootSB.block_cnt → m ≠ b1 → m ≠ b2 → bitmap_bit st1 m = bitmap_bit st m) ∧
      (inode_at st1 p).indir_block = b1 ∧ (inode_at st1 p).size = 11328 ∧
      offset2block st1 (inode_at st1 p) 11264 = some ((block_u16 (st1.disk b1) 0 : Nat) : Int) ∧
      block_u16 (st1.disk b1) 0 = b2 ∧
      dirent_ino (st1.disk b2) 0 = c ∧
      (∀ k, k < MAXFILENAME → dirent_name (st1.disk b2) 0 k = name_field s k) ∧
      (∀ j, j < DIRBLOCK_PER_INODE → (inode_at st1 p).dir_block.getD j 0 ≠ b2) := by
  have hN : dir_entries (inode_at st p) = 176 := by rw [dir_entries_size, hsize]
  have hind : (inode_at st p).indir_block = 0 :=
    hwf.indir_unused (by simp only [DIRBLOCK_PER_INODE, DIRENTS_PER_BLOCK_eq]; omega)
  refine ⟨hind, ?_⟩
  rw [add_entry_to_directory_eq st hg p hp hwf s c (by omega),
    first_index_eq_none _ _ _ (fun e _ he => by
      have := hused e (by omega)
      simpa using this)] at h
  simp only [] at h
  rcases add_entry_append_table_new st hg h16 p hp _ hwf s c (by omega) hN with
    ⟨_, h'⟩ | ⟨b1, hb1, hb2, hb3, _, h' | ⟨b2, hc1, hc2, hc3, hne, _, h'⟩⟩
  · rw [h'] at h; cases h
  · rw [h'] at h; cases h
  · rw [h'] at h
    injection h with h
    injection h with _ hst
    subst hst
    have hg1 := mark_used_geom st hg b1
    have hg2 := write_block_geom _ hg1 b1 zero_block hb1
    have hg3 := mark_used_geom _ hg2 b2
    have hg4 := write_block_geom _ hg3 b1 (set16 zero_block 0 b2) hb1
    have hg5 := write_block_geom _ hg4 b2 (block_set_dirent zero_block 0 c s) hc1
    have hr : InodeInRange (inode_at st p) := inode_at_in_range st p
    have hdev := hg.cnt_dev
    have hbit : ∀ m, m < st.rootSB.block_cnt →
        bitmap_bit (save_inode (write_block (write_block
            (mark_used (write_block (mark_used st b1) b1 zero_block) b2) b1
            (set16 zero_block 0 b2))
          b2 (block_set_dirent zero_block 0 c s)) p
          { inode_at st p with size := (inode_at st p).size + 64, indir_block := b1 }) m
        = if m = b2 then 1 else if m = b1 then 1 else bitmap_bit st m := by
      intro m hm
      rw [save_inode_bitmap_bit _ hg5 p hp _ m hm, write_block_bitmap_bit _ hg4 _ _ hc1 m hm,
        write_block_bitmap_bit _ hg3 _ _ hb1 m hm, mark_used_bit,
        write_block_bitmap_bit _ hg1 _ _ hb1 m hm, mark_used_bit]
    have hdisk1 : (save_inode (write_block (write_block
            (mark_used (write_block (mark_used st b1) b1 zero_block) b2) b1
            (set16 zero_block 0 b2))
          b2 (block_set_dirent zero_block 0 c s)) p
          { inode_at st p with size := (inode_at st p).size + 64, indir_block := b1 }).disk b1
        = set16 zero_block (2 * 0) b2 := by
      rw [save_inode_disk_data _ hg5 p hp _ _ (Or.inl hb1),
        write_block_disk_other _ _ _ _ (fun h => hne h.symm), write_block_disk_same]
    have hdisk2 : (save_inode (write_block (write_block
            (mark_used (write_block (mark_used st b1) b1 zero_block) b2) b1
            (set16 zero_block 0 b2))
          b2 (block_set_dirent zero_block 0 c s)) p
          { inode_at st p with size := (inode_at st p).size + 64, indir_block := b1 }).disk b2
        = block_set_dirent zero_block 0 c s := by
      rw [save_inode_disk_data _ hg5 p hp _ _ (Or.inl hc1), write_block_disk_same]
    have hself : inode_at (save_inode (write_block (write_block
            (mark_used (write_block (mark_used st b1) b1 zero_block) b2) b1
            (set16 zero_block 0 b2))
          b2 (block_set_dirent zero_block 0 c s)) p
          { inode_at st p with size := (inode_at st p).size + 64, indir_block := b1 }) p
        = { inode_at st p with size := (inode_at st p).size + 64, indir_block := b1 } :=
      save_inode_same _ _ _ ⟨hr.type_lt, hr.nlinks_lt, hwf.size_lt, hr.dir_len, hr.dir_lt,
        by show b1 < 65536; omega⟩
    have hu16 : block_u16 (set16 zero_block (2 * 0) b2) 0 = b2 := by
      rw [block_u16_set16_same, Nat.mod_eq_of_lt (by omega)]
    refine ⟨b1, b2, fun h => hne h.symm, hb3, hc3, ?_, ?_, ?_, ?_, ?_, ?_, ?_, ?_, ?_, ?_⟩
    · rw [hbit b1 hb2, if_neg (fun h => hne h.symm), if_pos rfl]
    · rw [hbit b2 hc2, if_pos rfl]
    · intro m hm h1 h2
      rw [hbit m hm, if_neg h2, if_neg h1]
    · rw [hself]
    · rw [hself]; show (inode_at st p).size + 64 = 11328; omega
    · rw [hself]
      unfold offset2block
      simp only [BLOCKSZ, DISK_BLOCK_SIZE, DIRBLOCK_PER_INODE]
      rw [if_neg (by decide), if_pos (by decide),
        disk_read_eq _ _ (by show b1 < st.nblocks; omega)]
    · rw [hdisk1, hu16]
    · rw [hdisk2, dirent_ino_set_same, Nat.mod_eq_of_lt hc]
    · intro k hk
      rw [hdisk2]
      exact dirent_name_set_same _ _ _ _ hs k hk
    · intro j hj
      rw [hself]
      show (inode_at st p).dir_block.getD j 0 ≠ b2
      intro heq
      have hcu := hwf.chunk_used j (by rw [DIRENTS_PER_BLOCK_eq, hN]; simp only [DIRBLOCK_PER_INODE] at hj; omega)
      rw [chunk_block_direct _ _ j (by simpa using hj), heq] at hcu
      exact hcu hc3

/-- A directory record without entries and with all slots 0 is well formed. -/
theorem DirWF.of_empty (st : FS) (ino : fs_inode) (htype : ino.type = IFDIR)
    (hN : dir_entries ino = 0) (hdir : ∀ c, c < 11 → ino.dir_block.getD c 0 = 0)
    (hind : ino.indir_block = 0) : DirWF st ino := by
  refine ⟨htype, ?_, ?_, ?_, ?_, ?_, ?_, ?_, ?_, ?_, ?_⟩
  all_goals simp only [DIRBLOCK_PER_INODE, BLOCKSZ, DISK_BLOCK_SIZE, DIRENTS_PER_BLOCK_eq, hN]
  · omega
  · intro c h; omega
  · intro c h; omega
  · intro c c' h; omega
  · intro h; omega
  · intro h; omega
  · intro h; omega
  · intro c _ h; exact hdir c h
  · intro _; exact hind
  · intro h; omega

theorem example_volume_vgeom : VolumeGeom example_volume :=
  ⟨example_volume_geom, by decide, by decide, by decide, by decide, by decide, by decide,
    by decide⟩

theorem example_volume_root_wf : DirWF example_volume (inode_at example_volume 0) :=
  DirWF.of_empty _ _ (by decide) (by decide) (by decide) (by decide)

theorem add_entry_then_findname_witness :
    dir_findname example_volume (inode_at example_volume 0) [97] = some (-1) ∧
    dir_findname (state_of (add_entry_to_directory example_volume 0 [97] 1) example_volume)
      (inode_at (state_of (add_entry_to_directory example_volume 0 [97] 1) example_volume) 0)
      [97] = some 1 :=
  ⟨by decide,
   (add_entry_then_findname example_volume example_volume_vgeom (by decide) 0 (by decide)
      example_volume_root_wf (Or.inl (by decide)) [97] (by decide) (by decide) 1 (by decide)
      (by decide) (by decide) _ (eq_some_state_of _ _ 0 (by decide))).2.1⟩

theorem example_dir176_geom : VolumeGeom example_dir176_volume :=
  ⟨⟨by decide, by decide, by decide⟩, by decide, by decide, by decide, by decide, by decide,
    by decide, by decide⟩

theorem example_dir176_chunks (c : Nat) (hc : c < 11) :
    chunk_block example_dir176_volume (inode_at example_dir176_volume 0) c = 10 + c := by
  interval_cases c <;> decide

theorem example_dir176_wf :
    DirWF example_dir176_volume (inode_at example_dir176_volume 0) := by
  have hN : dir_entries (inode_at example_dir176_volume 0) = 176 := by decide
  have hfd : example_dir176_volume.rootSB.first_datablk = 10 := by decide
  have hcnt : example_dir176_volume.rootSB.block_cnt = 1024 := by decide
  refine ⟨by decide, ?_, ?_, ?_, ?_, ?_, ?_, ?_, ?_, ?_, ?_⟩
  all_goals simp only [DIRBLOCK_PER_INODE, BLOCKSZ, DISK_BLOCK_SIZE, DIRENTS_PER_BLOCK_eq, hN]
  · omega
  · intro c h
    rw [example_dir176_chunks c (by omega), hfd, hcnt]; omega
  · intro c h
    rw [example_dir176_chunks c (by omega)]
    have hc : c < 11 := by omega
    interval_cases c <;> decide
  · intro c c' h h' heq
    rw [example_dir176_chunks c (by omega), example_dir176_chunks c' (by omega)] at heq
    omega
  · intro h; omega
  · intro h; omega
  · intro h; omega
  · intro c h h11; omega
  · intro _; decide
  · intro h; omega

set_option maxRecDepth 100000 in
theorem add_entry_indirect_boundary_witness :
    (inode_at example_dir176_volume 0).size = 11264 ∧
    (add_entry_to_directory example_dir176_volume 0 [97] 1).map Prod.fst = some 0 ∧
    (inode_at example_dir176_volume 0).indir_block = 0 :=
  ⟨by decide, by decide,
   (add_entry_indirect_boundary example_dir176_volume example_dir176_geom (by decide) 0
      (by decide) example_dir176_wf (by decide) (by decide) [97] (by decide) 1 (by decide)
      _ (eq_some_state_of _ example_dir176_volume 0 (by decide))).1⟩

/-- The append that allocates a new direct block, on a volume of any size:
the 16-bit slot of the inode keeps the block number modulo 65536. -/
theorem add_entry_append_direct_new_any (st : FS) (hg : VolumeGeom st) (p : Nat)
    (hp : p < st.rootSB.inode_cnt) (ino : fs_inode) (hwf : DirWF st ino)
    (s : CStr) (c : Nat) (hc : c < 4294967296) (hmod : dir_entries ino % 16 = 0)
    (h11 : dir_entries ino / 16 < 11) (b : Nat)
    (hb : block_alloc st = some ((b : Int), mark_used st b))
    (hb1 : st.rootSB.first_datablk ≤ b) (hb2 : b < st.rootSB.block_cnt) :
    add_entry_append st (p : Int) ino s (c : Int) = some (0,
      save_inode (write_block (mark_used st b) b (block_set_dirent zero_block 0 c s)) p
        { ino with size := ino.size + 64,
                   dir_block := ino.dir_block.set (dir_entries ino / 16) (b % 65536) }) := by
  have hslot : ino.dir_block.getD (dir_entries ino / 16) 0 = 0 :=
    hwf.direct_unused _ (by rw [DIRENTS_PER_BLOCK_eq]; omega) h11
  have hdev := hg.cnt_dev
  have hdev2 := hg.dev
  unfold add_entry_append
  simp only [← dir_entries_size, DIRENTS_PER_BLOCK_eq, DIRBLOCK_PER_INODE, DIRENTSZ]
  rw [to_unsigned_natCast c hc, if_pos h11, hslot, if_pos rfl, hb]
  simp only []
  rw [if_neg (by omega), to_unsigned_natCast b (by omega),
    disk_write_eq_write _ _ _ (by show b < st.nblocks; omega)]
  simp only [hmod]
  have hgeo : VolumeGeom (write_block (mark_used st b) b (block_set_dirent zero_block 0 c s)) :=
    write_block_geom _ (mark_used_geom st hg b) _ _ hb1
  exact add_entry_finish_eq _ hgeo p hp _ hwf.size_lt

/-- The append that allocates the indirect table and a new block, on a volume
of any size: the 16-bit fields keep the block numbers modulo 65536. -/
theorem add_entry_append_table_new_any (st : FS) (hg : VolumeGeom st) (p : Nat)
    (hp : p < st.rootSB.inode_cnt) (ino : fs_inode) (hwf : DirWF st ino)
    (s : CStr) (c : Nat) (hc : c < 4294967296) (h176 : dir_entries ino = 176) (b1 b2 : Nat)
    (hb : block_alloc st = some ((b1 : Int), mark_used st b1))
    (hb1 : st.rootSB.first_datablk ≤ b1) (hb2 : b1 < st.rootSB.block_cnt)
    (hc4 : block_alloc (write_block (mark_used st b1) b1 zero_block)
          = some ((b2 : Int), mark_used (write_block (mark_used st b1) b1 zero_block) b2))
    (hc1 : st.rootSB.first_datablk ≤ b2) (hc2 : b2 < st.rootSB.block_cnt) :
    add_entry_append st (p : Int) ino s (c : Int) = some (0,
      save_inode (write_block (write_block
          (mark_used (write_block (mark_used st b1) b1 zero_block) b2) b1
          (set16 zero_block 0 b2))
        b2 (block_set_dirent zero_block 0 c s)) p
        { ino with size := ino.size + 64, indir_block := b1 % 65536 }) := by
  have hind : ino.indir_block = 0 :=
    hwf.indir_unused (by simp only [DIRBLOCK_PER_INODE, DIRENTS_PER_BLOCK_eq]; omega)
  have hdev := hg.cnt_dev
  have hdev2 := hg.dev
  unfold add_entry_append
  simp only [← dir_entries_size, DIRENTS_PER_BLOCK_eq, DIRBLOCK_PER_INODE, DIRENTSZ]
  rw [to_unsigned_natCast c hc, if_neg (by omega), hind]
  simp only [if_true]
  rw [hb]
  simp only []
  rw [if_neg (by omega), to_unsigned_natCast b1 (by omega),
    disk_write_eq_write _ _ _ (by show b1 < st.nblocks; omega)]
  simp only [h176, show (176 : Nat) / 16 - 11 = 0 from rfl, block_u16_zero_block, if_true]
  have hg2 : VolumeGeom (write_block (mark_used st b1) b1 zero_block) :=
    write_block_geom _ (mark_used_geom st hg b1) _ _ hb1
  rw [hc4]
  simp only []
  rw [if_neg (by omega), to_unsigned_natCast b2 (by omega), to_unsigned_natCast b1 (by omega),
    disk_write_eq_write _ _ _ (by show b1 < st.nblocks; omega)]
  simp only []
  rw [disk_write_eq_write _ _ _ (by show b2 < st.nblocks; omega)]
  simp only [show (176 : Nat) % 16 = 0 from rfl, Nat.mul_zero]
  have hgeo : VolumeGeom (write_block (write_block
          (mark_used (write_block (mark_used st b1) b1 zero_block) b2) b1
          (set16 zero_block 0 b2))
        b2 (block_set_dirent zero_block 0 c s)) :=
    write_block_geom _ (write_block_geom _ (mark_used_geom _ hg2 b2) _ _ hb1) _ _ hc1
  exact add_entry_finish_eq _ hgeo p hp _ hwf.size_lt

@[simp] theorem large_volume_rootSB (t : Block) (d : Nat → Block) :
    (large_volume t d).rootSB = format_sblock 65538 := rfl

@[simp] theorem large_volume_nblocks (t : Block) (d : Nat → Block) :
    (large_volume t d).nblocks = 65538 := rfl

theorem bitmap_get_ones (b : Block) (n : Nat) (h : byte b (n / 8) = 255) : bitmap_get b n = 1 := by
  rw [bitmap_get_eq, h]
  have h8 : n % 8 < 8 := Nat.mod_lt _ (by decide)
  generalize n % 8 = k at h8
  interval_cases k <;> decide

theorem large_volume_bit_low (t : Block) (d : Nat → Block) (m : Nat) (hm : m < 65536) :
    bitmap_bit (large_volume t d) m = 1 := by
  unfold bitmap_bit
  apply bitmap_get_ones
  have h1 : BITMAPSTART + m / (BLOCKSZ * 8) ≠ 0 := by
    simp only [BITMAPSTART, BLOCKSZ, DISK_BLOCK_SIZE]; omega
  have h2 : BITMAPSTART + m / (BLOCKSZ * 8) < 9 := by
    simp only [BITMAPSTART, BLOCKSZ, DISK_BLOCK_SIZE]; omega
  show byte (if BITMAPSTART + m / (BLOCKSZ * 8) = 0 then _ else
    if BITMAPSTART + m / (BLOCKSZ * 8) < 9 then (fun _ => 255) else _) _ = 255
  rw [if_neg h1, if_pos h2]
  rfl

theorem large_volume_bit_high (t : Block) (d : Nat → Block) (m : Nat) (h1 : 65536 ≤ m)
    (h2 : m < 65538) : bitmap_bit (large_volume t d) m = 0 := by
  have h9 : (large_volume t d).disk 9 = zero_block := rfl
  have : m = 65536 ∨ m = 65537 := by omega
  rcases this with h | h <;> subst h
  · show bitmap_get ((large_volume t d).disk 9) 0 = 0
    rw [h9]; decide
  · show bitmap_get ((large_volume t d).disk 9) 1 = 0
    rw [h9]; decide

theorem large_volume_geom (t : Block) (d : Nat → Block) : VolumeGeom (large_volume t d) := by
  refine ⟨⟨?_, ?_, ?_⟩, ?_, ?_, ?_, ?_, ?_, ?_, ?_⟩
  all_goals simp only [large_volume_rootSB, large_volume_nblocks]
  all_goals try decide
  intro i hi
  rw [large_volume_bit_low t d i (by
    have : (format_sblock 65538).first_datablk = 523 := by decide
    omega)]
  decide

theorem large_volume_block_alloc (t : Block) (d : Nat → Block) :
    block_alloc (large_volume t d)
      = some (((65536 : Nat) : Int), mark_used (large_volume t d) 65536) := by
  apply block_alloc_eq _ (large_volume_geom t d).bitmap 65536
    (by rw [large_volume_rootSB]; decide)
    (large_volume_bit_high t d _ (by decide) (by decide))
  intro m hm
  rw [large_volume_bit_low t d m hm]
  decide

theorem large_volume_block_alloc_next (t : Block) (d : Nat → Block) (data : Block) :
    block_alloc (write_block (mark_used (large_volume t d) 65536) 65536 data)
      = some (((65537 : Nat) : Int),
          mark_used (write_block (mark_used (large_volume t d) 65536) 65536 data) 65537) := by
  have hg := large_volume_geom t d
  have hg1 := mark_used_geom _ hg 65536
  have hfd : (large_volume t d).rootSB.first_datablk ≤ 65536 := by
    rw [large_volume_rootSB]; decide
  have hbit : ∀ m, m < 65538 →
      bitmap_bit (write_block (mark_used (large_volume t d) 65536) 65536 data) m
        = if m = 65536 then 1 else bitmap_bit (large_volume t d) m := by
    intro m hm
    rw [write_block_bitmap_bit _ hg1 _ _ hfd _ hm, mark_used_bit]
  apply block_alloc_eq _ (write_block_geom _ hg1 _ _ hfd).bitmap 65537
    (by simp only [write_block_rootSB, mark_used_rootSB, large_volume_rootSB]; decide)
  · rw [hbit _ (by decide), if_neg (by decide)]
    exact large_volume_bit_high t d _ (by decide) (by decide)
  · intro m hm
    rw [hbit m (by omega)]
    split
    · decide
    · rw [large_volume_bit_low t d m (by omega)]; decide

theorem large_empty_root_wf : DirWF large_empty_volume (inode_at large_empty_volume 0) :=
  DirWF.of_empty _ _ (by decide) (by decide) (by decide) (by decide)

theorem large_empty_add_entry :
    add_entry_to_directory large_empty_volume 0 [97] 1 = some (0,
      save_inode (write_block (mark_used large_empty_volume 65536) 65536
          (block_set_dirent zero_block 0 1 [97])) 0
        { rootdir with size := 64, dir_block := [0, 0, 0, 0, 0, 0, 0, 0, 0, 0, 0] }) := by
  have hg : VolumeGeom large_empty_volume := large_volume_geom _ _
  have h := add_entry_to_directory_eq large_empty_volume hg 0 (by decide)
    large_empty_root_wf [97] 1 (by decide)
  rw [show first_index (fun e => decide (entry_ino large_empty_volume
        (inode_at large_empty_volume 0) e = FREE))
      (dir_entries (inode_at large_empty_volume 0)) 0 = none from by decide] at h
  have h2 := add_entry_append_direct_new_any large_empty_volume hg 0 (by decide)
    (inode_at large_empty_volume 0) large_empty_root_wf [97] 1 (by decide) (by decide) (by decide)
    65536 (large_volume_block_alloc _ _) (by decide) (by decide)
  exact h.trans h2

/-- C10 (the code at a failing input): the root of the
large volume (65538 blocks) is an empty, well-formed directory without the name "a";
`add_entry_to_directory(root, "a", 1)` returns 0, after allocating block 65536
and storing `65536 mod 65536 = 0` in the 16-bit direct slot, and `dir_findname`
on the updated directory does not find "a" (it reads block 0). -/
theorem add_entry_findname_large_volume :
    DirWF large_empty_volume (inode_at large_empty_volume 0) ∧
    dir_findname large_empty_volume (inode_at large_empty_volume 0) [97] = some (-1) ∧
    ∃ st1, add_entry_to_directory large_empty_volume 0 [97] 1 = some (0, st1) ∧
      dir_findname st1 (inode_at st1 0) [97] = some (-1) :=
  ⟨large_empty_root_wf, by decide, _, large_empty_add_entry, by decide⟩

theorem large_dir176_chunks (c : Nat) (hc : c < 11) :
    chunk_block large_dir176_volume (inode_at large_dir176_volume 0) c = 523 + c := by
  interval_cases c <;> decide

theorem large_dir176_wf :
    DirWF large_dir176_volume (inode_at large_dir176_volume 0) := by
  have hN : dir_entries (inode_at large_dir176_volume 0) = 176 := by decide
  have hfd : large_dir176_volume.rootSB.first_datablk = 523 := by decide
  have hcnt : large_dir176_volume.rootSB.block_cnt = 65538 := by decide
  refine ⟨by decide, ?_, ?_, ?_, ?_, ?_, ?_, ?_, ?_, ?_, ?_⟩
  all_goals simp only [DIRBLOCK_PER_INODE, BLOCKSZ, DISK_BLOCK_SIZE, DIRENTS_PER_BLOCK_eq, hN]
  · omega
  · intro c h
    rw [large_dir176_chunks c (by omega), hfd, hcnt]; omega
  · intro c h
    rw [large_dir176_chunks c (by omega)]
    have hb := large_volume_bit_low
    unfold large_dir176_volume
    rw [hb _ _ _ (by omega)]
    decide
  · intro c c' h h' heq
    rw [large_dir176_chunks c (by omega), large_dir176_chunks c' (by omega)] at heq
    omega
  · intro h; omega
  · intro h; omega
  · intro h; omega
  · intro c h h11; omega
  · intro _; decide
  · intro h; omega

set_option maxRecDepth 100000 in
theorem large_dir176_add_entry :
    add_entry_to_directory large_dir176_volume 0 [97] 1 = some (0,
      save_inode (write_block (write_block
          (mark_used (write_block (mark_used large_dir176_volume 65536) 65536 zero_block) 65537)
          65536 (set16 zero_block 0 65537))
        65537 (block_set_dirent zero_block 0 1 [97])) 0
        { type := IFDIR, nlinks := 0, size := 11328,
          dir_block := [523, 524, 525, 526, 527, 528, 529, 530, 531, 532, 533],
          indir_block := 0 }) := by
  have hg : VolumeGeom large_dir176_volume := large_volume_geom _ _
  have h := add_entry_to_directory_eq large_dir176_volume hg 0 (by decide)
    large_dir176_wf [97] 1 (by decide)
  rw [show first_index (fun e => decide (entry_ino large_dir176_volume
        (inode_at large_dir176_volume 0) e = FREE))
      (dir_entries (inode_at large_dir176_volume 0)) 0 = none from by decide] at h
  have h2 := add_entry_append_table_new_any large_dir176_volume hg 0 (by decide)
    (inode_at large_dir176_volume 0) large_dir176_wf [97] 1 (by decide) (by decide)
    65536 65537 (large_volume_block_alloc _ _) (by decide) (by decide)
    (large_volume_block_alloc_next _ _ _) (by decide) (by decide)
  exact h.trans h2

set_option maxRecDepth 100000 in
/-- C5 (the code at a failing input): the root of the
large volume (65538 blocks) is a well-formed directory of 176 entries, all in use, with no
indirect block. `add_entry_to_directory(root, "a", 1)` returns 0; it allocates
block 65536 as the indirect table and block 65537 for the new entry, but the
16-bit field `indir_block` keeps `65536 mod 65536 = 0` and entry 0 of the table
keeps `65537 mod 65536 = 1`. Afterwards `offset2block(root, 11264)` reads
block 0 (the superblock) as the table and returns its first 16 bits, 20517:
neither entry 0 of the allocated table nor the block that holds the new entry. -/
theorem add_entry_indirect_large_volume :
    DirWF large_dir176_volume (inode_at large_dir176_volume 0) ∧
    (inode_at large_dir176_volume 0).size = 11264 ∧
    (inode_at large_dir176_volume 0).indir_block = 0 ∧
    (∀ e, e < 176 → entry_ino large_dir176_volume (inode_at large_dir176_volume 0) e ≠ FREE) ∧
    block_alloc large_dir176_volume
      = some (65536, mark_used large_dir176_volume 65536) ∧
    block_alloc (write_block (mark_used large_dir176_volume 65536) 65536 zero_block)
      = some (65537,
          mark_used (write_block (mark_used large_dir176_volume 65536) 65536 zero_block) 65537) ∧
    ∃ st1, add_entry_to_directory large_dir176_volume 0 [97] 1 = some (0, st1) ∧
      offset2block st1 (inode_at st1 0) 11264 = some 20517 ∧
      block_u16 (st1.disk 65536) 0 = 1 ∧
      dirent_ino (st1.disk 65537) 0 = 1 ∧
      dirent_ino (st1.disk 20517) 0 = 0 ∧
      dirent_ino (st1.disk 1) 0 ≠ 1 :=
  ⟨large_dir176_wf, by decide, by decide, by decide, large_volume_block_alloc _ _,
    large_volume_block_alloc_next _ _ _, _, large_dir176_add_entry,
    by decide, by decide, by decide, by decide, by decide⟩

/-! ### `strtok` and the components of a path -/

theorem dropWhile_append_of_ne_nil {α : Type} (p : α → Bool) : ∀ (a x : List α),
    a.dropWhile p ≠ [] → (a ++ x).dropWhile p = a.dropWhile p ++ x := by
  intro a
  induction a with
  | nil => intro x h; exact absurd rfl h
  | cons y ys ih =>
    intro x h
    rw [List.cons_append, List.dropWhile_cons, List.dropWhile_cons]
    rw [List.dropWhile_cons] at h
    by_cases hy : p y = true
    · rw [if_pos hy] at h ⊢
      rw [if_pos hy]
      exact ih x h
    · rw [if_neg hy, if_neg hy]
      rfl

theorem takeWhile_append_stop {α : Type} (p : α → Bool) (y : α) (hy : p y = false) :
    ∀ (s x : List α), (s ++ y :: x).takeWhile p = s.takeWhile p := by
  intro s
  induction s with
  | nil => intro x; simp [List.takeWhile_cons, hy]
  | cons z zs ih =>
    intro x
    rw [List.cons_append, List.takeWhile_cons, List.takeWhile_cons, ih x]

theorem dropWhile_append_stop {α : Type} (p : α → Bool) (y : α) (hy : p y = false) :
    ∀ (s x : List α), (s ++ y :: x).dropWhile p = s.dropWhile p ++ y :: x := by
  intro s
  induction s with
  | nil => intro x; simp [List.dropWhile_cons, hy]
  | cons z zs ih =>
    intro x
    rw [List.cons_append, List.dropWhile_cons, List.dropWhile_cons, ih x]
    by_cases hz : p z = true
    · rw [if_pos hz, if_pos hz]
    · rw [if_neg hz, if_neg hz]; rfl

theorem takeWhile_all {α : Type} (p : α → Bool) : ∀ (s : List α), (∀ c ∈ s, p c = true) →
    s.takeWhile p = s := by
  intro s h
  exact List.takeWhile_eq_self_iff.mpr h

theorem dropWhile_all {α : Type} (p : α → Bool) (s : List α) (h : ∀ c ∈ s, p c = true) :
    s.dropWhile p = [] := List.dropWhile_eq_nil_iff.mpr h

theorem dropWhile_head_false {α : Type} (p : α → Bool) (y : α) (ys : List α) (hy : p y = false) :
    (y :: ys).dropWhile p = y :: ys := by
  rw [List.dropWhile_cons, if_neg (by rw [hy]; exact Bool.false_ne_true)]

/-- A string without `/` that is not empty is its own single token. -/
theorem strtok_name (name : CStr) (hne : name ≠ []) (hns : SLASH ∉ name) :
    strtok name = some (name, []) := by
  unfold strtok
  cases name with
  | nil => exact absurd rfl hne
  | cons y ys =>
    have hy : y ≠ SLASH := fun h => hns (by rw [h]; exact List.mem_cons_self _ _)
    have h1 : (y :: ys).dropWhile (fun c => decide (c = SLASH)) = y :: ys :=
      dropWhile_head_false _ _ _ (by simpa using hy)
    have hall : ∀ c ∈ y :: ys, (fun c => decide (c ≠ SLASH)) c = true := by
      intro c hc
      have : c ≠ SLASH := fun h => hns (h ▸ hc)
      simpa using this
    simp only [h1]
    rw [if_neg (by simp), takeWhile_all _ _ hall, dropWhile_all _ _ hall]
    rfl

/-- When no token is left in `a`, the first token of `a/name` is `name`. -/
theorem strtok_append_none (a name : CStr) (ha : strtok a = none) (hne : name ≠ [])
    (hns : SLASH ∉ name) : strtok (a ++ SLASH :: name) = some (name, []) := by
  have hd : a.dropWhile (fun c => decide (c = SLASH)) = [] := by
    unfold strtok at ha
    by_contra h
    simp only [] at ha
    rw [if_neg h] at ha
    cases ha
  have hall := List.dropWhile_eq_nil_iff.mp hd
  have hn := strtok_name name hne hns
  unfold strtok at hn ⊢
  have e : (a ++ SLASH :: name).dropWhile (fun c => decide (c = SLASH))
      = name.dropWhile (fun c => decide (c = SLASH)) := by
    rw [List.dropWhile_append_of_pos hall, List.dropWhile_cons, if_pos (by simp)]
  simp only [e]
  exact hn

/-- The first token of `a/name` is the first token of `a` when `a` has one;
what remains is what remains of `a`, followed by `/name`, or `name` alone
when the token ended `a`. -/
theorem strtok_append_some (a name t r : CStr) (ha : strtok a = some (t, r)) :
    ∃ r1, strtok (a ++ SLASH :: name) = some (t, r1) ∧
      (r1 = r ++ SLASH :: name ∨ (r = [] ∧ r1 = name)) := by
  unfold strtok at ha ⊢
  simp only [] at ha ⊢
  by_cases hd : a.dropWhile (fun c => decide (c = SLASH)) = []
  · rw [if_pos hd] at ha; cases ha
  · rw [if_neg hd] at ha
    injection ha with ha
    injection ha with ht hr
    rw [dropWhile_append_of_ne_nil _ a _ hd, if_neg (by simp [hd]),
      takeWhile_append_stop _ SLASH (by simp), dropWhile_append_stop _ SLASH (by simp), ht]
    refine ⟨_, rfl, ?_⟩
    rw [← hr]
    cases hdd : (a.dropWhile (fun c => decide (c = SLASH))).dropWhile
        (fun c => decide (c ≠ SLASH)) with
    | nil => right; exact ⟨rfl, rfl⟩
    | cons z zs => left; rfl

theorem strtok_length (s t r : CStr) (h : strtok s = some (t, r)) : r.length < s.length := by
  unfold strtok at h
  simp only [] at h
  by_cases hd : s.dropWhile (fun c => decide (c = SLASH)) = []
  · rw [if_pos hd] at h; cases h
  · rw [if_neg hd] at h
    injection h with h
    injection h with ht hr
    have h1 := List.takeWhile_append_dropWhile (fun c => decide (c = SLASH)) s
    have h2 := List.takeWhile_append_dropWhile (fun c => decide (c ≠ SLASH))
      (s.dropWhile (fun c => decide (c = SLASH)))
    have h3 := congrArg List.length h1
    have h4 := congrArg List.length h2
    rw [List.length_append] at h3 h4
    have h5 : t ≠ [] := by
      rw [← ht]
      cases hs : s.dropWhile (fun c => decide (c = SLASH)) with
      | nil => exact absurd hs hd
      | cons y ys =>
        have := List.head_dropWhile_not (fun c => decide (c = SLASH)) s hd
        simp only [hs, List.head_cons] at this
        rw [List.takeWhile_cons, if_pos (by simpa using this)]
        exact List.cons_ne_nil _ _
    have h6 : 0 < t.length := List.length_pos.mpr h5
    rw [ht] at h4
    rw [← hr, List.length_drop]
    omega

theorem strtok_cstr (s t r : CStr) (hs : IsCStr s) (h : strtok s = some (t, r)) :
    IsCStr t ∧ IsCStr r := by
  unfold strtok at h
  simp only [] at h
  by_cases hd : s.dropWhile (fun c => decide (c = SLASH)) = []
  · rw [if_pos hd] at h; cases h
  · rw [if_neg hd] at h
    injection h with h
    injection h with ht hr
    have hsub : ∀ c ∈ s.dropWhile (fun c => decide (c = SLASH)), c ∈ s :=
      fun c hc => (List.dropWhile_sublist _).subset hc
    constructor
    · intro c hc
      rw [← ht] at hc
      exact hs c (hsub c ((List.takeWhile_sublist _).subset hc))
    · intro c hc
      rw [← hr] at hc
      exact hs c (hsub c ((List.dropWhile_sublist _).subset (List.mem_of_mem_drop hc)))

theorem path_tokens_fuel_eq : ∀ (f g : Nat) (s : CStr), s.length < f → s.length < g →
    path_tokens_fuel f s = path_tokens_fuel g s := by
  intro f
  induction f with
  | zero => intro g s h; omega
  | succ f ih =>
    intro g s hf hg
    cases g with
    | zero => omega
    | succ g =>
      unfold path_tokens_fuel
      cases hs : strtok s with
      | none => rfl
      | some v =>
        obtain ⟨t, r⟩ := v
        have := strtok_length s t r hs
        simp only []
        rw [ih g r (by omega) (by omega)]

theorem path_tokens_eq (f : Nat) (s : CStr) (h : s.length < f) :
    path_tokens_fuel f s = path_tokens s :=
  path_tokens_fuel_eq f _ s h (Nat.lt_succ_self _)

theorem path_tokens_of_strtok (s t r : CStr) (h : strtok s = some (t, r)) :
    path_tokens s = t :: path_tokens r := by
  unfold path_tokens
  rw [path_tokens_fuel, h]
  simp only []
  rw [path_tokens_fuel_eq s.length (r.length + 1) r (strtok_length s t r h) (Nat.lt_succ_self _)]

theorem path_tokens_of_none (s : CStr) (h : strtok s = none) : path_tokens s = [] := by
  unfold path_tokens
  rw [path_tokens_fuel, h]

theorem path_tokens_nil : path_tokens [] = [] := rfl

theorem path_tokens_name (name : CStr) (hne : name ≠ []) (hns : SLASH ∉ name) :
    path_tokens name = [name] := by
  rw [path_tokens_of_strtok _ _ _ (strtok_name name hne hns), path_tokens_nil]

/-- The components of `a/name` are those of `a`, then `name`. -/
theorem path_tokens_append (name : CStr) (hne : name ≠ []) (hns : SLASH ∉ name) :
    ∀ (n : Nat) (a : CStr), a.length ≤ n →
      path_tokens (a ++ SLASH :: name) = path_tokens a ++ [name] := by
  intro n
  induction n with
  | zero =>
    intro a ha
    have : a = [] := List.length_eq_zero.mp (by omega)
    subst this
    rw [path_tokens_of_strtok _ _ _ (strtok_append_none [] name rfl hne hns), path_tokens_nil]
    rfl
  | succ n ih =>
    intro a ha
    cases hs : strtok a with
    | none =>
      rw [path_tokens_of_strtok _ _ _ (strtok_append_none a name hs hne hns),
        path_tokens_of_none a hs, path_tokens_nil]
      rfl
    | some v =>
      obtain ⟨t, r⟩ := v
      obtain ⟨r1, h1, h2⟩ := strtok_append_some a name t r hs
      have hlen := strtok_length a t r hs
      rw [path_tokens_of_strtok _ _ _ h1, path_tokens_of_strtok _ _ _ hs]
      rcases h2 with h2 | ⟨h2, h3⟩
      · rw [h2, ih r (by omega)]
        rfl
      · rw [h3, h2, path_tokens_name name hne hns, path_tokens_nil]
        rfl

theorem path_tokens_cstr : ∀ (f : Nat) (s : CStr), IsCStr s →
    ∀ t ∈ path_tokens_fuel f s, IsCStr t := by
  intro f
  induction f with
  | zero => intro s _ t ht; cases ht
  | succ f ih =>
    intro s hs t ht
    unfold path_tokens_fuel at ht
    cases h : strtok s with
    | none => rw [h] at ht; cases ht
    | some v =>
      obtain ⟨t1, r⟩ := v
      rw [h] at ht
      simp only [List.mem_cons] at ht
      have := strtok_cstr s t1 r hs h
      rcases ht with ht | ht
      · rw [ht]; exact this.1
      · exact ih r this.2 t ht

/-- With enough fuel the loop of `get_inode` is the walk over the components. -/
theorem get_inode_loop_eq (st : FS) : ∀ (f : Nat) (rest : CStr) (curr : Int),
    rest.length < f → get_inode_loop st f rest curr = path_walk st (path_tokens rest) curr := by
  intro f
  induction f with
  | zero => intro rest curr h; omega
  | succ f ih =>
    intro rest curr h
    unfold get_inode_loop
    cases hs : strtok rest with
    | none => rw [path_tokens_of_none rest hs]; rfl
    | some v =>
      obtain ⟨t, r⟩ := v
      rw [path_tokens_of_strtok rest t r hs]
      simp only []
      unfold path_walk path_step
      cases hl : inode_load st curr zero_inode with
      | none => rfl
      | some w =>
        obtain ⟨rr, ci⟩ := w
        simp only []
        by_cases h1 : rr = -1
        · simp only [h1, if_true]
        · simp only [if_neg h1]
          by_cases h2 : ci.type ≠ IFDIR
          · simp only [if_pos h2, if_true]
          · simp only [if_neg h2]
            cases hf : dir_findname st ci t with
            | none => rfl
            | some nx =>
              simp only []
              by_cases h3 : nx = -1
              · simp only [h3, if_true]
              · simp only [if_neg h3]
                exact ih r nx (by have := strtok_length rest t r hs; omega)

theorem get_inode_eq (st : FS) (path_name : CStr) :
    get_inode st path_name = path_walk st (path_tokens path_name) ROOTINO := by
  unfold get_inode
  by_cases h : path_name = [SLASH] ∨ path_name = []
  · rw [if_pos h]
    rcases h with h | h <;> subst h <;> rfl
  · rw [if_neg h]
    exact get_inode_loop_eq st _ _ _ (Nat.lt_succ_self _)

/-! ### Splitting a path into parent and file name -/

theorem strrchr_none (c : Nat) : ∀ (s : CStr), strrchr s c = none → c ∉ s := by
  intro s
  induction s with
  | nil => intro _ h; cases h
  | cons x xs ih =>
    intro h
    unfold strrchr at h
    cases hx : strrchr xs c with
    | some i => rw [hx] at h; cases h
    | none =>
      rw [hx] at h
      simp only [] at h
      by_cases hxc : x = c
      · rw [if_pos hxc] at h; cases h
      · intro hm
        rcases List.mem_cons.mp hm with hm | hm
        · exact hxc hm.symm
        · exact ih hx hm

theorem strrchr_some (c : Nat) : ∀ (s : CStr) (k : Nat), strrchr s c = some k →
    k < s.length ∧ s = s.take k ++ c :: s.drop (k + 1) ∧ c ∉ s.drop (k + 1) := by
  intro s
  induction s with
  | nil => intro k h; cases h
  | cons x xs ih =>
    intro k h
    unfold strrchr at h
    cases hx : strrchr xs c with
    | some i =>
      rw [hx] at h
      injection h with h
      subst h
      obtain ⟨h1, h2, h3⟩ := ih i hx
      refine ⟨by simp only [List.length_cons]; omega, ?_, ?_⟩
      · rw [List.take_succ_cons, List.drop_succ_cons, List.cons_append, ← h2]
      · rw [List.drop_succ_cons]; exact h3
    | none =>
      rw [hx] at h
      simp only [] at h
      by_cases hxc : x = c
      · rw [if_pos hxc] at h
        injection h with h
        subst h
        refine ⟨by simp, ?_, ?_⟩
        · simp [hxc]
        · simpa using strrchr_none c xs hx
      · rw [if_neg hxc] at h; cases h

theorem IsCStr.append_left {a b : CStr} (h : IsCStr (a ++ b)) : IsCStr a :=
  fun c hc => h c (List.mem_append_left _ hc)

theorem IsCStr.append_right {a b : CStr} (h : IsCStr (a ++ b)) : IsCStr b :=
  fun c hc => h c (List.mem_append_right _ hc)

theorem IsCStr.tail {x : Nat} {b : CStr} (h : IsCStr (x :: b)) : IsCStr b :=
  fun c hc => h c (List.mem_cons_of_mem _ hc)

/-- The components of a path with a file name: `get_parent_inode` walks all
components but the last, `get_inode` walks them all, and the last is the name
that `get_filename` returns. -/
theorem path_split (P name : CStr) (hP : P ≠ []) (hf : get_filename P = some name) :
    name ≠ [] ∧ SLASH ∉ name ∧ (IsCStr P → IsCStr name) ∧
    ∃ ts : List CStr, (IsCStr P → ∀ t ∈ ts, IsCStr t) ∧
      ∀ st, get_parent_inode st P = path_walk st ts ROOTINO ∧
        get_inode st P = path_walk st (ts ++ [name]) ROOTINO := by
  have hlen : P.length ≠ 0 := fun h => hP (List.length_eq_zero.mp h)
  unfold get_filename at hf
  cases hk : strrchr P SLASH with
  | none =>
    rw [hk] at hf
    injection hf with hf
    subst hf
    have hns := strrchr_none SLASH P hk
    refine ⟨hP, hns, fun h => h, [], ⟨fun _ t ht => absurd ht (List.not_mem_nil t), fun st => ⟨?_, ?_⟩⟩⟩
    · unfold get_parent_inode
      rw [if_neg hlen, hk]
      rfl
    · rw [get_inode_eq, path_tokens_name P hP hns]
      rfl
  | some k =>
    rw [hk] at hf
    simp only [] at hf
    by_cases hd : P.drop (k + 1) = []
    · rw [if_pos hd] at hf; cases hf
    · rw [if_neg hd] at hf
      injection hf with hf
      obtain ⟨h1, h2, h3⟩ := strrchr_some SLASH P k hk
      rw [hf] at h2 h3
      rw [hf] at hd
      have hname : IsCStr P → IsCStr name := fun h => by
        rw [h2] at h
        exact (IsCStr.append_right h).tail
      have htok : path_tokens P = path_tokens (P.take k) ++ [name] := by
        conv => lhs; rw [h2]
        exact path_tokens_append name hd h3 _ _ (le_refl _)
      refine ⟨hd, h3, hname, path_tokens (P.take k), ⟨?_, fun st => ⟨?_, ?_⟩⟩⟩
      · intro h t ht
        refine path_tokens_cstr _ _ ?_ t ht
        rw [h2] at h
        exact IsCStr.append_left h
      · unfold get_parent_inode
        rw [if_neg hlen, hk]
        simp only []
        by_cases hk0 : k = 0
        · rw [if_pos hk0]
          subst hk0
          rfl
        · rw [if_neg hk0, get_inode_eq]
          cases path_walk st (path_tokens (P.take k)) ROOTINO with
          | none => rfl
          | some r =>
            simp only []
            by_cases hr : r = -1
            · rw [if_pos hr, hr]
            · rw [if_neg hr]
      · rw [get_inode_eq, htok]

/-! ### Frames: what a change elsewhere leaves of a directory and of a walk -/

theorem DirWF.owns_data {st : FS} {ino : fs_inode} (h : DirWF st ino) (k : Nat)
    (hk : DirOwns st ino k) :
    st.rootSB.first_datablk ≤ k ∧ k < st.rootSB.block_cnt ∧ bitmap_bit st k ≠ 0 := by
  rcases hk with ⟨c, hc, rfl⟩ | ⟨hN, rfl⟩
  · exact ⟨(h.chunk_data c hc).1, (h.chunk_data c hc).2, h.chunk_used c hc⟩
  · exact ⟨(h.indir_data hN).1, (h.indir_data hN).2, h.indir_used hN⟩

/-- The chunks of a directory are where they were when its blocks are unchanged. -/
theorem dir_frame_chunk (st st1 : FS) (ino : fs_inode)
    (hdisk : ∀ k, DirOwns st ino k → st1.disk k = st.disk k) (c : Nat)
    (hc : c * DIRENTS_PER_BLOCK < dir_entries ino) :
    chunk_block st1 ino c = chunk_block st ino c := by
  apply chunk_block_congr _ _ _ _ _ (fun _ => rfl)
  intro h11
  rw [hdisk ino.indir_block (Or.inr ⟨by
    simp only [DIRBLOCK_PER_INODE, DIRENTS_PER_BLOCK_eq] at hc ⊢; omega, rfl⟩)]

theorem dir_frame_owns (st st1 : FS) (ino : fs_inode)
    (hdisk : ∀ k, DirOwns st ino k → st1.disk k = st.disk k) (k : Nat) :
    DirOwns st1 ino k ↔ DirOwns st ino k := by
  constructor
  · rintro (⟨c, hc, rfl⟩ | ⟨hN, rfl⟩)
    · exact Or.inl ⟨c, hc, (dir_frame_chunk st st1 ino hdisk c hc).symm⟩
    · exact Or.inr ⟨hN, rfl⟩
  · rintro (⟨c, hc, rfl⟩ | ⟨hN, rfl⟩)
    · exact Or.inl ⟨c, hc, dir_frame_chunk st st1 ino hdisk c hc⟩
    · exact Or.inr ⟨hN, rfl⟩

theorem dir_frame_entry_data (st st1 : FS) (ino : fs_inode)
    (hdisk : ∀ k, DirOwns st ino k → st1.disk k = st.disk k) (e : Nat)
    (he : e < dir_entries ino) : entry_data st1 ino e = entry_data st ino e := by
  have hc : e / DIRENTS_PER_BLOCK * DIRENTS_PER_BLOCK < dir_entries ino := by
    rw [DIRENTS_PER_BLOCK_eq]; omega
  unfold entry_data
  rw [dir_frame_chunk st st1 ino hdisk _ hc]
  exact hdisk _ (Or.inl ⟨_, hc, rfl⟩)

theorem dir_frame_lookup (st st1 : FS) (ino : fs_inode)
    (hdisk : ∀ k, DirOwns st ino k → st1.disk k = st.disk k) (t : CStr) :
    dir_lookup st1 ino t = dir_lookup st ino t := by
  have hm : ∀ e, e < dir_entries ino → entry_matches st1 ino t e = entry_matches st ino t e := by
    intro e he
    unfold entry_matches entry_ino
    rw [dir_frame_entry_data st st1 ino hdisk e he]
  have hi : ∀ e, e < dir_entries ino → entry_ino st1 ino e = entry_ino st ino e := by
    intro e he
    unfold entry_ino
    rw [dir_frame_entry_data st st1 ino hdisk e he]
  unfold dir_lookup
  rw [first_index_congr _ (entry_matches st ino t) _ 0 (fun e _ he => hm e (by omega))]
  cases hfi : first_index (entry_matches st ino t) (dir_entries ino) 0 with
  | none => rfl
  | some e =>
    have := (first_index_some _ _ _ _ hfi).2.1
    simp only []
    rw [hi e (by omega)]

theorem dir_frame_readable (st st1 : FS) (ino : fs_inode) (hr : DirReadable st ino)
    (hnb : st1.nblocks = st.nblocks)
    (hdisk : ∀ k, DirOwns st ino k → st1.disk k = st.disk k) : DirReadable st1 ino := by
  refine ⟨by rw [hnb]; exact hr.dev, hr.cap, fun h => by rw [hnb]; exact hr.indir h,
    fun c hc => ?_⟩
  rw [hnb, dir_frame_chunk st st1 ino hdisk c hc]
  exact hr.blocks c hc

theorem dir_frame_findname (st st1 : FS) (ino : fs_inode) (hg : VolumeGeom st)
    (hwf : DirWF st ino) (hnb : st1.nblocks = st.nblocks)
    (hdisk : ∀ k, DirOwns st ino k → st1.disk k = st.disk k) (t : CStr) :
    dir_findname st1 ino t = dir_findname st ino t := by
  have hr := hwf.readable hg
  rw [dir_findname_eq st ino t hwf.type hr,
    dir_findname_eq st1 ino t hwf.type (dir_frame_readable st st1 ino hr hnb hdisk),
    dir_frame_lookup st st1 ino hdisk t]

theorem dir_frame_wf (st st1 : FS) (ino : fs_inode) (hwf : DirWF st ino)
    (hsb : st1.rootSB = st.rootSB)
    (hdisk : ∀ k, DirOwns st ino k → st1.disk k = st.disk k)
    (hbits : ∀ k, DirOwns st ino k → bitmap_bit st1 k ≠ 0) : DirWF st1 ino :=
  hwf.transport hsb (fun hN => hdisk _ (Or.inr ⟨hN, rfl⟩)) hbits

/-- A volume stays well formed under a change that keeps every directory but
`p` (record and blocks), when `p`, if it is a directory afterwards, is well
formed and has taken only blocks that were its own or free. -/
theorem VolumeWF.carry_volume {st st1 : FS} (h : VolumeWF st) (hg1 : VolumeGeom st1)
    (hsb : st1.rootSB = st.rootSB) (p : Nat)
    (hother : ∀ q, q < st.rootSB.inode_cnt → q ≠ p → (inode_at st1 q).type = IFDIR →
      inode_at st1 q = inode_at st q)
    (hdisk : ∀ q, q < st.rootSB.inode_cnt → q ≠ p → (inode_at st q).type = IFDIR →
      ∀ k, DirOwns st (inode_at st q) k → st1.disk k = st.disk k ∧ bitmap_bit st1 k ≠ 0)
    (hp : (inode_at st1 p).type = IFDIR → DirWF st1 (inode_at st1 p) ∧
      ∀ k, DirOwns st1 (inode_at st1 p) k →
        ((inode_at st p).type = IFDIR ∧ DirOwns st (inode_at st p) k) ∨ bitmap_bit st k = 0) :
    VolumeWF st1 := by
  have hkeep : ∀ q, q < st.rootSB.inode_cnt → q ≠ p → (inode_at st1 q).type = IFDIR →
      (inode_at st q).type = IFDIR ∧ DirWF st (inode_at st q) ∧
      ∀ k, DirOwns st1 (inode_at st1 q) k ↔ DirOwns st (inode_at st q) k := by
    intro q hq hne ht
    have e := hother q hq hne ht
    rw [e] at ht
    refine ⟨ht, h.dirs q hq ht, fun k => ?_⟩
    rw [e]
    exact dir_frame_owns st st1 _ (fun k hk => (hdisk q hq hne ht k hk).1) k
  refine ⟨hg1, ?_, ?_⟩
  · intro q hq ht
    rw [hsb] at hq
    by_cases hqp : q = p
    · subst hqp; exact (hp ht).1
    · have e := hother q hq hqp ht
      obtain ⟨ht0, hwf, _⟩ := hkeep q hq hqp ht
      rw [e]
      exact dir_frame_wf st st1 _ hwf hsb (fun k hk => (hdisk q hq hqp ht0 k hk).1)
        (fun k hk => (hdisk q hq hqp ht0 k hk).2)
  · intro q q1 hq hq1 hne ht ht1 k hk hk1
    rw [hsb] at hq hq1
    have key : ∀ a, a < st.rootSB.inode_cnt → a ≠ p → (inode_at st1 a).type = IFDIR →
        DirOwns st1 (inode_at st1 a) k → DirOwns st1 (inode_at st1 p) k →
        (inode_at st1 p).type = IFDIR → p < st.rootSB.inode_cnt → False := by
      intro a ha hap hta hka hkp htp hpc
      obtain ⟨hta0, hwfa, hiff⟩ := hkeep a ha hap hta
      have hka0 := (hiff k).mp hka
      rcases (hp htp).2 k hkp with ⟨htp0, hkp0⟩ | hfree
      · exact h.disjoint a p ha hpc hap hta0 htp0 k hka0 hkp0
      · exact (hwfa.owns_data k hka0).2.2 hfree
    by_cases hqp : q = p
    · subst hqp
      exact key q1 hq1 (Ne.symm hne) ht1 hk1 hk ht hq
    · by_cases hq1p : q1 = p
      · subst hq1p
        exact key q hq hqp ht hk hk1 ht1 hq1
      · obtain ⟨ht0, _, hiff⟩ := hkeep q hq hqp ht
        obtain ⟨ht10, _, hiff1⟩ := hkeep q1 hq1 hq1p ht1
        exact h.disjoint q q1 hq hq1 hne ht0 ht10 k ((hiff k).mp hk) ((hiff1 k).mp hk1)

/-! ### Walks -/

theorem IsDirIno.cast {st : FS} {n : Int} (h : IsDirIno st n) :
    n = ((n.toNat : Nat) : Int) ∧ n.toNat < st.rootSB.inode_cnt := by
  obtain ⟨h0, h1, _⟩ := h
  constructor <;> omega

theorem path_step_dir (st : FS) (hg : VolumeGeom st) (c : Int) (t : CStr)
    (hc : IsDirIno st c) : path_step st c t = dir_findname st (inode_at st c.toNat) t := by
  obtain ⟨e, hlt⟩ := hc.cast
  unfold path_step
  rw [e, inode_load_eq st hg _ hlt]
  simp only [Int.toNat_ofNat]
  rw [if_neg (by decide), if_neg (by simp [hc.2.2])]

/-- A step from an inode that is not a directory of the table yields -1. -/
theorem path_step_not_dir (st : FS) (hg : VolumeGeom st) (c : Int) (t : CStr)
    (hc : ¬ IsDirIno st c) : path_step st c t = some (-1) := by
  unfold path_step
  by_cases hr : c < 0 ∨ c ≥ st.rootSB.inode_cnt
  · rw [inode_load_out_of_range st c _ hr]
    rfl
  · have h0 : 0 ≤ c := by omega
    have e : c = ((c.toNat : Nat) : Int) := by omega
    have hlt : c.toNat < st.rootSB.inode_cnt := by omega
    rw [e, inode_load_eq st hg _ hlt]
    simp only [Int.toNat_ofNat]
    rw [if_neg (by decide), if_pos]
    intro ht
    exact hc ⟨h0, by omega, ht⟩

theorem path_walk_cons_dir (st : FS) (hg : VolumeGeom st) (t : CStr) (ts : List CStr) (c r : Int)
    (h : path_walk st (t :: ts) c = some r) (hr : r ≠ -1) :
    IsDirIno st c ∧ ∃ n, dir_findname st (inode_at st c.toNat) t = some n ∧ n ≠ -1 ∧
      path_walk st ts n = some r := by
  by_cases hc : IsDirIno st c
  · refine ⟨hc, ?_⟩
    unfold path_walk at h
    rw [path_step_dir st hg c t hc] at h
    cases hf : dir_findname st (inode_at st c.toNat) t with
    | none => rw [hf] at h; cases h
    | some n =>
      rw [hf] at h
      simp only [] at h
      by_cases hn : n = -1
      · rw [if_pos hn] at h
        injection h with h
        exact absurd h.symm hr
      · rw [if_neg hn] at h
        exact ⟨n, rfl, hn, h⟩
  · unfold path_walk at h
    rw [path_step_not_dir st hg c t hc] at h
    simp only [if_true] at h
    injection h with h
    exact absurd h.symm hr

theorem path_walk_start (st : FS) (hg : VolumeGeom st) (ts : List CStr) (c r : Int)
    (h : path_walk st ts c = some r) (hr : IsDirIno st r) : IsDirIno st c := by
  cases ts with
  | nil =>
    unfold path_walk at h
    injection h with h
    rw [h]; exact hr
  | cons t ts =>
    exact (path_walk_cons_dir st hg t ts c r h (by have := hr.1; omega)).1

/-- A walk that ends in a directory is the same walk after a change that keeps,
in every directory, the entries that name directories. -/
theorem path_walk_frame (st st1 : FS) (hg : VolumeGeom st) (hg1 : VolumeGeom st1)
    (hsb : st1.rootSB = st.rootSB)
    (hstep : ∀ q, q < st.rootSB.inode_cnt → (inode_at st q).type = IFDIR →
      ∀ t, IsCStr t → ∀ n, dir_findname st (inode_at st q) t = some n → IsDirIno st n →
        (inode_at st1 q).type = IFDIR ∧ dir_findname st1 (inode_at st1 q) t = some n) :
    ∀ (ts : List CStr), (∀ t ∈ ts, IsCStr t) → ∀ (c r : Int),
      path_walk st ts c = some r → IsDirIno st r → path_walk st1 ts c = some r := by
  intro ts
  induction ts with
  | nil => intro _ c r h _; exact h
  | cons t ts ih =>
    intro hts c r h hr
    obtain ⟨hc, n, hf, hn, hw⟩ := path_walk_cons_dir st hg t ts c r h (by have := hr.1; omega)
    have hnd : IsDirIno st n := path_walk_start st hg ts n r hw hr
    obtain ⟨e, hlt⟩ := hc.cast
    obtain ⟨ht1, hf1⟩ := hstep c.toNat hlt hc.2.2 t (hts t (List.mem_cons_self _ _)) n hf hnd
    have hc1 : IsDirIno st1 c := ⟨hc.1, by rw [hsb]; exact hc.2.1, ht1⟩
    unfold path_walk
    rw [path_step_dir st1 hg1 c t hc1, hf1]
    simp only []
    rw [if_neg hn]
    exact ih (fun t ht => hts t (List.mem_cons_of_mem _ ht)) n r hw hr

theorem path_walk_append (st : FS) (name : CStr) : ∀ (ts : List CStr) (c : Int),
    path_walk st (ts ++ [name]) c =
      match path_walk st ts c with
      | none => none
      | some r => path_walk st [name] r := by
  intro ts
  induction ts with
  | nil => intro c; rfl
  | cons t ts ih =>
    intro c
    rw [List.cons_append]
    unfold path_walk
    cases hs : path_step st c t with
    | none => rfl
    | some n =>
      simp only []
      by_cases hn : n = -1
      · rw [if_pos hn, if_pos hn]
        simp only []
        unfold path_step
        rw [inode_load_out_of_range st (-1) _ (Or.inl (by decide))]
        rfl
      · rw [if_neg hn, if_neg hn]
        exact ih n

/-! ### `inode_alloc` -/

theorem inode_alloc_scan_some (block : Block) : ∀ (fuel i j : Nat),
    inode_alloc_scan block fuel i = some j →
      j < INODES_PER_BLOCK ∧ (block_inode block j).type = IFFREE := by
  intro fuel
  induction fuel with
  | zero => intro i j h; cases h
  | succ f ih =>
    intro i j h
    unfold inode_alloc_scan at h
    by_cases hi : i < INODES_PER_BLOCK
    · rw [if_pos hi] at h
      by_cases ht : (block_inode block i).type = IFFREE
      · rw [if_pos ht] at h
        injection h with h
        subst h
        exact ⟨hi, ht⟩
      · rw [if_neg ht] at h
        exact ih _ _ h
    · rw [if_neg hi] at h; cases h

theorem inode_alloc_loop_some (st : FS) : ∀ (fuel blk : Nat) (r : Int),
    inode_alloc_loop st fuel blk = some r →
      r = -1 ∨ ∃ i : Nat, r = (i : Int) ∧ (inode_at st i).type = IFFREE := by
  intro fuel
  induction fuel with
  | zero =>
    intro blk r h
    unfold inode_alloc_loop at h
    injection h with h
    exact Or.inl h.symm
  | succ f ih =>
    intro blk r h
    unfold inode_alloc_loop at h
    unfold disk_read at h
    by_cases hb : st.rootSB.first_inodeblk + blk ≥ st.nblocks
    · rw [if_pos hb] at h; cases h
    · rw [if_neg hb] at h
      simp only [] at h
      cases hs : inode_alloc_scan (st.disk (st.rootSB.first_inodeblk + blk)) INODES_PER_BLOCK 0 with
      | some j =>
        rw [hs] at h
        simp only [] at h
        injection h with h
        obtain ⟨hj, ht⟩ := inode_alloc_scan_some _ _ _ _ hs
        right
        refine ⟨blk * INODES_PER_BLOCK + j, h.symm, ?_⟩
        unfold inode_at
        rw [INODES_PER_BLOCK_eq] at hj ⊢
        rw [show (blk * 32 + j) / 32 = blk by omega, show (blk * 32 + j) % 32 = j by omega]
        exact ht
      | none =>
        rw [hs] at h
        simp only [] at h
        by_cases hn : blk + 1 < st.rootSB.inode_blocks
        · rw [if_pos hn] at h
          exact ih _ _ h
        · rw [if_neg hn] at h
          injection h with h
          exact Or.inl h.symm

/-- An inode number that `inode_alloc` returns names a free inode record. -/
theorem inode_alloc_some (st : FS) (r : Int) (h : inode_alloc st = some r) :
    r = -1 ∨ ∃ i : Nat, r = (i : Int) ∧ (inode_at st i).type = IFFREE :=
  inode_alloc_loop_some st _ _ r h

/-! ### Saving an inode record that is not a directory before -/

theorem new_inode_in_range (ty nl : Nat) (hty : ty < 65536) (hnl : nl < 65536) :
    InodeInRange { zero_inode with type := ty, nlinks := nl, size := 0 } := by
  refine ⟨hty, hnl, show (0 : Nat) < 4294967296 by decide,
    show (List.replicate 11 0).length = 11 by decide, ?_, show (0 : Nat) < 65536 by decide⟩
  intro j
  show (List.replicate 11 0).getD j 0 < 65536
  by_cases hj : j < 11
  · interval_cases j <;> decide
  · rw [List.getD_eq_default _ _ (by simp; omega)]
    decide

theorem not_owns_of_empty (st : FS) (ino : fs_inode) (h : dir_entries ino = 0) (k : Nat) :
    ¬ DirOwns st ino k := by
  rintro (⟨c, hc, _⟩ | ⟨hN, _⟩)
  · rw [h] at hc; omega
  · rw [h] at hN; omega

/-- Saving a record `new` with no entries at an inode `i` that is not a
directory keeps the volume well formed. -/
theorem save_inode_wf (st : FS) (h : VolumeWF st) (i : Nat) (hi : i < st.rootSB.inode_cnt)
    (new : fs_inode) (hnew : InodeInRange new)
    (hempty : new.type = IFDIR →
      dir_entries new = 0 ∧ (∀ c, c < 11 → new.dir_block.getD c 0 = 0) ∧ new.indir_block = 0) :
    VolumeWF (save_inode st i new) := by
  have hg1 := save_inode_geom st h.geom i hi new
  refine h.carry_volume hg1 rfl i (fun q _ hq _ => save_inode_other st i q new hq) ?_ ?_
  · intro q hq hne ht k hk
    obtain ⟨h1, h2, h3⟩ := (h.dirs q hq ht).owns_data k hk
    exact ⟨save_inode_disk_data st h.geom i hi new k (Or.inl h1),
      by rw [save_inode_bitmap_bit st h.geom i hi new k h2]; exact h3⟩
  · intro ht
    rw [save_inode_same st i new hnew] at ht ⊢
    obtain ⟨e1, e2, e3⟩ := hempty ht
    exact ⟨DirWF.of_empty _ _ ht e1 e2 e3, fun k hk => absurd hk (not_owns_of_empty _ _ e1 k)⟩

/-- The lookups in the directories are the same after an inode record that
is not a directory was saved. -/
theorem save_inode_findname (st : FS) (h : VolumeWF st) (i : Nat) (hi : i < st.rootSB.inode_cnt)
    (hfree : (inode_at st i).type ≠ IFDIR) (new : fs_inode)
    (q : Nat) (hq : q < st.rootSB.inode_cnt) (ht : (inode_at st q).type = IFDIR) (t : CStr) :
    inode_at (save_inode st i new) q = inode_at st q ∧
    dir_findname (save_inode st i new) (inode_at (save_inode st i new) q) t
      = dir_findname st (inode_at st q) t := by
  have hne : q ≠ i := fun e => hfree (e ▸ ht)
  have e := save_inode_other st i q new hne
  refine ⟨e, ?_⟩
  rw [e]
  exact dir_frame_findname st (save_inode st i new) _ h.geom (h.dirs q hq ht) rfl
    (fun k hk => save_inode_disk_data st h.geom i hi new k
      (Or.inl ((h.dirs q hq ht).owns_data k hk).1)) t

theorem save_inode_walk (st : FS) (h : VolumeWF st) (i : Nat) (hi : i < st.rootSB.inode_cnt)
    (hfree : (inode_at st i).type ≠ IFDIR) (new : fs_inode)
    (ts : List CStr) (hts : ∀ t ∈ ts, IsCStr t) (c r : Int)
    (hw : path_walk st ts c = some r) (hr : IsDirIno st r) :
    path_walk (save_inode st i new) ts c = some r := by
  refine path_walk_frame st _ h.geom (save_inode_geom st h.geom i hi new) rfl ?_ ts hts c r hw hr
  intro q hq ht t _ n hf _
  obtain ⟨e1, e2⟩ := save_inode_findname st h i hi hfree new q hq ht t
  exact ⟨by rw [e1]; exact ht, by rw [e2]; exact hf⟩

/-! ### Adding an entry -/

/-- A volume stays well formed when an entry is added to one of its directories. -/
theorem add_entry_wf (st : FS) (h : VolumeWF st) (p c : Nat) (s : CStr) (st1 : FS) (e0 : Nat)
    (hp : p < st.rootSB.inode_cnt) (htp : (inode_at st p).type = IFDIR)
    (hpost : AddEntryPost st p c s st1 e0) : VolumeWF st1 := by
  refine h.carry_volume hpost.geom hpost.sb p (fun q hq hne _ => hpost.inodes q hq hne) ?_ ?_
  · intro q hq hne ht k hk
    obtain ⟨h1, h2, h3⟩ := (h.dirs q hq ht).owns_data k hk
    exact ⟨hpost.frame k h1 h3 (h.disjoint q p hq hp hne ht htp k hk), hpost.bits_mono k h2 h3⟩
  · intro _
    refine ⟨hpost.wf, fun k hk => ?_⟩
    rcases hpost.fresh k hk with h1 | h1
    · exact Or.inl ⟨htp, h1⟩
    · exact Or.inr h1

theorem add_entry_findname_other (st : FS) (h : VolumeWF st) (p c : Nat) (s : CStr) (st1 : FS)
    (e0 : Nat) (hp : p < st.rootSB.inode_cnt) (htp : (inode_at st p).type = IFDIR)
    (hpost : AddEntryPost st p c s st1 e0)
    (q : Nat) (hq : q < st.rootSB.inode_cnt) (hne : q ≠ p) (ht : (inode_at st q).type = IFDIR)
    (t : CStr) :
    inode_at st1 q = inode_at st q ∧
    dir_findname st1 (inode_at st1 q) t = dir_findname st (inode_at st q) t := by
  have e := hpost.inodes q hq hne
  refine ⟨e, ?_⟩
  rw [e]
  refine dir_frame_findname st st1 _ h.geom (h.dirs q hq ht) hpost.nb (fun k hk => ?_) t
  obtain ⟨h1, _, h3⟩ := (h.dirs q hq ht).owns_data k hk
  exact hpost.frame k h1 h3 (h.disjoint q p hq hp hne ht htp k hk)

/-- After the entry `(c, s)` was added to directory `p`, which had no entry
named `s`, a walk that ended in a directory ends in the same directory. -/
theorem add_entry_walk (st : FS) (h : VolumeWF st) (p c : Nat) (s : CStr) (st1 : FS)
    (e0 : Nat) (hp : p < st.rootSB.inode_cnt) (htp : (inode_at st p).type = IFDIR)
    (hpost : AddEntryPost st p c s st1 e0) (hc : c ≠ 0) (hs : IsCStr s) (hlen : s.length ≤ 61)
    (habs : dir_findname st (inode_at st p) s = some (-1))
    (ts : List CStr) (hts : ∀ t ∈ ts, IsCStr t) (c0 r : Int)
    (hw : path_walk st ts c0 = some r) (hr : IsDirIno st r) :
    path_walk st1 ts c0 = some r := by
  refine path_walk_frame st _ h.geom hpost.geom hpost.sb ?_ ts hts c0 r hw hr
  intro q hq ht t htc n hf hn
  by_cases hqp : q = p
  · subst hqp
    have hne : t ≠ s := by
      intro e
      rw [e, habs] at hf
      injection hf with hf
      have := hn.1
      omega
    have hrd := (h.dirs q hq ht).readable h.geom
    have hrd1 := hpost.wf.readable hpost.geom
    refine ⟨hpost.wf.type, ?_⟩
    rw [dir_findname_eq st1 _ t hpost.wf.type hrd1,
      dir_lookup_put_other st _ st1 _ e0 c s hpost.put hc hs hlen t htc hne,
      ← dir_findname_eq st _ t ht hrd]
    exact hf
  · obtain ⟨e1, e2⟩ := add_entry_findname_other st h p c s st1 e0 hp htp hpost q hq hqp ht t
    exact ⟨by rw [e1]; exact ht, by rw [e2]; exact hf⟩

/-- After the entry `(c, s)` was added to directory `p`, which had no entry
named `s`, the lookup of `s` in `p` yields `c`. -/
theorem add_entry_findname_new (st : FS) (h : VolumeWF st) (p c : Nat) (s : CStr) (st1 : FS)
    (e0 : Nat) (hp : p < st.rootSB.inode_cnt) (htp : (inode_at st p).type = IFDIR)
    (hpost : AddEntryPost st p c s st1 e0) (hc : c ≠ 0) (hs : IsCStr s) (hlen : s.length ≤ 61)
    (habs : dir_findname st (inode_at st p) s = some (-1)) :
    dir_findname st1 (inode_at st1 p) s = some (c : Int) := by
  have hrd := (h.dirs p hp htp).readable h.geom
  have hrd1 := hpost.wf.readable hpost.geom
  rw [dir_findname_eq st _ s htp hrd] at habs
  injection habs with habs
  rw [dir_findname_eq st1 _ s hpost.wf.type hrd1,
    dir_lookup_put_same st _ st1 _ e0 c s hpost.put hc hs hlen habs]

/-! ### `fs_create` and `fs_mkdir` -/

theorem ret_neg_one {st st2 : FS} {r : Int} (h : some ((-1 : Int), st) = some (r, st2))
    (hr : r ≠ -1) : False := by
  injection h with h
  injection h with h _
  exact hr h.symm

/-- What a successful `fs_create` (or `fs_mkdir`) of the path `P` has done:
it found the parent directory `p` by the walk over the components before the
last, found no entry named `name` in it, took the free inode `i`, saved the
new record and added the entry `(i, name)` to `p`. -/
theorem fs_create_as_spec (ty : Nat) (hty : ty < 65536) (st : FS) (hwf : VolumeWF st)
    (h16 : st.rootSB.block_cnt ≤ 65536) (hic : st.rootSB.inode_cnt ≤ 65536)
    (hroom : ∀ q, q < st.rootSB.inode_cnt → (inode_at st q).type = IFDIR →
      dir_entries (inode_at st q) < 8368)
    (P : CStr) (hP : IsCStr P) (name : CStr) (hname : get_filename P = some name)
    (r : Int) (st2 : FS)
    (h : fs_create_as ty st P = some (r, st2)) (hr : r ≠ -1) :
    ∃ (p i e0 : Nat) (ts : List CStr),
      r = (i : Int) ∧ p < st.rootSB.inode_cnt ∧ i < st.rootSB.inode_cnt ∧
      check_rootSB st = 0 ∧ IsCStr name ∧ (∀ t ∈ ts, IsCStr t) ∧
      (∀ s, get_parent_inode s P = path_walk s ts ROOTINO ∧
        get_inode s P = path_walk s (ts ++ [name]) ROOTINO) ∧
      path_walk st ts ROOTINO = some (p : Int) ∧
      (inode_at st p).type = IFDIR ∧
      dir_findname st (inode_at st p) name = some (-1) ∧
      (inode_at st i).type = IFFREE ∧
      AddEntryPost (save_inode st i { zero_inode with type := ty, nlinks := 1, size := 0 })
        p i name st2 e0 := by
  unfold fs_create_as at h
  by_cases hchk : check_rootSB st = -1
  · rw [if_pos hchk] at h; exact absurd h (fun h => ret_neg_one h hr)
  rw [if_neg hchk] at h
  by_cases hl : P.length = 0
  · rw [if_pos hl] at h; exact absurd h (fun h => ret_neg_one h hr)
  rw [if_neg hl, hname] at h
  simp only [] at h
  have hPne : P ≠ [] := fun e => hl (by rw [e]; rfl)
  obtain ⟨_, _, hnc, ts, hts, hsplit⟩ := path_split P name hPne hname
  cases hpar : get_parent_inode st P with
  | none => rw [hpar] at h; cases h
  | some parent =>
  rw [hpar] at h
  simp only [] at h
  by_cases hp1 : parent = -1
  · rw [if_pos hp1] at h; exact absurd h (fun h => ret_neg_one h hr)
  rw [if_neg hp1] at h
  by_cases hrange : parent < 0 ∨ parent ≥ st.rootSB.inode_cnt
  · rw [inode_load_out_of_range st parent _ hrange] at h
    simp only [if_true] at h
    exact absurd h (fun h => ret_neg_one h hr)
  obtain ⟨p, rfl⟩ : ∃ p : Nat, parent = (p : Int) := ⟨parent.toNat, by omega⟩
  have hp : p < st.rootSB.inode_cnt := by omega
  rw [inode_load_eq st hwf.geom p hp] at h
  simp only [] at h
  rw [if_neg (by decide)] at h
  by_cases htp : (inode_at st p).type ≠ IFDIR
  · rw [if_pos htp] at h; exact absurd h (fun h => ret_neg_one h hr)
  rw [if_neg htp] at h
  have htp : (inode_at st p).type = IFDIR := not_not.mp htp
  cases hfind : dir_findname st (inode_at st p) name with
  | none => rw [hfind] at h; cases h
  | some found =>
  rw [hfind] at h
  simp only [] at h
  by_cases hfound : found ≠ -1
  · rw [if_pos hfound] at h; exact absurd h (fun h => ret_neg_one h hr)
  rw [if_neg hfound] at h
  have hfound : found = -1 := not_not.mp hfound
  subst hfound
  cases halloc : inode_alloc st with
  | none => rw [halloc] at h; cases h
  | some ni =>
  rw [halloc] at h
  simp only [] at h
  by_cases hni : ni = -1
  · rw [if_pos hni] at h; exact absurd h (fun h => ret_neg_one h hr)
  rw [if_neg hni] at h
  rcases inode_alloc_some st ni halloc with hni1 | ⟨i, rfl, hfree⟩
  · exact absurd hni1 hni
  by_cases hi : i < st.rootSB.inode_cnt
  swap
  · rw [inode_save_out_of_range st _ _ (Or.inr (by omega))] at h
    simp only [if_true] at h
    exact absurd h (fun h => ret_neg_one h hr)
  rw [inode_save_eq_save st hwf.geom i hi] at h
  simp only [] at h
  rw [if_neg (by decide)] at h
  -- the state after the record was saved
  have hnotdir : (inode_at st i).type ≠ IFDIR := by rw [hfree]; decide
  have hnew := new_inode_in_range ty 1 hty (by decide)
  have hwf1 : VolumeWF (save_inode st i { zero_inode with type := ty, nlinks := 1, size := 0 }) :=
    save_inode_wf st hwf i hi _ hnew (fun _ => ⟨Nat.zero_div _, fun c hc => by
      show (List.replicate 11 0).getD c 0 = 0
      interval_cases c <;> rfl, rfl⟩)
  have hpi : p ≠ i := fun e => hnotdir (e ▸ htp)
  have e1 := save_inode_other st i p { zero_inode with type := ty, nlinks := 1, size := 0 } hpi
  have hcs := hnc hP
  obtain ⟨r2, st2a, hadd, hres⟩ := add_entry_spec _ hwf1.geom h16 p hp
    (hwf1.dirs p hp (by rw [e1]; exact htp)) name hcs i (by omega)
    (Or.inl (by rw [e1]; exact hroom p hp htp))
  rw [hadd] at h
  simp only [] at h
  rcases hres with ⟨hr2, e0, hpost⟩ | ⟨hr2, _⟩
  · subst hr2
    rw [if_neg (by decide)] at h
    injection h with h
    injection h with h1 h2
    subst h2
    exact ⟨p, i, e0, ts, h1.symm, hp, hi, by
      unfold check_rootSB at hchk ⊢
      by_cases hm : st.rootSB.magic ≠ FS_MAGIC
      · rw [if_pos hm] at hchk; exact absurd rfl hchk
      · rw [if_neg hm], hcs, hts hP, hsplit, by rw [← (hsplit st).1]; exact hpar, htp, hfind,
      hfree, hpost⟩
  · subst hr2
    rw [if_pos rfl] at h
    cases hfr : inode_free st2a (i : Int) with
    | none => rw [hfr] at h; cases h
    | some v =>
      rw [hfr] at h
      exact absurd h (fun h => ret_neg_one h hr)

theorem check_rootSB_congr (st st1 : FS) (h : st1.rootSB = st.rootSB) :
    check_rootSB st1 = check_rootSB st := by
  unfold check_rootSB
  rw [h]

/-- The volume after a successful `fs_create` (or `fs_mkdir`) of the path `P`
whose last component `name` has at most 61 bytes: it is well formed, the walk
to the parent directory `p` is as before, `name` is found there with the new
inode number `i`, and so `get_inode(P)` returns `i`; inode `i` holds the new
record. -/
theorem fs_create_as_after (ty : Nat) (hty : ty < 65536) (st : FS) (hwf : VolumeWF st)
    (h16 : st.rootSB.block_cnt ≤ 65536) (hic : st.rootSB.inode_cnt ≤ 65536)
    (hroom : ∀ q, q < st.rootSB.inode_cnt → (inode_at st q).type = IFDIR →
      dir_entries (inode_at st q) < 8368)
    (P : CStr) (hP : IsCStr P) (name : CStr) (hname : get_filename P = some name)
    (hlen : name.length ≤ 61) (r : Int) (st2 : FS)
    (h : fs_create_as ty st P = some (r, st2)) (hr : r ≠ -1) :
    ∃ (p i e0 : Nat),
      r = (i : Int) ∧ p < st.rootSB.inode_cnt ∧ i < st.rootSB.inode_cnt ∧ i ≠ p ∧ i ≠ 0 ∧
      VolumeWF st2 ∧ st2.rootSB = st.rootSB ∧ check_rootSB st2 = 0 ∧
      get_parent_inode st P = some (p : Int) ∧ get_parent_inode st2 P = some (p : Int) ∧
      (inode_at st p).type = IFDIR ∧ (inode_at st2 p).type = IFDIR ∧
      (inode_at st i).type = IFFREE ∧
      dir_findname st2 (inode_at st2 p) name = some (i : Int) ∧
      get_inode st2 P = some (i : Int) ∧
      inode_at st2 i = { zero_inode with type := ty, nlinks := 1, size := 0 } ∧
      inode_at (save_inode st i { zero_inode with type := ty, nlinks := 1, size := 0 }) p
        = inode_at st p ∧
      AddEntryPost (save_inode st i { zero_inode with type := ty, nlinks := 1, size := 0 })
        p i name st2 e0 := by
  obtain ⟨p, i, e0, ts, hri, hp, hi, hchk, hcs, hts, hsplit, hwalk, htp, habs, hfree, hpost⟩ :=
    fs_create_as_spec ty hty st hwf h16 hic hroom P hP name hname r st2 h hr
  have hnotdir : (inode_at st i).type ≠ IFDIR := by rw [hfree]; decide
  have hnew := new_inode_in_range ty 1 hty (by decide)
  have hpi : p ≠ i := fun e => hnotdir (e ▸ htp)
  have hwf1 : VolumeWF (save_inode st i { zero_inode with type := ty, nlinks := 1, size := 0 }) :=
    save_inode_wf st hwf i hi _ hnew (fun _ => ⟨Nat.zero_div _, fun c hc => by
      show (List.replicate 11 0).getD c 0 = 0
      interval_cases c <;> rfl, rfl⟩)
  have hpd : IsDirIno st (p : Int) := ⟨by omega, by omega, by rw [Int.toNat_ofNat]; exact htp⟩
  have hroot : IsDirIno st ROOTINO := path_walk_start st hwf.geom ts _ _ hwalk hpd
  have hi0 : i ≠ 0 := by
    intro e
    subst e
    exact hnotdir hroot.2.2
  obtain ⟨e1, e2⟩ := save_inode_findname st hwf i hi hnotdir
    { zero_inode with type := ty, nlinks := 1, size := 0 } p hp htp name
  have htp1 : (inode_at (save_inode st i { zero_inode with type := ty, nlinks := 1, size := 0 })
      p).type = IFDIR := by rw [e1]; exact htp
  have hwalk1 := save_inode_walk st hwf i hi hnotdir
    { zero_inode with type := ty, nlinks := 1, size := 0 } ts hts _ _ hwalk hpd
  have hpd1 : IsDirIno (save_inode st i { zero_inode with type := ty, nlinks := 1, size := 0 })
      (p : Int) := ⟨hpd.1, hpd.2.1, by rw [Int.toNat_ofNat]; exact htp1⟩
  have habs1 := e2.trans habs
  have hwalk2 := add_entry_walk _ hwf1 p i name st2 e0 hp htp1 hpost hi0 hcs hlen habs1 ts hts
    _ _ hwalk1 hpd1
  have hfind2 := add_entry_findname_new _ hwf1 p i name st2 e0 hp htp1 hpost hi0 hcs hlen habs1
  have hwf2 := add_entry_wf _ hwf1 p i name st2 e0 hp htp1 hpost
  have hsb2 : st2.rootSB = st.rootSB := hpost.sb
  have hpd2 : IsDirIno st2 (p : Int) :=
    ⟨hpd.1, by rw [hsb2]; exact hpd.2.1, by rw [Int.toNat_ofNat]; exact hpost.wf.type⟩
  refine ⟨p, i, e0, hri, hp, hi, Ne.symm hpi, hi0, hwf2, hsb2, ?_, ?_, ?_, htp, hpost.wf.type,
    hfree, hfind2, ?_, ?_, e1, hpost⟩
  · rw [check_rootSB_congr st st2 hsb2]; exact hchk
  · rw [(hsplit st).1]; exact hwalk
  · rw [(hsplit st2).1]; exact hwalk2
  · rw [(hsplit st2).2, path_walk_append, hwalk2]
    simp only []
    unfold path_walk
    rw [path_step_dir st2 hwf2.geom _ name hpd2, Int.toNat_ofNat, hfind2]
    simp only []
    rw [if_neg (by omega)]
    rfl
  · rw [hpost.inodes i hi (Ne.symm hpi)]
    exact save_inode_same _ i _ hnew

theorem example_volume_wf : VolumeWF example_volume := by
  have hdir : ∀ q, q < example_volume.rootSB.inode_cnt →
      (inode_at example_volume q).type = IFDIR → q = 0 := by decide
  refine ⟨example_volume_vgeom, ?_, ?_⟩
  · intro q hq ht
    rw [hdir q hq ht]
    exact example_volume_root_wf
  · intro q q1 hq hq1 hne ht ht1
    exact absurd ((hdir q hq ht).trans (hdir q1 hq1 ht1).symm) hne

/-- Claim C1 fails for a name of more than 61 bytes: on the example volume (4
blocks, empty root), `fs_create` of "/" followed by 62 letters `a` returns
inode 1, and `get_inode` of the same path on the resulting volume returns -1
(the entry holds the first 61 bytes of the name only). -/
theorem fs_create_long_name_lost :
    VolumeWF example_volume ∧
    (fs_create example_volume (47 :: List.replicate 62 97)).map Prod.fst = some 1 ∧
    get_inode (state_of (fs_create example_volume (47 :: List.replicate 62 97)) example_volume)
      (47 :: List.replicate 62 97) = some (-1) :=
  ⟨example_volume_wf, by decide, by decide⟩

/-- C1 (amended): on a well-formed mounted volume of at most 65536 blocks and
65536 inodes in which no directory holds 8368 entries, for every path `P`
whose last component has at most 61 bytes: if `fs_create(P)` succeeds and
returns `i`, then `get_inode(P)` on the resulting volume returns `i`, and
inode `i` loads as a regular file with `nlinks = 1` and `size = 0`. -/
theorem fs_create_then_get_inode (st : FS) (hwf : VolumeWF st)
    (h16 : st.rootSB.block_cnt ≤ 65536) (hic : st.rootSB.inode_cnt ≤ 65536)
    (hroom : ∀ q, q < st.rootSB.inode_cnt → (inode_at st q).type = IFDIR →
      dir_entries (inode_at st q) < 8368)
    (P : CStr) (hP : IsCStr P) (name : CStr) (hname : get_filename P = some name)
    (hlen : name.length ≤ 61) (i : Int) (st2 : FS)
    (h : fs_create st P = some (i, st2)) (hi : i ≠ -1) :
    get_inode st2 P = some i ∧
    ∃ ino, inode_load st2 i zero_inode = some (0, ino) ∧
      ino.type = IFREG ∧ ino.nlinks = 1 ∧ ino.size = 0 := by
  obtain ⟨p, n, e0, hri, hp, hn, _, _, hwf2, hsb2, _, _, _, _, _, _, _, hget, hino, _, _⟩ :=
    fs_create_as_after IFREG (by decide) st hwf h16 hic hroom P hP name hname hlen i st2 h hi
  subst hri
  refine ⟨hget, inode_at st2 n, inode_load_eq st2 hwf2.geom n (by rw [hsb2]; exact hn) _, ?_⟩
  rw [hino]
  exact ⟨rfl, rfl, rfl⟩

theorem fs_create_then_get_inode_witness :
    (fs_create example_volume [47, 97]).map Prod.fst = some 1 ∧
    get_inode (state_of (fs_create example_volume [47, 97]) example_volume) [47, 97] = some 1 :=
  ⟨by decide,
   (fs_create_then_get_inode example_volume example_volume_wf (by decide) (by decide) (by decide)
      [47, 97] (by decide) [97] (by decide) (by decide) 1 _
      (eq_some_state_of _ example_volume 1 (by decide)) (by decide)).1⟩

/-- Claim C2 fails for a name of more than 61 bytes: on the example volume,
`fs_create` of "/" followed by 62 letters `a` returns inode 1, and the
immediately following `fs_create` of the same path returns inode 2 instead
of -1: a second entry and a second inode are made. -/
theorem fs_create_twice_long_name :
    VolumeWF example_volume ∧
    (fs_create example_volume (47 :: List.replicate 62 97)).map Prod.fst = some 1 ∧
    (fs_create
      (state_of (fs_create example_volume (47 :: List.replicate 62 97)) example_volume)
      (47 :: List.replicate 62 97)).map Prod.fst = some 2 :=
  ⟨example_volume_wf, by decide, by decide⟩

/-- C2 (amended): on a well-formed mounted volume of at most 65536 blocks and
65536 inodes in which no directory holds 8368 entries, for every path `P`
whose last component has at most 61 bytes: if `fs_create(P)` succeeds, an
immediately following `fs_create(P)` returns -1 and leaves the volume as it
is (every block unchanged). -/
theorem fs_create_twice (st : FS) (hwf : VolumeWF st)
    (h16 : st.rootSB.block_cnt ≤ 65536) (hic : st.rootSB.inode_cnt ≤ 65536)
    (hroom : ∀ q, q < st.rootSB.inode_cnt → (inode_at st q).type = IFDIR →
      dir_entries (inode_at st q) < 8368)
    (P : CStr) (hP : IsCStr P) (name : CStr) (hname : get_filename P = some name)
    (hlen : name.length ≤ 61) (i : Int) (st2 : FS)
    (h : fs_create st P = some (i, st2)) (hi : i ≠ -1) :
    fs_create st2 P = some (-1, st2) := by
  obtain ⟨p, n, e0, hri, hp, hn, _, _, hwf2, hsb2, hchk, _, hpar, _, htp, _, hfind, _, _, _, _⟩ :=
    fs_create_as_after IFREG (by decide) st hwf h16 hic hroom P hP name hname hlen i st2 h hi
  have hl : P.length ≠ 0 := by
    intro e
    have : P = [] := List.length_eq_zero.mp e
    subst this
    unfold fs_create fs_create_as at h
    by_cases hc : check_rootSB st = -1
    · rw [if_pos hc] at h; exact ret_neg_one h hi
    · rw [if_neg hc, if_pos (show ([] : CStr).length = 0 from rfl)] at h
      exact ret_neg_one h hi
  unfold fs_create fs_create_as
  rw [hchk, if_neg (by decide), if_neg hl, hname]
  simp only []
  rw [hpar]
  simp only []
  rw [if_neg (by omega), inode_load_eq st2 hwf2.geom p (by rw [hsb2]; exact hp)]
  simp only []
  rw [if_neg (by decide), if_neg (by simp [htp]), hfind]
  simp only []
  rw [if_pos (by omega)]

theorem fs_create_twice_witness :
    (fs_create example_volume [47, 97]).map Prod.fst = some 1 ∧
    (fs_create (state_of (fs_create example_volume [47, 97]) example_volume) [47, 97]).map
      Prod.fst = some (-1) :=
  ⟨by decide,
   congrArg (Option.map Prod.fst)
     (fs_create_twice example_volume example_volume_wf (by decide) (by decide) (by decide)
      [47, 97] (by decide) [97] (by decide) (by decide) 1 _
      (eq_some_state_of _ example_volume 1 (by decide)) (by decide))⟩

/-! ### `dir_remove_entry` -/

theorem dir_remove_scan_eq (block : Block) (name : CStr) (remaining : Nat) :
    ∀ fuel d, d + fuel = 16 →
      dir_remove_scan block name remaining fuel d =
        first_index (fun d => decide (dirent_ino block d ≠ FREE ∧
          strncmp (dirent_name block d) (cstr_at name) MAXFILENAME 0 = 0))
          (min 16 remaining - d) d := by
  intro fuel
  induction fuel with
  | zero =>
    intro d hd
    have : min 16 remaining - d = 0 := by omega
    rw [this]; rfl
  | succ fuel ih =>
    intro d hd
    unfold dir_remove_scan
    simp only [DIRENTS_PER_BLOCK_eq]
    by_cases hg : d < 16 ∧ d < remaining
    · rw [if_pos hg]
      obtain ⟨k, hk⟩ : ∃ k, min 16 remaining - d = k + 1 := ⟨min 16 remaining - d - 1, by omega⟩
      rw [hk]
      unfold first_index
      by_cases hm : dirent_ino block d ≠ FREE ∧
          strncmp (dirent_name block d) (cstr_at name) MAXFILENAME 0 = 0
      · rw [if_pos hm]; simp [hm]
      · rw [if_neg hm]
        simp only [hm, decide_False, Bool.false_eq_true, if_false]
        rw [ih (d + 1) (by omega), show min 16 remaining - (d + 1) = k by omega]
    · rw [if_neg hg]
      have : min 16 remaining - d = 0 := by omega
      rw [this]; rfl

/-- The state after entry `e` of a directory was freed by `dir_remove_entry`. -/
theorem dir_remove_loop_eq (st : FS) (ino : fs_inode) (name : CStr) (hr : DirReadable st ino)
    (hnz : ∀ c, c * 16 < dir_entries ino → chunk_block st ino c ≠ 0) :
    ∀ fuel c, dir_entries ino - 16 * c ≤ fuel →
      dir_remove_loop st ino name fuel (dir_entries ino - 16 * c) (1024 * c) =
        some (match first_index (entry_matches st ino name) (dir_entries ino - 16 * c) (16 * c) with
          | some e => (((entry_ino st ino e : Nat) : Int),
              write_block st (chunk_block st ino (e / 16))
                (block_clear_dirent (st.disk (chunk_block st ino (e / 16))) (e % 16)))
          | none => (-1, st)) := by
  have hcap := hr.cap
  have hind := hr.indir
  have hblk := hr.blocks
  have hdev := hr.dev
  simp only [DIRBLOCK_PER_INODE, BLOCKSZ, DISK_BLOCK_SIZE, DIRENTS_PER_BLOCK_eq] at hcap hind hblk
  intro fuel
  induction fuel with
  | zero =>
    intro c h
    have : dir_entries ino - 16 * c = 0 := by omega
    rw [this]; rfl
  | succ fuel ih =>
    intro c h
    unfold dir_remove_loop
    by_cases hrem : dir_entries ino - 16 * c > 0
    · rw [if_pos hrem]
      have h1024 : 1024 * c / 1024 = c := by omega
      rw [offset2block_chunk st ino (1024 * c) (by omega) (fun h11 => hind (by omega))]
      simp only [h1024]
      have hb := hblk c (by omega)
      have hz := hnz c (by omega)
      rw [if_neg (by omega), to_unsigned_natCast _ (by omega), disk_read_eq _ _ hb]
      simp only []
      rw [dir_remove_scan_eq _ _ _ DIRENTS_PER_BLOCK 0 (by simp [DIRENTS_PER_BLOCK_eq])]
      rw [show dir_entries ino - 16 * c
          = (min 16 (dir_entries ino - 16 * c) - 0) + (dir_entries ino - 16 * (c + 1)) by omega,
        first_index_add]
      rw [show (min 16 (dir_entries ino - 16 * c) - 0) + (dir_entries ino - 16 * (c + 1))
          = dir_entries ino - 16 * c by omega]
      have hshift := first_index_shift (entry_matches st ino name) (16 * c)
        (min 16 (dir_entries ino - 16 * c) - 0) 0
      rw [Nat.add_zero] at hshift
      rw [hshift]
      have hcongr := first_index_congr (fun d => entry_matches st ino name (16 * c + d))
        (fun d => decide (dirent_ino (st.disk (chunk_block st ino c)) d ≠ FREE ∧
          strncmp (dirent_name (st.disk (chunk_block st ino c)) d) (cstr_at name) MAXFILENAME 0 = 0))
        (min 16 (dir_entries ino - 16 * c) - 0) 0
        (fun e _ he => entry_matches_chunk st ino name c e (by omega))
      rw [hcongr]
      cases hfi : first_index (fun d => decide (dirent_ino (st.disk (chunk_block st ino c)) d ≠ FREE ∧
          strncmp (dirent_name (st.disk (chunk_block st ino c)) d) (cstr_at name) MAXFILENAME 0 = 0))
          (min 16 (dir_entries ino - 16 * c) - 0) 0 with
      | some d =>
        have hd := (first_index_some _ _ _ _ hfi).2.1
        simp only [Option.map_some']
        rw [disk_write_eq_write _ _ _ hb, entry_ino_chunk st ino c d (by omega),
          show (16 * c + d) / 16 = c by omega, show (16 * c + d) % 16 = d by omega]
      | none =>
        simp only [Option.map_none']
        have := ih (c + 1) (by omega)
        rw [show dir_entries ino - 16 * c - DIRENTS_PER_BLOCK = dir_entries ino - 16 * (c + 1) by
            rw [DIRENTS_PER_BLOCK_eq]; omega,
          show 1024 * c + DIRENTS_PER_BLOCK * DIRENTSZ = 1024 * (c + 1) by
            rw [DIRENTS_PER_BLOCK_eq]; simp only [DIRENTSZ]; omega,
          this]
        rcases (by omega : 16 * c + (min 16 (dir_entries ino - 16 * c) - 0) = 16 * (c + 1) ∨
            dir_entries ino - 16 * (c + 1) = 0) with h2 | h2
        · rw [h2]
        · rw [h2]; rfl
    · rw [if_neg hrem]
      have : dir_entries ino - 16 * c = 0 := by omega
      rw [this]; rfl

/-- On a well-formed directory `dir_remove_entry` frees the first in-use entry
whose name compares equal and returns its inode number; without such an entry
it returns -1 and changes nothing. -/
theorem dir_remove_entry_eq (st : FS) (hg : VolumeGeom st) (ino : fs_inode) (hwf : DirWF st ino)
    (name : CStr) :
    dir_remove_entry st ino name =
      some (match first_index (entry_matches st ino name) (dir_entries ino) 0 with
        | some e => (((entry_ino st ino e : Nat) : Int),
            write_block st (chunk_block st ino (e / 16))
              (block_clear_dirent (st.disk (chunk_block st ino (e / 16))) (e % 16)))
        | none => (-1, st)) := by
  unfold dir_remove_entry
  have hnz : ∀ c, c * 16 < dir_entries ino → chunk_block st ino c ≠ 0 := by
    intro c hc
    have := (hwf.chunk_data c (by rw [DIRENTS_PER_BLOCK_eq]; exact hc)).1
    have := hg.one_le_data
    omega
  have := dir_remove_loop_eq st ino name (hwf.readable hg) hnz (dir_entries ino) 0 (by omega)
  simp only [Nat.mul_zero, Nat.sub_zero] at this
  exact this

/-! ### Bytes of a freed entry -/

theorem dirent_ino_clear_same (b : Block) (d : Nat) : dirent_ino (block_clear_dirent b d) d = 0 := by
  unfold dirent_ino get16 byte block_clear_dirent
  simp only [DIRENTSZ]
  rw [if_pos (by omega), if_pos (by omega)]

theorem dirent_ino_clear_other (b : Block) (d d1 : Nat) (h : d1 ≠ d) :
    dirent_ino (block_clear_dirent b d) d1 = dirent_ino b d1 := by
  unfold dirent_ino get16 byte block_clear_dirent
  simp only [DIRENTSZ]
  rw [if_neg (by omega), if_neg (by omega)]

theorem dirent_name_clear_other (b : Block) (d d1 k : Nat) (h : d1 ≠ d) (hk : k < MAXFILENAME) :
    dirent_name (block_clear_dirent b d) d1 k = dirent_name b d1 k := by
  unfold dirent_name byte block_clear_dirent
  simp only [DIRENTSZ, MAXFILENAME] at hk ⊢
  rw [if_neg (by omega)]

/-! ### A directory after one of its entries was freed -/

/-- A stored name that compares equal to a string of at most 61 bytes
compares equal to no other string. -/
theorem strncmp_unique (d : Nat → Nat) (s t : CStr) (hs : IsCStr s) (ht : IsCStr t)
    (hlen : s.length ≤ 61) (h1 : strncmp d (cstr_at s) MAXFILENAME 0 = 0)
    (h2 : strncmp d (cstr_at t) MAXFILENAME 0 = 0) : t = s := by
  rw [strncmp_eq_zero_iff] at h1 h2
  have hd : ∀ k, k ≤ s.length → d k = cstr_at s k := by
    intro k
    induction k using Nat.strong_induction_on with
    | _ k ih =>
      intro hk
      apply h1 k (by omega) (by simp only [MAXFILENAME]; omega)
      intro j _ hj
      rw [ih j hj (by omega)]
      exact cstr_at_lt s hs j (by omega)
  apply cstr_ext s t hs ht
  intro k hk
  rw [← hd k hk]
  apply h2 k (by omega) (by simp only [MAXFILENAME]; omega)
  intro j _ hj
  rw [hd j (by omega)]
  exact cstr_at_lt s hs j (by omega)

theorem entry_matches_unique (st : FS) (ino : fs_inode) (s t : CStr) (hs : IsCStr s)
    (ht : IsCStr t) (hlen : s.length ≤ 61) (e : Nat) (h : entry_matches st ino s e = true)
    (hne : t ≠ s) : entry_matches st ino t e = false := by
  unfold entry_matches at h ⊢
  simp only [decide_eq_true_eq] at h
  simp only [decide_eq_false_iff_not]
  intro h2
  exact hne (strncmp_unique _ s t hs ht hlen h.2 h2.2)

/-- The state after `dir_remove_entry` has freed entry `e`. -/
theorem clear_entry_post (st : FS) (hg : VolumeGeom st) (ino : fs_inode) (hwf : DirWF st ino)
    (e : Nat) (he : e < dir_entries ino) :
    VolumeGeom (write_block st (chunk_block st ino (e / 16))
      (block_clear_dirent (st.disk (chunk_block st ino (e / 16))) (e % 16))) ∧
    DirWF (write_block st (chunk_block st ino (e / 16))
      (block_clear_dirent (st.disk (chunk_block st ino (e / 16))) (e % 16))) ino ∧
    EntryGone st ino (write_block st (chunk_block st ino (e / 16))
      (block_clear_dirent (st.disk (chunk_block st ino (e / 16))) (e % 16))) e ∧
    (∀ c, c * 16 < dir_entries ino →
      chunk_block (write_block st (chunk_block st ino (e / 16))
        (block_clear_dirent (st.disk (chunk_block st ino (e / 16))) (e % 16))) ino c
        = chunk_block st ino c) := by
  have hc16 : e / 16 * 16 < dir_entries ino := by omega
  have hd := hwf.chunk_data (e / 16) (by rw [DIRENTS_PER_BLOCK_eq]; exact hc16)
  have hindne : 11 * 16 < dir_entries ino → ino.indir_block ≠ chunk_block st ino (e / 16) := by
    intro hN h
    exact hwf.indir_ne (by simp only [DIRBLOCK_PER_INODE, DIRENTS_PER_BLOCK_eq]; exact hN)
      (e / 16) (by rw [DIRENTS_PER_BLOCK_eq]; exact hc16) h.symm
  have hch : ∀ c, c * 16 < dir_entries ino →
      chunk_block (write_block st (chunk_block st ino (e / 16))
        (block_clear_dirent (st.disk (chunk_block st ino (e / 16))) (e % 16))) ino c
        = chunk_block st ino c := by
    intro c hc
    apply chunk_block_congr _ _ _ _ _ (fun _ => rfl)
    intro h11
    rw [write_block_disk_other _ _ _ _ (hindne (by omega))]
  have hdata : ∀ e1, e1 < dir_entries ino → e1 / 16 ≠ e / 16 →
      entry_data (write_block st (chunk_block st ino (e / 16))
        (block_clear_dirent (st.disk (chunk_block st ino (e / 16))) (e % 16))) ino e1
        = entry_data st ino e1 := by
    intro e1 h1 hne
    rw [entry_data_eq, entry_data_eq, hch (e1 / 16) (by omega)]
    apply write_block_disk_other
    intro h
    exact hne (hwf.chunk_inj (e1 / 16) (e / 16) (by rw [DIRENTS_PER_BLOCK_eq]; omega)
      (by rw [DIRENTS_PER_BLOCK_eq]; omega) h)
  have hsame : ∀ e1, e1 < dir_entries ino → e1 / 16 = e / 16 →
      entry_data (write_block st (chunk_block st ino (e / 16))
        (block_clear_dirent (st.disk (chunk_block st ino (e / 16))) (e % 16))) ino e1
        = block_clear_dirent (entry_data st ino e1) (e % 16) := by
    intro e1 h1 heq
    rw [entry_data_eq, entry_data_eq, hch (e1 / 16) (by omega), heq, write_block_disk_same]
  refine ⟨write_block_geom st hg _ _ hd.1, ?_, ⟨?_, ?_, ?_⟩, hch⟩
  · refine hwf.transport rfl (fun hN => write_block_disk_other _ _ _ _ (hindne hN)) ?_
    intro k hk
    have := hwf.owns_data k hk
    rw [write_block_bitmap_bit st hg _ _ hd.1 k this.2.1]
    exact this.2.2
  · unfold entry_ino
    rw [hsame e he rfl, DIRENTS_PER_BLOCK_eq]
    exact dirent_ino_clear_same _ _
  · intro e1 h1 hne
    unfold entry_ino
    by_cases hq : e1 / 16 = e / 16
    · rw [hsame e1 h1 hq, DIRENTS_PER_BLOCK_eq]
      exact dirent_ino_clear_other _ _ _ (by omega)
    · rw [hdata e1 h1 hq]
  · intro e1 h1 hne k hk
    by_cases hq : e1 / 16 = e / 16
    · rw [hsame e1 h1 hq, DIRENTS_PER_BLOCK_eq]
      exact dirent_name_clear_other _ _ _ _ (by omega) hk
    · rw [hdata e1 h1 hq]

/-- A freed entry stays free, and the others stay as they were, under a
change that keeps the blocks of the directory. -/
theorem EntryGone.carry {st st1 st2 : FS} {ino : fs_inode} {e : Nat}
    (h : EntryGone st ino st1 e) (he : e < dir_entries ino)
    (hdisk : ∀ k, DirOwns st1 ino k → st2.disk k = st1.disk k) : EntryGone st ino st2 e := by
  refine ⟨?_, ?_, ?_⟩
  · unfold entry_ino
    rw [dir_frame_entry_data st1 st2 ino hdisk e he]
    exact h.gone
  · intro e1 h1 hne
    unfold entry_ino
    rw [dir_frame_entry_data st1 st2 ino hdisk e1 h1]
    exact h.ino_old e1 h1 hne
  · intro e1 h1 hne k hk
    rw [dir_frame_entry_data st1 st2 ino hdisk e1 h1]
    exact h.name_old e1 h1 hne k hk

theorem EntryGone.matches_old {st st1 : FS} {ino : fs_inode} {e : Nat}
    (h : EntryGone st ino st1 e) (t : CStr) (e1 : Nat) (h1 : e1 < dir_entries ino)
    (hne : e1 ≠ e) : entry_matches st1 ino t e1 = entry_matches st ino t e1 := by
  unfold entry_matches
  rw [h.ino_old e1 h1 hne,
    strncmp_congr _ _ (cstr_at t) MAXFILENAME 0 (fun k _ hk => h.name_old e1 h1 hne k (by omega))]

/-- The lookup of a name that the freed entry did not bear is unchanged. -/
theorem EntryGone.lookup_other {st st1 : FS} {ino : fs_inode} {e : Nat}
    (h : EntryGone st ino st1 e) (t : CStr) (hno : entry_matches st ino t e = false) :
    dir_lookup st1 ino t = dir_lookup st ino t := by
  have hm : ∀ e1, e1 < dir_entries ino → entry_matches st1 ino t e1 = entry_matches st ino t e1 := by
    intro e1 h1
    by_cases hne : e1 = e
    · subst hne
      rw [hno]
      exact entry_matches_free st1 ino t e1 h.gone
    · exact h.matches_old t e1 h1 hne
  unfold dir_lookup
  rw [first_index_congr _ (entry_matches st ino t) _ 0 (fun e1 _ h1 => hm e1 (by omega))]
  cases hfi : first_index (entry_matches st ino t) (dir_entries ino) 0 with
  | none => rfl
  | some e1 =>
    obtain ⟨_, h2, h3, _⟩ := first_index_some _ _ _ _ hfi
    simp only []
    rw [h.ino_old e1 (by omega) (by
      intro heq
      subst heq
      rw [hno] at h3
      cases h3)]

/-! ### Freeing blocks -/

theorem mark_free_disk_data (st : FS) (hg : VolumeGeom st) (b : Nat) (hb : b < st.rootSB.block_cnt)
    (k : Nat) (hk : st.rootSB.first_inodeblk ≤ k) : (mark_free st b).disk k = st.disk k := by
  simp only [mark_free, BITMAPSTART, BLOCKSZ, DISK_BLOCK_SIZE]
  apply Function.update_noteq
  have h1 := hg.bitmap.cover
  have h2 := hg.inode_start
  simp only [BITMAPSTART, BLOCKSZ, DISK_BLOCK_SIZE] at h1 h2
  omega

theorem mark_free_geom (st : FS) (hg : VolumeGeom st) (b : Nat)
    (hb : st.rootSB.first_datablk ≤ b) : VolumeGeom (mark_free st b) :=
  VolumeGeom.carry_geom hg (show (mark_free st b).rootSB = st.rootSB from rfl) rfl
    (fun i hi => by
      rw [bitmap_bit_mark_free_other st b i (by omega)]
      exact hg.reserved i hi)

theorem Freed.refl (st : FS) : Freed st [] st :=
  ⟨rfl, rfl, fun _ _ => rfl, fun m hm => absurd hm (List.not_mem_nil m), fun _ _ => rfl,
    fun _ h => h⟩

theorem Freed.skip {st st2 : FS} {bs : List Nat} (h : Freed st bs st2) : Freed st (0 :: bs) st2 := by
  refine ⟨h.sb, h.nb, h.disk, ?_, ?_, h.mono⟩
  · intro m hm hne
    rcases List.mem_cons.mp hm with hm | hm
    · exact absurd hm hne
    · exact h.cleared m hm hne
  · intro m hm
    apply h.kept
    rcases hm with hm | hm
    · exact Or.inl (fun hin => hm (List.mem_cons_of_mem _ hin))
    · exact Or.inr hm

theorem Freed.cons {st st2 : FS} {bs : List Nat} (hg : VolumeGeom st) (b : Nat)
    (hb0 : b ≠ 0) (hb : b < st.rootSB.block_cnt) (h : Freed (mark_free st b) bs st2) :
    Freed st (b :: bs) st2 := by
  refine ⟨h.sb, h.nb, ?_, ?_, ?_, ?_⟩
  · intro k hk
    rw [h.disk k hk, mark_free_disk_data st hg b hb k hk]
  · intro m hm hne
    rcases List.mem_cons.mp hm with hm | hm
    · subst hm
      exact h.mono m (bitmap_bit_mark_free_same st m)
    · exact h.cleared m hm hne
  · intro m hm
    by_cases hmb : m = b
    · subst hmb
      rcases hm with hm | hm
      · exact absurd (List.mem_cons_self _ _) hm
      · exact absurd hm hb0
    · rw [h.kept m (by
        rcases hm with hm | hm
        · exact Or.inl (fun hin => hm (List.mem_cons_of_mem _ hin))
        · exact Or.inr hm)]
      exact bitmap_bit_mark_free_other st b m hmb
  · intro m hm
    apply h.mono
    by_cases hmb : m = b
    · subst hmb; exact bitmap_bit_mark_free_same st m
    · rw [bitmap_bit_mark_free_other st b m hmb]; exact hm

/-- The loop of `block_free` calls runs to its end when the nonzero block
numbers are data blocks of the volume, and clears exactly their bits. -/
theorem free_blocks_post : ∀ (bs : List Nat) (st : FS), VolumeGeom st →
    (∀ b, b ∈ bs → b ≠ 0 → st.rootSB.first_datablk ≤ b ∧ b < st.rootSB.block_cnt) →
    ∃ st2, free_blocks st bs = some st2 ∧ Freed st bs st2 ∧ VolumeGeom st2 := by
  intro bs
  induction bs with
  | nil => intro st hg _; exact ⟨st, rfl, Freed.refl st, hg⟩
  | cons b bs ih =>
    intro st hg hbs
    unfold free_blocks
    by_cases hb0 : b ≠ 0
    · rw [if_pos hb0]
      obtain ⟨h1, h2⟩ := hbs b (List.mem_cons_self _ _) hb0
      rw [block_free_eq st hg.bitmap b h2]
      simp only []
      obtain ⟨st2, e, hf, hg2⟩ := ih (mark_free st b) (mark_free_geom st hg b h1)
        (fun b1 hb1 hne => hbs b1 (List.mem_cons_of_mem _ hb1) hne)
      exact ⟨st2, e, Freed.cons hg b hb0 h2 hf, hg2⟩
    · rw [if_neg hb0]
      have hb0 : b = 0 := not_not.mp hb0
      subst hb0
      obtain ⟨st2, e, hf, hg2⟩ := ih st hg
        (fun b1 hb1 hne => hbs b1 (List.mem_cons_of_mem _ hb1) hne)
      exact ⟨st2, e, hf.skip, hg2⟩

theorem Freed.append {st st2 st3 : FS} {as bs : List Nat} (h1 : Freed st as st2)
    (h2 : Freed st2 bs st3) : Freed st (as ++ bs) st3 := by
  refine ⟨h2.sb.trans h1.sb, h2.nb.trans h1.nb, ?_, ?_, ?_, fun m hm => h2.mono m (h1.mono m hm)⟩
  · intro k hk
    rw [h2.disk k (by rw [h1.sb]; exact hk), h1.disk k hk]
  · intro m hm hne
    rcases List.mem_append.mp hm with hm | hm
    · exact h2.mono m (h1.cleared m hm hne)
    · exact h2.cleared m hm hne
  · intro m hm
    have ha : m ∉ as ∨ m = 0 := by
      rcases hm with hm | hm
      · exact Or.inl (fun hin => hm (List.mem_append_left _ hin))
      · exact Or.inr hm
    have hb : m ∉ bs ∨ m = 0 := by
      rcases hm with hm | hm
      · exact Or.inl (fun hin => hm (List.mem_append_right _ hin))
      · exact Or.inr hm
    rw [h2.kept m hb, h1.kept m ha]

/-! ### `fs_unlink` -/

/-- The frees of the indirect part of a file in `fs_unlink`. -/
theorem unlink_free_indirect (st2 : FS) (hg : VolumeGeom st2) (ino : fs_inode)
    (hv : ∀ b, b ∈ file_blocks st2 ino → b ≠ 0 →
      st2.rootSB.first_datablk ≤ b ∧ b < st2.rootSB.block_cnt) :
    ∃ st5,
      (if ino.indir_block ≠ 0 then
        match disk_read st2 ino.indir_block with
        | none => none
        | some ind_data =>
          let total_blocks := (ino.size + BLOCKSZ - 1) % 4294967296 / BLOCKSZ
          let indirect_count := total_blocks - DIRBLOCK_PER_INODE
          match free_blocks st2
              ((List.range (min indirect_count (BLOCKSZ / 2))).map (block_u16 ind_data)) with
          | none => none
          | some st3 =>
            match block_free st3 ino.indir_block with
            | none => none
            | some (_, st4) => some st4
       else some st2) = some st5 ∧
      Freed st2 (if ino.indir_block ≠ 0 then
        (List.range (min ((ino.size + BLOCKSZ - 1) % 4294967296 / BLOCKSZ - DIRBLOCK_PER_INODE)
          (BLOCKSZ / 2))).map (block_u16 (st2.disk ino.indir_block)) ++ [ino.indir_block]
        else []) st5 ∧
      VolumeGeom st5 := by
  by_cases hi : ino.indir_block ≠ 0
  · rw [if_pos hi, if_pos hi]
    have hmem : ∀ b, b ∈ (List.range (min ((ino.size + BLOCKSZ - 1) % 4294967296 / BLOCKSZ
          - DIRBLOCK_PER_INODE) (BLOCKSZ / 2))).map (block_u16 (st2.disk ino.indir_block))
          ++ [ino.indir_block] → b ∈ file_blocks st2 ino := by
      intro b hb
      unfold file_blocks
      rw [if_pos hi]
      exact List.mem_append_right _ hb
    obtain ⟨h1, h2⟩ := hv ino.indir_block (hmem _ (List.mem_append_right _ (List.mem_singleton_self _))) hi
    rw [disk_read_eq st2 _ (by have := hg.cnt_dev; omega)]
    simp only []
    obtain ⟨st3, e3, hf3, hg3⟩ := free_blocks_post
      ((List.range (min ((ino.size + BLOCKSZ - 1) % 4294967296 / BLOCKSZ - DIRBLOCK_PER_INODE)
        (BLOCKSZ / 2))).map (block_u16 (st2.disk ino.indir_block))) st2 hg
      (fun b hb hne => hv b (hmem b (List.mem_append_left _ hb)) hne)
    rw [e3]
    simp only []
    rw [block_free_eq st3 hg3.bitmap _ (by rw [hf3.sb]; exact h2)]
    refine ⟨_, rfl, hf3.append (Freed.cons hg3 _ hi (by rw [hf3.sb]; exact h2) (Freed.refl _)),
      mark_free_geom st3 hg3 _ (by rw [hf3.sb]; exact h1)⟩
  · rw [if_neg hi, if_neg hi]
    exact ⟨st2, rfl, Freed.refl st2, hg⟩

/-- All the frees of `fs_unlink` for a file whose blocks are data blocks. -/
theorem unlink_free_post (st1 : FS) (hg : VolumeGeom st1) (ino : fs_inode)
    (hv : ∀ b, b ∈ file_blocks st1 ino → b ≠ 0 →
      st1.rootSB.first_datablk ≤ b ∧ b < st1.rootSB.block_cnt) :
    ∃ st2 st5, free_blocks st1 ino.dir_block = some st2 ∧
      (if ino.indir_block ≠ 0 then
        match disk_read st2 ino.indir_block with
        | none => none
        | some ind_data =>
          let total_blocks := (ino.size + BLOCKSZ - 1) % 4294967296 / BLOCKSZ
          let indirect_count := total_blocks - DIRBLOCK_PER_INODE
          match free_blocks st2
              ((List.range (min indirect_count (BLOCKSZ / 2))).map (block_u16 ind_data)) with
          | none => none
          | some st3 =>
            match block_free st3 ino.indir_block with
            | none => none
            | some (_, st4) => some st4
       else some st2) = some st5 ∧
      Freed st1 (file_blocks st1 ino) st5 ∧ VolumeGeom st5 := by
  obtain ⟨st2, e2, hf2, hg2⟩ := free_blocks_post ino.dir_block st1 hg
    (fun b hb hne => hv b (by unfold file_blocks; exact List.mem_append_left _ hb) hne)
  have hsame : file_blocks st2 ino = file_blocks st1 ino := by
    unfold file_blocks
    by_cases hi : ino.indir_block ≠ 0
    · rw [if_pos hi, if_pos hi]
      have h1 := (hv ino.indir_block (by
        unfold file_blocks
        rw [if_pos hi]
        exact List.mem_append_right _ (List.mem_append_right _ (List.mem_singleton_self _))) hi).1
      rw [hf2.disk _ (by have := hg.data_start; omega)]
    · rw [if_neg hi, if_neg hi]
  obtain ⟨st5, e5, hf5, hg5⟩ := unlink_free_indirect st2 hg2 ino (by
    intro b hb hne
    rw [hsame] at hb
    rw [hf2.sb]
    exact hv b hb hne)
  refine ⟨st2, st5, e2, e5, ?_, hg5⟩
  have := hf2.append hf5
  unfold file_blocks
  by_cases hi : ino.indir_block ≠ 0
  · rw [if_pos hi] at this ⊢
    rw [hf2.disk _ (by
      have h1 := (hv ino.indir_block (by
        unfold file_blocks
        rw [if_pos hi]
        exact List.mem_append_right _ (List.mem_append_right _ (List.mem_singleton_self _))) hi).1
      have := hg.data_start
      omega)] at this
    exact this
  · rw [if_neg hi] at this ⊢
    exact this

theorem dir_lookup_found (st : FS) (ino : fs_inode) (name : CStr) (x : Nat)
    (h : dir_lookup st ino name = (x : Int)) :
    ∃ e, first_index (entry_matches st ino name) (dir_entries ino) 0 = some e ∧
      e < dir_entries ino ∧ entry_ino st ino e = x ∧ entry_matches st ino name e = true := by
  unfold dir_lookup at h
  cases hfi : first_index (entry_matches st ino name) (dir_entries ino) 0 with
  | none => rw [hfi] at h; simp only [] at h; omega
  | some e =>
    rw [hfi] at h
    simp only [] at h
    obtain ⟨_, h2, h3, _⟩ := first_index_some _ _ _ _ hfi
    exact ⟨e, rfl, by omega, by omega, h3⟩

/-- The part of the postcondition of `fs_unlink` that concerns the directory,
for a final state that differs from the state after `dir_remove_entry` in the
bitmap and in the record of `x` only. -/
theorem unlink_post_dir (st : FS) (hg : VolumeGeom st) (p x : Nat)
    (hp : p < st.rootSB.inode_cnt) (hwf : DirWF st (inode_at st p)) (hxp : x ≠ p)
    (e : Nat) (he : e < dir_entries (inode_at st p)) (st6 : FS)
    (hsb : st6.rootSB = st.rootSB)
    (hdata : ∀ k, st.rootSB.first_datablk ≤ k → st6.disk k =
      (write_block st (chunk_block st (inode_at st p) (e / 16))
        (block_clear_dirent (st.disk (chunk_block st (inode_at st p) (e / 16))) (e % 16))).disk k)
    (hino : ∀ q, q < st.rootSB.inode_cnt → q ≠ x → inode_at st6 q = inode_at st q)
    (hbits : ∀ k, DirOwns st (inode_at st p) k → bitmap_bit st6 k ≠ 0) :
    inode_at st6 p = inode_at st p ∧ DirWF st6 (inode_at st6 p) ∧
    EntryGone st (inode_at st p) st6 e ∧
    (∀ k, st.rootSB.first_datablk ≤ k → k ≠ chunk_block st (inode_at st p) (e / 16) →
      st6.disk k = st.disk k) := by
  obtain ⟨hg1, hwf1, hgone1, hch1⟩ := clear_entry_post st hg (inode_at st p) hwf e he
  have hdir := hino p hp (Ne.symm hxp)
  have hown : ∀ k, DirOwns (write_block st (chunk_block st (inode_at st p) (e / 16))
      (block_clear_dirent (st.disk (chunk_block st (inode_at st p) (e / 16))) (e % 16)))
      (inode_at st p) k → DirOwns st (inode_at st p) k := by
    rintro k (⟨c, hc, rfl⟩ | ⟨hN, rfl⟩)
    · exact Or.inl ⟨c, hc, (hch1 c (by rw [DIRENTS_PER_BLOCK_eq] at hc; exact hc)).symm⟩
    · exact Or.inr ⟨hN, rfl⟩
  have hdisk : ∀ k, DirOwns (write_block st (chunk_block st (inode_at st p) (e / 16))
      (block_clear_dirent (st.disk (chunk_block st (inode_at st p) (e / 16))) (e % 16)))
      (inode_at st p) k → st6.disk k = (write_block st (chunk_block st (inode_at st p) (e / 16))
        (block_clear_dirent (st.disk (chunk_block st (inode_at st p) (e / 16))) (e % 16))).disk k :=
    fun k hk => hdata k (hwf.owns_data k (hown k hk)).1
  refine ⟨hdir, ?_, hgone1.carry he hdisk, ?_⟩
  · rw [hdir]
    exact dir_frame_wf _ st6 _ hwf1 hsb hdisk (fun k hk => hbits k (hown k hk))
  · intro k hk hne
    rw [hdata k hk]
    exact write_block_disk_other _ _ _ _ hne

/-- For a regular file `x` named `name` in the well-formed directory `p`, the
parent of the path `P`, whose blocks are data blocks that do not belong to
`p`: `fs_unlink(P)` returns `x`, and leaves what `UnlinkPost` says. -/
theorem fs_unlink_spec (st : FS) (hg : VolumeGeom st) (hmag : check_rootSB st = 0)
    (P name : CStr) (hname : get_filename P = some name) (p : Nat)
    (hpar : get_parent_inode st P = some (p : Int)) (hp : p < st.rootSB.inode_cnt)
    (hwf : DirWF st (inode_at st p)) (x : Nat)
    (hfind : dir_findname st (inode_at st p) name = some (x : Int))
    (hx : x < st.rootSB.inode_cnt) (hreg : (inode_at st x).type = IFREG)
    (hfile : ∀ b, b ∈ file_blocks st (inode_at st x) → b ≠ 0 →
      st.rootSB.first_datablk ≤ b ∧ b < st.rootSB.block_cnt ∧ ¬ DirOwns st (inode_at st p) b) :
    ∃ e st2, fs_unlink st P = some ((x : Int), st2) ∧ UnlinkPost st p x name e st2 := by
  have hxp : x ≠ p := by
    intro h
    have := hwf.type
    rw [← h, hreg] at this
    exact absurd this (by decide)
  rw [dir_findname_eq st _ name hwf.type (hwf.readable hg)] at hfind
  injection hfind with hlook
  obtain ⟨e, hfi, he, htarget, _⟩ := dir_lookup_found st _ name x hlook
  obtain ⟨hg1, hwf1, hgone1, hch1⟩ := clear_entry_post st hg (inode_at st p) hwf e he
  have hB := hwf.chunk_data (e / 16) (by rw [DIRENTS_PER_BLOCK_eq]; omega)
  have hBown : DirOwns st (inode_at st p) (chunk_block st (inode_at st p) (e / 16)) :=
    Or.inl ⟨e / 16, by rw [DIRENTS_PER_BLOCK_eq]; omega, rfl⟩
  have hrange := inode_at_in_range st x
  -- the run of the function up to the removal of the entry
  unfold fs_unlink
  rw [hmag, if_neg (by decide), hname]
  simp only []
  rw [hpar]
  simp only []
  rw [if_neg (by omega), inode_load_eq st hg p hp]
  simp only []
  rw [if_neg (by decide), if_neg (by simp [hwf.type]),
    dir_findname_eq st _ name hwf.type (hwf.readable hg), hlook]
  simp only []
  rw [if_neg (by omega), inode_load_eq st hg x hx]
  simp only []
  rw [if_neg (by decide), if_neg (by simp [hreg]), dir_remove_entry_eq st hg _ hwf name, hfi]
  simp only []
  rw [htarget, if_neg (by omega)]
  -- the state after the removal
  have hino1 : ∀ q, q < st.rootSB.inode_cnt →
      inode_at (write_block st (chunk_block st (inode_at st p) (e / 16))
        (block_clear_dirent (st.disk (chunk_block st (inode_at st p) (e / 16))) (e % 16))) q
        = inode_at st q := fun q hq => write_block_inode_at st hg _ _ hB.1 q hq
  have hbit1 : ∀ m, m < st.rootSB.block_cnt →
      bitmap_bit (write_block st (chunk_block st (inode_at st p) (e / 16))
        (block_clear_dirent (st.disk (chunk_block st (inode_at st p) (e / 16))) (e % 16))) m
        = bitmap_bit st m := fun m hm => write_block_bitmap_bit st hg _ _ hB.1 m hm
  by_cases hnl : ((inode_at st x).nlinks + 65535) % 65536 = 0
  · have hone : (inode_at st x).nlinks = 1 := by
      have := hrange.nlinks_lt
      omega
    rw [if_pos hnl]
    have hfb : file_blocks (write_block st (chunk_block st (inode_at st p) (e / 16))
        (block_clear_dirent (st.disk (chunk_block st (inode_at st p) (e / 16))) (e % 16)))
        (inode_at st x) = file_blocks st (inode_at st x) := by
      unfold file_blocks
      by_cases hi : (inode_at st x).indir_block ≠ 0
      · rw [if_pos hi, if_pos hi, write_block_disk_other]
        intro h
        have := (hfile (inode_at st x).indir_block (by
          unfold file_blocks
          rw [if_pos hi]
          exact List.mem_append_right _ (List.mem_append_right _ (List.mem_singleton_self _)))
          hi).2.2
        rw [h] at this
        exact this hBown
      · rw [if_neg hi, if_neg hi]
    obtain ⟨st2, st5, e2, e5, hf5, hg5⟩ := unlink_free_post _ hg1 (inode_at st x) (by
      intro b hb hne
      rw [hfb] at hb
      exact ⟨(hfile b hb hne).1, (hfile b hb hne).2.1⟩)
    rw [hfb] at hf5
    rw [e2]
    simp only []
    rw [e5]
    simp only []
    have hx5 : x < st5.rootSB.inode_cnt := by rw [hf5.sb]; exact hx
    have hino5 : ∀ q, q < st.rootSB.inode_cnt → inode_at st5 q = inode_at st q := by
      intro q hq
      refine Eq.trans ?_ (hino1 q hq)
      unfold inode_at
      rw [hf5.sb, hf5.disk _ (Nat.le_add_right _ _)]
      rfl
    unfold inode_free
    rw [inode_load_eq st5 hg5 x hx5]
    simp only []
    rw [if_neg (by decide), inode_save_eq_save st5 hg5 x hx5, hino5 x hx]
    have hsb6 : (save_inode st5 x { inode_at st x with type := IFFREE }).rootSB = st.rootSB :=
      hf5.sb
    have hbit6 : ∀ m, m < st.rootSB.block_cnt →
        bitmap_bit (save_inode st5 x { inode_at st x with type := IFFREE }) m = bitmap_bit st5 m :=
      fun m hm => save_inode_bitmap_bit st5 hg5 x hx5 _ m (by rw [hf5.sb]; exact hm)
    obtain ⟨hd, hw, hgn, hdt⟩ := unlink_post_dir st hg p x hp hwf hxp e he
      (save_inode st5 x { inode_at st x with type := IFFREE }) hsb6
      (fun k hk => by
        rw [save_inode_disk_data st5 hg5 x hx5 _ k (Or.inl (by rw [hf5.sb]; exact hk))]
        exact hf5.disk k (by have := hg.data_start; show st.rootSB.first_inodeblk ≤ k; omega))
      (fun q hq hne => by rw [save_inode_other st5 x q _ hne]; exact hino5 q hq)
      (fun k hk => by
        have hk3 := hwf.owns_data k hk
        rw [hbit6 k hk3.2.1, hf5.kept k (Or.inl (fun hin => by
          by_cases hk0 : k = 0
          · have := hg.one_le_data
            omega
          · exact (hfile k hin hk0).2.2 hk)), hbit1 k hk3.2.1]
        exact hk3.2.2)
    refine ⟨e, _, rfl, ⟨hfi, htarget, hsb6, hf5.nb, save_inode_geom st5 hg5 x hx5 _, hd, hw, hgn,
      fun q hq hne => by rw [save_inode_other st5 x q _ hne]; exact hino5 q hq, hdt,
      fun h => absurd hone h, fun _ => ⟨?_, ?_, ?_⟩⟩⟩
    · exact save_inode_same st5 x _ ⟨show IFFREE < 65536 by decide, hrange.nlinks_lt, hrange.size_lt, hrange.dir_len,
        hrange.dir_lt, hrange.indir_lt⟩
    · intro m hm hne
      rw [hbit6 m (hfile m hm hne).2.1]
      exact hf5.cleared m hm hne
    · intro m hm hnot
      rw [hbit6 m hm, hf5.kept m hnot, hbit1 m hm]
  · rw [if_neg hnl]
    have hx1 : x < (write_block st (chunk_block st (inode_at st p) (e / 16))
        (block_clear_dirent (st.disk (chunk_block st (inode_at st p) (e / 16))) (e % 16))
        ).rootSB.inode_cnt := hx
    rw [inode_save_eq_save _ hg1 x hx1]
    have hne1 : (inode_at st x).nlinks ≠ 1 := by
      intro h
      rw [h] at hnl
      exact hnl rfl
    have hbit6 : ∀ m, m < st.rootSB.block_cnt →
        bitmap_bit (save_inode (write_block st (chunk_block st (inode_at st p) (e / 16))
          (block_clear_dirent (st.disk (chunk_block st (inode_at st p) (e / 16))) (e % 16))) x
          { inode_at st x with nlinks := ((inode_at st x).nlinks + 65535) % 65536 }) m
          = bitmap_bit st m := fun m hm => by
      rw [save_inode_bitmap_bit _ hg1 x hx1 _ m hm]
      exact hbit1 m hm
    obtain ⟨hd, hw, hgn, hdt⟩ := unlink_post_dir st hg p x hp hwf hxp e he
      (save_inode (write_block st (chunk_block st (inode_at st p) (e / 16))
          (block_clear_dirent (st.disk (chunk_block st (inode_at st p) (e / 16))) (e % 16))) x
          { inode_at st x with nlinks := ((inode_at st x).nlinks + 65535) % 65536 }) rfl
      (fun k hk => save_inode_disk_data _ hg1 x hx1 _ k (Or.inl hk))
      (fun q hq hne => by rw [save_inode_other _ x q _ hne]; exact hino1 q hq)
      (fun k hk => by
        have hk3 := hwf.owns_data k hk
        rw [hbit6 k hk3.2.1]
        exact hk3.2.2)
    refine ⟨e, _, rfl, ⟨hfi, htarget, rfl, rfl, save_inode_geom _ hg1 x hx1 _, hd, hw, hgn,
      fun q hq hne => by rw [save_inode_other _ x q _ hne]; exact hino1 q hq, hdt,
      fun _ => ⟨?_, hbit6⟩, fun h => absurd h hne1⟩⟩
    exact save_inode_same _ x _ ⟨hrange.type_lt, Nat.mod_lt _ (by decide), hrange.size_lt,
      hrange.dir_len, hrange.dir_lt, hrange.indir_lt⟩

/-- The steps of a successful `fs_create` (or `fs_mkdir`) of a path whose
parent is inode `p`: `p` is a directory without the name, a free inode `i`
was taken and its new record saved, and `add_entry_to_directory` was called
on the resulting state and did not fail. -/
theorem fs_create_as_steps (ty : Nat) (st : FS) (hg : VolumeGeom st) (P : CStr) (hP : IsCStr P)
    (p0 : Int) (hpar : get_parent_inode st P = some p0) (r : Int) (st2 : FS)
    (h : fs_create_as ty st P = some (r, st2)) (hr : r ≠ -1) :
    ∃ (p i : Nat) (name : CStr) (r2 : Int),
      p0 = (p : Int) ∧ r = (i : Int) ∧ get_filename P = some name ∧ IsCStr name ∧
      p < st.rootSB.inode_cnt ∧ i < st.rootSB.inode_cnt ∧
      (inode_at st p).type = IFDIR ∧
      dir_findname st (inode_at st p) name = some (-1) ∧
      (inode_at st i).type = IFFREE ∧
      add_entry_to_directory
        (save_inode st i { zero_inode with type := ty, nlinks := 1, size := 0 })
        (p : Int) name (i : Int) = some (r2, st2) ∧ r2 ≠ -1 := by
  unfold fs_create_as at h
  by_cases hchk : check_rootSB st = -1
  · rw [if_pos hchk] at h; exact absurd h (fun h => ret_neg_one h hr)
  rw [if_neg hchk] at h
  by_cases hl : P.length = 0
  · rw [if_pos hl] at h; exact absurd h (fun h => ret_neg_one h hr)
  rw [if_neg hl] at h
  cases hname : get_filename P with
  | none => rw [hname] at h; exact absurd h (fun h => ret_neg_one h hr)
  | some name =>
  rw [hname] at h
  simp only [] at h
  have hPne : P ≠ [] := fun e => hl (by rw [e]; rfl)
  obtain ⟨_, _, hnc, _⟩ := path_split P name hPne hname
  rw [hpar] at h
  simp only [] at h
  by_cases hp1 : p0 = -1
  · rw [if_pos hp1] at h; exact absurd h (fun h => ret_neg_one h hr)
  rw [if_neg hp1] at h
  by_cases hrange : p0 < 0 ∨ p0 ≥ st.rootSB.inode_cnt
  · rw [inode_load_out_of_range st p0 _ hrange] at h
    simp only [if_true] at h
    exact absurd h (fun h => ret_neg_one h hr)
  obtain ⟨p, rfl⟩ : ∃ p : Nat, p0 = (p : Int) := ⟨p0.toNat, by omega⟩
  have hp : p < st.rootSB.inode_cnt := by omega
  rw [inode_load_eq st hg p hp] at h
  simp only [] at h
  rw [if_neg (by decide)] at h
  by_cases htp : (inode_at st p).type ≠ IFDIR
  · rw [if_pos htp] at h; exact absurd h (fun h => ret_neg_one h hr)
  rw [if_neg htp] at h
  have htp : (inode_at st p).type = IFDIR := not_not.mp htp
  cases hfind : dir_findname st (inode_at st p) name with
  | none => rw [hfind] at h; cases h
  | some found =>
  rw [hfind] at h
  simp only [] at h
  by_cases hfound : found ≠ -1
  · rw [if_pos hfound] at h; exact absurd h (fun h => ret_neg_one h hr)
  rw [if_neg hfound] at h
  have hfound : found = -1 := not_not.mp hfound
  subst hfound
  cases halloc : inode_alloc st with
  | none => rw [halloc] at h; cases h
  | some ni =>
  rw [halloc] at h
  simp only [] at h
  by_cases hni : ni = -1
  · rw [if_pos hni] at h; exact absurd h (fun h => ret_neg_one h hr)
  rw [if_neg hni] at h
  rcases inode_alloc_some st ni halloc with hni1 | ⟨i, rfl, hfree⟩
  · exact absurd hni1 hni
  by_cases hi : i < st.rootSB.inode_cnt
  swap
  · rw [inode_save_out_of_range st _ _ (Or.inr (by omega))] at h
    simp only [if_true] at h
    exact absurd h (fun h => ret_neg_one h hr)
  rw [inode_save_eq_save st hg i hi] at h
  simp only [] at h
  rw [if_neg (by decide)] at h
  cases hadd : add_entry_to_directory
      (save_inode st i { zero_inode with type := ty, nlinks := 1, size := 0 })
      (p : Int) name (i : Int) with
  | none => rw [hadd] at h; cases h
  | some v =>
  obtain ⟨r2, st2a⟩ := v
  rw [hadd] at h
  simp only [] at h
  by_cases hr2 : r2 = -1
  · rw [if_pos hr2] at h
    cases hfr : inode_free st2a (i : Int) with
    | none => rw [hfr] at h; cases h
    | some v =>
      rw [hfr] at h
      exact absurd h (fun h => ret_neg_one h hr)
  · rw [if_neg hr2] at h
    injection h with h
    injection h with h1 h2
    subst h2
    exact ⟨p, i, name, r2, rfl, h1.symm, rfl, hnc hP, hp, hi, htp, hfind, hfree, hadd, hr2⟩

theorem first_index_exists (p : Nat → Bool) (n e : Nat) (he : e < n) (hp : p e = true) :
    ∃ e0, first_index p n 0 = some e0 ∧ e0 ≤ e := by
  cases h : first_index p n 0 with
  | none =>
    have := first_index_none p n 0 h e (by omega) (by omega)
    rw [hp] at this
    cases this
  | some e0 =>
    refine ⟨e0, rfl, ?_⟩
    obtain ⟨_, _, _, h4⟩ := first_index_some p n 0 e0 h
    by_contra hlt
    have := h4 e (by omega) (by omega)
    rw [hp] at this
    cases this

/-- C4: on a mounted volume (`inode_cnt` is a 16-bit field), for a regular
file `x` named by the last component of the path `P` in the well-formed
directory `p` (the parent of `P`), with the blocks of the file being data
blocks that do not belong to `p`: `fs_unlink(P)` returns `x`, frees
the entry `e` of `x` and leaves the size of `p` unchanged; and a following
successful `fs_create(Q)` of a path `Q` with the same parent writes its entry
`(i, name)` into the free entry `e0` of lowest index of `p` (which is `e` when
`p` had no free entry before the unlink), changes no bit of the bitmap, and
leaves the size of `p` unchanged. -/
theorem unlink_then_create_reuses_slot (st : FS) (hg : VolumeGeom st)
    (hmag : check_rootSB st = 0) (hic : st.rootSB.inode_cnt ≤ 65536)
    (P xname : CStr) (hname : get_filename P = some xname) (p : Nat)
    (hpar : get_parent_inode st P = some (p : Int)) (hp : p < st.rootSB.inode_cnt)
    (hwf : DirWF st (inode_at st p)) (x : Nat)
    (hfind : dir_findname st (inode_at st p) xname = some (x : Int))
    (hx : x < st.rootSB.inode_cnt) (hreg : (inode_at st x).type = IFREG)
    (hfile : ∀ b, b ∈ file_blocks st (inode_at st x) → b ≠ 0 →
      st.rootSB.first_datablk ≤ b ∧ b < st.rootSB.block_cnt ∧ ¬ DirOwns st (inode_at st p) b) :
    ∃ e st1, fs_unlink st P = some ((x : Int), st1) ∧
      first_index (entry_matches st (inode_at st p) xname) (dir_entries (inode_at st p)) 0
        = some e ∧
      entry_ino st1 (inode_at st1 p) e = FREE ∧
      (inode_at st1 p).size = (inode_at st p).size ∧
      ∀ (Q : CStr) (i : Int) (st2 : FS), IsCStr Q →
        get_parent_inode st1 Q = some (p : Int) → fs_create st1 Q = some (i, st2) → i ≠ -1 →
        ∃ e0 yname, get_filename Q = some yname ∧
          e0 < dir_entries (inode_at st1 p) ∧
          entry_ino st1 (inode_at st1 p) e0 = FREE ∧
          (∀ e1, e1 < e0 → entry_ino st1 (inode_at st1 p) e1 ≠ FREE) ∧
          ((∀ e1, e1 < dir_entries (inode_at st p) → entry_ino st (inode_at st p) e1 ≠ FREE) →
            e0 = e) ∧
          ((entry_ino st2 (inode_at st2 p) e0 : Nat) : Int) = i ∧
          (∀ k, k < MAXFILENAME →
            dirent_name (entry_data st2 (inode_at st2 p) e0) (e0 % DIRENTS_PER_BLOCK) k
              = name_field yname k) ∧
          (∀ m, m < st.rootSB.block_cnt → bitmap_bit st2 m = bitmap_bit st1 m) ∧
          (inode_at st2 p).size = (inode_at st p).size := by
  obtain ⟨e, st1, hun, hpost⟩ := fs_unlink_spec st hg hmag P xname hname p hpar hp hwf x hfind hx
    hreg hfile
  have he : e < dir_entries (inode_at st p) := by
    have := (first_index_some _ _ _ _ hpost.found).2.1
    omega
  have hgone : entry_ino st1 (inode_at st1 p) e = FREE := by rw [hpost.dir]; exact hpost.gone.gone
  refine ⟨e, st1, hun, hpost.found, hgone, by rw [hpost.dir], ?_⟩
  intro Q i st2 hQ hparQ hcr hi
  obtain ⟨p', n, yname, r2, hpp, hin, hy, hyc, _, hn, htp, _, hfree, hadd, hr2⟩ :=
    fs_create_as_steps IFREG st1 hpost.geom Q hQ (p : Int) hparQ i st2 hcr hi
  have hpp : p' = p := by omega
  subst hpp
  subst hin
  have hp1 : p' < st1.rootSB.inode_cnt := by rw [hpost.sb]; exact hp
  -- the state after the record of the new inode was saved
  have hnp : p' ≠ n := by
    intro h
    rw [← h, htp] at hfree
    exact absurd hfree (by decide)
  have hgs := save_inode_geom st1 hpost.geom n hn
    { zero_inode with type := IFREG, nlinks := 1, size := 0 }
  have hds := save_inode_other st1 n p' { zero_inode with type := IFREG, nlinks := 1, size := 0 } hnp
  have hdisk : ∀ k, DirOwns st1 (inode_at st1 p') k →
      (save_inode st1 n { zero_inode with type := IFREG, nlinks := 1, size := 0 }).disk k
        = st1.disk k := fun k hk =>
    save_inode_disk_data st1 hpost.geom n hn _ k (Or.inl (hpost.wf.owns_data k hk).1)
  have hwfs : DirWF (save_inode st1 n { zero_inode with type := IFREG, nlinks := 1, size := 0 })
      (inode_at (save_inode st1 n { zero_inode with type := IFREG, nlinks := 1, size := 0 }) p') := by
    rw [hds]
    refine dir_frame_wf st1 _ _ hpost.wf rfl hdisk (fun k hk => ?_)
    have := hpost.wf.owns_data k hk
    rw [save_inode_bitmap_bit st1 hpost.geom n hn _ k this.2.1]
    exact this.2.2
  have hent : ∀ e1, e1 < dir_entries (inode_at st1 p') →
      entry_ino (save_inode st1 n { zero_inode with type := IFREG, nlinks := 1, size := 0 })
        (inode_at (save_inode st1 n { zero_inode with type := IFREG, nlinks := 1, size := 0 }) p')
        e1 = entry_ino st1 (inode_at st1 p') e1 := by
    intro e1 h1
    rw [hds]
    unfold entry_ino
    rw [dir_frame_entry_data st1 _ _ hdisk e1 h1]
  have he1 : e < dir_entries (inode_at st1 p') := by rw [hpost.dir]; exact he
  -- the search for a free entry finds one
  obtain ⟨e0, hfi0, he0⟩ := first_index_exists
    (fun e1 => decide (entry_ino
      (save_inode st1 n { zero_inode with type := IFREG, nlinks := 1, size := 0 })
      (inode_at (save_inode st1 n { zero_inode with type := IFREG, nlinks := 1, size := 0 }) p')
      e1 = FREE))
    (dir_entries (inode_at (save_inode st1 n
      { zero_inode with type := IFREG, nlinks := 1, size := 0 }) p')) e
    (by rw [hds]; exact he1) (by simp only [hent e he1, hgone, decide_True])
  obtain ⟨_, h02, h03, h04⟩ := first_index_some _ _ _ _ hfi0
  rw [hds] at h02
  have hn16 : n < 65536 := by
    have : n < st.rootSB.inode_cnt := by rw [← hpost.sb]; exact hn
    omega
  rw [add_entry_to_directory_eq _ hgs p' hp1 hwfs yname n (by omega), hfi0] at hadd
  simp only [] at hadd
  injection hadd with hadd
  injection hadd with _ hst2
  have hfree0 : entry_ino (save_inode st1 n { zero_inode with type := IFREG, nlinks := 1, size := 0 })
      (inode_at (save_inode st1 n { zero_inode with type := IFREG, nlinks := 1, size := 0 }) p')
      e0 = FREE := by simpa using h03
  have hap := add_entry_post_reuse _ hgs p' hp1 hwfs yname hyc n hn16 e0
    (by rw [hds]; omega) hfree0
    (fun e1 h1 => by
      have := h04 e1 (by omega) h1
      simpa using this)
  rw [hst2] at hap
  obtain ⟨hb2, hi2⟩ := hap.reuse (by rw [hds]; omega)
  refine ⟨e0, yname, hy, by omega, ?_, ?_, ?_, ?_, ?_, ?_, ?_⟩
  · rw [← hent e0 (by omega)]; exact hfree0
  · intro e1 h1
    rw [← hent e1 (by omega)]
    have := h04 e1 (by omega) h1
    simpa using this
  · intro hfull
    by_contra hne
    have hlt : e0 < e := by omega
    have h1 : entry_ino st1 (inode_at st1 p') e0 = FREE := by
      rw [← hent e0 (by omega)]; exact hfree0
    rw [hpost.dir, hpost.gone.ino_old e0 (by omega) (by omega)] at h1
    exact hfull e0 (by omega) h1
  · rw [hap.put.ino_new]
  · exact hap.put.name_new
  · intro m hm
    have hm1 : m < st1.rootSB.block_cnt := by rw [hpost.sb]; exact hm
    rw [hb2 m hm1]
    exact save_inode_bitmap_bit st1 hpost.geom n hn _ m (by rw [hpost.sb]; exact hm)
  · rw [hi2, hds, hpost.dir]

theorem example_file_volume_wf : VolumeWF example_file_volume := by
  obtain ⟨p, n, e0, _, _, _, _, _, hwf2, _⟩ :=
    fs_create_as_after IFREG (by decide) example_volume example_volume_wf (by decide) (by decide)
      (by decide) [47, 97] (by decide) [97] (by decide) (by decide) 1 example_file_volume
      (eq_some_state_of _ example_volume 1 (by decide)) (by decide)
  exact hwf2

theorem example_file_blocks (b : Nat)
    (hb : b ∈ file_blocks example_file_volume (inode_at example_file_volume 1)) : b = 0 := by
  have h : file_blocks example_file_volume (inode_at example_file_volume 1)
      = List.replicate 11 0 := by decide
  rw [h] at hb
  exact List.eq_of_mem_replicate hb

theorem unlink_then_create_reuses_slot_witness :
    dir_findname example_file_volume (inode_at example_file_volume 0) [97] = some 1 ∧
    (fs_unlink example_file_volume [47, 97]).map Prod.fst = some 1 := by
  refine ⟨by decide, ?_⟩
  obtain ⟨e, st1, h, _⟩ := unlink_then_create_reuses_slot example_file_volume
    example_file_volume_wf.geom (by decide) (by decide) [47, 97] [97] (by decide) 0 (by decide)
    (by decide) (example_file_volume_wf.dirs 0 (by decide) (by decide)) 1 (by decide) (by decide)
    (by decide) (fun b hb hne => absurd (example_file_blocks b hb) hne)
  rw [h]
  rfl

/-! ### `fs_link` -/

/-- For a regular file `x` that `get_inode(A)` names, and a path `B` whose
parent `p` is a directory without the name of `B`: when
`add_entry_to_directory(p, name, x)` returns 0 with state `st1`, `fs_link(A, B)`
returns `x` and saves the record of `x` with one link more. -/
theorem fs_link_eq (st : FS) (hg : VolumeGeom st) (hmag : check_rootSB st = 0)
    (A B name : CStr) (x : Nat) (hget : get_inode st A = some (x : Int))
    (hx : x < st.rootSB.inode_cnt) (hreg : (inode_at st x).type = IFREG)
    (hname : get_filename B = some name) (p : Nat)
    (hpar : get_parent_inode st B = some (p : Int)) (hp : p < st.rootSB.inode_cnt)
    (htp : (inode_at st p).type = IFDIR)
    (habs : dir_findname st (inode_at st p) name = some (-1))
    (st1 : FS) (hadd : add_entry_to_directory st (p : Int) name (x : Int) = some (0, st1))
    (hg1 : VolumeGeom st1) (hsb : st1.rootSB = st.rootSB) :
    fs_link st A B = some ((x : Int),
      save_inode st1 x { inode_at st x with nlinks := ((inode_at st x).nlinks + 1) % 65536 }) := by
  unfold fs_link
  rw [hmag, if_neg (by decide), hget]
  simp only []
  rw [if_neg (by omega), inode_load_eq st hg x hx]
  simp only []
  rw [if_neg (by decide), if_neg (by simp [hreg]), hname]
  simp only []
  rw [hpar]
  simp only []
  rw [if_neg (by omega), inode_load_eq st hg p hp]
  simp only []
  rw [if_neg (by decide), if_neg (by simp [htp]), habs]
  simp only []
  rw [if_neg (by simp), hadd]
  simp only []
  rw [if_neg (by decide), inode_save_eq_save st1 hg1 x (by rw [hsb]; exact hx)]

/-- The lookups in a directory `p` are the same after the record of another
inode was saved. -/
theorem save_inode_lookup (st : FS) (hg : VolumeGeom st) (x : Nat) (hx : x < st.rootSB.inode_cnt)
    (new : fs_inode) (p : Nat) (hne : p ≠ x) (hwf : DirWF st (inode_at st p)) :
    inode_at (save_inode st x new) p = inode_at st p ∧
    DirWF (save_inode st x new) (inode_at (save_inode st x new) p) ∧
    (∀ t, dir_findname (save_inode st x new) (inode_at (save_inode st x new) p) t
      = dir_findname st (inode_at st p) t) ∧
    (∀ e, e < dir_entries (inode_at st p) →
      entry_ino (save_inode st x new) (inode_at (save_inode st x new) p) e
        = entry_ino st (inode_at st p) e) := by
  have e := save_inode_other st x p new hne
  have hdisk : ∀ k, DirOwns st (inode_at st p) k → (save_inode st x new).disk k = st.disk k :=
    fun k hk => save_inode_disk_data st hg x hx new k (Or.inl (hwf.owns_data k hk).1)
  refine ⟨e, ?_, ?_, ?_⟩
  · rw [e]
    refine dir_frame_wf st _ _ hwf rfl hdisk (fun k hk => ?_)
    have := hwf.owns_data k hk
    rw [save_inode_bitmap_bit st hg x hx new k this.2.1]
    exact this.2.2
  · intro t
    rw [e]
    exact dir_frame_findname st (save_inode st x new) _ hg hwf rfl hdisk t
  · intro e1 h1
    rw [e]
    unfold entry_ino
    rw [dir_frame_entry_data st _ _ hdisk e1 h1]

/-! ### Paths of the form `/name` -/

theorem strrchr_absent (c : Nat) (s : CStr) (h : c ∉ s) : strrchr s c = none := by
  cases hk : strrchr s c with
  | none => rfl
  | some k =>
    obtain ⟨_, h2, _⟩ := strrchr_some c s k hk
    exact absurd (by rw [h2]; exact List.mem_append_right _ (List.mem_cons_self _ _)) h

theorem strrchr_root (name : CStr) (hns : SLASH ∉ name) :
    strrchr (SLASH :: name) SLASH = some 0 := by
  unfold strrchr
  rw [strrchr_absent SLASH name hns]
  rfl

theorem get_filename_root (name : CStr) (hne : name ≠ []) (hns : SLASH ∉ name) :
    get_filename (SLASH :: name) = some name := by
  unfold get_filename
  rw [strrchr_root name hns]
  simp only []
  rw [if_neg (by simpa using hne)]
  rfl

theorem get_parent_inode_root (st : FS) (name : CStr) (hns : SLASH ∉ name) :
    get_parent_inode st (SLASH :: name) = some ROOTINO := by
  unfold get_parent_inode
  rw [if_neg (by simp), strrchr_root name hns]
  rfl

/-- For a name without `/`, `get_inode("/name")` is the lookup of `name` in
the root directory. -/
theorem get_inode_root (st : FS) (hg : VolumeGeom st) (h0 : 0 < st.rootSB.inode_cnt)
    (hroot : (inode_at st 0).type = IFDIR) (name : CStr) (hne : name ≠ [])
    (hns : SLASH ∉ name) (r : Int)
    (hf : dir_findname st (inode_at st 0) name = some r) :
    get_inode st (SLASH :: name) = some r := by
  have htok : path_tokens (SLASH :: name) = [name] :=
    path_tokens_append name hne hns 0 [] (le_refl _)
  rw [get_inode_eq, htok]
  unfold path_walk
  rw [path_step_dir st hg ROOTINO name ⟨le_refl _, by simpa using h0, hroot⟩]
  show (match dir_findname st (inode_at st 0) name with
    | none => none
    | some next_ino => if next_ino = -1 then some (-1) else path_walk st [] next_ino) = some r
  rw [hf]
  simp only []
  by_cases hr : r = -1
  · rw [if_pos hr, hr]
  · rw [if_neg hr]; rfl

theorem file_blocks_none (st : FS) (ino : fs_inode) (hd : ino.dir_block = List.replicate 11 0)
    (hi : ino.indir_block = 0) (b : Nat) (hb : b ∈ file_blocks st ino) : b = 0 := by
  unfold file_blocks at hb
  rw [hd, hi, if_neg (by simp), List.append_nil] at hb
  exact List.eq_of_mem_replicate hb

theorem dir_lookup_empty (st : FS) (ino : fs_inode) (h : dir_entries ino = 0) (t : CStr) :
    dir_lookup st ino t = -1 := by
  unfold dir_lookup
  rw [h]
  rfl

/-- The round trip of create, link, unlink, unlink for two names in an empty
root directory, from the state `s1` that a successful `fs_create("/a")` gave. -/
theorem root_round_trip (V : FS) (hwf : VolumeWF V) (h16 : V.rootSB.block_cnt ≤ 65536)
    (hic : V.rootSB.inode_cnt ≤ 65536)
    (hroom : ∀ q, q < V.rootSB.inode_cnt → (inode_at V q).type = IFDIR →
      dir_entries (inode_at V q) < 8368)
    (hempty : dir_entries (inode_at V 0) = 0)
    (a b : CStr) (ha : IsCStr a) (hb : IsCStr b) (hane : a ≠ []) (hbne : b ≠ [])
    (has : SLASH ∉ a) (hbs : SLASH ∉ b) (hla : a.length ≤ 61) (hlb : b.length ≤ 61)
    (hab : a ≠ b) (i : Int) (s1 : FS)
    (hcr : fs_create V (SLASH :: a) = some (i, s1)) (hi : i ≠ -1) :
    ∃ (n : Nat) (s2 s3 s4 : FS), i = (n : Int) ∧
      fs_link s1 (SLASH :: a) (SLASH :: b) = some (i, s2) ∧
      (inode_at s2 n).type = IFREG ∧ (inode_at s2 n).nlinks = 2 ∧
      get_inode s2 (SLASH :: b) = some i ∧ get_inode s2 (SLASH :: a) = some i ∧
      fs_unlink s2 (SLASH :: b) = some (i, s3) ∧
      (inode_at s3 n).type = IFREG ∧ (inode_at s3 n).nlinks = 1 ∧
      get_inode s3 (SLASH :: a) = some i ∧
      fs_unlink s3 (SLASH :: a) = some (i, s4) ∧
      (inode_at s4 n).type = IFFREE ∧
      (∀ m, m ∈ file_blocks s3 (inode_at s3 n) → m ≠ 0 → bitmap_bit s4 m = 0) := by
  have hPa : IsCStr (SLASH :: a) := by
    intro c hc
    rcases List.mem_cons.mp hc with h | h
    · rw [h]; decide
    · exact ha c h
  -- after the create
  obtain ⟨p, n, e0, hin, hp, hn, hnp, hn0, hwf1, hsb1, hchk1, hparV, _, htpV, htp1, _, hfa1, hga1,
    hino1, hsav, hpost⟩ :=
    fs_create_as_after IFREG (by decide) V hwf h16 hic hroom (SLASH :: a) hPa a
      (get_filename_root a hane has) hla i s1 hcr hi
  have hp0 : p = 0 := by
    rw [get_parent_inode_root V a has] at hparV
    injection hparV with h
    have : ((0 : Nat) : Int) = (p : Int) := h
    omega
  subst hp0
  subst hin
  have hn1 : n < s1.rootSB.inode_cnt := by rw [hsb1]; exact hn
  have h01 : 0 < s1.rootSB.inode_cnt := by rw [hsb1]; exact hp
  have hN0 : dir_entries (inode_at
      (save_inode V n { zero_inode with type := IFREG, nlinks := 1, size := 0 }) 0) = 0 := by
    rw [hsav]; exact hempty
  have he0 : e0 = 0 := by
    have := hpost.put.le
    omega
  subst he0
  have hN1 : dir_entries (inode_at s1 0) = 1 := by
    rw [hpost.put.count, hN0]
    rfl
  have hrd1 := hpost.wf.readable hpost.geom
  have hb1 : dir_findname s1 (inode_at s1 0) b = some (-1) := by
    rw [dir_findname_eq s1 _ b htp1 hrd1,
      dir_lookup_put_other _ _ s1 _ 0 n a hpost.put hn0 ha hla b hb (Ne.symm hab),
      dir_lookup_empty _ _ hN0]
  -- the link
  have hused1 : ∀ e, e < 1 → entry_ino s1 (inode_at s1 0) e ≠ FREE := by
    intro e he
    have : e = 0 := by omega
    subst this
    rw [hpost.put.ino_new]
    exact hn0
  have hn16 : n < 65536 := by omega
  have hpostL := add_entry_post_existing s1 hwf1.geom 0 h01 (inode_at s1 0) rfl hpost.wf b hb n
    hn16 1 hN1 (by decide) hused1
  have haddL : add_entry_to_directory s1 ((0 : Nat) : Int) b (n : Int) = some (0,
      save_inode (put_dirent s1 (chunk_block s1 (inode_at s1 0) (1 / 16)) 1 n b) 0
        { inode_at s1 0 with size := (inode_at s1 0).size + 64 }) := by
    rw [add_entry_to_directory_eq s1 hwf1.geom 0 h01 hpost.wf b n (by omega),
      first_index_eq_none _ _ _ (fun e _ he => by
        have := hused1 e (by rw [hN1] at he; omega)
        simpa using this)]
    simp only []
    have := add_entry_append_existing s1 hwf1.geom 0 h01 (inode_at s1 0) hpost.wf b n (by omega)
      (by rw [hN1]; decide)
    rw [hN1] at this
    exact this
  have hwfL := add_entry_wf s1 hwf1 0 n b _ 1 h01 htp1 hpostL
  have hlink := fs_link_eq s1 hwf1.geom hchk1 (SLASH :: a) (SLASH :: b) b n hga1 hn1
    (by rw [hino1]) (get_filename_root b hbne hbs) 0 (get_parent_inode_root s1 b hbs) h01 htp1 hb1
    _ haddL hpostL.geom hpostL.sb
  rw [hino1] at hlink
  have hbL := add_entry_findname_new s1 hwf1 0 n b _ 1 h01 htp1 hpostL hn0 hb hlb hb1
  have haL : dir_findname
      (save_inode (put_dirent s1 (chunk_block s1 (inode_at s1 0) (1 / 16)) 1 n b) 0
        { inode_at s1 0 with size := (inode_at s1 0).size + 64 })
      (inode_at (save_inode (put_dirent s1 (chunk_block s1 (inode_at s1 0) (1 / 16)) 1 n b) 0
        { inode_at s1 0 with size := (inode_at s1 0).size + 64 }) 0) a = some (n : Int) := by
    rw [dir_findname_eq _ _ a hpostL.wf.type (hpostL.wf.readable hpostL.geom),
      dir_lookup_put_other s1 _ _ _ 1 n b hpostL.put hn0 hb hlb a ha hab,
      ← dir_findname_eq s1 _ a htp1 hrd1]
    exact hfa1
  have hnL : n < (save_inode (put_dirent s1 (chunk_block s1 (inode_at s1 0) (1 / 16)) 1 n b) 0
      { inode_at s1 0 with size := (inode_at s1 0).size + 64 }).rootSB.inode_cnt := hn1
  obtain ⟨hd2, hw2, hl2, _⟩ := save_inode_lookup _ hpostL.geom n hnL
    { type := IFREG, nlinks := (1 + 1) % 65536, size := 0,
      dir_block := zero_inode.dir_block, indir_block := zero_inode.indir_block } 0
    (Ne.symm hnp) hpostL.wf
  have hg2 := save_inode_geom _ hpostL.geom n hnL
    { type := IFREG, nlinks := (1 + 1) % 65536, size := 0,
      dir_block := zero_inode.dir_block, indir_block := zero_inode.indir_block }
  have hi2 := save_inode_same
    (save_inode (put_dirent s1 (chunk_block s1 (inode_at s1 0) (1 / 16)) 1 n b) 0
      { inode_at s1 0 with size := (inode_at s1 0).size + 64 }) n
    { type := IFREG, nlinks := (1 + 1) % 65536, size := 0,
      dir_block := zero_inode.dir_block, indir_block := zero_inode.indir_block }
    (new_inode_in_range IFREG 2 (by decide) (by decide))
  have htp2 := hw2.type
  have hchk2 : check_rootSB (save_inode
      (save_inode (put_dirent s1 (chunk_block s1 (inode_at s1 0) (1 / 16)) 1 n b) 0
        { inode_at s1 0 with size := (inode_at s1 0).size + 64 }) n
      { type := IFREG, nlinks := (1 + 1) % 65536, size := 0,
        dir_block := zero_inode.dir_block, indir_block := zero_inode.indir_block }) = 0 := hchk1
  -- the first unlink
  obtain ⟨e3, s3, hun3, hpost3⟩ := fs_unlink_spec _ hg2 hchk2 (SLASH :: b) b
    (get_filename_root b hbne hbs) 0 (get_parent_inode_root _ b hbs) h01 hw2 n
    ((hl2 b).trans hbL) hn1 (by rw [hi2])
    (fun m hm hne => absurd (file_blocks_none _ _ (by rw [hi2]; rfl) (by rw [hi2]; rfl) m hm) hne)
  obtain ⟨hmore3, _⟩ := hpost3.more (by rw [hi2]; decide)
  rw [hi2] at hmore3
  have hmatch3 : entry_matches _ (inode_at _ 0) b e3 = true :=
    (first_index_some _ _ _ _ hpost3.found).2.2.1
  have ha3 : dir_findname s3 (inode_at s3 0) a = some (n : Int) := by
    rw [hpost3.dir, dir_findname_eq s3 _ a htp2 ((hpost3.dir ▸ hpost3.wf).readable hpost3.geom),
      hpost3.gone.lookup_other a (entry_matches_unique _ _ b a hb ha hlb e3 hmatch3 hab),
      ← dir_findname_eq _ _ a htp2 (hw2.readable hg2)]
    exact (hl2 a).trans haL
  have h03 : 0 < s3.rootSB.inode_cnt := by rw [hpost3.sb]; exact h01
  have hn3 : n < s3.rootSB.inode_cnt := by rw [hpost3.sb]; exact hn1
  have hchk3 : check_rootSB s3 = 0 := by
    rw [check_rootSB_congr _ s3 hpost3.sb]; exact hchk2
  -- the second unlink
  obtain ⟨e4, s4, hun4, hpost4⟩ := fs_unlink_spec s3 hpost3.geom hchk3 (SLASH :: a) a
    (get_filename_root a hane has) 0 (get_parent_inode_root _ a has) h03 hpost3.wf n
    ha3 hn3 (by rw [hmore3])
    (fun m hm hne => absurd (file_blocks_none _ _ (by rw [hmore3]; rfl) (by rw [hmore3]; rfl)
      m hm) hne)
  obtain ⟨hlast4, hclr4, _⟩ := hpost4.last (by rw [hmore3]; rfl)
  refine ⟨n, _, s3, s4, rfl, hlink, by rw [hi2], by rw [hi2], ?_, ?_, hun3,
    by rw [hmore3], by rw [hmore3]; rfl, ?_, hun4, by rw [hlast4], hclr4⟩
  · exact get_inode_root _ hg2 h01 htp2 b hbne hbs _ ((hl2 b).trans hbL)
  · exact get_inode_root _ hg2 h01 htp2 a hane has _ ((hl2 a).trans haL)
  · exact get_inode_root s3 hpost3.geom h03 hpost3.wf.type a hane has _ ha3

/-! ### The freshly formatted volume -/

/-- The superblock of a device of 4 to 65536 blocks: no field wraps. -/
theorem format_sblock_fields (n : Nat) (h4 : 4 ≤ n) (hn : n ≤ 65536) :
    (format_sblock n).magic = FS_MAGIC ∧ (format_sblock n).block_cnt = n ∧
    1 ≤ (format_sblock n).bmap_size ∧ (format_sblock n).bmap_size ≤ 8 ∧
    n ≤ (format_sblock n).bmap_size * 8192 ∧
    (format_sblock n).first_inodeblk = 1 + (format_sblock n).bmap_size ∧
    1 ≤ (format_sblock n).inode_blocks ∧ (format_sblock n).inode_blocks ≤ 512 ∧
    (format_sblock n).inode_cnt = (format_sblock n).inode_blocks * 32 ∧
    (format_sblock n).first_datablk
      = 1 + (format_sblock n).bmap_size + (format_sblock n).inode_blocks ∧
    (format_sblock n).first_datablk < n := by
  obtain ⟨B, eB, hB1, hB2, hB3, hB4⟩ : ∃ B, n / (8 * 1024) + (if n % (8 * 1024) ≠ 0 then 1 else 0) = B ∧
      1 ≤ B ∧ B ≤ 8 ∧ n ≤ B * 8192 ∧ B ≤ n / 8192 + 1 := by
    refine ⟨_, rfl, ?_⟩
    split <;> omega
  obtain ⟨I, eI, hI1, hI2, hI3⟩ : ∃ I, (n + 3) / 4 / 32 + (if (n + 3) / 4 % 32 ≠ 0 then 1 else 0) = I ∧
      1 ≤ I ∧ I ≤ 512 ∧ I ≤ (n + 3) / 4 / 32 + 1 := by
    refine ⟨_, rfl, ?_⟩
    split <;> omega
  have hfd : 1 + B + I < n := by
    have h1 : n / 8192 ≤ 8 := by omega
    have h2 : (n + 3) / 4 / 32 ≤ n / 128 + 1 := by omega
    by_cases hs : n < 128
    · have : n / 8192 = 0 := by omega
      have : (n + 3) / 4 / 32 ≤ 1 := by omega
      by_cases hs2 : n < 8
      · have : (n + 3) / 4 / 32 = 0 := by omega
        omega
      · omega
    · omega
  clear hB4 hI3
  unfold format_sblock
  simp only [BLOCKSZ, DISK_BLOCK_SIZE, INODES_PER_BLOCK_eq]
  rw [eB, eI]
  clear eB eI
  refine ⟨trivial, by omega, ?_, ?_, ?_, ?_, ?_, ?_, ?_, ?_, ?_⟩
  all_goals omega

theorem rootdir_in_range : InodeInRange rootdir := by
  refine ⟨by decide, by decide, by decide, by decide, ?_, by decide⟩
  intro j
  show (List.replicate 11 0).getD j 0 < 65536
  by_cases hj : j < 11
  · interval_cases j <;> decide
  · rw [List.getD_eq_default _ _ (by simp; omega)]
    decide

/-- The inode table of a freshly formatted volume: inode 0 is the root
directory, every other inode is free. -/
theorem formatted_inode_at (dev : FS) (mem : Block) (h4 : 4 ≤ dev.nblocks)
    (hn : dev.nblocks ≤ 65536) (q : Nat) (hq : q < (format_sblock dev.nblocks).inode_cnt) :
    inode_at (formatted dev mem) q = if q = 0 then rootdir else block_inode zero_block (q % 32) := by
  obtain ⟨_, _, h1, _, _, h3, h4', _, h5, _, _⟩ := format_sblock_fields dev.nblocks h4 hn
  unfold inode_at formatted
  simp only [INODES_PER_BLOCK_eq]
  rw [if_neg (by omega), if_neg (by omega), if_neg (by omega)]
  by_cases hq0 : q / 32 = 0
  · rw [hq0, Nat.add_zero, if_pos rfl, if_pos (by omega)]
    by_cases h0 : q = 0
    · subst h0
      rw [if_pos rfl]
      exact block_inode_set_same _ _ _ rootdir_in_range
    · rw [if_neg h0]
      exact block_inode_set_other _ _ _ _ (by omega)
  · rw [if_neg (by omega), if_pos (by omega), if_neg (by omega)]

theorem formatted_geom (dev : FS) (mem : Block) (h4 : 4 ≤ dev.nblocks)
    (hn : dev.nblocks ≤ 65536) : VolumeGeom (formatted dev mem) := by
  obtain ⟨_, h0, h1, h2, h2', h3, h4', h4'', h5, h6, h7⟩ := format_sblock_fields dev.nblocks h4 hn
  refine ⟨⟨h1, ?_, ?_⟩, ?_, ?_, ?_, ?_, ?_, ?_, ?_⟩
  · show (format_sblock dev.nblocks).block_cnt ≤ (format_sblock dev.nblocks).bmap_size * (BLOCKSZ * 8)
    simp only [BLOCKSZ, DISK_BLOCK_SIZE]
    omega
  · show BITMAPSTART + (format_sblock dev.nblocks).bmap_size ≤ dev.nblocks
    simp only [BITMAPSTART]
    omega
  · show dev.nblocks < 4294967296
    omega
  · show (format_sblock dev.nblocks).block_cnt ≤ dev.nblocks
    omega
  · show BITMAPSTART + (format_sblock dev.nblocks).bmap_size
      ≤ (format_sblock dev.nblocks).first_inodeblk
    simp only [BITMAPSTART]
    omega
  · show (format_sblock dev.nblocks).first_inodeblk + (format_sblock dev.nblocks).inode_blocks
      ≤ (format_sblock dev.nblocks).first_datablk
    omega
  · show (format_sblock dev.nblocks).first_datablk ≤ (format_sblock dev.nblocks).block_cnt
    omega
  · show (format_sblock dev.nblocks).inode_cnt
      ≤ (format_sblock dev.nblocks).inode_blocks * INODES_PER_BLOCK
    rw [INODES_PER_BLOCK_eq]
    omega
  · intro i hi
    have hi : i < (format_sblock dev.nblocks).first_datablk := hi
    rw [formatted_bitmap_bit dev mem (by omega) i (by omega), if_pos hi]
    decide

theorem formatted_wf (dev : FS) (mem : Block) (h4 : 4 ≤ dev.nblocks)
    (hn : dev.nblocks ≤ 65536) : VolumeWF (formatted dev mem) := by
  have hdir : ∀ q, q < (formatted dev mem).rootSB.inode_cnt →
      (inode_at (formatted dev mem) q).type = IFDIR → q = 0 := by
    intro q hq ht
    by_contra h0
    rw [formatted_inode_at dev mem h4 hn q hq, if_neg h0, block_inode_zero_type] at ht
    exact absurd ht (by decide)
  have hroot : ∀ q, q < (formatted dev mem).rootSB.inode_cnt → q = 0 →
      DirWF (formatted dev mem) (inode_at (formatted dev mem) q) := by
    intro q hq h0
    rw [formatted_inode_at dev mem h4 hn q hq, if_pos h0]
    exact DirWF.of_empty _ _ rfl rfl (fun c hc => by
      show (List.replicate 11 0).getD c 0 = 0
      interval_cases c <;> rfl) rfl
  refine ⟨formatted_geom dev mem h4 hn, fun q hq ht => hroot q hq (hdir q hq ht), ?_⟩
  intro q q1 hq hq1 hne ht ht1
  exact absurd ((hdir q hq ht).trans (hdir q1 hq1 ht1).symm) hne

theorem formatted_check (dev : FS) (mem : Block) : check_rootSB (formatted dev mem) = 0 := by
  unfold check_rootSB
  rw [if_neg (by
    show ¬ (format_sblock dev.nblocks).magic ≠ FS_MAGIC
    unfold format_sblock
    simp)]

/-- On a freshly formatted volume `inode_alloc` returns inode 1. -/
theorem formatted_inode_alloc (dev : FS) (mem : Block) (h4 : 4 ≤ dev.nblocks)
    (hn : dev.nblocks ≤ 65536) : inode_alloc (formatted dev mem) = some 1 := by
  obtain ⟨_, _, h1, _, _, h3, h4', _, h5, h6, h7⟩ := format_sblock_fields dev.nblocks h4 hn
  have hg := formatted_geom dev mem h4 hn
  have hc : (formatted dev mem).rootSB.inode_cnt = (format_sblock dev.nblocks).inode_cnt := rfl
  have e0 := formatted_inode_at dev mem h4 hn 0 (by omega)
  have e1 := formatted_inode_at dev mem h4 hn 1 (by omega)
  rw [if_pos rfl] at e0
  rw [if_neg (by decide)] at e1
  unfold inode_at at e0 e1
  simp only [INODES_PER_BLOCK_eq, Nat.zero_div, Nat.zero_mod,
    show (1 : Nat) / 32 = 0 from rfl, show (1 : Nat) % 32 = 1 from rfl, Nat.add_zero] at e0 e1
  unfold inode_alloc
  obtain ⟨f, hf⟩ : ∃ f, max (formatted dev mem).rootSB.inode_blocks 1 = f + 1 :=
    ⟨max (formatted dev mem).rootSB.inode_blocks 1 - 1, by omega⟩
  rw [hf]
  unfold inode_alloc_loop
  rw [disk_read_eq _ _ (by
    have := inode_table_block_dev hg (show 0 < (formatted dev mem).rootSB.inode_cnt by
      rw [hc]; omega)
    simpa using this)]
  simp only [Nat.add_zero]
  have hs : inode_alloc_scan ((formatted dev mem).disk (formatted dev mem).rootSB.first_inodeblk)
      INODES_PER_BLOCK 0 = some 1 := by
    show inode_alloc_scan _ (30 + 1 + 1) 0 = some 1
    unfold inode_alloc_scan
    rw [if_pos (by decide), e0, if_neg (by decide)]
    unfold inode_alloc_scan
    rw [if_pos (by decide), e1, if_pos (block_inode_zero_type 1)]
  rw [hs]
  rfl

/-- On a freshly formatted volume of 4 to 65536 blocks `fs_create("/a")`
succeeds and returns inode 1. -/
theorem formatted_create (dev : FS) (mem : Block) (h4 : 4 ≤ dev.nblocks)
    (hn : dev.nblocks ≤ 65536) (a : CStr) (hane : a ≠ []) (has : SLASH ∉ a) :
    ∃ s1, fs_create (formatted dev mem) (SLASH :: a) = some (1, s1) := by
  obtain ⟨_, hbc, h1, _, _, h3, h4', _, h5, h6, h7⟩ := format_sblock_fields dev.nblocks h4 hn
  have hwf := formatted_wf dev mem h4 hn
  have hg := hwf.geom
  have hc : (formatted dev mem).rootSB.inode_cnt = (format_sblock dev.nblocks).inode_cnt := rfl
  have h0 : 0 < (formatted dev mem).rootSB.inode_cnt := by rw [hc]; omega
  have h1c : 1 < (formatted dev mem).rootSB.inode_cnt := by rw [hc]; omega
  have er : inode_at (formatted dev mem) 0 = rootdir := by
    rw [formatted_inode_at dev mem h4 hn 0 (by omega), if_pos rfl]
  have hwfr : DirWF (formatted dev mem) (inode_at (formatted dev mem) 0) :=
    hwf.dirs 0 h0 (by rw [er]; rfl)
  -- the state after the new record was saved
  have hwf1 := save_inode_wf (formatted dev mem) hwf 1 h1c
    { zero_inode with type := IFREG, nlinks := 1, size := 0 }
    (new_inode_in_range IFREG 1 (by decide) (by decide)) (fun h => absurd h (by decide))
  have er1 : inode_at (save_inode (formatted dev mem) 1
      { zero_inode with type := IFREG, nlinks := 1, size := 0 }) 0 = rootdir := by
    rw [save_inode_other _ 1 0 _ (by decide), er]
  have hwfr1 := hwf1.dirs 0 h0 (by rw [er1]; rfl)
  have hfdlt : (formatted dev mem).rootSB.first_datablk < (formatted dev mem).rootSB.block_cnt := by
    show (format_sblock dev.nblocks).first_datablk < (format_sblock dev.nblocks).block_cnt
    omega
  have hbit : ∀ m, m < (formatted dev mem).rootSB.block_cnt →
      bitmap_bit (save_inode (formatted dev mem) 1
        { zero_inode with type := IFREG, nlinks := 1, size := 0 }) m
        = if m < (format_sblock dev.nblocks).first_datablk then 1 else 0 := by
    intro m hm
    have hm' : m < dev.nblocks := by
      have : m < (format_sblock dev.nblocks).block_cnt := hm
      omega
    rw [save_inode_bitmap_bit _ hg 1 h1c _ m hm,
      formatted_bitmap_bit dev mem (by omega) m (by omega)]
  have halloc := block_alloc_eq _ hwf1.geom.bitmap (formatted dev mem).rootSB.first_datablk
    hfdlt (by
      rw [hbit _ hfdlt, if_neg (by
        show ¬ (format_sblock dev.nblocks).first_datablk < (format_sblock dev.nblocks).first_datablk
        omega)])
    (fun m hm => by
      have hm2 : m < (format_sblock dev.nblocks).first_datablk := hm
      rw [hbit m (by omega), if_pos hm2]
      decide)
  have hadd := add_entry_append_direct_new_any _ hwf1.geom 0 h0 _ hwfr1 a 1 (by decide)
    (by rw [er1]; rfl) (by rw [er1]; decide) _ halloc (le_refl _) hfdlt
  have hadd2 := add_entry_to_directory_eq _ hwf1.geom 0 h0 hwfr1 a 1 (by decide)
  rw [show first_index (fun e => decide (entry_ino _ (inode_at (save_inode (formatted dev mem) 1
        { zero_inode with type := IFREG, nlinks := 1, size := 0 }) 0) e = FREE))
      (dir_entries (inode_at (save_inode (formatted dev mem) 1
        { zero_inode with type := IFREG, nlinks := 1, size := 0 }) 0)) 0 = none from by
    rw [er1]; rfl] at hadd2
  simp only [] at hadd2
  rw [hadd] at hadd2
  -- the run of the function
  refine ⟨state_of (fs_create (formatted dev mem) (SLASH :: a)) (formatted dev mem),
    eq_some_state_of _ _ 1 ?_⟩
  unfold fs_create fs_create_as
  rw [formatted_check, if_neg (by decide), if_neg (by simp), get_filename_root a hane has]
  simp only []
  rw [get_parent_inode_root _ a has]
  simp only []
  rw [if_neg (by decide), show ROOTINO = ((0 : Nat) : Int) from rfl, inode_load_eq _ hg 0 h0]
  simp only []
  rw [if_neg (by decide), er, if_neg (by decide), ← er,
    dir_findname_eq _ _ a hwfr.type (hwfr.readable hg), dir_lookup_empty _ _ (by rw [er]; rfl)]
  simp only []
  rw [if_neg (by decide), formatted_inode_alloc dev mem h4 hn]
  simp only []
  rw [if_neg (by decide), show (1 : Int) = ((1 : Nat) : Int) from rfl,
    inode_save_eq_save _ hg 1 h1c]
  simp only []
  rw [if_neg (by decide), hadd2]
  simp only []
  rw [if_neg (by decide)]
  rfl

/-- Claim C3 fails for names of more than 61 bytes: on the volume that
`fs_format` makes on a blank device of 4 blocks, with `a` = 62 letters `a` and
`b` = 62 letters `b`, `fs_create("/a")` returns inode 1, but `fs_link("/a", "/b")`
returns -1 (the stored name is cut to 61 bytes, so `get_inode("/a")` fails),
and inode 1 keeps `nlinks = 1`. -/
theorem link_long_name_fails :
    (fs_format (blank_device 4) zero_block).map Prod.fst = some 0 ∧
    (47 :: List.replicate 62 97 : CStr) ≠ 47 :: List.replicate 62 98 ∧
    (fs_create fresh_volume (47 :: List.replicate 62 97)).map Prod.fst = some 1 ∧
    (fs_link (state_of (fs_create fresh_volume (47 :: List.replicate 62 97)) fresh_volume)
      (47 :: List.replicate 62 97) (47 :: List.replicate 62 98)).map Prod.fst = some (-1) ∧
    (inode_at
      (state_of
        (fs_link (state_of (fs_create fresh_volume (47 :: List.replicate 62 97)) fresh_volume)
          (47 :: List.replicate 62 97) (47 :: List.replicate 62 98))
        (state_of (fs_create fresh_volume (47 :: List.replicate 62 97)) fresh_volume))
      1).nlinks = 1 :=
  ⟨by decide, by decide, by decide, by decide, by decide⟩

/-- C3 (amended): on a device of 4 to 65536 blocks, `fs_format` succeeds, and
for distinct names `a` and `b` of 1 to 61 bytes without `/`, on the volume it
leaves: `fs_create("/a")` returns inode 1; `fs_link("/a", "/b")` returns 1,
after which inode 1 is a regular file with `nlinks = 2` and `get_inode("/b")`
= `get_inode("/a")` = 1; `fs_unlink("/b")` returns 1, after which inode 1 has
`nlinks = 1` and `get_inode("/a")` is still 1; `fs_unlink("/a")` returns 1,
after which inode 1 is free and no nonzero block number of the file has its
bitmap bit set. -/
theorem link_unlink_round_trip (dev : FS) (mem : Block) (hun : dev.rootSB.magic ≠ FS_MAGIC)
    (h4 : 4 ≤ dev.nblocks) (hn : dev.nblocks ≤ 65536)
    (a b : CStr) (ha : IsCStr a) (hb : IsCStr b) (hane : a ≠ []) (hbne : b ≠ [])
    (has : SLASH ∉ a) (hbs : SLASH ∉ b) (hla : a.length ≤ 61) (hlb : b.length ≤ 61)
    (hab : a ≠ b) :
    ∃ V s1 s2 s3 s4, fs_format dev mem = some (0, V) ∧
      fs_create V (SLASH :: a) = some (1, s1) ∧
      fs_link s1 (SLASH :: a) (SLASH :: b) = some (1, s2) ∧
      (inode_at s2 1).type = IFREG ∧ (inode_at s2 1).nlinks = 2 ∧
      get_inode s2 (SLASH :: b) = some 1 ∧ get_inode s2 (SLASH :: a) = some 1 ∧
      fs_unlink s2 (SLASH :: b) = some (1, s3) ∧
      (inode_at s3 1).type = IFREG ∧ (inode_at s3 1).nlinks = 1 ∧
      get_inode s3 (SLASH :: a) = some 1 ∧
      fs_unlink s3 (SLASH :: a) = some (1, s4) ∧
      (inode_at s4 1).type = IFFREE ∧
      (∀ m, m ∈ file_blocks s3 (inode_at s3 1) → m ≠ 0 → bitmap_bit s4 m = 0) := by
  obtain ⟨_, hbc, h1, _, _, h3, h4', _, h5, h6, h7⟩ := format_sblock_fields dev.nblocks h4 hn
  have hfmt := fs_format_eq dev mem hun (by omega) h3 h1 h4' (by omega)
  have hwf := formatted_wf dev mem h4 hn
  have hc : (formatted dev mem).rootSB.inode_cnt = (format_sblock dev.nblocks).inode_cnt := rfl
  have er : inode_at (formatted dev mem) 0 = rootdir := by
    rw [formatted_inode_at dev mem h4 hn 0 (by omega), if_pos rfl]
  obtain ⟨s1, hcr⟩ := formatted_create dev mem h4 hn a hane has
  obtain ⟨n, s2, s3, s4, hn1, hrest⟩ := root_round_trip (formatted dev mem) hwf
    (by show (format_sblock dev.nblocks).block_cnt ≤ 65536; omega)
    (by rw [hc]; omega)
    (fun q hq ht => by
      have hq0 : q = 0 := by
        by_contra h0
        rw [formatted_inode_at dev mem h4 hn q hq, if_neg h0, block_inode_zero_type] at ht
        exact absurd ht (by decide)
      subst hq0
      rw [er]
      decide)
    (by rw [er]; rfl) a b ha hb hane hbne has hbs hla hlb hab 1 s1 hcr (by decide)
  have hn1 : n = 1 := by omega
  subst hn1
  exact ⟨formatted dev mem, s1, s2, s3, s4, hfmt, hcr, hrest⟩

theorem link_unlink_round_trip_witness :
    ∃ V s1 s2, fs_format (blank_device 4) zero_block = some (0, V) ∧
      fs_create V [47, 97] = some (1, s1) ∧
      fs_link s1 [47, 97] [47, 98] = some (1, s2) ∧ (inode_at s2 1).nlinks = 2 := by
  obtain ⟨V, s1, s2, _, _, h1, h2, h3, _, h4, _⟩ :=
    link_unlink_round_trip (blank_device 4) zero_block (by decide) (by decide) (by decide)
      [97] [98] (by decide) (by decide) (by decide) (by decide) (by decide) (by decide)
      (by decide) (by decide) (by decide)
  exact ⟨V, s1, s2, h1, h2, h3, h4⟩

/-- C15: with `k = offset / 1024`, `offset2block` returns the direct slot `k`
of the inode when `k < 11`; when `11 <= k < 523` it reads the indirect block
of the inode (a block of the device, else `disk_read` aborts) and returns its
entry `k - 11`; and it returns -1 when `k >= 523`. -/
theorem offset2block_spec (st : FS) (inode : fs_inode) (offset : Nat) :
    (offset / 1024 < 11 →
      offset2block st inode offset = some ((inode.dir_block.getD (offset / 1024) 0 : Nat) : Int)) ∧
    (11 ≤ offset / 1024 → offset / 1024 < 523 → inode.indir_block < st.nblocks →
      offset2block st inode offset
        = some ((block_u16 (st.disk inode.indir_block) (offset / 1024 - 11) : Nat) : Int)) ∧
    (11 ≤ offset / 1024 → offset / 1024 < 523 → st.nblocks ≤ inode.indir_block →
      offset2block st inode offset = none) ∧
    (523 ≤ offset / 1024 → offset2block st inode offset = some (-1)) := by
  unfold offset2block
  simp only [BLOCKSZ, DISK_BLOCK_SIZE, DIRBLOCK_PER_INODE]
  refine ⟨fun h => ?_, fun h1 h2 h3 => ?_, fun h1 h2 h3 => ?_, fun h => ?_⟩
  · rw [if_pos h]
  · rw [if_neg (by omega), if_pos (by omega), disk_read_eq _ _ h3]
  · rw [if_neg (by omega), if_pos (by omega)]
    unfold disk_read
    rw [if_pos (by omega)]
  · rw [if_neg (by omega), if_neg (by omega)]

theorem offset2block_spec_witness :
    11 ≤ 11264 / 1024 ∧ 11264 / 1024 < 523 ∧
    offset2block example_dir176_volume (inode_at example_dir176_volume 1) 11264
      = some ((block_u16 (example_dir176_volume.disk
          (inode_at example_dir176_volume 1).indir_block) (11264 / 1024 - 11) : Nat) : Int) :=
  ⟨by decide, by decide,
    (offset2block_spec example_dir176_volume (inode_at example_dir176_volume 1) 11264).2.1
      (by decide) (by decide) (by decide)⟩

/-! ### `get_filename` -/

theorem strrchr_last (c : Nat) : ∀ (a b : CStr), c ∉ b →
    strrchr (a ++ c :: b) c = some a.length := by
  intro a
  induction a with
  | nil =>
    intro b hb
    show strrchr (c :: b) c = some 0
    unfold strrchr
    rw [strrchr_absent c b hb]
    simp
  | cons x xs ih =>
    intro b hb
    rw [List.cons_append]
    unfold strrchr
    rw [ih b hb]
    rfl

theorem get_filename_split (a b : CStr) (hb : SLASH ∉ b) :
    get_filename (a ++ SLASH :: b) = if b = [] then none else some b := by
  unfold get_filename
  rw [strrchr_last SLASH a b hb]
  simp only []
  rw [show (a ++ SLASH :: b).drop (a.length + 1) = b by
    rw [show a ++ SLASH :: b = (a ++ [SLASH]) ++ b by simp,
      show a.length + 1 = (a ++ [SLASH]).length by simp, List.drop_left]]

theorem getLast_mem_of_some : ∀ (l : CStr) (x : Nat), l.getLast? = some x → x ∈ l := by
  intro l
  induction l with
  | nil => intro x h; cases h
  | cons y ys ih =>
    intro x h
    cases ys with
    | nil =>
      simp only [List.getLast?_singleton, Option.some.injEq] at h
      rw [h]; exact List.mem_cons_self _ _
    | cons z zs =>
      rw [List.getLast?_cons_cons] at h
      exact List.mem_cons_of_mem _ (ih x h)

theorem getLast_cons_mem (y : Nat) (d : CStr) (x : Nat) (hd : d ≠ [])
    (h : (y :: d).getLast? = some x) : x ∈ d := by
  cases d with
  | nil => exact absurd rfl hd
  | cons z zs =>
    rw [List.getLast?_cons_cons] at h
    exact getLast_mem_of_some _ x h

/-- C18: `get_filename` returns the whole path when it holds no `/`;
otherwise, with the path split at its last `/`, the text after it, and NULL
when that text is empty; it returns NULL exactly when the path holds a `/`
and ends with `/`. In particular "" gives "", "/" gives NULL, and "/test"
and "test" both give "test". -/
theorem get_filename_spec (P : CStr) :
    (SLASH ∉ P → get_filename P = some P) ∧
    (∀ a b, P = a ++ SLASH :: b → SLASH ∉ b →
      get_filename P = if b = [] then none else some b) ∧
    (get_filename P = none ↔ SLASH ∈ P ∧ P.getLast? = some SLASH) ∧
    get_filename [] = some [] ∧ get_filename [47] = none ∧
    get_filename [47, 116, 101, 115, 116] = some [116, 101, 115, 116] ∧
    get_filename [116, 101, 115, 116] = some [116, 101, 115, 116] := by
  refine ⟨fun h => ?_, fun a b e hb => ?_, ?_, by decide, by decide, by decide, by decide⟩
  · unfold get_filename
    rw [strrchr_absent SLASH P h]
  · rw [e]; exact get_filename_split a b hb
  · by_cases hs : SLASH ∈ P
    · cases hk : strrchr P SLASH with
      | none => exact absurd hs (strrchr_none SLASH P hk)
      | some k =>
        obtain ⟨_, h2, h3⟩ := strrchr_some SLASH P k hk
        have hg := get_filename_split (P.take k) (P.drop (k + 1)) h3
        rw [← h2] at hg
        rw [hg]
        constructor
        · intro h
          refine ⟨hs, ?_⟩
          by_cases hd : P.drop (k + 1) = []
          · rw [h2, hd]
            simp
          · rw [if_neg hd] at h; cases h
        · intro h
          by_cases hd : P.drop (k + 1) = []
          · rw [if_pos hd]
          · exfalso
            have h4 := h.2
            rw [h2, List.getLast?_append_of_ne_nil _ (List.cons_ne_nil _ _)] at h4
            exact h3 (getLast_cons_mem SLASH _ SLASH hd h4)
    · constructor
      · intro h
        unfold get_filename at h
        rw [strrchr_absent SLASH P hs] at h
        cases h
      · intro h; exact absurd h.1 hs

theorem get_filename_spec_witness :
    get_filename [47, 97, 47, 98] = if ([98] : CStr) = [] then none else some [98] :=
  (get_filename_spec [47, 97, 47, 98]).2.1 [47, 97] [98] (by decide) (by decide)

/-! ### Paths that end in `/` -/

theorem get_filename_trailing (Q : CStr) : get_filename (Q ++ [SLASH]) = none := by
  have := get_filename_split Q [] (List.not_mem_nil _)
  rw [if_pos rfl] at this
  exact this

theorem inode_load_total (st : FS) (hg : VolumeGeom st) (n : Int) (ino0 : fs_inode) :
    ∃ r ino, inode_load st n ino0 = some (r, ino) := by
  by_cases hr : n < 0 ∨ n ≥ st.rootSB.inode_cnt
  · exact ⟨_, _, inode_load_out_of_range st n ino0 hr⟩
  · have e : n = ((n.toNat : Nat) : Int) := by omega
    rw [e]
    exact ⟨_, _, inode_load_eq st hg n.toNat (by omega) ino0⟩

/-- On a well-formed volume a walk never aborts. -/
theorem path_walk_total (st : FS) (hwf : VolumeWF st) : ∀ (ts : List CStr) (c : Int),
    ∃ r, path_walk st ts c = some r := by
  intro ts
  induction ts with
  | nil => intro c; exact ⟨c, rfl⟩
  | cons t ts ih =>
    intro c
    unfold path_walk
    by_cases hc : IsDirIno st c
    · obtain ⟨_, hlt⟩ := hc.cast
      have hd := hwf.dirs c.toNat hlt hc.2.2
      rw [path_step_dir st hwf.geom c t hc, dir_findname_eq st _ t hc.2.2 (hd.readable hwf.geom)]
      simp only []
      by_cases hn : dir_lookup st (inode_at st c.toNat) t = -1
      · rw [if_pos hn]; exact ⟨_, rfl⟩
      · rw [if_neg hn]; exact ih _
    · rw [path_step_not_dir st hwf.geom c t hc]
      simp only [if_true]
      exact ⟨_, rfl⟩

theorem get_inode_total (st : FS) (hwf : VolumeWF st) (P : CStr) :
    ∃ r, get_inode st P = some r := by
  rw [get_inode_eq]
  exact path_walk_total st hwf _ _

/-- When the new path ends in `/`, `fs_link` returns -1 with the state
unchanged if it returns at all. -/
theorem fs_link_trailing (st : FS) (A Q : CStr) (r : Int) (st1 : FS)
    (h : fs_link st A (Q ++ [SLASH]) = some (r, st1)) : r = -1 ∧ st1 = st := by
  have key : ∀ {x : Option (Int × FS)}, x = some (r, st1) → x = some (-1, st) → r = -1 ∧ st1 = st := by
    intro x h1 h2
    rw [h1] at h2
    injection h2 with h2
    injection h2 with h3 h4
    exact ⟨h3, h4⟩
  unfold fs_link at h
  by_cases hc : check_rootSB st = -1
  · rw [if_pos hc] at h; exact key h rfl
  rw [if_neg hc] at h
  cases hg : get_inode st A with
  | none => rw [hg] at h; cases h
  | some fi =>
  rw [hg] at h
  simp only [] at h
  by_cases hf : fi = -1
  · rw [if_pos hf] at h; exact key h rfl
  rw [if_neg hf] at h
  cases hl : inode_load st fi zero_inode with
  | none => rw [hl] at h; cases h
  | some v =>
  obtain ⟨rl, ino⟩ := v
  rw [hl] at h
  simp only [] at h
  by_cases h1 : rl = -1
  · rw [if_pos h1] at h; exact key h rfl
  rw [if_neg h1] at h
  by_cases h2 : ino.type ≠ IFREG
  · rw [if_pos h2] at h; exact key h rfl
  rw [if_neg h2, get_filename_trailing Q] at h
  exact key h rfl

/-- C19: for a path that ends in `/`, `fs_create`, `fs_mkdir` and `fs_unlink`
return -1 with the state (the disk) unchanged, and so does `fs_link` for such
a new path: whenever it returns, and it does return on a well-formed volume. -/
theorem trailing_slash_rejected (st : FS) (Q A : CStr) :
    fs_create st (Q ++ [SLASH]) = some (-1, st) ∧
    fs_mkdir st (Q ++ [SLASH]) = some (-1, st) ∧
    fs_unlink st (Q ++ [SLASH]) = some (-1, st) ∧
    (∀ r st1, fs_link st A (Q ++ [SLASH]) = some (r, st1) → r = -1 ∧ st1 = st) ∧
    (VolumeWF st → fs_link st A (Q ++ [SLASH]) = some (-1, st)) := by
  have hcr : ∀ ty, fs_create_as ty st (Q ++ [SLASH]) = some (-1, st) := by
    intro ty
    unfold fs_create_as
    by_cases hc : check_rootSB st = -1
    · rw [if_pos hc]
    · rw [if_neg hc, if_neg (by simp), get_filename_trailing Q]
  refine ⟨hcr IFREG, hcr IFDIR, ?_, fs_link_trailing st A Q, fun hwf => ?_⟩
  · unfold fs_unlink
    by_cases hc : check_rootSB st = -1
    · rw [if_pos hc]
    · rw [if_neg hc, get_filename_trailing Q]
  · have htot : ∃ v, fs_link st A (Q ++ [SLASH]) = some v := by
      unfold fs_link
      by_cases hc : check_rootSB st = -1
      · rw [if_pos hc]; exact ⟨_, rfl⟩
      rw [if_neg hc]
      obtain ⟨fi, hg⟩ := get_inode_total st hwf A
      rw [hg]
      simp only []
      by_cases hf : fi = -1
      · rw [if_pos hf]; exact ⟨_, rfl⟩
      rw [if_neg hf]
      obtain ⟨rl, ino, hl⟩ := inode_load_total st hwf.geom fi zero_inode
      rw [hl]
      simp only []
      by_cases h1 : rl = -1
      · rw [if_pos h1]; exact ⟨_, rfl⟩
      rw [if_neg h1]
      by_cases h2 : ino.type ≠ IFREG
      · rw [if_pos h2]; exact ⟨_, rfl⟩
      rw [if_neg h2, get_filename_trailing Q]
      exact ⟨_, rfl⟩
    obtain ⟨⟨r, st1⟩, hv⟩ := htot
    obtain ⟨e1, e2⟩ := fs_link_trailing st A Q r st1 hv
    rw [hv, e1, e2]

theorem trailing_slash_rejected_witness :
    fs_link example_file_volume [47, 97] ([47, 98] ++ [SLASH]) = some (-1, example_file_volume) :=
  (trailing_slash_rejected example_file_volume [47, 98] [47, 97]).2.2.2.2 example_file_volume_wf

/-! ### The tokens of `strtok` are the components of the path -/

theorem strtok_leading_slash (s : CStr) : strtok (SLASH :: s) = strtok s := by
  have h : (SLASH :: s).dropWhile (fun c => decide (c = SLASH))
      = s.dropWhile (fun c => decide (c = SLASH)) := by
    rw [List.dropWhile_cons, if_pos (by simp)]
  unfold strtok
  rw [h]

theorem split_components_nil (cur : CStr) :
    split_components [] cur = if cur = [] then [] else [cur] := by
  rw [split_components]

theorem split_components_cons (c : Nat) (cs cur : CStr) :
    split_components (c :: cs) cur =
      if c = SLASH then
        (if cur = [] then split_components cs [] else cur :: split_components cs [])
      else split_components cs (cur ++ [c]) := by
  rw [split_components]

theorem path_tokens_leading_slash (s : CStr) : path_tokens (SLASH :: s) = path_tokens s := by
  cases h : strtok s with
  | none =>
    rw [path_tokens_of_none s h, path_tokens_of_none _ ((strtok_leading_slash s).trans h)]
  | some v =>
    obtain ⟨t, r⟩ := v
    rw [path_tokens_of_strtok s t r h,
      path_tokens_of_strtok _ t r ((strtok_leading_slash s).trans h)]

theorem path_tokens_first (cur cs : CStr) (hne : cur ≠ []) (hns : SLASH ∉ cur) :
    path_tokens (cur ++ SLASH :: cs) = cur :: path_tokens cs := by
  obtain ⟨r1, h1, h2⟩ := strtok_append_some cur cs cur [] (strtok_name cur hne hns)
  rw [path_tokens_of_strtok _ _ _ h1]
  rcases h2 with h2 | ⟨_, h2⟩
  · rw [h2, List.nil_append, path_tokens_leading_slash]
  · rw [h2]

theorem path_tokens_split : ∀ (s cur : CStr), SLASH ∉ cur →
    path_tokens (cur ++ s) = split_components s cur := by
  intro s
  induction s with
  | nil =>
    intro cur hns
    rw [List.append_nil, split_components_nil]
    by_cases hc : cur = []
    · rw [if_pos hc, hc]; rfl
    · rw [if_neg hc, path_tokens_name cur hc hns]
  | cons c cs ih =>
    intro cur hns
    rw [split_components_cons]
    by_cases hc : c = SLASH
    · rw [if_pos hc, hc]
      by_cases hcur : cur = []
      · rw [if_pos hcur, hcur, List.nil_append, path_tokens_leading_slash]
        exact ih [] (List.not_mem_nil _)
      · rw [if_neg hcur, path_tokens_first cur cs hcur hns]
        exact congrArg _ (ih [] (List.not_mem_nil _))
    · rw [if_neg hc, show cur ++ c :: cs = (cur ++ [c]) ++ cs by simp]
      apply ih
      intro hm
      rcases List.mem_append.mp hm with h | h
      · exact hns h
      · exact hc (List.mem_singleton.mp h).symm

/-- The tokens that `get_inode` walks are the non-empty components of the path. -/
theorem path_tokens_eq_components (s : CStr) : path_tokens s = path_components s :=
  path_tokens_split s [] (List.not_mem_nil _)

theorem split_components_trailing : ∀ (P cur : CStr),
    split_components (P ++ [SLASH]) cur = split_components P cur := by
  intro P
  induction P with
  | nil =>
    intro cur
    show split_components [SLASH] cur = split_components [] cur
    rw [split_components_cons, if_pos rfl, split_components_nil, split_components_nil, if_pos rfl]
  | cons c cs ih =>
    intro cur
    rw [List.cons_append, split_components_cons, split_components_cons, ih, ih]

theorem split_components_repeat (b : CStr) : ∀ (a cur : CStr),
    split_components (a ++ SLASH :: SLASH :: b) cur = split_components (a ++ SLASH :: b) cur := by
  intro a
  induction a with
  | nil =>
    intro cur
    show split_components (SLASH :: SLASH :: b) cur = split_components (SLASH :: b) cur
    have h : split_components (SLASH :: b) [] = split_components b [] := by
      rw [split_components_cons, if_pos rfl, if_pos rfl]
    rw [split_components_cons, if_pos rfl, h, split_components_cons, if_pos rfl]
  | cons c cs ih =>
    intro cur
    rw [List.cons_append, List.cons_append, split_components_cons, split_components_cons, ih, ih]

theorem split_components_slashes : ∀ (P : CStr), (∀ c ∈ P, c = SLASH) →
    split_components P [] = [] := by
  intro P
  induction P with
  | nil => intro _; rfl
  | cons c cs ih =>
    intro h
    rw [split_components_cons, if_pos (h c (List.mem_cons_self _ _)), if_pos rfl]
    exact ih (fun x hx => h x (List.mem_cons_of_mem _ hx))

/-- C16: `get_inode` returns 0 (the root) for the empty path, for "/" and for
every path made of slashes only; for every path its result is the walk over
the sequence of its non-empty components, so two paths with the same
components give the same result; and a leading slash, a trailing slash or a
repeated slash does not change the components, hence not the result. -/
theorem get_inode_components (st : FS) :
    get_inode st [] = some 0 ∧ get_inode st [SLASH] = some 0 ∧
    (∀ P : CStr, (∀ c ∈ P, c = SLASH) → get_inode st P = some 0) ∧
    (∀ P, get_inode st P = path_walk st (path_components P) ROOTINO) ∧
    (∀ P Q, path_components P = path_components Q → get_inode st P = get_inode st Q) ∧
    (∀ P, path_components (SLASH :: P) = path_components P ∧
      get_inode st (SLASH :: P) = get_inode st P) ∧
    (∀ P, path_components (P ++ [SLASH]) = path_components P ∧
      get_inode st (P ++ [SLASH]) = get_inode st P) ∧
    (∀ a b, path_components (a ++ SLASH :: SLASH :: b) = path_components (a ++ SLASH :: b) ∧
      get_inode st (a ++ SLASH :: SLASH :: b) = get_inode st (a ++ SLASH :: b)) := by
  have hw : ∀ P, get_inode st P = path_walk st (path_components P) ROOTINO := by
    intro P
    rw [get_inode_eq, path_tokens_eq_components]
  have hdep : ∀ P Q, path_components P = path_components Q → get_inode st P = get_inode st Q := by
    intro P Q h
    rw [hw P, hw Q, h]
  have h1 : ∀ P, path_components (SLASH :: P) = path_components P := by
    intro P
    unfold path_components
    rw [split_components_cons, if_pos rfl, if_pos rfl]
  have h2 : ∀ P, path_components (P ++ [SLASH]) = path_components P :=
    fun P => split_components_trailing P []
  have h3 : ∀ a b, path_components (a ++ SLASH :: SLASH :: b) = path_components (a ++ SLASH :: b) :=
    fun a b => split_components_repeat b a []
  refine ⟨rfl, rfl, ?_, hw, hdep, fun P => ⟨h1 P, hdep _ _ (h1 P)⟩,
    fun P => ⟨h2 P, hdep _ _ (h2 P)⟩, fun a b => ⟨h3 a b, hdep _ _ (h3 a b)⟩⟩
  intro P hP
  rw [hw P]
  unfold path_components
  rw [split_components_slashes P hP]
  rfl

theorem get_inode_components_witness :
    get_inode example_file_volume [47, 47, 97, 47] = get_inode example_file_volume [97] :=
  (get_inode_components example_file_volume).2.2.2.2.1 [47, 47, 97, 47] [97] (by decide)

/-! ### Failing walks -/

theorem path_walk_cons (st : FS) (t : CStr) (ts : List CStr) (c : Int) :
    path_walk st (t :: ts) c =
      match path_step st c t with
      | none => none
      | some next_ino => if next_ino = -1 then some (-1) else path_walk st ts next_ino := by
  conv_lhs => unfold path_walk

theorem path_walk_neg (st : FS) (ts : List CStr) : path_walk st ts (-1) = some (-1) := by
  cases ts with
  | nil => rfl
  | cons t ts =>
    unfold path_walk path_step
    rw [inode_load_out_of_range st (-1) _ (Or.inl (by decide))]
    rfl

theorem path_walk_append_list (st : FS) (rest : List CStr) : ∀ (pre : List CStr) (c : Int),
    path_walk st (pre ++ rest) c =
      match path_walk st pre c with
      | none => none
      | some d => path_walk st rest d := by
  intro pre
  induction pre with
  | nil => intro c; rfl
  | cons t ts ih =>
    intro c
    rw [List.cons_append, path_walk_cons, path_walk_cons]
    cases hs : path_step st c t with
    | none => rfl
    | some n =>
      simp only []
      by_cases hn : n = -1
      · rw [if_pos hn, if_pos hn]
        simp only []
        exact (path_walk_neg st rest).symm
      · rw [if_neg hn, if_neg hn]
        exact ih n

/-- C17: on a mounted volume, let the components of the path `P` be `pre`,
then `t`, then `post`, and let `get_inode` of a path `Q` with the components
`pre` reach the directory `d`. If `dir_findname` does not find `t` in `d`,
`get_inode(P)` returns -1; and if it finds `t` with an inode number that is
not a directory of the inode table while `post` holds a further component,
`get_inode(P)` returns -1. -/
theorem get_inode_fails (st : FS) (hg : VolumeGeom st) (P Q : CStr) (pre post : List CStr)
    (t : CStr) (hP : path_components P = pre ++ t :: post) (hQ : path_components Q = pre)
    (d : Int) (hd : IsDirIno st d) (hw : get_inode st Q = some d) :
    (dir_findname st (inode_at st d.toNat) t = some (-1) → get_inode st P = some (-1)) ∧
    (∀ n, dir_findname st (inode_at st d.toNat) t = some n → ¬ IsDirIno st n → post ≠ [] →
      get_inode st P = some (-1)) := by
  rw [get_inode_eq, path_tokens_eq_components, hQ] at hw
  have hrun : get_inode st P = path_walk st (t :: post) d := by
    rw [get_inode_eq, path_tokens_eq_components, hP, path_walk_append_list, hw]
  rw [hrun, path_walk_cons, path_step_dir st hg d t hd]
  refine ⟨fun h => ?_, fun n h hn hpost => ?_⟩
  · rw [h]
    rfl
  · rw [h]
    simp only []
    by_cases h1 : n = -1
    · rw [if_pos h1]
    · rw [if_neg h1]
      cases post with
      | nil => exact absurd rfl hpost
      | cons t1 post1 =>
        rw [path_walk_cons, path_step_not_dir st hg n t1 hn]
        rfl

theorem get_inode_fails_witness :
    get_inode example_file_volume [47, 98] = some (-1) ∧
    get_inode example_file_volume [47, 97, 47, 98] = some (-1) :=
  ⟨(get_inode_fails example_file_volume example_file_volume_wf.geom [47, 98] [] [] [] [98]
      (by decide) (by decide) 0 ⟨by decide, by decide, by decide⟩ (by decide)).1 (by decide),
   (get_inode_fails example_file_volume example_file_volume_wf.geom [47, 97, 47, 98] [] []
      [[98]] [97] (by decide) (by decide) 0 ⟨by decide, by decide, by decide⟩ (by decide)).2 1
      (by decide) (fun h => absurd h.2.2 (by decide)) (by decide)⟩

/-! ### Stored names -/

theorem cstr_of_spec (f : Nat → Nat) : ∀ (n i : Nat),
    (cstr_of f n i).length ≤ n ∧
    (∀ k, k < (cstr_of f n i).length → f (i + k) = cstr_at (cstr_of f n i) k ∧ f (i + k) ≠ 0) ∧
    ((cstr_of f n i).length < n → f (i + (cstr_of f n i).length) = 0) := by
  intro n
  induction n with
  | zero =>
    intro i
    refine ⟨le_refl _, fun k hk => absurd hk (Nat.not_lt_zero _), fun h => absurd h (Nat.lt_irrefl _)⟩
  | succ n ih =>
    intro i
    unfold cstr_of
    by_cases h0 : f i = 0
    · rw [if_pos h0]
      refine ⟨Nat.zero_le _, fun k hk => absurd hk (Nat.not_lt_zero _), fun _ => h0⟩
    · rw [if_neg h0]
      obtain ⟨h1, h2, h3⟩ := ih (i + 1)
      refine ⟨by simp only [List.length_cons]; omega, ?_, ?_⟩
      · intro k hk
        cases k with
        | zero => exact ⟨rfl, h0⟩
        | succ k =>
          simp only [List.length_cons] at hk
          have := h2 k (by omega)
          rw [show i + (k + 1) = i + 1 + k by omega]
          exact ⟨this.1, this.2⟩
      · intro hlt
        simp only [List.length_cons] at hlt ⊢
        rw [show i + ((cstr_of f n (i + 1)).length + 1) = i + 1 + (cstr_of f n (i + 1)).length by
          omega]
        exact h3 (by omega)

theorem cstr_at_take (t : CStr) (n k : Nat) (hk : k < n) : cstr_at (t.take n) k = cstr_at t k := by
  unfold cstr_at
  by_cases h : k < t.length
  · rw [List.getD_eq_getElem _ _ (by rw [List.length_take]; omega), List.getD_eq_getElem _ _ h,
      List.getElem_take]
  · rw [List.getD_eq_default _ _ (by rw [List.length_take]; omega),
      List.getD_eq_default _ _ (by omega)]

/-- A character array compares equal to the string `t` over `n` characters
exactly when the first `n` characters of `t` are the string it holds. -/
theorem strncmp_cstr_of (f : Nat → Nat) (t : CStr) (ht : IsCStr t) (n : Nat) :
    strncmp f (cstr_at t) n 0 = 0 ↔ t.take n = cstr_of f n 0 := by
  obtain ⟨h1, h2, h3⟩ := cstr_of_spec f n 0
  simp only [Nat.zero_add] at h2 h3
  rw [strncmp_eq_zero_iff]
  constructor
  · intro hc
    have hpre : ∀ k, k < (cstr_of f n 0).length → f k = cstr_at t k ∧ k < t.length := by
      intro k hk
      have e := hc k (Nat.zero_le _) (by omega) (fun j _ hj => (h2 j (by omega)).2)
      refine ⟨e, ?_⟩
      by_contra hlt
      have := cstr_at_ge t k (by omega)
      rw [← e] at this
      exact (h2 k hk).2 this
    have hlen : (t.take n).length = (cstr_of f n 0).length := by
      rw [List.length_take]
      by_cases hL : (cstr_of f n 0).length < n
      · have e := hc _ (Nat.zero_le _) (by omega) (fun j _ hj => (h2 j hj).2)
        rw [h3 hL] at e
        have : t.length ≤ (cstr_of f n 0).length := by
          by_contra hlt
          exact cstr_at_lt t ht _ (by omega) e.symm
        by_cases hz : (cstr_of f n 0).length = 0
        · omega
        · have := (hpre ((cstr_of f n 0).length - 1) (by omega)).2
          omega
      · have hn : (cstr_of f n 0).length = n := by omega
        by_cases hz : n = 0
        · omega
        · have := (hpre (n - 1) (by omega)).2
          omega
    apply List.ext_getElem hlen
    intro k hk1 hk2
    have e1 := (hpre k hk2).1
    have e2 := (h2 k hk2).1
    have e3 := cstr_at_take t n k (by omega)
    unfold cstr_at at e1 e2 e3
    rw [List.getD_eq_getElem _ _ hk1] at e3
    rw [List.getD_eq_getElem _ _ hk2] at e2
    rw [e3, ← e1, e2]
  · intro he k _ hk hnz
    have hkL : k ≤ (cstr_of f n 0).length := by
      by_contra hlt
      exact hnz _ (Nat.zero_le _) (by omega) (h3 (by omega))
    rw [← cstr_at_take t n k (by omega), he]
    by_cases hk2 : k < (cstr_of f n 0).length
    · exact (h2 k hk2).1
    · have : k = (cstr_of f n 0).length := by omega
      rw [this, h3 (by omega), cstr_at_ge _ _ (le_refl _)]

theorem entry_matches_name (st : FS) (ino : fs_inode) (t : CStr) (ht : IsCStr t) (e : Nat) :
    entry_matches st ino t e
      = decide (entry_ino st ino e ≠ FREE ∧ t.take MAXFILENAME = entry_name st ino e) := by
  unfold entry_matches entry_name
  exact decide_eq_decide.mpr (and_congr_right fun _ => strncmp_cstr_of _ t ht _)

theorem take_eq_of_short (t s : CStr) (n : Nat) (hs : s.length < n) :
    t.take n = s ↔ t = s := by
  constructor
  · intro h
    have : (t.take n).length = s.length := by rw [h]
    rw [List.length_take] at this
    rw [← h, List.take_of_length_le (by omega)]
  · intro h
    rw [h, List.take_of_length_le (by omega)]

/-- For a stored name of at most 61 bytes the entry matches exactly the
queries that are this name, as whole strings. -/
theorem entry_matches_whole (st : FS) (ino : fs_inode) (t : CStr) (ht : IsCStr t) (e : Nat)
    (hterm : entry_ino st ino e ≠ FREE → (entry_name st ino e).length ≤ 61) :
    entry_matches st ino t e = true ↔ entry_ino st ino e ≠ FREE ∧ entry_name st ino e = t := by
  rw [entry_matches_name st ino t ht]
  simp only [decide_eq_true_eq]
  constructor
  · rintro ⟨h1, h2⟩
    exact ⟨h1, ((take_eq_of_short t _ MAXFILENAME (by
      have := hterm h1; simp only [MAXFILENAME]; omega)).mp h2).symm⟩
  · rintro ⟨h1, h2⟩
    exact ⟨h1, (take_eq_of_short t _ MAXFILENAME (by
      have := hterm h1; simp only [MAXFILENAME]; omega)).mpr h2.symm⟩

/-- C11: `dir_findname` returns -1 when the inode is not a directory. For a
directory whose blocks are blocks of the device and whose in-use entries
store NUL-terminated names (at most 61 bytes), it returns the inode number of
the in-use entry of lowest index whose stored name is the query `t`, as whole
strings, and -1 when no in-use entry stores `t`. -/
theorem dir_findname_spec (st : FS) (ino : fs_inode) (t : CStr) (ht : IsCStr t) :
    (ino.type ≠ IFDIR → dir_findname st ino t = some (-1)) ∧
    (ino.type = IFDIR → DirReadable st ino →
      (∀ e, e < dir_entries ino → entry_ino st ino e ≠ FREE →
        (entry_name st ino e).length ≤ 61) →
      (∀ e, e < dir_entries ino → entry_ino st ino e ≠ FREE → entry_name st ino e = t →
        (∀ e1, e1 < e → ¬ (entry_ino st ino e1 ≠ FREE ∧ entry_name st ino e1 = t)) →
        dir_findname st ino t = some ((entry_ino st ino e : Nat) : Int)) ∧
      ((∀ e, e < dir_entries ino → ¬ (entry_ino st ino e ≠ FREE ∧ entry_name st ino e = t)) →
        dir_findname st ino t = some (-1))) := by
  refine ⟨fun h => ?_, fun htype hr hterm => ⟨fun e he hu hn hlow => ?_, fun hnone => ?_⟩⟩
  · unfold dir_findname
    rw [if_pos h]
  · rw [dir_findname_eq st ino t htype hr]
    unfold dir_lookup
    rw [first_index_eq_some (entry_matches st ino t) e
      ((entry_matches_whole st ino t ht e (hterm e he)).mpr ⟨hu, hn⟩) _ 0 (Nat.zero_le _)
      (by omega) (fun e1 _ h1 => by
        have := hlow e1 h1
        rw [← entry_matches_whole st ino t ht e1 (hterm e1 (by omega))] at this
        simpa using this)]
  · rw [dir_findname_eq st ino t htype hr]
    unfold dir_lookup
    rw [first_index_eq_none (entry_matches st ino t) _ 0 (fun e _ he => by
        have := hnone e (by omega)
        rw [← entry_matches_whole st ino t ht e (hterm e (by omega))] at this
        simpa using this)]

theorem dir_findname_spec_witness :
    dir_findname example_file_volume (inode_at example_file_volume 0) [97] = some 1 :=
  ((dir_findname_spec example_file_volume (inode_at example_file_volume 0) [97] (by decide)).2
    (by decide)
    ((example_file_volume_wf.dirs 0 (by decide) (by decide)).readable example_file_volume_wf.geom)
    (by decide)).1 0 (by decide) (by decide) (by decide)
    (fun e1 h => absurd h (Nat.not_lt_zero e1))

/-! ### The bytes `dir_remove_entry` writes -/

theorem dirent_name_clear_same (b : Block) (d k : Nat) (hk : k < MAXFILENAME) :
    dirent_name (block_clear_dirent b d) d k = 0 := by
  unfold dirent_name byte block_clear_dirent
  simp only [DIRENTSZ, MAXFILENAME] at hk ⊢
  rw [if_pos (by omega)]

/-- C12: on a well-formed directory of a mounted volume whose in-use entries
store NUL-terminated names, `dir_remove_entry` for the string `s` returns the
inode number of the in-use entry of lowest index that stores `s`, sets the
inode number and the 62 name bytes of that entry to zero, and leaves the other
entries, the superblock, every inode record (so the size of the directory)
and every other block unchanged; when no in-use entry stores `s` it returns -1
and the state is the one it started from. -/
theorem dir_remove_entry_spec (st : FS) (hg : VolumeGeom st) (ino : fs_inode)
    (hwf : DirWF st ino) (s : CStr) (hs : IsCStr s)
    (hterm : ∀ e, e < dir_entries ino → entry_ino st ino e ≠ FREE →
      (entry_name st ino e).length ≤ 61) :
    (∀ e, e < dir_entries ino → entry_ino st ino e ≠ FREE → entry_name st ino e = s →
      (∀ e1, e1 < e → ¬ (entry_ino st ino e1 ≠ FREE ∧ entry_name st ino e1 = s)) →
      ∃ st1, dir_remove_entry st ino s = some (((entry_ino st ino e : Nat) : Int), st1) ∧
        entry_ino st1 ino e = 0 ∧
        (∀ k, k < MAXFILENAME →
          dirent_name (entry_data st1 ino e) (e % DIRENTS_PER_BLOCK) k = 0) ∧
        (∀ e1, e1 < dir_entries ino → e1 ≠ e →
          entry_ino st1 ino e1 = entry_ino st ino e1 ∧
          ∀ k, k < MAXFILENAME →
            dirent_name (entry_data st1 ino e1) (e1 % DIRENTS_PER_BLOCK) k
              = dirent_name (entry_data st ino e1) (e1 % DIRENTS_PER_BLOCK) k) ∧
        st1.rootSB = st.rootSB ∧ st1.nblocks = st.nblocks ∧
        (∀ q, q < st.rootSB.inode_cnt → inode_at st1 q = inode_at st q) ∧
        (∀ k, k ≠ chunk_block st ino (e / DIRENTS_PER_BLOCK) → st1.disk k = st.disk k)) ∧
    ((∀ e, e < dir_entries ino → ¬ (entry_ino st ino e ≠ FREE ∧ entry_name st ino e = s)) →
      dir_remove_entry st ino s = some (-1, st)) := by
  refine ⟨fun e he hu hn hlow => ?_, fun hnone => ?_⟩
  · have hfirst : first_index (entry_matches st ino s) (dir_entries ino) 0 = some e :=
      first_index_eq_some (entry_matches st ino s) e
        ((entry_matches_whole st ino s hs e (hterm e he)).mpr ⟨hu, hn⟩) _ 0 (Nat.zero_le _)
        (by omega) (fun e1 _ h1 => by
          have := hlow e1 h1
          rw [← entry_matches_whole st ino s hs e1 (hterm e1 (by omega))] at this
          simpa using this)
    obtain ⟨_, _, hgone, hch⟩ := clear_entry_post st hg ino hwf e he
    have hd := hwf.chunk_data (e / 16) (by rw [DIRENTS_PER_BLOCK_eq]; omega)
    refine ⟨write_block st (chunk_block st ino (e / 16))
      (block_clear_dirent (st.disk (chunk_block st ino (e / 16))) (e % 16)), ?_, hgone.gone, ?_,
      fun e1 h1 hne => ⟨hgone.ino_old e1 h1 hne, hgone.name_old e1 h1 hne⟩, rfl, rfl, ?_, ?_⟩
    · rw [dir_remove_entry_eq st hg ino hwf s, hfirst]
    · intro k hk
      rw [entry_data_eq, hch (e / 16) (by omega), write_block_disk_same, DIRENTS_PER_BLOCK_eq]
      exact dirent_name_clear_same _ _ _ hk
    · intro q hq
      exact write_block_inode_at st hg _ _ hd.1 q hq
    · intro k hk
      exact write_block_disk_other _ _ _ _ hk
  · rw [dir_remove_entry_eq st hg ino hwf s,
      first_index_eq_none (entry_matches st ino s) _ 0 (fun e _ he => by
        have := hnone e (by omega)
        rw [← entry_matches_whole st ino s hs e (hterm e (by omega))] at this
        simpa using this)]

theorem dir_remove_entry_spec_witness :
    (dir_remove_entry example_file_volume (inode_at example_file_volume 0) [97]).map Prod.fst
      = some 1 ∧
    dir_remove_entry example_file_volume (inode_at example_file_volume 0) [98]
      = some (-1, example_file_volume) := by
  have h := dir_remove_entry_spec example_file_volume example_file_volume_wf.geom
    (inode_at example_file_volume 0) (example_file_volume_wf.dirs 0 (by decide) (by decide))
  refine ⟨?_, (h [98] (by decide) (by decide)).2 (by decide)⟩
  obtain ⟨st1, h1, _⟩ := (h [97] (by decide) (by decide)).1 0 (by decide) (by decide)
    (by decide) (fun e1 h => absurd h (Nat.not_lt_zero e1))
  rw [h1]
  rfl

/-! ### The size of a directory after an append -/

/-- When no entry of the directory is free and the directory is below its
capacity, a successful `add_entry_to_directory` leaves the directory record
with its size grown by one entry. -/
theorem add_entry_size (st : FS) (hg : VolumeGeom st) (h16 : st.rootSB.block_cnt ≤ 65536)
    (p : Nat) (hp : p < st.rootSB.inode_cnt) (hwf : DirWF st (inode_at st p)) (s : CStr)
    (c : Nat) (hc : c < 4294967296) (hcap : dir_entries (inode_at st p) < 8368)
    (hlow : ∀ e, e < dir_entries (inode_at st p) → entry_ino st (inode_at st p) e ≠ FREE)
    (st1 : FS) (h : add_entry_to_directory st (p : Int) s (c : Int) = some (0, st1)) :
    (inode_at st1 p).size = (inode_at st p).size + 64 := by
  rw [add_entry_to_directory_eq st hg p hp hwf s c hc,
    first_index_eq_none _ _ 0 (fun e _ he => by
      have := hlow e (by omega)
      simpa using this)] at h
  simp only [] at h
  have hr : InodeInRange (inode_at st p) := inode_at_in_range st p
  have hfail : ∀ x : FS, (some ((-1 : Int), x) : Option (Int × FS)) ≠ some (0, st1) := by
    intro x hx
    exact absurd (Prod.mk.inj (Option.some.inj hx)).1 (by decide)
  by_cases hmod : dir_entries (inode_at st p) % 16 = 0
  · by_cases h11 : dir_entries (inode_at st p) / 16 < 11
    · rcases add_entry_append_direct_new st hg h16 p hp _ hwf s c hc hmod h11 with
        ⟨_, h1⟩ | ⟨b, hb1, hb2, hb3, _, h1⟩
      · rw [h1] at h
        exact absurd h (hfail _)
      · rw [h1] at h
        rw [← (Prod.mk.inj (Option.some.inj h)).2, save_inode_same]
        refine ⟨hr.type_lt, hr.nlinks_lt, hwf.size_lt, ?_, ?_, hr.indir_lt⟩
        · simp only [List.length_set]; exact hr.dir_len
        · intro j
          simp only [getD_set]
          split
          · omega
          · exact hr.dir_lt j
    · by_cases h176 : dir_entries (inode_at st p) = 176
      · rcases add_entry_append_table_new st hg h16 p hp _ hwf s c hc h176 with
          ⟨_, h1⟩ | ⟨b1, hb1, hb2, hb3, _, h1 | ⟨b2, hc1, hc2, hc3, hne, _, h1⟩⟩
        · rw [h1] at h
          exact absurd h (hfail _)
        · rw [h1] at h
          exact absurd h (hfail _)
        · rw [h1] at h
          rw [← (Prod.mk.inj (Option.some.inj h)).2, save_inode_same]
          exact ⟨hr.type_lt, hr.nlinks_lt, hwf.size_lt, hr.dir_len, hr.dir_lt,
            by show b1 < 65536; omega⟩
      · rcases add_entry_append_indirect_new st hg h16 p hp _ hwf s c hc hmod
          (by omega) (by omega) with ⟨_, h1⟩ | ⟨b, hb1, hb2, hb3, _, h1⟩
        · rw [h1] at h
          exact absurd h (hfail _)
        · rw [h1] at h
          rw [← (Prod.mk.inj (Option.some.inj h)).2,
            save_inode_same _ _ _ (in_range_resize _ hr _ hwf.size_lt)]
  · rw [add_entry_append_existing st hg p hp _ hwf s c hc hmod] at h
    rw [← (Prod.mk.inj (Option.some.inj h)).2,
      save_inode_same _ _ _ (in_range_resize _ hr _ hwf.size_lt)]

/-- A name field filled from a name of at most 61 bytes holds that name. -/
theorem cstr_of_name_field (f : Nat → Nat) (s : CStr) (hs : IsCStr s) (hlen : s.length ≤ 61)
    (hf : ∀ k, k < MAXFILENAME → f k = name_field s k) : cstr_of f MAXFILENAME 0 = s := by
  have h1 := (strncmp_cstr_of f s hs MAXFILENAME).mp
    ((strncmp_name_field f s s hs hs hlen hf).mpr rfl)
  rw [← h1, List.take_of_length_le (by simp only [MAXFILENAME]; omega)]

/-- C13 (amended): on a volume of at most 65536 blocks, for a well-formed
directory (inode `p`) with fewer than 8368 entries, none of them free, and an
inode number `c < 65536`: if `add_entry_to_directory(p, s, c)` returns 0, the
size of the directory has grown by exactly 64, the entry at index
`old_size / 64` holds the inode number `c` and the name field
`strncpy(d_name, s, 62); d_name[61] = 0` (which is the name `s` when `s` has
at most 61 bytes), and every entry below that index has the inode number and
the 62 name bytes it had before. -/
theorem add_entry_append_spec (st : FS) (hg : VolumeGeom st)
    (h16 : st.rootSB.block_cnt ≤ 65536) (p : Nat) (hp : p < st.rootSB.inode_cnt)
    (hwf : DirWF st (inode_at st p)) (s : CStr) (hs : IsCStr s) (c : Nat) (hc : c < 65536)
    (hcap : dir_entries (inode_at st p) < 8368)
    (hfull : ∀ e, e < dir_entries (inode_at st p) → entry_ino st (inode_at st p) e ≠ FREE)
    (st1 : FS) (h : add_entry_to_directory st (p : Int) s (c : Int) = some (0, st1)) :
    (inode_at st1 p).size = (inode_at st p).size + DIRENTSZ ∧
    entry_ino st1 (inode_at st1 p) ((inode_at st p).size / DIRENTSZ) = c ∧
    (∀ k, k < MAXFILENAME →
      dirent_name (entry_data st1 (inode_at st1 p) ((inode_at st p).size / DIRENTSZ))
        ((inode_at st p).size / DIRENTSZ % DIRENTS_PER_BLOCK) k = name_field s k) ∧
    (s.length ≤ 61 → entry_name st1 (inode_at st1 p) ((inode_at st p).size / DIRENTSZ) = s) ∧
    (∀ e, e < (inode_at st p).size / DIRENTSZ →
      entry_ino st1 (inode_at st1 p) e = entry_ino st (inode_at st p) e ∧
      ∀ k, k < MAXFILENAME →
        dirent_name (entry_data st1 (inode_at st1 p) e) (e % DIRENTS_PER_BLOCK) k
          = dirent_name (entry_data st (inode_at st p) e) (e % DIRENTS_PER_BLOCK) k) := by
  have hsize := add_entry_size st hg h16 p hp hwf s c (by omega) hcap hfull st1 h
  obtain ⟨r, st2, hrun, hres⟩ := add_entry_spec st hg h16 p hp hwf s hs c hc (Or.inl hcap)
  rw [h] at hrun
  have hr : r = 0 := ((Prod.mk.inj (Option.some.inj hrun)).1).symm
  have hst : st2 = st1 := ((Prod.mk.inj (Option.some.inj hrun)).2).symm
  subst hst
  rcases hres with ⟨_, e0, hpost⟩ | ⟨hneg, _⟩
  · have he0 : e0 = dir_entries (inode_at st p) := by
      have hle := hpost.put.le
      by_contra hne
      exact hfull e0 (by omega) (hpost.put.was_free (by omega))
    subst he0
    refine ⟨hsize, hpost.put.ino_new, hpost.put.name_new, fun hlen => ?_, fun e he =>
      ⟨hpost.put.ino_old e he (by intro h0; rw [h0] at he; exact Nat.lt_irrefl _ he),
       hpost.put.name_old e he (by intro h0; rw [h0] at he; exact Nat.lt_irrefl _ he)⟩⟩
    exact cstr_of_name_field _ s hs hlen hpost.put.name_new
  · rw [hr] at hneg
    exact absurd hneg (by decide)

theorem add_entry_append_spec_witness :
    (inode_at (state_of (add_entry_to_directory example_volume 0 [97] 1) example_volume) 0).size
      = (inode_at example_volume 0).size + DIRENTSZ ∧
    entry_ino (state_of (add_entry_to_directory example_volume 0 [97] 1) example_volume)
      (inode_at (state_of (add_entry_to_directory example_volume 0 [97] 1) example_volume) 0)
      ((inode_at example_volume 0).size / DIRENTSZ) = 1 :=
  have h := add_entry_append_spec example_volume example_volume_vgeom (by decide) 0 (by decide)
    example_volume_root_wf [97] (by decide) 1 (by decide) (by decide) (by decide) _
    (eq_some_state_of _ _ 0 (by decide))
  ⟨h.1, h.2.1⟩

/-- The append on a volume of more than 65536 blocks: the root of the
large volume is an empty, well-formed directory (size 0, so no free slot).
`add_entry_to_directory(root, "a", 1)` returns 0 and the size grows by 64, but
the block it allocated for the entry is block 65536 and the 16-bit direct slot
keeps `65536 mod 65536 = 0`: entry 0 of the directory is read from block 0
(the superblock) and holds the inode number 20517, not 1, while the entry
`(1, "a")` sits in block 65536, which the directory does not reference. -/
theorem add_entry_append_large_volume :
    DirWF large_empty_volume (inode_at large_empty_volume 0) ∧
    (inode_at large_empty_volume 0).size = 0 ∧
    ∃ st1, add_entry_to_directory large_empty_volume 0 [97] 1 = some (0, st1) ∧
      (inode_at st1 0).size = 64 ∧
      entry_ino st1 (inode_at st1 0) 0 = 20517 ∧
      chunk_block st1 (inode_at st1 0) 0 = 0 ∧
      dirent_ino (st1.disk 65536) 0 = 1 :=
  ⟨large_empty_root_wf, by decide, _, large_empty_add_entry, by decide, by decide, by decide,
    by decide⟩

/-- C13 (counterexample): the root directory of the example volume is empty
(size 0, so it has no free slot). `add_entry_to_directory(root, s, 1)` with a
name `s` of 70 bytes returns 0 and the size grows to 64, and entry 0 holds the
inode number 1, but its name is the first 61 bytes of `s`, not `s`: the new
entry is not (child inode, name). -/
theorem add_entry_append_long_name :
    (inode_at example_volume 0).size = 0 ∧
    ∃ st1, add_entry_to_directory example_volume 0 (List.replicate 70 97) 1 = some (0, st1) ∧
      (inode_at st1 0).size = 64 ∧
      entry_ino st1 (inode_at st1 0) 0 = 1 ∧
      entry_name st1 (inode_at st1 0) 0 = List.replicate 61 97 ∧
      entry_name st1 (inode_at st1 0) 0 ≠ List.replicate 70 97 :=
  ⟨by decide, state_of (add_entry_to_directory example_volume 0 (List.replicate 70 97) 1)
      example_volume,
    eq_some_state_of _ _ 0 (by decide), by decide, by decide, by decide, by decide⟩

/-- C20 (the code at a failing input): on the volume that `fs_format` makes
on a blank device of 4 blocks, `fs_create("/a")` returns inode 1 and then
`fs_link("/a", "")` returns 1 as well: `get_filename("")` is the empty string,
not NULL, `get_parent_inode("")` is the root, and `fs_link` has no check of
the length of the new name. Afterwards the root directory has two entries,
both in use and both naming inode 1; the second one has the empty name, and
inode 1 has two links. -/
theorem fs_link_empty_name :
    fs_format (blank_device 4) zero_block = some (0, fresh_volume) ∧
    fs_create fresh_volume [47, 97] = some (1, fresh_file_volume) ∧
    get_filename [] = some [] ∧
    fs_link fresh_file_volume [47, 97] [] = some (1, fresh_link_volume) ∧
    dir_entries (inode_at fresh_link_volume 0) = 2 ∧
    entry_ino fresh_link_volume (inode_at fresh_link_volume 0) 1 = 1 ∧
    entry_name fresh_link_volume (inode_at fresh_link_volume 0) 1 = [] ∧
    (inode_at fresh_link_volume 1).nlinks = 2 :=
  ⟨eq_some_state_of _ _ 0 (by decide), eq_some_state_of _ _ 1 (by decide), by decide,
    eq_some_state_of _ _ 1 (by decide), by decide, by decide!, by decide!, by decide!⟩

/-! ### A directory at its capacity -/

/-- The append to a directory of 8368 entries when the 16-bit word that
follows the 512 entries of the indirect table reads 0: a block is allocated,
its number is stored at byte offset 1024 of the table buffer, and the entry
goes into the new block. -/
theorem add_entry_append_beyond (st : FS) (hg : VolumeGeom st) (p : Nat)
    (hp : p < st.rootSB.inode_cnt) (ino : fs_inode) (hwf : DirWF st ino)
    (s : CStr) (c : Nat) (hc : c < 4294967296) (hN : dir_entries ino = 8368)
    (hslot : block_u16 (st.disk ino.indir_block) 512 = 0)
    (b : Nat) (hb1 : st.rootSB.first_datablk ≤ b) (hb2 : b < st.rootSB.block_cnt)
    (halloc : block_alloc st = some ((b : Int), mark_used st b)) :
    add_entry_append st (p : Int) ino s (c : Int) = some (0,
      save_inode (write_block (write_block (mark_used st b) ino.indir_block
          (set16 (st.disk ino.indir_block) 1024 b))
        b (block_set_dirent zero_block 0 c s)) p
        { ino with size := ino.size + 64 }) := by
  have hind := hwf.indir_data (by
    simp only [DIRBLOCK_PER_INODE, DIRENTS_PER_BLOCK_eq, hN]; decide)
  have hdev := hg.cnt_dev
  have hdev2 := hg.dev
  have h1 := hg.one_le_data
  unfold add_entry_append
  simp only [← dir_entries_size, DIRENTS_PER_BLOCK_eq, DIRBLOCK_PER_INODE, DIRENTSZ, hN]
  rw [to_unsigned_natCast c hc, if_neg (by decide), if_neg (by omega),
    disk_read_eq _ _ (by omega)]
  simp only [hslot, if_true, halloc]
  rw [if_neg (by omega), to_unsigned_natCast b (by omega),
    to_unsigned_natCast ino.indir_block (by omega),
    disk_write_eq_write _ _ _ (by show ino.indir_block < st.nblocks; omega)]
  simp only []
  rw [disk_write_eq_write _ _ _ (by show b < st.nblocks; omega)]
  have hgeo : VolumeGeom (write_block (write_block (mark_used st b) ino.indir_block
      (set16 (st.disk ino.indir_block) 1024 b))
      b (block_set_dirent zero_block 0 c s)) :=
    write_block_geom _ (write_block_geom _ (mark_used_geom st hg b) _ _ hind.1) _ _ hb1
  exact add_entry_finish_eq _ hgeo p hp _ hwf.size_lt

/-- The append to a directory of 8368 entries when the 16-bit word that
follows the 512 entries of the indirect table reads `v ≠ 0`: block `v` is read
and written, or `disk_read` aborts when `v` is no block of the device. -/
theorem add_entry_append_beyond_stray (st : FS) (hg : VolumeGeom st) (p : Nat)
    (hp : p < st.rootSB.inode_cnt) (ino : fs_inode) (hwf : DirWF st ino)
    (s : CStr) (c : Nat) (hc : c < 4294967296) (hN : dir_entries ino = 8368)
    (hslot : block_u16 (st.disk ino.indir_block) 512 ≠ 0) :
    add_entry_append st (p : Int) ino s (c : Int) =
      if st.nblocks ≤ block_u16 (st.disk ino.indir_block) 512 then none
      else some (0, save_inode (write_block st (block_u16 (st.disk ino.indir_block) 512)
          (block_set_dirent (st.disk (block_u16 (st.disk ino.indir_block) 512)) 0 c s)) p
        { ino with size := ino.size + 64 }) := by
  have hind := hwf.indir_data (by
    simp only [DIRBLOCK_PER_INODE, DIRENTS_PER_BLOCK_eq, hN]; decide)
  have hdev := hg.cnt_dev
  have h1 := hg.one_le_data
  have hsz := hwf.size_lt
  unfold add_entry_append
  simp only [← dir_entries_size, DIRENTS_PER_BLOCK_eq, DIRBLOCK_PER_INODE, DIRENTSZ, hN]
  rw [to_unsigned_natCast c hc, if_neg (by decide), if_neg (by omega),
    disk_read_eq _ _ (by omega)]
  have e512 : (8368 : Nat) / 16 - 11 = 512 := rfl
  have e0 : (8368 : Nat) % 16 = 0 := rfl
  simp only [e512, e0, hslot, if_false]
  by_cases hv : st.nblocks ≤ block_u16 (st.disk ino.indir_block) 512
  · rw [if_pos hv]
    unfold disk_read
    rw [if_pos hv]
  · rw [if_neg hv, disk_read_eq _ _ (by omega)]
    simp only []
    rw [disk_write_eq_write _ _ _ (by omega)]
    simp only []
    unfold add_entry_finish
    rw [inode_save_eq _ (p : Int) _ (by omega) (by
        show (p : Int) < (st.rootSB.inode_cnt : Int); omega)
      (by simpa using inode_table_block_dev hg hp)]
    simp only [DIRENTSZ, Int.toNat_ofNat]
    rw [Nat.mod_eq_of_lt hsz]
    rfl

/-- C14 (what the code does): take a well-formed directory (inode `p`) of a
mounted volume that holds 8368 entries, all in use, and a volume with a free
block. `add_entry_to_directory` has no check of the capacity: it reads the
16-bit word `v` that follows the 512 entries of the indirect table
(`indirect_block_data[512]`). When `v` is a block number of the device (0
included, for which a block is allocated), the call returns 0 and the size of
the directory grows by 64; when it is not, `disk_read` aborts. It never
returns -1. -/
theorem add_entry_full_directory (st : FS) (hg : VolumeGeom st) (p : Nat)
    (hp : p < st.rootSB.inode_cnt) (hwf : DirWF st (inode_at st p)) (s : CStr) (c : Nat)
    (hc : c < 65536) (hN : dir_entries (inode_at st p) = 8368)
    (hused : ∀ e, e < 8368 → entry_ino st (inode_at st p) e ≠ FREE)
    (hfree : ∃ m, m < st.rootSB.block_cnt ∧ bitmap_bit st m = 0) :
    (block_u16 (st.disk (inode_at st p).indir_block) 512 < st.nblocks →
      ∃ st1, add_entry_to_directory st (p : Int) s (c : Int) = some (0, st1) ∧
        (inode_at st1 p).size = (inode_at st p).size + 64) ∧
    (st.nblocks ≤ block_u16 (st.disk (inode_at st p).indir_block) 512 →
      add_entry_to_directory st (p : Int) s (c : Int) = none) := by
  have hrun : add_entry_to_directory st (p : Int) s (c : Int)
      = add_entry_append st (p : Int) (inode_at st p) s (c : Int) := by
    rw [add_entry_to_directory_eq st hg p hp hwf s c (by omega),
      first_index_eq_none _ _ 0 (fun e _ he => by
        have := hused e (by omega)
        simpa using this)]
  have hr : InodeInRange (inode_at st p) := inode_at_in_range st p
  have hin : InodeInRange { inode_at st p with size := (inode_at st p).size + 64 } :=
    in_range_resize _ hr _ hwf.size_lt
  rw [hrun]
  refine ⟨fun hv => ?_, fun hv => ?_⟩
  · by_cases hz : block_u16 (st.disk (inode_at st p).indir_block) 512 = 0
    · rcases block_alloc_cases st hg with hfull | ⟨b, hb1, hb2, hb3, _, hb4⟩
      · exfalso
        obtain ⟨m, hm1, hm2⟩ := hfree
        classical
        have hb := block_alloc_eq st hg.bitmap (Nat.find ⟨m, hm1, hm2⟩)
          (Nat.find_spec (⟨m, hm1, hm2⟩ : ∃ m, m < st.rootSB.block_cnt ∧ bitmap_bit st m = 0)).1
          (Nat.find_spec (⟨m, hm1, hm2⟩ : ∃ m, m < st.rootSB.block_cnt ∧ bitmap_bit st m = 0)).2
          (fun k hk hz1 => Nat.find_min
            (⟨m, hm1, hm2⟩ : ∃ m, m < st.rootSB.block_cnt ∧ bitmap_bit st m = 0) hk
            ⟨by
              have := (Nat.find_spec
                (⟨m, hm1, hm2⟩ : ∃ m, m < st.rootSB.block_cnt ∧ bitmap_bit st m = 0)).1
              omega, hz1⟩)
        rw [hfull] at hb
        have := (Prod.mk.inj (Option.some.inj hb)).1
        omega
      · rw [add_entry_append_beyond st hg p hp _ hwf s c (by omega) hN hz b hb1 hb2 hb4]
        exact ⟨_, rfl, by rw [save_inode_same _ _ _ hin]⟩
    · rw [add_entry_append_beyond_stray st hg p hp _ hwf s c (by omega) hN hz,
        if_neg (by omega)]
      exact ⟨_, rfl, by rw [save_inode_same _ _ _ hin]⟩
  · rw [add_entry_append_beyond_stray st hg p hp _ hwf s c (by omega) hN (by
        have := hg.cnt_dev
        have := hg.data_le
        have := hg.one_le_data
        omega), if_pos hv]

/-! ### The full example directory -/

theorem full_dir_bit (m : Nat) (hm : m < 8192) :
    bitmap_bit full_dir_volume m = if m < 534 then 1 else 0 := by
  unfold bitmap_bit
  have h1 : BITMAPSTART + m / (BLOCKSZ * 8) = 1 := by
    simp only [BITMAPSTART, BLOCKSZ, DISK_BLOCK_SIZE]; omega
  have h2 : m % (BLOCKSZ * 8) = m := by
    simp only [BLOCKSZ, DISK_BLOCK_SIZE]; omega
  rw [h1, h2]
  exact bitmap_get_set_upto m 534

theorem full_dir_geom : VolumeGeom full_dir_volume := by
  refine ⟨⟨by decide, by decide, by decide⟩, by decide, by decide, by decide, by decide,
    by decide, by decide, ?_⟩
  intro i hi
  have : full_dir_volume.rootSB.first_datablk = 10 := by decide
  rw [full_dir_bit i (by omega), if_pos (by omega)]
  decide

theorem full_dir_root : inode_at full_dir_volume 0 =
    { type := IFDIR, nlinks := 0, size := 535552,
      dir_block := [10, 11, 12, 13, 14, 15, 16, 17, 18, 19, 20], indir_block := 21 } := by
  decide

theorem full_dir_chunks (c : Nat) (hc : c < 523) :
    chunk_block full_dir_volume (inode_at full_dir_volume 0) c
      = if c < 11 then 10 + c else 11 + c := by
  rw [full_dir_root]
  unfold chunk_block
  simp only [DIRBLOCK_PER_INODE]
  by_cases h : c < 11
  · rw [if_pos h, if_pos h]
    interval_cases c <;> rfl
  · rw [if_neg h, if_neg h]
    show block_u16 full_dir_table (c - 11) = 11 + c
    unfold block_u16 get16 byte full_dir_table
    rw [if_pos (by omega), if_pos (by omega), if_pos (by omega), if_neg (by omega)]
    omega

theorem full_dir_block (n : Nat) (h1 : 10 ≤ n) (h2 : n < 534) (h3 : n ≠ 21) :
    full_dir_volume.disk n = full_dir_entries n := by
  show (if n = 0 then _ else if n = 1 then _ else if n = 2 then _ else if n = 21 then _
    else if 10 ≤ n ∧ n < 534 then full_dir_entries n else _) = _
  rw [if_neg (by omega), if_neg (by omega), if_neg (by omega), if_neg h3, if_pos ⟨h1, h2⟩]

theorem full_dir_entry (e : Nat) (he : e < 8368) :
    entry_ino full_dir_volume (inode_at full_dir_volume 0) e = 1 := by
  rw [entry_ino_eq, full_dir_chunks (e / 16) (by omega)]
  have hb : full_dir_volume.disk (if e / 16 < 11 then 10 + e / 16 else 11 + e / 16)
      = full_dir_entries (if e / 16 < 11 then 10 + e / 16 else 11 + e / 16) := by
    apply full_dir_block
    · split <;> omega
    · split <;> omega
    · split <;> omega
  rw [hb]
  unfold dirent_ino get16 byte full_dir_entries
  simp only [DIRENTSZ]
  rw [if_pos (by omega), if_neg (by omega), if_neg (by omega), if_neg (by omega),
    if_neg (by omega)]

theorem full_dir_wf : DirWF full_dir_volume (inode_at full_dir_volume 0) := by
  have hN : dir_entries (inode_at full_dir_volume 0) = 8368 := by rw [full_dir_root]; rfl
  have hI : (inode_at full_dir_volume 0).indir_block = 21 := by rw [full_dir_root]
  have hfd : full_dir_volume.rootSB.first_datablk = 10 := by decide
  have hcnt : full_dir_volume.rootSB.block_cnt = 1024 := by decide
  refine ⟨by rw [full_dir_root], ?_, ?_, ?_, ?_, ?_, ?_, ?_, ?_, ?_, ?_⟩
  all_goals simp only [DIRBLOCK_PER_INODE, BLOCKSZ, DISK_BLOCK_SIZE, DIRENTS_PER_BLOCK_eq, hN,
    hI, hfd, hcnt]
  · decide
  · intro c h
    rw [full_dir_chunks c (by omega)]
    split <;> omega
  · intro c h
    rw [full_dir_chunks c (by omega), full_dir_bit _ (by split <;> omega),
      if_pos (by split <;> omega)]
    decide
  · intro c c' h h' heq
    rw [full_dir_chunks c (by omega), full_dir_chunks c' (by omega)] at heq
    split at heq <;> split at heq <;> omega
  · intro _; omega
  · intro _
    rw [full_dir_bit 21 (by decide)]
    decide
  · intro _ c h
    rw [full_dir_chunks c (by omega)]
    split <;> omega
  · intro c h h11; omega
  · intro h; omega
  · intro _ c h h11 h523; omega

theorem full_dir_block_alloc :
    block_alloc full_dir_volume = some (((534 : Nat) : Int), mark_used full_dir_volume 534) := by
  apply block_alloc_eq _ full_dir_geom.bitmap 534 (by decide)
  · rw [full_dir_bit 534 (by decide)]
    rfl
  · intro m hm
    rw [full_dir_bit m (by omega), if_pos hm]
    decide

/-- The run of the code on the full example directory: the root directory of
the example volume holds 8368 entries, all in use, and blocks 534 .. 1023 are
free. `add_entry_to_directory(root, "a", 1)` reads `indirect_block_data[512]`
(0 here), allocates block 534, writes the entry into it, stores 534 at byte
offset 1024 of the table buffer and returns 0 with the size grown to
8369 entries. -/
theorem add_entry_full_directory_witness :
    DirWF full_dir_volume (inode_at full_dir_volume 0) ∧
    dir_entries (inode_at full_dir_volume 0) = 8368 ∧
    (∀ e, e < 8368 → entry_ino full_dir_volume (inode_at full_dir_volume 0) e ≠ FREE) ∧
    bitmap_bit full_dir_volume 534 = 0 ∧
    ∃ st1, add_entry_to_directory full_dir_volume 0 [97] 1 = some (0, st1) ∧
      (inode_at st1 0).size = (inode_at full_dir_volume 0).size + 64 :=
  ⟨full_dir_wf, by rw [full_dir_root]; rfl,
    fun e he => by rw [full_dir_entry e he]; decide,
    by rw [full_dir_bit 534 (by decide)]; rfl,
    (add_entry_full_directory full_dir_volume full_dir_geom 0 (by decide) full_dir_wf [97] 1
      (by decide) (by rw [full_dir_root]; rfl)
      (fun e he => by rw [full_dir_entry e he]; decide)
      ⟨534, by decide, by rw [full_dir_bit 534 (by decide)]; rfl⟩).1
      (by rw [full_dir_root]; decide)⟩

/-! ### The superblock in memory after `fs_format` -/

theorem disk_write_rootSB (st : FS) (n : Nat) (d : Block) (st1 : FS)
    (h : disk_write st n d = some st1) : st1.rootSB = st.rootSB := by
  unfold disk_write at h
  split at h
  · cases h
  · injection h with h
    rw [← h]

theorem write_zero_blocks_rootSB (st : FS) (start : Nat) : ∀ (cnt : Nat) (st1 : FS),
    write_zero_blocks st start cnt = some st1 → st1.rootSB = st.rootSB := by
  intro cnt
  induction cnt with
  | zero =>
    intro st1 h
    injection h with h
    rw [← h]
  | succ n ih =>
    intro st1 h
    unfold write_zero_blocks at h
    cases h0 : write_zero_blocks st start n with
    | none => rw [h0] at h; cases h
    | some s =>
      rw [h0] at h
      exact (disk_write_rootSB _ _ _ _ h).trans (ih s h0)

theorem inode_save_rootSB (st : FS) (n : Int) (ino : fs_inode) (r : Int) (st1 : FS)
    (h : inode_save st n ino = some (r, st1)) : st1.rootSB = st.rootSB := by
  unfold inode_save at h
  split at h
  · injection h with h
    rw [← (Prod.mk.inj h).2]
  · simp only [] at h
    cases h0 : disk_read st (st.rootSB.first_inodeblk + n.toNat / INODES_PER_BLOCK) with
    | none => rw [h0] at h; cases h
    | some b =>
      rw [h0] at h
      simp only [] at h
      cases h1 : disk_write st (st.rootSB.first_inodeblk + n.toNat / INODES_PER_BLOCK)
          (block_set_inode b (n.toNat % INODES_PER_BLOCK) ino) with
      | none => rw [h1] at h; cases h
      | some s =>
        rw [h1] at h
        injection h with h
        rw [← (Prod.mk.inj h).2]
        exact disk_write_rootSB _ _ _ _ h1

/-- When `fs_format` returns 0, `rootSB` holds the superblock it computed. -/
theorem fs_format_rootSB (st : FS) (mem : Block) (st1 : FS)
    (h : fs_format st mem = some (0, st1)) : st1.rootSB = format_sblock st.nblocks := by
  unfold fs_format at h
  by_cases hc : check_rootSB st = 0
  · rw [if_pos hc] at h
    exact absurd (Prod.mk.inj (Option.some.inj h)).1 (by decide)
  rw [if_neg hc] at h
  simp only [] at h
  by_cases ha : (st.nblocks + 3) / 4 = 0
  · rw [if_pos ha] at h; cases h
  rw [if_neg ha] at h
  cases h1 : disk_write { st with rootSB := format_sblock st.nblocks } SBLOCK
      (sblock_block (format_sblock st.nblocks) mem) with
  | none => rw [h1] at h; cases h
  | some s1 =>
  rw [h1] at h
  simp only [] at h
  have e1 : s1.rootSB = format_sblock st.nblocks := disk_write_rootSB _ _ _ _ h1
  cases h2 : disk_write s1 BITMAPSTART (bitmap_set_upto zero_block s1.rootSB.first_datablk) with
  | none => rw [h2] at h; cases h
  | some s2 =>
  rw [h2] at h
  simp only [] at h
  have e2 : s2.rootSB = format_sblock st.nblocks := (disk_write_rootSB _ _ _ _ h2).trans e1
  cases h3 : write_zero_blocks s2 (BITMAPSTART + 1) (s2.rootSB.bmap_size - 1) with
  | none => rw [h3] at h; cases h
  | some s3 =>
  rw [h3] at h
  simp only [] at h
  have e3 : s3.rootSB = format_sblock st.nblocks :=
    (write_zero_blocks_rootSB _ _ _ _ h3).trans e2
  cases h4 : write_zero_blocks s3 s3.rootSB.first_inodeblk s3.rootSB.inode_blocks with
  | none => rw [h4] at h; cases h
  | some s4 =>
  rw [h4] at h
  simp only [] at h
  have e4 : s4.rootSB = format_sblock st.nblocks :=
    (write_zero_blocks_rootSB _ _ _ _ h4).trans e3
  cases h5 : inode_alloc s4 with
  | none => rw [h5] at h; cases h
  | some ri =>
  rw [h5] at h
  simp only [] at h
  cases h6 : inode_save s4 ri rootdir with
  | none => rw [h6] at h; cases h
  | some v =>
  obtain ⟨r6, s5⟩ := v
  rw [h6] at h
  simp only [] at h
  rw [← (Prod.mk.inj (Option.some.inj h)).2]
  exact (inode_save_rootSB _ _ _ _ _ h6).trans e4

/-- Claim C30 fails on the blank device of 4 blocks: nothing is mounted
before the call (`check_rootSB` returns -1), `fs_format` returns 0, and
afterwards `check_rootSB` returns 0 although `fs_mount` was never called. -/
theorem fs_format_mounts :
    check_rootSB (blank_device 4) = -1 ∧
    fs_format (blank_device 4) zero_block = some (0, fresh_volume) ∧
    check_rootSB fresh_volume = 0 :=
  ⟨by decide, eq_some_state_of _ _ 0 (by decide), by decide⟩

/-- C30 (amended): whenever `fs_format` returns 0, the global `rootSB` holds
the superblock of the new volume, with the magic number: `check_rootSB`
returns 0 after the call, without a call of `fs_mount`, and a following
`fs_mount` is rejected as "already mounted" and leaves the state as it is. -/
theorem fs_format_leaves_mounted (st : FS) (mem : Block) (st1 : FS)
    (h : fs_format st mem = some (0, st1)) :
    check_rootSB st = -1 ∧
    st1.rootSB = format_sblock st.nblocks ∧ st1.rootSB.magic = FS_MAGIC ∧
    check_rootSB st1 = 0 ∧ fs_mount st1 = some (-1, st1) := by
  have e := fs_format_rootSB st mem st1 h
  have hm : st1.rootSB.magic = FS_MAGIC := by rw [e]; rfl
  refine ⟨?_, e, hm, ?_, ?_⟩
  · unfold fs_format at h
    unfold check_rootSB at h ⊢
    by_cases hmag : st.rootSB.magic ≠ FS_MAGIC
    · rw [if_pos hmag]
    · rw [if_neg hmag, if_pos rfl] at h
      exact absurd (Prod.mk.inj (Option.some.inj h)).1 (by decide)
  · unfold check_rootSB
    rw [if_neg (by simp [hm])]
  · unfold fs_mount
    rw [if_pos hm]

theorem fs_format_leaves_mounted_witness :
    check_rootSB (blank_device 1024) = -1 ∧
    check_rootSB (state_of (fs_format (blank_device 1024) zero_block) (blank_device 1024)) = 0 :=
  have h := fs_format_leaves_mounted (blank_device 1024) zero_block _
    (eq_some_state_of _ _ 0 (by decide))
  ⟨h.1, h.2.2.2.1⟩

/-! ### The fields of the superblock -/

/-- The superblock of a device of 4 to 262016 blocks, field by field. -/
theorem format_sblock_exact (n : Nat) (h4 : 4 ≤ n) (hn : n ≤ 262016) :
    (format_sblock n).magic = FS_MAGIC ∧ (format_sblock n).block_cnt = n ∧
    (format_sblock n).block_size = 1024 ∧
    (format_sblock n).bmap_size = ceil_div n 8192 ∧
    (format_sblock n).first_inodeblk = 1 + (format_sblock n).bmap_size ∧
    (format_sblock n).inode_blocks = ceil_div (ceil_div n 4) 32 ∧
    (format_sblock n).inode_cnt = (format_sblock n).inode_blocks * 32 ∧
    n ≤ 4 * (format_sblock n).inode_cnt ∧
    (format_sblock n).first_datablk
      = (format_sblock n).first_inodeblk + (format_sblock n).inode_blocks ∧
    1 ≤ (format_sblock n).bmap_size ∧ 1 ≤ (format_sblock n).inode_blocks ∧
    (format_sblock n).inode_cnt < 65536 ∧
    (format_sblock n).first_datablk < 65536 ∧
    (format_sblock n).first_datablk ≤ n := by
  obtain ⟨B, eB, hB0, hB1, hB2⟩ :
      ∃ B, n / (8 * 1024) + (if n % (8 * 1024) ≠ 0 then 1 else 0) = B ∧
        B = (n + 8192 - 1) / 8192 ∧ 1 ≤ B ∧ B ≤ 32 := by
    refine ⟨_, rfl, ?_⟩
    split <;> omega
  obtain ⟨I, eI, hI0, hI1, hI2, hI3⟩ :
      ∃ I, (n + 3) / 4 / 32 + (if (n + 3) / 4 % 32 ≠ 0 then 1 else 0) = I ∧
        I = ((n + 4 - 1) / 4 + 32 - 1) / 32 ∧ 1 ≤ I ∧ I ≤ 2047 ∧ n ≤ 128 * I := by
    refine ⟨_, rfl, ?_⟩
    split <;> omega
  have hfd : 1 + B + I ≤ n := by
    by_cases hs : n < 128
    · have : B = 1 := by omega
      have : I ≤ 1 := by omega
      omega
    · by_cases hs2 : n < 8192
      · have : B = 1 := by omega
        have : I ≤ n / 128 + 1 := by omega
        omega
      · have : B ≤ n / 8192 + 1 := by omega
        have : I ≤ n / 128 + 1 := by omega
        omega
  unfold format_sblock ceil_div
  simp only [BLOCKSZ, DISK_BLOCK_SIZE, INODES_PER_BLOCK_eq]
  rw [eB, eI, ← hB0, ← hI0]
  clear eB eI hB0 hI0
  refine ⟨trivial, by omega, trivial, ?_, ?_, ?_, ?_, ?_, ?_, ?_, ?_, ?_, ?_, ?_⟩
  all_goals omega

/-- The superblock record is read back from the block it was written to. -/
theorem block_super_sblock_block (sb : fs_sblock) (mem : Block)
    (h1 : sb.magic < 4294967296) (h2 : sb.block_cnt < 4294967296) (h3 : sb.block_size < 65536)
    (h4 : sb.bmap_size < 65536) (h5 : sb.first_inodeblk < 65536) (h6 : sb.inode_cnt < 65536)
    (h7 : sb.inode_blocks < 65536) (h8 : sb.first_datablk < 65536) :
    block_super (sblock_block sb mem) = sb := by
  have hb : ∀ o, o < 20 → byte (sblock_block sb mem) o = sblock_byte sb o := by
    intro o ho
    unfold byte sblock_block
    rw [if_pos ho]
    unfold sblock_byte
    repeat' split
    all_goals exact Nat.mod_eq_of_lt (le_byte_lt _ _)
  have g32 : ∀ o v, o + 3 < 20 → v < 4294967296 →
      sblock_byte sb o = le_byte v 0 → sblock_byte sb (o + 1) = le_byte v 1 →
      sblock_byte sb (o + 2) = le_byte v 2 → sblock_byte sb (o + 3) = le_byte v 3 →
      get32 (sblock_block sb mem) o = v := by
    intro o v ho hv e0 e1 e2 e3
    rw [get32_of_bytes _ _ v (by rw [hb _ (by omega), e0]) (by rw [hb _ (by omega), e1])
      (by rw [hb _ (by omega), e2]) (by rw [hb _ (by omega), e3]), Nat.mod_eq_of_lt hv]
  have g16 : ∀ o v, o + 1 < 20 → v < 65536 →
      sblock_byte sb o = le_byte v 0 → sblock_byte sb (o + 1) = le_byte v 1 →
      get16 (sblock_block sb mem) o = v := by
    intro o v ho hv e0 e1
    rw [get16_of_bytes _ _ v (by rw [hb _ (by omega), e0]) (by rw [hb _ (by omega), e1]),
      Nat.mod_eq_of_lt hv]
  unfold block_super
  rw [g32 0 sb.magic (by decide) h1 rfl rfl rfl rfl,
    g32 4 sb.block_cnt (by decide) h2 rfl rfl rfl rfl,
    g16 8 sb.block_size (by decide) h3 rfl rfl,
    g16 10 sb.bmap_size (by decide) h4 rfl rfl,
    g16 12 sb.first_inodeblk (by decide) h5 rfl rfl,
    g16 14 sb.inode_cnt (by decide) h6 rfl rfl,
    g16 16 sb.inode_blocks (by decide) h7 rfl rfl,
    g16 18 sb.first_datablk (by decide) h8 rfl rfl]

/-- Claim C29 fails with 36 inodes per block: an inode record has 32 bytes
(2 + 2 + 4 + 11 x 2 + 2), so `INODES_PER_BLOCK` is `1024 / 32 = 32`. On the
blank device of 132 blocks `fs_format` returns 0 and stores
`inode_blocks = 2` and `inode_cnt = 64`, while `ceil(ceil(132 / 4) / 36)` is 1
and `inode_blocks x 36` is 72. -/
theorem fs_format_inodes_per_block :
    ∃ st1, fs_format (blank_device 132) zero_block = some (0, st1) ∧
      (block_super (st1.disk SBLOCK)).inode_blocks = 2 ∧
      (block_super (st1.disk SBLOCK)).inode_cnt = 64 ∧
      (block_super (st1.disk SBLOCK)).inode_blocks ≠ ceil_div (ceil_div 132 4) 36 ∧
      (block_super (st1.disk SBLOCK)).inode_cnt
        ≠ (block_super (st1.disk SBLOCK)).inode_blocks * 36 :=
  ⟨_, eq_some_state_of _ (blank_device 132) 0 (by decide), by decide, by decide, by decide,
    by decide⟩

/-- C29 (amended): for every unmounted device of `n` blocks with
`4 <= n <= 262016`, `fs_format` returns 0, and the superblock it leaves in
`rootSB` and in block 0 of the device has `block_cnt = n`,
`bmap_size = ceil(n / 8192)`, `first_inodeblk = 1 + bmap_size`,
`inode_blocks = ceil(ceil(n / 4) / 32)`, `inode_cnt = inode_blocks x 32` (hence
at least `n / 4` inodes) and `first_datablk = first_inodeblk + inode_blocks`. -/
theorem fs_format_superblock (dev : FS) (mem : Block) (hm : dev.rootSB.magic ≠ FS_MAGIC)
    (h4 : 4 ≤ dev.nblocks) (hn : dev.nblocks ≤ 262016) :
    ∃ st1, fs_format dev mem = some (0, st1) ∧
      block_super (st1.disk SBLOCK) = st1.rootSB ∧
      st1.rootSB.block_cnt = dev.nblocks ∧
      st1.rootSB.bmap_size = ceil_div dev.nblocks 8192 ∧
      st1.rootSB.first_inodeblk = 1 + st1.rootSB.bmap_size ∧
      st1.rootSB.inode_blocks = ceil_div (ceil_div dev.nblocks 4) INODES_PER_BLOCK ∧
      st1.rootSB.inode_cnt = st1.rootSB.inode_blocks * INODES_PER_BLOCK ∧
      dev.nblocks ≤ 4 * st1.rootSB.inode_cnt ∧
      st1.rootSB.first_datablk = st1.rootSB.first_inodeblk + st1.rootSB.inode_blocks := by
  obtain ⟨e1, e2, e3, e4, e5, e6, e7, e8, e9, h1, h2, h3, h5, h6⟩ :=
    format_sblock_exact dev.nblocks h4 hn
  refine ⟨formatted dev mem,
    fs_format_eq dev mem hm (by omega) e5 h1 h2 (by rw [← e9]; exact h6), ?_, e2, e4, e5, ?_, ?_,
    e8, e9⟩
  · show block_super (sblock_block (format_sblock dev.nblocks) mem) = format_sblock dev.nblocks
    apply block_super_sblock_block
    · rw [e1]; decide
    · rw [e2]; omega
    · rw [e3]; decide
    · omega
    · omega
    · exact h3
    · omega
    · exact h5
  · rw [INODES_PER_BLOCK_eq]; exact e6
  · rw [INODES_PER_BLOCK_eq]; exact e7

theorem fs_format_superblock_witness :
    ∃ st1, fs_format (blank_device 1024) zero_block = some (0, st1) ∧
      st1.rootSB.inode_blocks = 8 ∧ st1.rootSB.inode_cnt = 256 ∧ st1.rootSB.first_datablk = 10 := by
  obtain ⟨st1, h, _, _, e4, e5, e6, e7, _, e9⟩ :=
    fs_format_superblock (blank_device 1024) zero_block (by decide) (by decide) (by decide)
  have a6 : st1.rootSB.inode_blocks = 8 := e6
  have a4 : st1.rootSB.bmap_size = 1 := e4
  refine ⟨st1, h, a6, ?_, ?_⟩
  · rw [e7, a6]; rfl
  · rw [e9, e5, a4, a6]

/-! ### Calls that are refused before anything is written -/

theorem refused_eq {st st1 : FS} {r : Int} {x : Option (Int × FS)}
    (h1 : x = some (r, st1)) (h2 : x = some (-1, st)) : r = -1 ∧ st1 = st := by
  rw [h1] at h2
  injection h2 with h2
  injection h2 with h3 h4
  exact ⟨h3, h4⟩

theorem refused_total {st : FS} {x : Option (Int × FS)}
    (h : ∀ r st1, x = some (r, st1) → r = -1 ∧ st1 = st) (ht : ∃ v, x = some v) :
    x = some (-1, st) := by
  obtain ⟨⟨r, st1⟩, hv⟩ := ht
  obtain ⟨e1, e2⟩ := h r st1 hv
  rw [hv, e1, e2]

/-- The checks of `fs_create` and `fs_mkdir` on the parent of the new path:
the call returns -1 and writes nothing when `get_parent_inode` returns -1,
when the parent cannot be loaded or is not a directory, and when
`dir_findname` finds the final name in the parent. -/
theorem fs_create_as_refused (ty : Nat) (st : FS) (P : CStr) (p0 : Int)
    (hpar : get_parent_inode st P = some p0)
    (href : p0 = -1 ∨ ∃ rl ino, inode_load st p0 zero_inode = some (rl, ino) ∧
      (rl = -1 ∨ ino.type ≠ IFDIR ∨ ∃ name found, get_filename P = some name ∧
        dir_findname st ino name = some found ∧ found ≠ -1)) :
    fs_create_as ty st P = some (-1, st) := by
  unfold fs_create_as
  by_cases hc : check_rootSB st = -1
  · rw [if_pos hc]
  rw [if_neg hc]
  by_cases hl : P.length = 0
  · rw [if_pos hl]
  rw [if_neg hl]
  cases hf : get_filename P with
  | none => rfl
  | some name =>
  simp only []
  rw [hpar]
  simp only []
  by_cases hp : p0 = -1
  · rw [if_pos hp]
  rw [if_neg hp]
  rcases href with h | ⟨rl, ino, hload, h⟩
  · exact absurd h hp
  rw [hload]
  simp only []
  by_cases h1 : rl = -1
  · rw [if_pos h1]
  rw [if_neg h1]
  by_cases h2 : ino.type ≠ IFDIR
  · rw [if_pos h2]
  rw [if_neg h2]
  rcases h with h | h | ⟨name1, found, hn, hfind, hne⟩
  · exact absurd h h1
  · exact absurd h h2
  rw [hf] at hn
  injection hn with hn
  subst hn
  rw [hfind]
  simp only []
  rw [if_pos hne]

/-- The checks of `fs_link` on the new path: whenever the call returns, it
returns -1 with the state unchanged when the new path has no final name, when
`get_parent_inode` returns -1, when the parent cannot be loaded or is not a
directory, and when `dir_findname` finds the final name in the parent. -/
theorem fs_link_new_path_refused (st : FS) (E N : CStr) (p0 : Int)
    (hpar : get_parent_inode st N = some p0)
    (href : p0 = -1 ∨ ∃ rl ino, inode_load st p0 zero_inode = some (rl, ino) ∧
      (rl = -1 ∨ ino.type ≠ IFDIR ∨ ∃ name found, get_filename N = some name ∧
        dir_findname st ino name = some found ∧ found ≠ -1))
    (r : Int) (st1 : FS) (h : fs_link st E N = some (r, st1)) : r = -1 ∧ st1 = st := by
  unfold fs_link at h
  by_cases hc : check_rootSB st = -1
  · rw [if_pos hc] at h; exact refused_eq h rfl
  rw [if_neg hc] at h
  cases hg : get_inode st E with
  | none => rw [hg] at h; cases h
  | some fi =>
  rw [hg] at h
  simp only [] at h
  by_cases hf : fi = -1
  · rw [if_pos hf] at h; exact refused_eq h rfl
  rw [if_neg hf] at h
  cases hl : inode_load st fi zero_inode with
  | none => rw [hl] at h; cases h
  | some v =>
  obtain ⟨rf, fino⟩ := v
  rw [hl] at h
  simp only [] at h
  by_cases h1 : rf = -1
  · rw [if_pos h1] at h; exact refused_eq h rfl
  rw [if_neg h1] at h
  by_cases h2 : fino.type ≠ IFREG
  · rw [if_pos h2] at h; exact refused_eq h rfl
  rw [if_neg h2] at h
  cases hfn : get_filename N with
  | none => rw [hfn] at h; exact refused_eq h rfl
  | some name =>
  rw [hfn, hpar] at h
  simp only [] at h
  by_cases hp : p0 = -1
  · rw [if_pos hp] at h; exact refused_eq h rfl
  rw [if_neg hp] at h
  rcases href with h0 | ⟨rl, ino, hload, h0⟩
  · exact absurd h0 hp
  rw [hload] at h
  simp only [] at h
  by_cases h3 : rl = -1
  · rw [if_pos h3] at h; exact refused_eq h rfl
  rw [if_neg h3] at h
  by_cases h4 : ino.type ≠ IFDIR
  · rw [if_pos h4] at h; exact refused_eq h rfl
  rw [if_neg h4] at h
  rcases h0 with h0 | h0 | ⟨name1, found, hn, hfind, hne⟩
  · exact absurd h0 h3
  · exact absurd h0 h4
  rw [hfn] at hn
  injection hn with hn
  subst hn
  rw [hfind] at h
  simp only [] at h
  rw [if_pos hne] at h
  exact refused_eq h rfl

/-- On a well-formed volume `fs_link` returns in the cases of
`fs_link_new_path_refused`. -/
theorem fs_link_new_path_total (st : FS) (hwf : VolumeWF st) (E N : CStr) (p0 : Int)
    (hpar : get_parent_inode st N = some p0)
    (href : p0 = -1 ∨ ∃ rl ino, inode_load st p0 zero_inode = some (rl, ino) ∧
      (rl = -1 ∨ ino.type ≠ IFDIR ∨ ∃ name found, get_filename N = some name ∧
        dir_findname st ino name = some found ∧ found ≠ -1)) :
    ∃ v, fs_link st E N = some v := by
  unfold fs_link
  by_cases hc : check_rootSB st = -1
  · rw [if_pos hc]; exact ⟨_, rfl⟩
  rw [if_neg hc]
  obtain ⟨fi, hg⟩ := get_inode_total st hwf E
  rw [hg]
  simp only []
  by_cases hf : fi = -1
  · rw [if_pos hf]; exact ⟨_, rfl⟩
  rw [if_neg hf]
  obtain ⟨rf, fino, hl⟩ := inode_load_total st hwf.geom fi zero_inode
  rw [hl]
  simp only []
  by_cases h1 : rf = -1
  · rw [if_pos h1]; exact ⟨_, rfl⟩
  rw [if_neg h1]
  by_cases h2 : fino.type ≠ IFREG
  · rw [if_pos h2]; exact ⟨_, rfl⟩
  rw [if_neg h2]
  cases hfn : get_filename N with
  | none => exact ⟨_, rfl⟩
  | some name =>
  simp only []
  rw [hpar]
  simp only []
  by_cases hp : p0 = -1
  · rw [if_pos hp]; exact ⟨_, rfl⟩
  rw [if_neg hp]
  rcases href with h0 | ⟨rl, ino, hload, h0⟩
  · exact absurd h0 hp
  rw [hload]
  simp only []
  by_cases h3 : rl = -1
  · rw [if_pos h3]; exact ⟨_, rfl⟩
  rw [if_neg h3]
  by_cases h4 : ino.type ≠ IFDIR
  · rw [if_pos h4]; exact ⟨_, rfl⟩
  rw [if_neg h4]
  rcases h0 with h0 | h0 | ⟨name1, found, hn, hfind, hne⟩
  · exact absurd h0 h3
  · exact absurd h0 h4
  rw [hfn] at hn
  injection hn with hn
  subst hn
  rw [hfind]
  simp only []
  rw [if_pos hne]
  exact ⟨_, rfl⟩

/-- C23: let `get_parent_inode` of the new path `P` return `p0`. If `p0` is
-1, or inode `p0` cannot be loaded or is not a directory, then `fs_create(P)`
and `fs_mkdir(P)` return -1 with the state unchanged, and so does
`fs_link(E, P)` for every `E` (whenever it returns, and it returns on a
well-formed volume). The same holds when the parent is loaded and
`dir_findname` finds the final name of `P` in it. -/
theorem new_path_refused (st : FS) (P : CStr) (p0 : Int)
    (hpar : get_parent_inode st P = some p0) :
    ((p0 = -1 ∨ ∃ rl ino, inode_load st p0 zero_inode = some (rl, ino) ∧
        (rl = -1 ∨ ino.type ≠ IFDIR)) →
      fs_create st P = some (-1, st) ∧ fs_mkdir st P = some (-1, st) ∧
      (∀ E r st1, fs_link st E P = some (r, st1) → r = -1 ∧ st1 = st) ∧
      (VolumeWF st → ∀ E, fs_link st E P = some (-1, st))) ∧
    (∀ rl ino name found, inode_load st p0 zero_inode = some (rl, ino) →
      get_filename P = some name → dir_findname st ino name = some found → found ≠ -1 →
      fs_create st P = some (-1, st) ∧ fs_mkdir st P = some (-1, st) ∧
      (∀ E r st1, fs_link st E P = some (r, st1) → r = -1 ∧ st1 = st) ∧
      (VolumeWF st → ∀ E, fs_link st E P = some (-1, st))) := by
  have main : (p0 = -1 ∨ ∃ rl ino, inode_load st p0 zero_inode = some (rl, ino) ∧
      (rl = -1 ∨ ino.type ≠ IFDIR ∨ ∃ name found, get_filename P = some name ∧
        dir_findname st ino name = some found ∧ found ≠ -1)) →
      fs_create st P = some (-1, st) ∧ fs_mkdir st P = some (-1, st) ∧
      (∀ E r st1, fs_link st E P = some (r, st1) → r = -1 ∧ st1 = st) ∧
      (VolumeWF st → ∀ E, fs_link st E P = some (-1, st)) := by
    intro href
    refine ⟨fs_create_as_refused IFREG st P p0 hpar href,
      fs_create_as_refused IFDIR st P p0 hpar href,
      fun E r st1 h => fs_link_new_path_refused st E P p0 hpar href r st1 h,
      fun hwf E => refused_total
        (fun r st1 h => fs_link_new_path_refused st E P p0 hpar href r st1 h)
        (fs_link_new_path_total st hwf E P p0 hpar href)⟩
  refine ⟨fun h => main ?_, fun rl ino name found hload hn hfind hne =>
    main (Or.inr ⟨rl, ino, hload, Or.inr (Or.inr ⟨name, found, hn, hfind, hne⟩)⟩)⟩
  rcases h with h | ⟨rl, ino, hload, h⟩
  · exact Or.inl h
  · refine Or.inr ⟨rl, ino, hload, ?_⟩
    rcases h with h | h
    · exact Or.inl h
    · exact Or.inr (Or.inl h)

theorem new_path_refused_witness :
    fs_create example_file_volume [47, 120, 47, 121] = some (-1, example_file_volume) ∧
    fs_mkdir example_file_volume [47, 97, 47, 121] = some (-1, example_file_volume) ∧
    fs_mkdir example_file_volume [47, 97] = some (-1, example_file_volume) ∧
    fs_link example_file_volume [47, 97] [47, 97] = some (-1, example_file_volume) :=
  ⟨((new_path_refused example_file_volume [47, 120, 47, 121] (-1) (by decide)).1
      (Or.inl rfl)).1,
   ((new_path_refused example_file_volume [47, 97, 47, 121] 1 (by decide)).1
      (Or.inr ⟨0, inode_at example_file_volume 1, by decide, Or.inr (by decide)⟩)).2.1,
   ((new_path_refused example_file_volume [47, 97] 0 (by decide)).2
      0 (inode_at example_file_volume 0) [97] 1 (by decide) (by decide) (by decide)
      (by decide)).2.1,
   ((new_path_refused example_file_volume [47, 97] 0 (by decide)).2
      0 (inode_at example_file_volume 0) [97] 1 (by decide) (by decide) (by decide)
      (by decide)).2.2.2 example_file_volume_wf [47, 97]⟩

/-! ### `fs_link` of something that is not a regular file -/

/-- C25: `fs_link(E, N)` returns -1 with the state unchanged when `get_inode(E)`
is -1, when the inode it returns cannot be loaded, and when that inode is not
a regular file; in particular when `E` names a directory of a mounted
volume, and when `E` is the root (the empty path, "/" or slashes only). -/
theorem fs_link_not_regular (st : FS) (E N : CStr) :
    (get_inode st E = some (-1) → fs_link st E N = some (-1, st)) ∧
    (∀ f r ino, get_inode st E = some f → inode_load st f zero_inode = some (r, ino) →
      (r = -1 ∨ ino.type ≠ IFREG) → fs_link st E N = some (-1, st)) ∧
    (VolumeGeom st → ∀ f : Nat, get_inode st E = some (f : Int) → f < st.rootSB.inode_cnt →
      (inode_at st f).type ≠ IFREG → fs_link st E N = some (-1, st)) ∧
    (VolumeGeom st → 0 < st.rootSB.inode_cnt → (inode_at st 0).type = IFDIR →
      (∀ c ∈ E, c = SLASH) → fs_link st E N = some (-1, st)) := by
  have h2 : ∀ f r ino, get_inode st E = some f → inode_load st f zero_inode = some (r, ino) →
      (r = -1 ∨ ino.type ≠ IFREG) → fs_link st E N = some (-1, st) := by
    intro f r ino hg hl hbad
    unfold fs_link
    by_cases hc : check_rootSB st = -1
    · rw [if_pos hc]
    rw [if_neg hc, hg]
    simp only []
    by_cases hf : f = -1
    · rw [if_pos hf]
    rw [if_neg hf, hl]
    simp only []
    by_cases h1 : r = -1
    · rw [if_pos h1]
    rw [if_neg h1]
    rcases hbad with h | h
    · exact absurd h h1
    · rw [if_pos h]
  have h3 : VolumeGeom st → ∀ f : Nat, get_inode st E = some (f : Int) →
      f < st.rootSB.inode_cnt → (inode_at st f).type ≠ IFREG →
      fs_link st E N = some (-1, st) := by
    intro hg f hget hf ht
    exact h2 f 0 (inode_at st f) hget (inode_load_eq st hg f hf zero_inode) (Or.inr ht)
  refine ⟨fun hg => ?_, h2, h3, fun hg h0 hroot hE => ?_⟩
  · unfold fs_link
    by_cases hc : check_rootSB st = -1
    · rw [if_pos hc]
    rw [if_neg hc, hg]
    rfl
  · have hget : get_inode st E = some ((0 : Nat) : Int) := by
      rw [get_inode_eq, path_tokens_eq_components]
      unfold path_components
      rw [split_components_slashes E hE]
      rfl
    exact h3 hg 0 hget h0 (by rw [hroot]; decide)

theorem fs_link_not_regular_witness :
    fs_link example_file_volume [47] [47, 98] = some (-1, example_file_volume) ∧
    fs_link example_file_volume [47, 120] [47, 98] = some (-1, example_file_volume) :=
  ⟨(fs_link_not_regular example_file_volume [47] [47, 98]).2.2.2 example_file_volume_wf.geom
      (by decide) (by decide) (by decide),
   (fs_link_not_regular example_file_volume [47, 120] [47, 98]).1 (by decide)⟩

/-! ### `fs_unlink` of a name that is absent or not a regular file -/

/-- C26: let `P` have the final name `name` and let its parent be loaded as
`parent`. `fs_unlink(P)` returns -1 with the state unchanged (no entry is
touched) when `dir_findname` does not find `name` in the parent, when the
inode it finds cannot be loaded, and when that inode is not a regular file,
in particular when it is a directory. -/
theorem fs_unlink_refused (st : FS) (P name : CStr) (p0 r : Int) (parent : fs_inode)
    (hname : get_filename P = some name) (hpar : get_parent_inode st P = some p0)
    (hload : inode_load st p0 zero_inode = some (r, parent)) :
    (dir_findname st parent name = some (-1) → fs_unlink st P = some (-1, st)) ∧
    (∀ x r1 ino, dir_findname st parent name = some x →
      inode_load st x zero_inode = some (r1, ino) → (r1 = -1 ∨ ino.type ≠ IFREG) →
      fs_unlink st P = some (-1, st)) ∧
    (VolumeGeom st → ∀ x : Nat, dir_findname st parent name = some (x : Int) →
      x < st.rootSB.inode_cnt → (inode_at st x).type ≠ IFREG →
      fs_unlink st P = some (-1, st)) := by
  have h2 : ∀ x r1 ino, dir_findname st parent name = some x →
      inode_load st x zero_inode = some (r1, ino) → (r1 = -1 ∨ ino.type ≠ IFREG) →
      fs_unlink st P = some (-1, st) := by
    intro x r1 ino hfind hl hbad
    unfold fs_unlink
    by_cases hc : check_rootSB st = -1
    · rw [if_pos hc]
    rw [if_neg hc, hname]
    simp only []
    rw [hpar]
    simp only []
    by_cases hp : p0 = -1
    · rw [if_pos hp]
    rw [if_neg hp, hload]
    simp only []
    by_cases h1 : r = -1
    · rw [if_pos h1]
    rw [if_neg h1]
    by_cases h3 : parent.type ≠ IFDIR
    · rw [if_pos h3]
    rw [if_neg h3, hfind]
    simp only []
    by_cases hx : x = -1
    · rw [if_pos hx]
    rw [if_neg hx, hl]
    simp only []
    by_cases h4 : r1 = -1
    · rw [if_pos h4]
    rw [if_neg h4]
    rcases hbad with h | h
    · exact absurd h h4
    · rw [if_pos h]
  refine ⟨fun hfind => ?_, h2, fun hg x hfind hx ht =>
    h2 x 0 (inode_at st x) hfind (inode_load_eq st hg x hx zero_inode) (Or.inr ht)⟩
  unfold fs_unlink
  by_cases hc : check_rootSB st = -1
  · rw [if_pos hc]
  rw [if_neg hc, hname]
  simp only []
  rw [hpar]
  simp only []
  by_cases hp : p0 = -1
  · rw [if_pos hp]
  rw [if_neg hp, hload]
  simp only []
  by_cases h1 : r = -1
  · rw [if_pos h1]
  rw [if_neg h1]
  by_cases h3 : parent.type ≠ IFDIR
  · rw [if_pos h3]
  rw [if_neg h3, hfind]
  rfl

theorem fs_unlink_refused_witness :
    fs_unlink example_dir_volume [47, 100] = some (-1, example_dir_volume) ∧
    fs_unlink example_file_volume [47, 98] = some (-1, example_file_volume) :=
  ⟨(fs_unlink_refused example_dir_volume [47, 100] [100] 0 0 (inode_at example_dir_volume 0)
      (by decide) (by decide) (by decide)).2.1 1 0 (inode_at example_dir_volume 1)
      (by decide) (by decide) (Or.inr (by decide)),
   (fs_unlink_refused example_file_volume [47, 98] [98] 0 0 (inode_at example_file_volume 0)
      (by decide) (by decide) (by decide)).1 (by decide)⟩

/-! ### Steps that keep the inode table -/

theorem TableKept.same (st : FS) (hg : VolumeGeom st) (p : Nat) : TableKept st p st :=
  ⟨rfl, rfl, hg, fun _ _ _ => rfl, rfl, fun _ _ h => h⟩

theorem TableKept.step {st st1 st2 : FS} {p : Nat} (h1 : TableKept st p st1)
    (h2 : TableKept st1 p st2) : TableKept st p st2 :=
  ⟨h2.sb.trans h1.sb, h2.nb.trans h1.nb, h2.geom,
    fun q hq hne => (h2.inodes q (by rw [h1.sb]; exact hq) hne).trans (h1.inodes q hq hne),
    h2.parent.trans h1.parent,
    fun m hm hb => h2.bits_mono m (by rw [h1.sb]; exact hm) (h1.bits_mono m hm hb)⟩

theorem TableKept.of_mark_used (st : FS) (hg : VolumeGeom st) (p b : Nat)
    (hb : b < st.rootSB.block_cnt) : TableKept st p (mark_used st b) :=
  ⟨rfl, rfl, mark_used_geom st hg b, fun q _ _ => mark_used_inode_at st hg b hb q,
    congrArg fs_inode.type (mark_used_inode_at st hg b hb p),
    fun m _ h => mark_used_bit_ne_zero st b m h⟩

theorem TableKept.of_write_block (st : FS) (hg : VolumeGeom st) (p k : Nat) (data : Block)
    (hk : st.rootSB.first_datablk ≤ k) (hp : p < st.rootSB.inode_cnt) :
    TableKept st p (write_block st k data) :=
  ⟨rfl, rfl, write_block_geom st hg k data hk,
    fun q hq _ => write_block_inode_at st hg k data hk q hq,
    congrArg fs_inode.type (write_block_inode_at st hg k data hk p hp),
    fun m hm h => by rw [write_block_bitmap_bit st hg k data hk m hm]; exact h⟩

theorem TableKept.of_save_inode (st : FS) (hg : VolumeGeom st) (p : Nat)
    (hp : p < st.rootSB.inode_cnt) (ino : fs_inode) (hr : InodeInRange ino)
    (ht : ino.type = (inode_at st p).type) : TableKept st p (save_inode st p ino) :=
  ⟨rfl, rfl, save_inode_geom st hg p hp ino, fun q _ hne => save_inode_other st p q ino hne,
    by rw [save_inode_same st p ino hr]; exact ht,
    fun m hm h => by rw [save_inode_bitmap_bit st hg p hp ino m hm]; exact h⟩

/-- Saving a record derived from the record of `p` after steps that kept the table. -/
theorem TableKept.then_save {st st1 : FS} {p : Nat} (h : TableKept st p st1)
    (hp : p < st.rootSB.inode_cnt) (ino : fs_inode) (hr : InodeInRange ino)
    (ht : ino.type = (inode_at st p).type) : TableKept st p (save_inode st1 p ino) :=
  h.step (TableKept.of_save_inode st1 h.geom p (by rw [h.sb]; exact hp) ino hr
    (by rw [h.parent]; exact ht))

/-! ### The outcomes of an append that allocates -/

theorem add_entry_append_direct_full (st : FS) (ino : fs_inode) (hwf : DirWF st ino) (p : Int)
    (s : CStr) (c : Int) (hmod : dir_entries ino % 16 = 0) (h11 : dir_entries ino / 16 < 11)
    (hfull : block_alloc st = some (-1, st)) :
    add_entry_append st p ino s c = some (-1, st) := by
  have hslot : ino.dir_block.getD (dir_entries ino / 16) 0 = 0 :=
    hwf.direct_unused _ (by rw [DIRENTS_PER_BLOCK_eq]; omega) h11
  unfold add_entry_append
  simp only [← dir_entries_size, DIRENTS_PER_BLOCK_eq, DIRBLOCK_PER_INODE, DIRENTSZ]
  rw [if_pos h11, hslot, if_pos rfl, hfull]
  rfl

theorem add_entry_append_table_full (st : FS) (ino : fs_inode) (hwf : DirWF st ino) (p : Int)
    (s : CStr) (c : Int) (h176 : dir_entries ino = 176)
    (hfull : block_alloc st = some (-1, st)) :
    add_entry_append st p ino s c = some (-1, st) := by
  have hind : ino.indir_block = 0 :=
    hwf.indir_unused (by simp only [DIRBLOCK_PER_INODE, DIRENTS_PER_BLOCK_eq]; omega)
  unfold add_entry_append
  simp only [← dir_entries_size, DIRENTS_PER_BLOCK_eq, DIRBLOCK_PER_INODE, DIRENTSZ]
  rw [if_neg (by omega), hind]
  simp only [if_true]
  rw [hfull]
  rfl

/-- The append to a directory of 176 entries when the indirect table could be
allocated but no block is left for the entry: the call returns -1 and the
table stays allocated and zeroed. -/
theorem add_entry_append_table_half (st : FS) (hg : VolumeGeom st) (ino : fs_inode)
    (hwf : DirWF st ino) (p : Int) (s : CStr) (c : Int) (h176 : dir_entries ino = 176)
    (b1 : Nat) (hb : block_alloc st = some ((b1 : Int), mark_used st b1))
    (hb2 : b1 < st.rootSB.block_cnt)
    (hfull : block_alloc (write_block (mark_used st b1) b1 zero_block)
      = some (-1, write_block (mark_used st b1) b1 zero_block)) :
    add_entry_append st p ino s c = some (-1, write_block (mark_used st b1) b1 zero_block) := by
  have hind : ino.indir_block = 0 :=
    hwf.indir_unused (by simp only [DIRBLOCK_PER_INODE, DIRENTS_PER_BLOCK_eq]; omega)
  have hdev := hg.cnt_dev
  have hdev2 := hg.dev
  unfold add_entry_append
  simp only [← dir_entries_size, DIRENTS_PER_BLOCK_eq, DIRBLOCK_PER_INODE, DIRENTSZ]
  rw [if_neg (by omega), hind]
  simp only [if_true]
  rw [hb]
  simp only []
  rw [if_neg (by omega), to_unsigned_natCast b1 (by omega),
    disk_write_eq_write _ _ _ (by show b1 < st.nblocks; omega)]
  simp only [h176, show (176 : Nat) / 16 - 11 = 0 from rfl, block_u16_zero_block, if_true]
  rw [hfull]
  rfl

theorem add_entry_append_indirect_full (st : FS) (hg : VolumeGeom st) (ino : fs_inode)
    (hwf : DirWF st ino) (p : Int) (s : CStr) (c : Int)
    (h176 : 176 < dir_entries ino)
    (hslot : block_u16 (st.disk ino.indir_block) (dir_entries ino / 16 - 11) = 0)
    (hfull : block_alloc st = some (-1, st)) :
    add_entry_append st p ino s c = some (-1, st) := by
  have hN : 11 * 16 < dir_entries ino := h176
  have hind := hwf.indir_data (by simp only [DIRBLOCK_PER_INODE, DIRENTS_PER_BLOCK_eq]; exact hN)
  have hdev := hg.cnt_dev
  have h1 := hg.one_le_data
  unfold add_entry_append
  simp only [← dir_entries_size, DIRENTS_PER_BLOCK_eq, DIRBLOCK_PER_INODE, DIRENTSZ]
  rw [if_neg (by omega), if_neg (by omega), disk_read_eq _ _ (by omega)]
  simp only [hslot, if_true]
  rw [hfull]
  rfl

/-- The append that allocates a new block through the existing indirect
table, on a volume of any size. -/
theorem add_entry_append_indirect_any (st : FS) (hg : VolumeGeom st) (p : Nat)
    (hp : p < st.rootSB.inode_cnt) (ino : fs_inode) (hwf : DirWF st ino)
    (s : CStr) (c : Nat) (hc : c < 4294967296) (hmod : dir_entries ino % 16 = 0)
    (h176 : 176 < dir_entries ino)
    (hslot : block_u16 (st.disk ino.indir_block) (dir_entries ino / 16 - 11) = 0)
    (b : Nat) (hb1 : st.rootSB.first_datablk ≤ b) (hb2 : b < st.rootSB.block_cnt)
    (halloc : block_alloc st = some ((b : Int), mark_used st b)) :
    add_entry_append st (p : Int) ino s (c : Int) = some (0,
      save_inode (write_block (write_block (mark_used st b) ino.indir_block
          (set16 (st.disk ino.indir_block) (2 * (dir_entries ino / 16 - 11)) b))
        b (block_set_dirent zero_block 0 c s)) p
        { ino with size := ino.size + 64 }) := by
  have hN : 11 * 16 < dir_entries ino := h176
  have hind := hwf.indir_data (by simp only [DIRBLOCK_PER_INODE, DIRENTS_PER_BLOCK_eq]; exact hN)
  have hdev := hg.cnt_dev
  have hdev2 := hg.dev
  have h1 := hg.one_le_data
  unfold add_entry_append
  simp only [← dir_entries_size, DIRENTS_PER_BLOCK_eq, DIRBLOCK_PER_INODE, DIRENTSZ]
  rw [to_unsigned_natCast c hc, if_neg (by omega), if_neg (by omega),
    disk_read_eq _ _ (by omega)]
  simp only [hslot, if_true, halloc]
  rw [if_neg (by omega), to_unsigned_natCast b (by omega),
    to_unsigned_natCast ino.indir_block (by omega),
    disk_write_eq_write _ _ _ (by show ino.indir_block < st.nblocks; omega)]
  simp only []
  rw [disk_write_eq_write _ _ _ (by show b < st.nblocks; omega)]
  simp only [hmod]
  have hgeo : VolumeGeom (write_block (write_block (mark_used st b) ino.indir_block
      (set16 (st.disk ino.indir_block) (2 * (dir_entries ino / 16 - 11)) b))
      b (block_set_dirent zero_block 0 c s)) :=
    write_block_geom _ (write_block_geom _ (mark_used_geom st hg b) _ _ hind.1) _ _ hb1
  exact add_entry_finish_eq _ hgeo p hp _ hwf.size_lt

/-- Whatever `add_entry_to_directory` returns for a well-formed directory `p`
with a free entry or below its capacity, on a volume of any size: it has kept
the inode table but for the record of `p`, whose type is the same. -/
theorem add_entry_table_kept (st : FS) (hg : VolumeGeom st) (p : Nat)
    (hp : p < st.rootSB.inode_cnt) (hwf : DirWF st (inode_at st p)) (s : CStr) (c : Nat)
    (hc : c < 4294967296)
    (hroom : dir_entries (inode_at st p) < 8368 ∨
      ∃ e, e < dir_entries (inode_at st p) ∧ entry_ino st (inode_at st p) e = FREE) :
    ∃ r st1, add_entry_to_directory st (p : Int) s (c : Int) = some (r, st1) ∧
      TableKept st p st1 := by
  rw [add_entry_to_directory_eq st hg p hp hwf s c hc]
  have hr : InodeInRange (inode_at st p) := inode_at_in_range st p
  have hsz := hwf.size_lt
  have hrs : InodeInRange { inode_at st p with size := (inode_at st p).size + 64 } :=
    in_range_resize _ hr _ hsz
  have hdev := hg.cnt_dev
  cases hfi : first_index (fun e => decide (entry_ino st (inode_at st p) e = FREE))
      (dir_entries (inode_at st p)) 0 with
  | some e0 =>
    obtain ⟨_, h2, _, _⟩ := first_index_some _ _ _ _ hfi
    have hd := hwf.chunk_data (e0 / 16) (by rw [DIRENTS_PER_BLOCK_eq]; omega)
    exact ⟨0, _, rfl, TableKept.of_write_block st hg p _ _ hd.1 hp⟩
  | none =>
    have hnone := first_index_none _ _ _ hfi
    have hcap : dir_entries (inode_at st p) < 8368 := by
      rcases hroom with h | ⟨e, he, hfree⟩
      · exact h
      · have := hnone e (by omega) (by omega)
        simp only [decide_eq_false_iff_not] at this
        exact absurd hfree this
    simp only []
    by_cases hmod : dir_entries (inode_at st p) % 16 = 0
    · by_cases h11 : dir_entries (inode_at st p) / 16 < 11
      · rcases block_alloc_cases st hg with hfull | ⟨b, hb1, hb2, _, _, hb4⟩
        · exact ⟨-1, st, add_entry_append_direct_full st _ hwf _ s _ hmod h11 hfull,
            TableKept.same st hg p⟩
        · refine ⟨0, _, add_entry_append_direct_new_any st hg p hp _ hwf s c hc hmod h11 b hb4
            hb1 hb2, ?_⟩
          refine ((TableKept.of_mark_used st hg p b hb2).step
            (TableKept.of_write_block _ (mark_used_geom st hg b) p b _ hb1 hp)).then_save hp _
            ?_ rfl
          refine ⟨hr.type_lt, hr.nlinks_lt, hsz, ?_, ?_, hr.indir_lt⟩
          · simp only [List.length_set]; exact hr.dir_len
          · intro j
            simp only [getD_set]
            split
            · exact Nat.mod_lt _ (by decide)
            · exact hr.dir_lt j
      · by_cases h176 : dir_entries (inode_at st p) = 176
        · rcases block_alloc_cases st hg with hfull | ⟨b1, hb1, hb2, _, _, hb4⟩
          · exact ⟨-1, st, add_entry_append_table_full st _ hwf _ s _ h176 hfull,
              TableKept.same st hg p⟩
          · have k1 : TableKept st p (write_block (mark_used st b1) b1 zero_block) :=
              (TableKept.of_mark_used st hg p b1 hb2).step
                (TableKept.of_write_block _ (mark_used_geom st hg b1) p b1 _ hb1 hp)
            rcases block_alloc_cases _ k1.geom with hfull | ⟨b2, hc1, hc2, _, _, hc4⟩
            · exact ⟨-1, _, add_entry_append_table_half st hg _ hwf _ s _ h176 b1 hb4 hb2 hfull,
                k1⟩
            · refine ⟨0, _, add_entry_append_table_new_any st hg p hp _ hwf s c hc h176 b1 b2
                hb4 hb1 hb2 hc4 hc1 hc2, ?_⟩
              refine (((k1.step (TableKept.of_mark_used _ k1.geom p b2 hc2)).step
                (TableKept.of_write_block _ (mark_used_geom _ k1.geom b2) p b1 _ hb1 hp)).step
                (TableKept.of_write_block _ (write_block_geom _ (mark_used_geom _ k1.geom b2)
                  _ _ hb1) p b2 _ hc1 hp)).then_save hp _ ?_ rfl
              exact ⟨hr.type_lt, hr.nlinks_lt, hsz, hr.dir_len, hr.dir_lt,
                Nat.mod_lt _ (by decide)⟩
        · have hslot : block_u16 (st.disk (inode_at st p).indir_block)
              (dir_entries (inode_at st p) / 16 - 11) = 0 :=
            hwf.table_unused (by simp only [DIRBLOCK_PER_INODE, DIRENTS_PER_BLOCK_eq]; omega) _
              (by rw [DIRENTS_PER_BLOCK_eq]; omega) (by simp only [DIRBLOCK_PER_INODE]; omega)
              (by simp only [DIRBLOCK_PER_INODE, BLOCKSZ, DISK_BLOCK_SIZE]; omega)
          have hind := hwf.indir_data (by
            simp only [DIRBLOCK_PER_INODE, DIRENTS_PER_BLOCK_eq]; omega)
          rcases block_alloc_cases st hg with hfull | ⟨b, hb1, hb2, _, _, hb4⟩
          · exact ⟨-1, st, add_entry_append_indirect_full st hg _ hwf _ s _ (by omega) hslot
              hfull, TableKept.same st hg p⟩
          · refine ⟨0, _, add_entry_append_indirect_any st hg p hp _ hwf s c hc hmod (by omega)
              hslot b hb1 hb2 hb4, ?_⟩
            exact (((TableKept.of_mark_used st hg p b hb2).step
              (TableKept.of_write_block _ (mark_used_geom st hg b) p _ _ hind.1 hp)).step
              (TableKept.of_write_block _ (write_block_geom _ (mark_used_geom st hg b) _ _
                hind.1) p b _ hb1 hp)).then_save hp _ hrs rfl
    · rw [add_entry_append_existing st hg p hp _ hwf s c hc hmod]
      have hd := hwf.chunk_data (dir_entries (inode_at st p) / 16)
        (by rw [DIRENTS_PER_BLOCK_eq]; omega)
      exact ⟨0, _, rfl, (TableKept.of_write_block st hg p _ _ hd.1 hp).then_save hp _ hrs rfl⟩

/-! ### The record of a new inode -/

theorem get_parent_inode_total (st : FS) (hwf : VolumeWF st) (P : CStr) :
    ∃ p0, get_parent_inode st P = some p0 := by
  unfold get_parent_inode
  by_cases hl : P.length = 0
  · rw [if_pos hl]; exact ⟨_, rfl⟩
  rw [if_neg hl]
  cases strrchr P SLASH with
  | none => exact ⟨_, rfl⟩
  | some k =>
    simp only []
    by_cases hk : k = 0
    · rw [if_pos hk]; exact ⟨_, rfl⟩
    rw [if_neg hk]
    obtain ⟨r, hr⟩ := get_inode_total st hwf (P.take k)
    rw [hr]
    simp only []
    by_cases h1 : r = -1
    · rw [if_pos h1]; exact ⟨_, rfl⟩
    · rw [if_neg h1]; exact ⟨_, rfl⟩

/-- The new record of a successful `fs_create` or `fs_mkdir`, on a volume of
any size: the call returns the number `i` of an inode that was free, and
afterwards record `i` is the zeroed record with the type, one link and size 0. -/
theorem fs_create_as_record (ty : Nat) (hty : ty < 65536) (st : FS) (hwf : VolumeWF st)
    (hic : st.rootSB.inode_cnt ≤ 65536)
    (hroom : ∀ q, q < st.rootSB.inode_cnt → (inode_at st q).type = IFDIR →
      dir_entries (inode_at st q) < 8368 ∨
      ∃ e, e < dir_entries (inode_at st q) ∧ entry_ino st (inode_at st q) e = FREE)
    (P : CStr) (hP : IsCStr P) (r : Int) (st2 : FS)
    (h : fs_create_as ty st P = some (r, st2)) (hr : r ≠ -1) :
    ∃ i : Nat, r = (i : Int) ∧ i < st.rootSB.inode_cnt ∧ (inode_at st i).type = IFFREE ∧
      st2.rootSB = st.rootSB ∧
      inode_at st2 i = { zero_inode with type := ty, nlinks := 1, size := 0 } := by
  obtain ⟨p0, hpar⟩ := get_parent_inode_total st hwf P
  obtain ⟨p, i, name, r2, _, hri, _, _, hp, hi, htp, _, hfree, hadd, hr2⟩ :=
    fs_create_as_steps ty st hwf.geom P hP p0 hpar r st2 h hr
  have hnotdir : (inode_at st i).type ≠ IFDIR := by rw [hfree]; decide
  have hnew := new_inode_in_range ty 1 hty (by decide)
  have hpi : p ≠ i := fun e => hnotdir (e ▸ htp)
  have hwf1 : VolumeWF (save_inode st i { zero_inode with type := ty, nlinks := 1, size := 0 }) :=
    save_inode_wf st hwf i hi _ hnew (fun _ => ⟨Nat.zero_div _, fun c hc => by
      show (List.replicate 11 0).getD c 0 = 0
      interval_cases c <;> rfl, rfl⟩)
  have e1 : inode_at (save_inode st i { zero_inode with type := ty, nlinks := 1, size := 0 }) p
      = inode_at st p := save_inode_other st i p _ hpi
  have hdp := hwf.dirs p hp htp
  have hdisk : ∀ k, DirOwns st (inode_at st p) k →
      (save_inode st i { zero_inode with type := ty, nlinks := 1, size := 0 }).disk k
        = st.disk k :=
    fun k hk => save_inode_disk_data st hwf.geom i hi _ k (Or.inl (hdp.owns_data k hk).1)
  have hroom1 : dir_entries
      (inode_at (save_inode st i { zero_inode with type := ty, nlinks := 1, size := 0 }) p)
        < 8368 ∨
      ∃ e, e < dir_entries
          (inode_at (save_inode st i { zero_inode with type := ty, nlinks := 1, size := 0 }) p) ∧
        entry_ino (save_inode st i { zero_inode with type := ty, nlinks := 1, size := 0 })
          (inode_at (save_inode st i { zero_inode with type := ty, nlinks := 1, size := 0 }) p)
          e = FREE := by
    rw [e1]
    rcases hroom p hp htp with h1 | ⟨e, he, hfe⟩
    · exact Or.inl h1
    · refine Or.inr ⟨e, he, ?_⟩
      unfold entry_ino
      rw [dir_frame_entry_data st _ _ hdisk e he]
      exact hfe
  obtain ⟨r3, st3, hadd3, hkept⟩ := add_entry_table_kept _ hwf1.geom p hp
    (hwf1.dirs p hp (by rw [e1]; exact htp)) name i (by omega) hroom1
  rw [hadd] at hadd3
  have hst : st2 = st3 := (Prod.mk.inj (Option.some.inj hadd3)).2
  subst hst
  refine ⟨i, hri, hi, hfree, hkept.sb, ?_⟩
  rw [hkept.inodes i hi (fun e => hpi e.symm)]
  exact save_inode_same st i _ hnew

/-- C21: on a well-formed mounted volume in which every directory has a free
entry or fewer than 8368 entries, a successful `fs_create` or `fs_mkdir`
returns the number `i` of an inode whose record was free, whatever its other
fields held, and afterwards the 11 direct slots and the indirect slot of
record `i` are 0, its size is 0, its link count is 1 and its type is that of a
regular file or of a directory. -/
theorem fs_create_new_inode (st : FS) (hwf : VolumeWF st)
    (hic : st.rootSB.inode_cnt ≤ 65536)
    (hroom : ∀ q, q < st.rootSB.inode_cnt → (inode_at st q).type = IFDIR →
      dir_entries (inode_at st q) < 8368 ∨
      ∃ e, e < dir_entries (inode_at st q) ∧ entry_ino st (inode_at st q) e = FREE)
    (P : CStr) (hP : IsCStr P) (r : Int) (st2 : FS) (hr : r ≠ -1) (ty : Nat)
    (h : (ty = IFREG ∧ fs_create st P = some (r, st2)) ∨
      (ty = IFDIR ∧ fs_mkdir st P = some (r, st2))) :
    ∃ i : Nat, r = (i : Int) ∧ i < st.rootSB.inode_cnt ∧ (inode_at st i).type = IFFREE ∧
      (∀ j, j < DIRBLOCK_PER_INODE → (inode_at st2 i).dir_block.getD j 0 = 0) ∧
      (inode_at st2 i).dir_block.length = DIRBLOCK_PER_INODE ∧
      (inode_at st2 i).indir_block = 0 ∧ (inode_at st2 i).size = 0 ∧
      (inode_at st2 i).nlinks = 1 ∧ (inode_at st2 i).type = ty := by
  have key : ty < 65536 ∧ fs_create_as ty st P = some (r, st2) := by
    rcases h with ⟨e, h⟩ | ⟨e, h⟩
    · subst e; exact ⟨by decide, h⟩
    · subst e; exact ⟨by decide, h⟩
  obtain ⟨i, hri, hi, hfree, _, hrec⟩ :=
    fs_create_as_record ty key.1 st hwf hic hroom P hP r st2 key.2 hr
  refine ⟨i, hri, hi, hfree, ?_, ?_, ?_, ?_, ?_, ?_⟩
  · intro j hj
    rw [hrec]
    show (List.replicate 11 0).getD j 0 = 0
    simp only [DIRBLOCK_PER_INODE] at hj
    interval_cases j <;> rfl
  all_goals (rw [hrec]; try rfl)

theorem example_stale_volume_wf : VolumeWF example_stale_volume :=
  save_inode_wf example_volume example_volume_wf 1 (by decide) _
    ⟨by decide, by decide, by decide, by decide, fun j => by
      by_cases hj : j < 11
      · interval_cases j <;> decide
      · rw [List.getD_eq_default _ _ (by simp; omega)]
        decide, by decide⟩
    (fun h => absurd h (by decide))

theorem fs_create_new_inode_witness :
    (inode_at example_stale_volume 1).type = IFFREE ∧
    (inode_at example_stale_volume 1).nlinks = 7 ∧
    (inode_at example_stale_volume 1).indir_block = 3 ∧
    (fs_create example_stale_volume [47, 97]).map Prod.fst = some 1 ∧
    (inode_at (state_of (fs_create example_stale_volume [47, 97]) example_stale_volume)
      1).indir_block = 0 ∧
    (inode_at (state_of (fs_create example_stale_volume [47, 97]) example_stale_volume)
      1).nlinks = 1 := by
  refine ⟨by decide, by decide, by decide, by decide, ?_⟩
  obtain ⟨i, h1, _, _, _, _, h2, _, h3, _⟩ :=
    fs_create_new_inode example_stale_volume example_stale_volume_wf (by decide)
      (fun q hq ht => Or.inl ((by decide : ∀ q, q < example_stale_volume.rootSB.inode_cnt →
        (inode_at example_stale_volume q).type = IFDIR →
        dir_entries (inode_at example_stale_volume q) < 8368) q hq ht))
      [47, 97] (by decide) 1 _ (by decide) IFREG
      (Or.inl ⟨rfl, eq_some_state_of _ example_stale_volume 1 (by decide)⟩)
  have hi : i = 1 := by omega
  subst hi
  exact ⟨h2, h3⟩

/-! ### A new directory as a parent -/

/-- The parent of `a/b` is what `get_inode(a)` returns. -/
theorem get_parent_inode_split (st : FS) (a b : CStr) (ha : a ≠ []) (hb : SLASH ∉ b) (r : Int)
    (hr : get_inode st a = some r) : get_parent_inode st (a ++ SLASH :: b) = some r := by
  unfold get_parent_inode
  rw [if_neg (by simp), strrchr_last SLASH a b hb]
  simp only []
  rw [if_neg (by
    intro h
    exact ha (List.length_eq_zero.mp h)), List.take_left, hr]
  simp only []
  by_cases h1 : r = -1
  · rw [if_pos h1, h1]
  · rw [if_neg h1]

/-- The lookup of a single name from the root. -/
theorem get_inode_name (st : FS) (hg : VolumeGeom st) (hroot : IsDirIno st ROOTINO)
    (x : CStr) (hne : x ≠ []) (hns : SLASH ∉ x) :
    get_inode st x = path_walk st [x] ROOTINO ∧
    get_inode st (SLASH :: x) = path_walk st [x] ROOTINO ∧
    path_walk st [x] ROOTINO =
      (match dir_findname st (inode_at st 0) x with
        | none => none
        | some n => if n = -1 then some (-1) else some n) := by
  refine ⟨by rw [get_inode_eq, path_tokens_name x hne hns], ?_, ?_⟩
  · rw [get_inode_eq]
    have := path_tokens_append x hne hns 0 [] (le_refl _)
    rw [show ([] : CStr) ++ SLASH :: x = SLASH :: x from rfl] at this
    rw [this]
    rfl
  · rw [path_walk_cons, path_step_dir st hg ROOTINO x hroot]
    rfl

/-- Claim C24 fails for a name of more than 61 bytes: on the example volume
`fs_mkdir` of "/" followed by 62 letters `a` returns inode 1, a directory,
and `get_inode` of the same path on the resulting volume returns -1. -/
theorem fs_mkdir_long_name_lost :
    VolumeWF example_volume ∧
    (fs_mkdir example_volume (47 :: List.replicate 62 97)).map Prod.fst = some 1 ∧
    (inode_at (state_of (fs_mkdir example_volume (47 :: List.replicate 62 97)) example_volume)
      1).type = IFDIR ∧
    get_inode (state_of (fs_mkdir example_volume (47 :: List.replicate 62 97)) example_volume)
      (47 :: List.replicate 62 97) = some (-1) :=
  ⟨example_volume_wf, by decide, by decide, by decide⟩

/-- C24 (amended): on a well-formed mounted volume of at most 65536 blocks and
65536 inodes in which every directory holds fewer than 8367 entries, for every
path `P` whose final name has at most 61 bytes: if `fs_mkdir(P)` succeeds and
returns `i`, then `get_inode(P)` returns `i` and inode `i` loads as a
directory with `nlinks = 1` and `size = 0`; and for every name `x` of 1 to 61
bytes without `/`, if the following `fs_create(P/x)` succeeds and returns `j`,
then its parent was `i`, `get_inode(P/x)` returns `j`, and `get_inode(x)` and
`get_inode(/x)` return what they returned before that call. -/
theorem mkdir_then_create (st : FS) (hwf : VolumeWF st)
    (h16 : st.rootSB.block_cnt ≤ 65536) (hic : st.rootSB.inode_cnt ≤ 65536)
    (hroom : ∀ q, q < st.rootSB.inode_cnt → (inode_at st q).type = IFDIR →
      dir_entries (inode_at st q) < 8367)
    (P : CStr) (hP : IsCStr P) (name : CStr) (hname : get_filename P = some name)
    (hlen : name.length ≤ 61) (i : Int) (st2 : FS)
    (h : fs_mkdir st P = some (i, st2)) (hi : i ≠ -1) :
    get_inode st2 P = some i ∧
    (∃ ino, inode_load st2 i zero_inode = some (0, ino) ∧
      ino.type = IFDIR ∧ ino.nlinks = 1 ∧ ino.size = 0) ∧
    ∀ (x : CStr), IsCStr x → x ≠ [] → SLASH ∉ x → x.length ≤ 61 → ∀ (j : Int) (st3 : FS),
      fs_create st2 (P ++ SLASH :: x) = some (j, st3) → j ≠ -1 →
      get_parent_inode st2 (P ++ SLASH :: x) = some i ∧
      get_inode st3 (P ++ SLASH :: x) = some j ∧
      get_inode st3 x = get_inode st2 x ∧
      get_inode st3 (SLASH :: x) = get_inode st2 (SLASH :: x) := by
  obtain ⟨p, n, e0, hri, hp, hn, hnp, hn0, hwf2, hsb2, _, _, _, htp, _, hfree, _, hget, hino,
    e1, hpost⟩ :=
    fs_create_as_after IFDIR (by decide) st hwf h16 hic
      (fun q hq ht => Nat.lt_succ_of_lt (hroom q hq ht)) P hP name hname hlen i st2 h hi
  subst hri
  have hn2 : n < st2.rootSB.inode_cnt := by rw [hsb2]; exact hn
  have hPne : P ≠ [] := by
    intro e
    subst e
    unfold fs_mkdir fs_create_as at h
    by_cases hc : check_rootSB st = -1
    · rw [if_pos hc] at h; exact ret_neg_one h hi
    · rw [if_neg hc, if_pos (show ([] : CStr).length = 0 from rfl)] at h
      exact ret_neg_one h hi
  have hnd2 : IsDirIno st2 (n : Int) :=
    ⟨by omega, by omega, by rw [Int.toNat_ofNat, hino]⟩
  have hroot2 : IsDirIno st2 ROOTINO := by
    rw [get_inode_eq] at hget
    exact path_walk_start st2 hwf2.geom _ _ _ hget hnd2
  have h02 : 0 < st2.rootSB.inode_cnt := by
    have := hroot2.2.1
    simp only [ROOTINO] at this
    omega
  have hroom2 : ∀ q, q < st2.rootSB.inode_cnt → (inode_at st2 q).type = IFDIR →
      dir_entries (inode_at st2 q) < 8368 := by
    intro q hq ht
    rw [hsb2] at hq
    by_cases hqp : q = p
    · subst hqp
      have hc := hpost.put.count
      have hle := hpost.put.le
      rw [e1] at hc hle
      have := hroom q hq htp
      rw [hc]
      omega
    · rw [hpost.inodes q hq hqp] at ht ⊢
      by_cases hqn : q = n
      · subst hqn
        rw [save_inode_same st q _ (new_inode_in_range IFDIR 1 (by decide) (by decide))]
        exact (by decide : dir_entries { zero_inode with type := IFDIR, nlinks := 1, size := 0 }
          < 8368)
      · rw [save_inode_other st n q _ hqn] at ht ⊢
        exact Nat.lt_succ_of_lt (hroom q hq ht)
  refine ⟨hget, ⟨inode_at st2 n, inode_load_eq st2 hwf2.geom n hn2 _, ?_⟩, ?_⟩
  · rw [hino]
    exact ⟨rfl, rfl, rfl⟩
  intro x hx hxne hxs hxlen j st3 hc hj
  have hname2 : get_filename (P ++ SLASH :: x) = some x := by
    rw [get_filename_split P x hxs, if_neg hxne]
  have hP2 : IsCStr (P ++ SLASH :: x) := by
    intro c hc
    rcases List.mem_append.mp hc with h1 | h1
    · exact hP c h1
    · rcases List.mem_cons.mp h1 with h2 | h2
      · rw [h2]; decide
      · exact hx c h2
  have hparx : get_parent_inode st2 (P ++ SLASH :: x) = some (n : Int) :=
    get_parent_inode_split st2 P x hPne hxs _ hget
  obtain ⟨p1, j1, e01, hrj, hp1, hj1, _, _, hwf3, hsb3, _, hpar1, _, htp1, _, hfree1, _, hget3, _,
    e11, hpost1⟩ :=
    fs_create_as_after IFREG (by decide) st2 hwf2 (by rw [hsb2]; exact h16)
      (by rw [hsb2]; exact hic) hroom2 (P ++ SLASH :: x) hP2 x hname2 hxlen j st3 hc hj
  rw [hparx] at hpar1
  have hp1n : p1 = n := by
    have := Option.some.inj hpar1
    omega
  subst hp1n
  have hnotdir1 : (inode_at st2 j1).type ≠ IFDIR := by rw [hfree1]; decide
  have hwfs : VolumeWF (save_inode st2 j1 { zero_inode with type := IFREG, nlinks := 1, size := 0 }) :=
    save_inode_wf st2 hwf2 j1 hj1 _ (new_inode_in_range IFREG 1 (by decide) (by decide))
      (fun h => absurd h (by decide))
  obtain ⟨a1, a2⟩ := save_inode_findname st2 hwf2 j1 hj1 hnotdir1
    { zero_inode with type := IFREG, nlinks := 1, size := 0 } 0 h02 hroot2.2.2 x
  obtain ⟨b1, b2⟩ := add_entry_findname_other _ hwfs p1 j1 x st3 e01 hp1
    (by rw [e11]; exact htp1) hpost1 0 h02 (fun e => hn0 e.symm)
    (by rw [a1]; exact hroot2.2.2) x
  have hroot3 : IsDirIno st3 ROOTINO :=
    ⟨hroot2.1, by rw [hsb3]; exact hroot2.2.1, by
      show (inode_at st3 0).type = IFDIR
      rw [b1, a1]; exact hroot2.2.2⟩
  have hfind : dir_findname st3 (inode_at st3 0) x = dir_findname st2 (inode_at st2 0) x :=
    b2.trans a2
  obtain ⟨c1, c2, c3⟩ := get_inode_name st2 hwf2.geom hroot2 x hxne hxs
  obtain ⟨d1, d2, d3⟩ := get_inode_name st3 hwf3.geom hroot3 x hxne hxs
  have hw : path_walk st3 [x] ROOTINO = path_walk st2 [x] ROOTINO := by
    rw [c3, d3, hfind]
  refine ⟨hparx, by rw [hrj]; exact hget3, ?_, ?_⟩
  · rw [c1, d1, hw]
  · rw [c2, d2, hw]

theorem mkdir_then_create_witness :
    fs_mkdir fresh8_volume [47, 100] = some (1, fresh8_dir_volume) ∧
    get_inode fresh8_dir_volume [47, 100] = some 1 ∧
    (fs_create fresh8_dir_volume [47, 100, 47, 102]).map Prod.fst = some 2 ∧
    get_inode (state_of (fs_create fresh8_dir_volume [47, 100, 47, 102]) fresh8_dir_volume)
      [47, 100, 47, 102] = some 2 :=
  have h := mkdir_then_create fresh8_volume
    (formatted_wf (blank_device 8) zero_block (by decide) (by decide)) (by decide) (by decide)
    (by decide) [47, 100] (by decide) [100] (by decide) (by decide) 1 fresh8_dir_volume
    (eq_some_state_of _ fresh8_volume 1 (by decide)) (by decide)
  ⟨eq_some_state_of _ fresh8_volume 1 (by decide), h.1, by decide,
    (h.2.2 [102] (by decide) (by decide) (by decide) (by decide) 2 _
      (eq_some_state_of _ fresh8_dir_volume 2 (by decide)) (by decide)).2.1⟩

/-! ### What `fs_unlink` frees -/

/-- What `fs_unlink` frees when `size + 1023` does not wrap: on a mounted
volume with a sound layout, let the path `P` name the
regular file `x` in the well-formed directory `p`, with the blocks of the
file data blocks of the volume that do not belong to `p`, and a size below
`2^32 - 1023`. `fs_unlink(P)` returns `x`. When `nlinks` was 1, afterwards the
type of inode `x` is free and the bitmap bit is clear of every non-zero
direct slot, of the indirect block when there is one, and of every non-zero
entry `k` of the indirect block with `k < ceil(size / 1024) - 11`. When
`nlinks` was above 1, no bitmap bit of the volume has changed and the record
of `x` is the one before with `nlinks` decreased by one. -/
theorem fs_unlink_effect (st : FS) (hg : VolumeGeom st) (hmag : check_rootSB st = 0)
    (P name : CStr) (hname : get_filename P = some name) (p : Nat)
    (hpar : get_parent_inode st P = some (p : Int)) (hp : p < st.rootSB.inode_cnt)
    (hwf : DirWF st (inode_at st p)) (x : Nat)
    (hfind : dir_findname st (inode_at st p) name = some (x : Int))
    (hx : x < st.rootSB.inode_cnt) (hreg : (inode_at st x).type = IFREG)
    (hfile : ∀ b, b ∈ file_blocks st (inode_at st x) → b ≠ 0 →
      st.rootSB.first_datablk ≤ b ∧ b < st.rootSB.block_cnt ∧ ¬ DirOwns st (inode_at st p) b)
    (hsize : (inode_at st x).size + 1023 < 4294967296) :
    ∃ st2, fs_unlink st P = some ((x : Int), st2) ∧
      ((inode_at st x).nlinks = 1 →
        (inode_at st2 x).type = IFFREE ∧
        (∀ j, j < DIRBLOCK_PER_INODE → (inode_at st x).dir_block.getD j 0 ≠ 0 →
          bitmap_bit st2 ((inode_at st x).dir_block.getD j 0) = 0) ∧
        ((inode_at st x).indir_block ≠ 0 →
          bitmap_bit st2 (inode_at st x).indir_block = 0 ∧
          ∀ k, k < BLOCKSZ / 2 → k < ceil_div (inode_at st x).size BLOCKSZ - DIRBLOCK_PER_INODE →
            block_u16 (st.disk (inode_at st x).indir_block) k ≠ 0 →
            bitmap_bit st2 (block_u16 (st.disk (inode_at st x).indir_block) k) = 0)) ∧
      (1 < (inode_at st x).nlinks →
        (∀ m, m < st.rootSB.block_cnt → bitmap_bit st2 m = bitmap_bit st m) ∧
        inode_at st2 x = { inode_at st x with nlinks := (inode_at st x).nlinks - 1 }) := by
  obtain ⟨e, st2, hrun, hpost⟩ :=
    fs_unlink_spec st hg hmag P name hname p hpar hp hwf x hfind hx hreg hfile
  have hr := inode_at_in_range st x
  refine ⟨st2, hrun, fun h1 => ?_, fun h2 => ?_⟩
  · obtain ⟨hrec, hclear, _⟩ := hpost.last h1
    refine ⟨by rw [hrec], fun j hj hne => hclear _ ?_ hne, fun hind => ⟨hclear _ ?_ hind,
      fun k hk hcount hne => hclear _ ?_ hne⟩⟩
    · unfold file_blocks
      apply List.mem_append_left
      have hlen : j < (inode_at st x).dir_block.length := by rw [hr.dir_len]; exact hj
      rw [List.getD_eq_getElem _ _ hlen]
      exact List.getElem_mem _
    · unfold file_blocks
      apply List.mem_append_right
      rw [if_pos hind]
      exact List.mem_append_right _ (List.mem_singleton_self _)
    · unfold file_blocks
      apply List.mem_append_right
      rw [if_pos hind]
      apply List.mem_append_left
      apply List.mem_map_of_mem
      rw [List.mem_range]
      unfold ceil_div at hcount
      simp only [BLOCKSZ, DISK_BLOCK_SIZE, DIRBLOCK_PER_INODE] at hk hcount ⊢
      have e1 : ((inode_at st x).size + 1024 - 1) % 4294967296
          = (inode_at st x).size + 1024 - 1 := Nat.mod_eq_of_lt (by omega)
      rw [e1]
      omega
  · obtain ⟨hrec, hbits⟩ := hpost.more (by omega)
    refine ⟨hbits, ?_⟩
    rw [hrec]
    have hn := hr.nlinks_lt
    have e1 : ((inode_at st x).nlinks + 65535) % 65536 = (inode_at st x).nlinks - 1 := by omega
    rw [e1]

theorem example_blocks_geom : VolumeGeom example_blocks_volume :=
  ⟨⟨by decide, by decide, by decide⟩, by decide, by decide, by decide, by decide, by decide,
    by decide, by decide⟩

theorem example_blocks_root_wf :
    DirWF example_blocks_volume (inode_at example_blocks_volume 0) := by
  have hN : dir_entries (inode_at example_blocks_volume 0) = 1 := by decide
  have hch : chunk_block example_blocks_volume (inode_at example_blocks_volume 0) 0 = 3 := by
    decide
  refine ⟨by decide, ?_, ?_, ?_, ?_, ?_, ?_, ?_, ?_, ?_, ?_⟩
  all_goals simp only [DIRBLOCK_PER_INODE, BLOCKSZ, DISK_BLOCK_SIZE, DIRENTS_PER_BLOCK_eq, hN]
  · omega
  · intro c h
    have : c = 0 := by omega
    subst this
    rw [hch]
    decide
  · intro c h
    have : c = 0 := by omega
    subst this
    rw [hch]
    decide
  · intro c c' h h' _
    omega
  · intro h; omega
  · intro h; omega
  · intro h; omega
  · intro c h h11
    have : 1 ≤ c := by omega
    interval_cases c <;> decide
  · intro _; decide
  · intro h; omega

theorem fs_unlink_effect_witness :
    (inode_at example_blocks_volume 1).nlinks = 1 ∧
    bitmap_bit example_blocks_volume 4 = 1 ∧ bitmap_bit example_blocks_volume 7 = 1 ∧
    ∃ st2, fs_unlink example_blocks_volume [47, 97] = some (1, st2) ∧
      (inode_at st2 1).type = IFFREE ∧
      bitmap_bit st2 4 = 0 ∧ bitmap_bit st2 5 = 0 ∧ bitmap_bit st2 6 = 0 ∧
      bitmap_bit st2 7 = 0 := by
  refine ⟨by decide, by decide, by decide, ?_⟩
  have hfb : file_blocks example_blocks_volume (inode_at example_blocks_volume 1)
      = [4, 5, 0, 0, 0, 0, 0, 0, 0, 0, 0, 7, 6] := by decide
  obtain ⟨st2, hrun, hlast, _⟩ := fs_unlink_effect example_blocks_volume example_blocks_geom
    (by decide) [47, 97] [97] (by decide) 0 (by decide) (by decide) example_blocks_root_wf 1
    (by decide) (by decide) (by decide)
    (fun b hb hne => by
      rw [hfb] at hb
      have hcases : b = 4 ∨ b = 5 ∨ b = 7 ∨ b = 6 := by
        simp only [List.mem_cons, List.mem_singleton, List.not_mem_nil, or_false] at hb
        omega
      have hnot : ¬ DirOwns example_blocks_volume (inode_at example_blocks_volume 0) b := by
        rintro (⟨c, hc, hcb⟩ | ⟨hN, _⟩)
        · have hN : dir_entries (inode_at example_blocks_volume 0) = 1 := by decide
          rw [hN, DIRENTS_PER_BLOCK_eq] at hc
          have : c = 0 := by omega
          subst this
          have hch : chunk_block example_blocks_volume (inode_at example_blocks_volume 0) 0
              = 3 := by decide
          rw [hch] at hcb
          omega
        · exact absurd hN (by decide)
      refine ⟨?_, ?_, hnot⟩
      · rcases hcases with h | h | h | h <;> subst h <;> decide
      · rcases hcases with h | h | h | h <;> subst h <;> decide)
    (by decide)
  obtain ⟨h1, h2, h3⟩ := hlast (by decide)
  obtain ⟨h4, h5⟩ := h3 (by decide)
  exact ⟨st2, hrun, h1, h2 0 (by decide) (by decide), h2 1 (by decide) (by decide), h4,
    h5 0 (by decide) (by decide) (by decide)⟩

theorem tight_dir176_geom : VolumeGeom tight_dir176_volume :=
  ⟨⟨by decide, by decide, by decide⟩, by decide, by decide, by decide, by decide, by decide,
    by decide, by decide⟩

theorem tight_dir176_chunks (c : Nat) (hc : c < 11) :
    chunk_block tight_dir176_volume (inode_at tight_dir176_volume 0) c = 3 + c := by
  interval_cases c <;> decide

theorem tight_dir176_wf :
    DirWF tight_dir176_volume (inode_at tight_dir176_volume 0) := by
  have hN : dir_entries (inode_at tight_dir176_volume 0) = 176 := by decide
  have hfd : tight_dir176_volume.rootSB.first_datablk = 3 := by decide
  have hcnt : tight_dir176_volume.rootSB.block_cnt = 32 := by decide
  refine ⟨by decide, ?_, ?_, ?_, ?_, ?_, ?_, ?_, ?_, ?_, ?_⟩
  all_goals simp only [DIRBLOCK_PER_INODE, BLOCKSZ, DISK_BLOCK_SIZE, DIRENTS_PER_BLOCK_eq, hN]
  · omega
  · intro c h
    rw [tight_dir176_chunks c (by omega), hfd, hcnt]; omega
  · intro c h
    rw [tight_dir176_chunks c (by omega)]
    have hc : c < 11 := by omega
    interval_cases c <;> decide
  · intro c c' h h' heq
    rw [tight_dir176_chunks c (by omega), tight_dir176_chunks c' (by omega)] at heq
    omega
  · intro h; omega
  · intro h; omega
  · intro h; omega
  · intro c h h11; omega
  · intro _; decide
  · intro h; omega

set_option maxRecDepth 100000 in
/-- C22 (the code at a failing input): the root directory of the tight volume
is well formed and holds 176 entries, all in use, so the next entry needs the
indirect table and a data block, and block 31 is the only free block.
`fs_create("/a")` returns -1: `add_entry_to_directory` allocates block 31 as
the indirect table, finds no block for the entry and returns -1 without
giving block 31 back. Afterwards the type of every inode is as before (the
new inode 2 was freed again), but block 31 is marked used in the bitmap and
no inode refers to it. -/
theorem fs_create_failure_keeps_block :
    VolumeGeom tight_dir176_volume ∧
    DirWF tight_dir176_volume (inode_at tight_dir176_volume 0) ∧
    bitmap_bit tight_dir176_volume 31 = 0 ∧
    (∀ m, m < 31 → bitmap_bit tight_dir176_volume m = 1) ∧
    fs_create tight_dir176_volume [47, 97] = some (-1, tight_failed_volume) ∧
    bitmap_bit tight_failed_volume 31 = 1 ∧
    (inode_at tight_failed_volume 0).indir_block = 0 ∧
    (∀ q, q < 32 →
      (inode_at tight_failed_volume q).type = (inode_at tight_dir176_volume q).type) :=
  ⟨tight_dir176_geom, tight_dir176_wf, by decide, by decide,
    eq_some_state_of _ tight_dir176_volume (-1) (by decide), by decide, by decide, by decide⟩

/-! ### A fresh volume without a root directory -/

/-- C28 (the code at a failing input): on a blank device of 262144 blocks
`fs_format` returns 0 with `inode_cnt = 0` (65536 truncated to 16 bits), and
`inode_save` rejects inode number 0. In the state it leaves, before any other
call, inode 0 is free, not a directory; `inode_alloc` hands out inode 0; and
`fs_mkdir("/d")` fails. -/
theorem fresh_volume_without_root :
    fs_format (blank_device 262144) zero_block = some (0, fresh_wrapped_volume) ∧
    fresh_wrapped_volume.rootSB.inode_cnt = 0 ∧
    (inode_at fresh_wrapped_volume 0).type = IFFREE ∧
    inode_alloc fresh_wrapped_volume = some 0 ∧
    fs_mkdir fresh_wrapped_volume [47, 100] = some (-1, fresh_wrapped_volume) := by
  have e : fresh_wrapped_volume = formatted (blank_device 262144) zero_block := by
    unfold fresh_wrapped_volume
    rw [fs_format_eq _ _ (by decide) (by decide) (by decide) (by decide) (by decide)
      (by decide)]
    rfl
  refine ⟨?_, ?_, ?_, ?_, ?_⟩
  · rw [e]
    exact fs_format_eq _ _ (by decide) (by decide) (by decide) (by decide) (by decide)
      (by decide)
  all_goals rw [e]
  · decide
  · decide
  · decide
  · exact fs_create_as_refused IFDIR _ [47, 100] 0 (by decide)
      (Or.inr ⟨-1, _, inode_load_out_of_range _ 0 zero_inode (Or.inr (by decide)),
        Or.inl rfl⟩)

/-! ### The inode numbers that the calls return -/

/-- The number that `fs_link` returns is -1 or that of an inode it has loaded
as a regular file. -/
theorem fs_link_returns (st : FS) (E N : CStr) (r : Int) (st2 : FS)
    (h : fs_link st E N = some (r, st2)) :
    r = -1 ∨ ∃ rl ino, inode_load st r zero_inode = some (rl, ino) ∧ rl ≠ -1 ∧
      ino.type = IFREG := by
  unfold fs_link at h
  repeat' split at h
  all_goals first
    | (left; exact ((Prod.mk.inj (Option.some.inj h)).1).symm)
    | (right
       rw [← (Prod.mk.inj (Option.some.inj h)).1]
       exact ⟨_, _, by assumption, by assumption, Decidable.of_not_not (by assumption)⟩)
    | cases h

/-- The number that `fs_unlink` returns is -1 or that of an inode it has
loaded as a regular file. -/
theorem fs_unlink_returns (st : FS) (P : CStr) (r : Int) (st2 : FS)
    (h : fs_unlink st P = some (r, st2)) :
    r = -1 ∨ ∃ rl ino, inode_load st r zero_inode = some (rl, ino) ∧ rl ≠ -1 ∧
      ino.type = IFREG := by
  have key : ∀ {s : FS}, some ((-1 : Int), s) = some (r, st2) → r = -1 := fun h1 =>
    ((Prod.mk.inj (Option.some.inj h1)).1).symm
  unfold fs_unlink at h
  by_cases hc : check_rootSB st = -1
  · rw [if_pos hc] at h; exact Or.inl (key h)
  rw [if_neg hc] at h
  cases hn : get_filename P with
  | none => rw [hn] at h; exact Or.inl (key h)
  | some name =>
  rw [hn] at h
  simp only [] at h
  cases hp : get_parent_inode st P with
  | none => rw [hp] at h; cases h
  | some p0 =>
  rw [hp] at h
  simp only [] at h
  by_cases hp1 : p0 = -1
  · rw [if_pos hp1] at h; exact Or.inl (key h)
  rw [if_neg hp1] at h
  cases hl : inode_load st p0 zero_inode with
  | none => rw [hl] at h; cases h
  | some v =>
  obtain ⟨rp, parent⟩ := v
  rw [hl] at h
  simp only [] at h
  by_cases h1 : rp = -1
  · rw [if_pos h1] at h; exact Or.inl (key h)
  rw [if_neg h1] at h
  by_cases h2 : parent.type ≠ IFDIR
  · rw [if_pos h2] at h; exact Or.inl (key h)
  rw [if_neg h2] at h
  cases hf : dir_findname st parent name with
  | none => rw [hf] at h; cases h
  | some x =>
  rw [hf] at h
  simp only [] at h
  by_cases hx : x = -1
  · rw [if_pos hx] at h; exact Or.inl (key h)
  rw [if_neg hx] at h
  cases hlx : inode_load st x zero_inode with
  | none => rw [hlx] at h; cases h
  | some v =>
  obtain ⟨rx, xino⟩ := v
  rw [hlx] at h
  simp only [] at h
  by_cases h3 : rx = -1
  · rw [if_pos h3] at h; exact Or.inl (key h)
  rw [if_neg h3] at h
  by_cases h4 : xino.type ≠ IFREG
  · rw [if_pos h4] at h; exact Or.inl (key h)
  rw [if_neg h4] at h
  have hres : r = -1 ∨ r = x := by
    cases hd : dir_remove_entry st parent name with
    | none => rw [hd] at h; cases h
    | some v =>
    obtain ⟨rem, s1⟩ := v
    rw [hd] at h
    simp only [] at h
    by_cases h5 : rem = -1
    · rw [if_pos h5] at h; exact Or.inl (key h)
    rw [if_neg h5] at h
    by_cases h6 : (xino.nlinks + 65535) % 65536 = 0
    · rw [if_pos h6] at h
      cases hfb : free_blocks s1 xino.dir_block with
      | none => rw [hfb] at h; cases h
      | some s2 =>
      rw [hfb] at h
      simp only [] at h
      split at h
      · cases h
      · rename_i s5 _
        cases hif : inode_free s5 x with
        | none => rw [hif] at h; cases h
        | some v =>
        obtain ⟨_, s6⟩ := v
        rw [hif] at h
        exact Or.inr ((Prod.mk.inj (Option.some.inj h)).1).symm
    · rw [if_neg h6] at h
      cases his : inode_save s1 x { xino with nlinks := (xino.nlinks + 65535) % 65536 } with
      | none => rw [his] at h; cases h
      | some v =>
      obtain ⟨_, s2⟩ := v
      rw [his] at h
      exact Or.inr ((Prod.mk.inj (Option.some.inj h)).1).symm
  rcases hres with e | e
  · exact Or.inl e
  · rw [e]
    exact Or.inr ⟨rx, xino, hlx, h3, Decidable.of_not_not h4⟩

/-- The number that `fs_create` or `fs_mkdir` returns is -1 or the result of
`inode_alloc`. -/
theorem fs_create_as_returns (ty : Nat) (st : FS) (P : CStr) (r : Int) (st2 : FS)
    (h : fs_create_as ty st P = some (r, st2)) : r = -1 ∨ inode_alloc st = some r := by
  unfold fs_create_as at h
  repeat' split at h
  all_goals first
    | (left; exact ((Prod.mk.inj (Option.some.inj h)).1).symm)
    | (right
       rw [← (Prod.mk.inj (Option.some.inj h)).1]
       assumption)
    | cases h

/-- In a state in which inode 0 is a directory none of `fs_create`,
`fs_mkdir`, `fs_link` and `fs_unlink` returns 0. -/
theorem calls_never_return_root (st : FS) (hroot : (inode_at st 0).type = IFDIR) (r : Int)
    (st2 : FS) :
    (∀ ty P, fs_create_as ty st P = some (r, st2) → r ≠ 0) ∧
    (∀ E N, fs_link st E N = some (r, st2) → r ≠ 0) ∧
    (∀ P, fs_unlink st P = some (r, st2) → r ≠ 0) := by
  have hload : (∃ rl ino, inode_load st r zero_inode = some (rl, ino) ∧ rl ≠ -1 ∧
      ino.type = IFREG) → r ≠ 0 := by
    rintro ⟨rl, ino, hl, hrl, ht⟩ h0
    subst h0
    unfold inode_load at hl
    split at hl
    · exact hrl ((Prod.mk.inj (Option.some.inj hl)).1).symm
    · simp only [] at hl
      split at hl
      · cases hl
      · rename_i block hb
        unfold disk_read at hb
        split at hb
        · cases hb
        · have e1 := Option.some.inj hb
          have e2 := (Prod.mk.inj (Option.some.inj hl)).2
          have : ino = inode_at st 0 := by
            rw [← e2, ← e1]
            rfl
          rw [this, hroot] at ht
          exact absurd ht (by decide)
  refine ⟨fun ty P h => ?_, fun E N h => ?_, fun P h => ?_⟩
  · rcases fs_create_as_returns ty st P r st2 h with h1 | h1
    · rw [h1]; decide
    · rcases inode_alloc_some st r h1 with h2 | ⟨i, h2, h3⟩
      · rw [h2]; decide
      · intro h0
        have : i = 0 := by omega
        subst this
        rw [hroot] at h3
        exact absurd h3 (by decide)
  · rcases fs_link_returns st E N r st2 h with h1 | h1
    · rw [h1]; decide
    · exact hload h1
  · rcases fs_unlink_returns st P r st2 h with h1 | h1
    · rw [h1]; decide
    · exact hload h1

/-! ### Calls on a volume that is not mounted -/

/-- C31: while no volume is mounted (the magic of the cached superblock is
not `FS_MAGIC`), `fs_ls`, `fs_create`, `fs_mkdir`, `fs_link` and `fs_unlink`
each return -1; `fs_ls` lists nothing and the four others leave the state,
and so every block of the disk, as it was. -/
theorem unmounted_calls_fail (st : FS) (h : st.rootSB.magic ≠ FS_MAGIC) (d : Option CStr)
    (P E N : CStr) :
    fs_ls st d = some (-1, []) ∧ fs_create st P = some (-1, st) ∧
    fs_mkdir st P = some (-1, st) ∧ fs_link st E N = some (-1, st) ∧
    fs_unlink st P = some (-1, st) := by
  have hc : check_rootSB st = -1 := by unfold check_rootSB; rw [if_pos h]
  refine ⟨?_, ?_, ?_, ?_, ?_⟩
  · unfold fs_ls; rw [if_pos hc]
  · unfold fs_create fs_create_as; rw [if_pos hc]
  · unfold fs_mkdir fs_create_as; rw [if_pos hc]
  · unfold fs_link; rw [if_pos hc]
  · unfold fs_unlink; rw [if_pos hc]

theorem unmounted_calls_fail_witness :
    (blank_device 4).rootSB.magic ≠ FS_MAGIC ∧
    fs_ls (blank_device 4) none = some (-1, []) ∧
    fs_create (blank_device 4) [47, 97] = some (-1, blank_device 4) ∧
    fs_mkdir (blank_device 4) [47, 97] = some (-1, blank_device 4) ∧
    fs_link (blank_device 4) [47, 97] [47, 98] = some (-1, blank_device 4) ∧
    fs_unlink (blank_device 4) [47, 97] = some (-1, blank_device 4) :=
  ⟨by decide, unmounted_calls_fail (blank_device 4) (by decide) none [47, 97] [47, 97] [47, 98]⟩

/-! ### `block_free` -/

theorem bitmap_clear_twice (b : Block) (n : Nat) :
    bitmap_clear (bitmap_clear b n) n = bitmap_clear b n := by
  unfold bitmap_clear
  rw [byte_update_same, Function.update_idem]
  have hle : byte b (n / WORDSZ) &&& (255 - 1 <<< (n % WORDSZ)) < 256 :=
    lt_of_le_of_lt Nat.and_le_left (byte_lt _ _)
  rw [Nat.mod_eq_of_lt hle, Nat.and_assoc, Nat.and_self]

theorem mark_free_twice (st : FS) (n : Nat) : mark_free (mark_free st n) n = mark_free st n := by
  unfold mark_free
  simp only [Function.update_same, Function.update_idem, bitmap_clear_twice]

/-- The call `block_free(n)` for a number whose bit lies in a bitmap block of
the volume: the bit is cleared, whether or not `n` is below `block_cnt`. -/
theorem block_free_in_bitmap (st : FS) (hdev : BITMAPSTART + st.rootSB.bmap_size ≤ st.nblocks)
    (hnb : st.nblocks < 4294967296) (n : Nat) (hn : n < st.rootSB.bmap_size * 8192) :
    block_free st (n : Int) = some (0, mark_free st n) := by
  simp only [BITMAPSTART] at hdev
  have hk : n / 8192 < st.rootSB.bmap_size := by omega
  unfold block_free
  simp only [BLOCKSZ, DISK_BLOCK_SIZE, BITMAPSTART]
  have h1 : Int.tdiv (n : Int) ((1024 : Nat) * 8 : Nat) = ((n / 8192 : Nat) : Int) := by
    simp [Int.tdiv]
  have h2 : Int.tmod (n : Int) ((1024 : Nat) * 8 : Nat) = ((n % 8192 : Nat) : Int) := by
    simp [Int.tmod]
  simp only [Nat.cast_ofNat, Nat.cast_mul] at h1 h2 ⊢
  rw [h1, h2]
  have hc : ¬ (((n / 8192 : Nat) : Int) ≥ (st.rootSB.bmap_size : Int) ∨ ((n / 8192 : Nat) : Int) < 0) := by
    omega
  rw [if_neg hc]
  simp only [Int.toNat_ofNat]
  rw [disk_read_eq st _ (by omega), to_unsigned_natCast _ (by omega)]
  simp only []
  rw [if_neg (by omega), disk_write_eq st _ _ (by omega)]
  rfl

/-- The call `block_free(n)` is refused when `n / 8192`, rounded toward zero,
is not the index of a bitmap block: `n` is at or beyond `8192 * bmap_size`, or
at or below -8192. -/
theorem block_free_rejected (st : FS) (n : Int)
    (hn : (st.rootSB.bmap_size : Int) * 8192 ≤ n ∨ n ≤ -8192) :
    block_free st n = some (-1, st) := by
  unfold block_free
  simp only [BLOCKSZ, DISK_BLOCK_SIZE]
  have h8 : (((1024 : Nat) * 8 : Nat) : Int) = 8192 := by norm_num
  simp only [Nat.cast_ofNat, Nat.cast_mul] at h8 ⊢
  rw [if_pos]
  rcases hn with hn | hn
  · left
    have h0 : 0 ≤ n := le_trans (by positivity) hn
    rw [Int.tdiv_eq_ediv h0 (by norm_num)]
    show (st.rootSB.bmap_size : Int) ≤ n / (1024 * 8)
    rw [Int.le_ediv_iff_mul_le (by norm_num)]
    omega
  · right
    obtain ⟨k, hk⟩ : ∃ k : Nat, n = -(k : Int) := ⟨n.natAbs, by omega⟩
    subst hk
    rw [Int.neg_tdiv]
    have : (0 : Int) < Int.tdiv (k : Int) (1024 * 8) := by
      rw [Int.tdiv_eq_ediv (by omega) (by norm_num)]
      have : (1 : Int) ≤ (k : Int) / (1024 * 8) := by
        rw [Int.le_ediv_iff_mul_le (by norm_num)]
        omega
      omega
    omega

/-- C32: on a mounted volume whose bitmap lies on the device and covers the
volume, for every block number `n` below `block_cnt`: `block_free(n)` returns
0, afterwards bit `n` of the bitmap is clear and every other bit is as
before, whatever bit `n` was; the blocks outside the bitmap, the superblock
in memory and the device size are unchanged; and a second `block_free(n)`
returns 0 again and changes nothing. -/
theorem block_free_spec (st : FS) (hg : BitmapGeom st) (n : Nat) (hn : n < st.rootSB.block_cnt) :
    ∃ st1, block_free st (n : Int) = some (0, st1) ∧
      bitmap_bit st1 n = 0 ∧
      (∀ m, m ≠ n → bitmap_bit st1 m = bitmap_bit st m) ∧
      (∀ k, (k < BITMAPSTART ∨ BITMAPSTART + st.rootSB.bmap_size ≤ k) → st1.disk k = st.disk k) ∧
      st1.rootSB = st.rootSB ∧ st1.nblocks = st.nblocks ∧
      block_free st1 (n : Int) = some (0, st1) := by
  refine ⟨mark_free st n, block_free_eq st hg n hn, bitmap_bit_mark_free_same st n,
    fun m hm => bitmap_bit_mark_free_other st n m hm, ?_, rfl, rfl, ?_⟩
  · intro k hk
    have hcov := hg.cover
    simp only [BLOCKSZ, DISK_BLOCK_SIZE, BITMAPSTART] at hcov hk
    have : n / 8192 < st.rootSB.bmap_size := by omega
    simp only [mark_free, BLOCKSZ, DISK_BLOCK_SIZE, BITMAPSTART]
    rw [Function.update_noteq (by omega)]
  · have h := block_free_eq (mark_free st n) ⟨hg.one_le, hg.cover, hg.ondev⟩ n hn
    rw [mark_free_twice] at h
    exact h

theorem block_free_spec_witness :
    ∃ st1, block_free example_full_volume ((3 : Nat) : Int) = some (0, st1) ∧
      bitmap_bit st1 3 = 0 ∧
      (∀ m, m ≠ 3 → bitmap_bit st1 m = bitmap_bit example_full_volume m) ∧
      (∀ k, (k < BITMAPSTART ∨ BITMAPSTART + example_full_volume.rootSB.bmap_size ≤ k) →
        st1.disk k = example_full_volume.disk k) ∧
      st1.rootSB = example_full_volume.rootSB ∧ st1.nblocks = example_full_volume.nblocks ∧
      block_free st1 ((3 : Nat) : Int) = some (0, st1) :=
  block_free_spec example_full_volume example_full_volume_geom 3 (by decide)

/-- For a negative `n` above -8192 the range test of `block_free` passes and
the bit index that `bitmap_clear` receives is `2^32 - |n|`, outside the buffer:
the call does not return. -/
theorem block_free_negative (st : FS) (hdev : BITMAPSTART + st.rootSB.bmap_size ≤ st.nblocks)
    (h1 : 1 ≤ st.rootSB.bmap_size) (k : Nat) (hk0 : 0 < k) (hk : k < 8192) :
    block_free st (-(k : Int)) = none := by
  simp only [BITMAPSTART] at hdev
  unfold block_free
  simp only [BLOCKSZ, DISK_BLOCK_SIZE, BITMAPSTART]
  have e1 : Int.tdiv (-(k : Int)) (((1024 : Nat) * 8 : Nat) : Int) = 0 := by
    rw [Int.neg_tdiv]
    have : Int.tdiv (k : Int) (((1024 : Nat) * 8 : Nat) : Int) = 0 := by
      rw [Int.tdiv_eq_ediv (by omega) (by norm_num)]
      exact Int.ediv_eq_zero_of_lt (by omega) (by norm_num; omega)
    rw [this]; rfl
  have e2 : Int.tmod (-(k : Int)) (((1024 : Nat) * 8 : Nat) : Int) = -(k : Int) := by
    have h := Int.tdiv_add_tmod (-(k : Int)) (((1024 : Nat) * 8 : Nat) : Int)
    rw [e1] at h
    simpa using h
  simp only [Nat.cast_ofNat, Nat.cast_mul] at e1 e2 ⊢
  rw [e1, e2]
  rw [if_neg (by omega)]
  simp only [Int.toNat_zero, Nat.add_zero]
  rw [disk_read_eq st 1 (by omega)]
  simp only []
  have hu : to_unsigned (-(k : Int)) = 4294967296 - k := by
    unfold to_unsigned
    have : (-(k : Int)) % 4294967296 = 4294967296 - (k : Int) := by omega
    rw [this]
    omega
  rw [hu, if_pos (by omega)]

/-- C33 (counterexample): on the example volume of 4 blocks, 4 is not a block
of the volume (`block_cnt = 4`), yet `block_free(4)` returns 0, not -1: bit 4
lies in the one bitmap block of the volume, and `block_free` tests only the
index of the bitmap block. -/
theorem block_free_padding_accepted :
    example_volume.rootSB.block_cnt = 4 ∧
    block_free example_volume 4 = some (0, mark_free example_volume 4) :=
  ⟨by decide, block_free_in_bitmap example_volume (by decide) (by decide) 4 (by decide)⟩

/-- C33 (amended): `block_free(n)` tests the index `n / 8192` of the bitmap
block, not `block_cnt`. For every `n` at or beyond `8192 * bmap_size`, and for
every `n` at or below -8192, it returns -1 and leaves the state unchanged. On
a volume whose bitmap lies on the device, for every `n` from `block_cnt` up to
the last bit of the last bitmap block it returns 0 and clears the padding bit
`n`: every other bit of the bitmap, every block outside the bitmap, the
superblock in memory and the device size are unchanged. -/
theorem block_free_guard (st : FS) (hdev : BITMAPSTART + st.rootSB.bmap_size ≤ st.nblocks)
    (hnb : st.nblocks < 4294967296) :
    (∀ n : Int, ((st.rootSB.bmap_size : Int) * 8192 ≤ n ∨ n ≤ -8192) →
      block_free st n = some (-1, st)) ∧
    (∀ n : Nat, st.rootSB.block_cnt ≤ n → n < st.rootSB.bmap_size * 8192 →
      ∃ st1, block_free st (n : Int) = some (0, st1) ∧ bitmap_bit st1 n = 0 ∧
        (∀ m, m ≠ n → bitmap_bit st1 m = bitmap_bit st m) ∧
        (∀ k, (k < BITMAPSTART ∨ BITMAPSTART + st.rootSB.bmap_size ≤ k) →
          st1.disk k = st.disk k) ∧
        st1.rootSB = st.rootSB ∧ st1.nblocks = st.nblocks) := by
  refine ⟨fun n hn => block_free_rejected st n hn, fun n _ hpad => ?_⟩
  refine ⟨mark_free st n, block_free_in_bitmap st hdev hnb n hpad,
    bitmap_bit_mark_free_same st n, fun m hm => bitmap_bit_mark_free_other st n m hm, ?_, rfl,
    rfl⟩
  intro k hk
  simp only [BITMAPSTART] at hk
  have : n / 8192 < st.rootSB.bmap_size := by omega
  simp only [mark_free, BLOCKSZ, DISK_BLOCK_SIZE, BITMAPSTART]
  rw [Function.update_noteq (by omega)]

theorem block_free_guard_witness :
    example_volume.rootSB.block_cnt = 4 ∧ example_volume.rootSB.bmap_size = 1 ∧
    block_free example_volume 8192 = some (-1, example_volume) ∧
    block_free example_volume (-8192) = some (-1, example_volume) ∧
    ∃ st1, block_free example_volume ((5 : Nat) : Int) = some (0, st1) ∧
      bitmap_bit st1 5 = 0 ∧
      (∀ m, m ≠ 5 → bitmap_bit st1 m = bitmap_bit example_volume m) ∧
      (∀ k, (k < BITMAPSTART ∨ BITMAPSTART + example_volume.rootSB.bmap_size ≤ k) →
        st1.disk k = example_volume.disk k) ∧
      st1.rootSB = example_volume.rootSB ∧ st1.nblocks = example_volume.nblocks :=
  ⟨by decide, by decide,
    (block_free_guard example_volume (by decide) (by decide)).1 8192 (Or.inl (by decide)),
    (block_free_guard example_volume (by decide) (by decide)).1 (-8192) (Or.inr (by decide)),
    (block_free_guard example_volume (by decide) (by decide)).2 5 (by decide) (by decide)⟩

/-! ### `inode_save` followed by `inode_load` -/

/-- C34: on a mounted volume whose inode table lies on the device and holds
`inode_cnt` records, for every inode number `n` below `inode_cnt` and every
record `x` (each member within its C type): `inode_save(n, x)` returns 0;
afterwards `inode_load(n)` returns 0 and yields `x`, `inode_load(m)` gives for
every other number `m` what it gave before, only block
`first_inodeblk + n / 32` of the disk has changed, which is a block of the
inode table, and the superblock in memory and the device size are unchanged. -/
theorem inode_save_then_load (st : FS)
    (htab : st.rootSB.first_inodeblk + st.rootSB.inode_blocks ≤ st.nblocks)
    (hcnt : st.rootSB.inode_cnt ≤ st.rootSB.inode_blocks * INODES_PER_BLOCK)
    (n : Nat) (hn : n < st.rootSB.inode_cnt) (x : fs_inode) (hx : InodeInRange x) :
    ∃ st1, inode_save st (n : Int) x = some (0, st1) ∧
      (∀ y, inode_load st1 (n : Int) y = some (0, x)) ∧
      (∀ (m : Int) (y : fs_inode), m ≠ (n : Int) → inode_load st1 m y = inode_load st m y) ∧
      (∀ k, k ≠ st.rootSB.first_inodeblk + n / INODES_PER_BLOCK → st1.disk k = st.disk k) ∧
      st.rootSB.first_inodeblk ≤ st.rootSB.first_inodeblk + n / INODES_PER_BLOCK ∧
      st.rootSB.first_inodeblk + n / INODES_PER_BLOCK
        < st.rootSB.first_inodeblk + st.rootSB.inode_blocks ∧
      st1.rootSB = st.rootSB ∧ st1.nblocks = st.nblocks := by
  rw [INODES_PER_BLOCK_eq] at hcnt ⊢
  have hblk : st.rootSB.first_inodeblk + n / 32 < st.nblocks := by omega
  have hsave : inode_save st (n : Int) x = some (0, save_inode st n x) := by
    rw [inode_save_eq st (n : Int) x (by omega) (by omega) (by simpa using hblk)]
    simp [save_inode, INODES_PER_BLOCK_eq]
  refine ⟨save_inode st n x, hsave, ?_, ?_, ?_, by omega, by omega, rfl, rfl⟩
  · intro y
    unfold inode_load
    rw [if_neg (by show ¬ ((n : Int) < 0 ∨ (n : Int) ≥ (st.rootSB.inode_cnt : Int)); omega)]
    simp only [Int.toNat_ofNat, INODES_PER_BLOCK_eq]
    rw [show (save_inode st n x).rootSB = st.rootSB from rfl,
      disk_read_eq _ _ (show st.rootSB.first_inodeblk + n / 32 < (save_inode st n x).nblocks
      from hblk)]
    show some ((0 : Int), inode_at (save_inode st n x) n) = _
    rw [save_inode_same st n x hx]
  · intro m y hm
    unfold inode_load
    show (if m < 0 ∨ m ≥ (st.rootSB.inode_cnt : Int) then _ else _) = _
    by_cases hr : m < 0 ∨ m ≥ (st.rootSB.inode_cnt : Int)
    · rw [if_pos hr, if_pos hr]
    · rw [if_neg hr, if_neg hr]
      obtain ⟨q, rfl⟩ : ∃ q : Nat, m = (q : Int) := ⟨m.toNat, by omega⟩
      have hq : q < st.rootSB.inode_cnt := by omega
      have hqn : q ≠ n := fun e => hm (by rw [e])
      simp only [Int.toNat_ofNat, INODES_PER_BLOCK_eq]
      have hqb : st.rootSB.first_inodeblk + q / 32 < st.nblocks := by omega
      rw [show (save_inode st n x).rootSB = st.rootSB from rfl,
        disk_read_eq _ _ (show st.rootSB.first_inodeblk + q / 32 < (save_inode st n x).nblocks
        from hqb), disk_read_eq _ _ hqb]
      show some ((0 : Int), inode_at (save_inode st n x) q) = some ((0 : Int), inode_at st q)
      rw [save_inode_other st n q x hqn]
  · intro k hk
    simp only [save_inode, INODES_PER_BLOCK_eq]
    exact Function.update_noteq hk _ _

theorem inode_save_then_load_witness :
    ∃ st1, inode_save example_volume ((1 : Nat) : Int)
        { zero_inode with type := IFREG, nlinks := 1, size := 0 } = some (0, st1) ∧
      (∀ y, inode_load st1 ((1 : Nat) : Int) y
        = some (0, { zero_inode with type := IFREG, nlinks := 1, size := 0 })) ∧
      (∀ (m : Int) (y : fs_inode), m ≠ ((1 : Nat) : Int) →
        inode_load st1 m y = inode_load example_volume m y) ∧
      (∀ k, k ≠ example_volume.rootSB.first_inodeblk + 1 / INODES_PER_BLOCK →
        st1.disk k = example_volume.disk k) ∧
      example_volume.rootSB.first_inodeblk
        ≤ example_volume.rootSB.first_inodeblk + 1 / INODES_PER_BLOCK ∧
      example_volume.rootSB.first_inodeblk + 1 / INODES_PER_BLOCK
        < example_volume.rootSB.first_inodeblk + example_volume.rootSB.inode_blocks ∧
      st1.rootSB = example_volume.rootSB ∧ st1.nblocks = example_volume.nblocks :=
  inode_save_then_load example_volume (by decide) (by decide) 1 (by decide) _
    (new_inode_in_range IFREG 1 (by decide) (by decide))

/-! ### `inode_alloc` returns the first free inode -/

theorem inode_alloc_scan_eq_some (block : Block) (j : Nat) (hj : j < 32)
    (hfree : (block_inode block j).type = IFFREE) :
    ∀ fuel i, i ≤ j → j < i + fuel →
      (∀ m, i ≤ m → m < j → (block_inode block m).type ≠ IFFREE) →
      inode_alloc_scan block fuel i = some j := by
  intro fuel
  induction fuel with
  | zero => intro i h1 h2; omega
  | succ fuel ih =>
    intro i h1 h2 hused
    unfold inode_alloc_scan
    rw [if_pos (by rw [INODES_PER_BLOCK_eq]; omega)]
    by_cases hij : i = j
    · subst hij; rw [if_pos hfree]
    · rw [if_neg (hused i (le_refl _) (by omega))]
      exact ih (i + 1) (by omega) (by omega) (fun m hm1 hm2 => hused m (by omega) hm2)

theorem inode_alloc_scan_eq_none (block : Block) :
    ∀ fuel i, (∀ m, i ≤ m → m < 32 → (block_inode block m).type ≠ IFFREE) →
      inode_alloc_scan block fuel i = none := by
  intro fuel
  induction fuel with
  | zero => intro i _; rfl
  | succ fuel ih =>
    intro i hused
    unfold inode_alloc_scan
    split
    · rename_i hi
      rw [INODES_PER_BLOCK_eq] at hi
      rw [if_neg (hused i (le_refl _) hi)]
      exact ih (i + 1) (fun m hm1 hm2 => hused m (by omega) hm2)
    · rfl

theorem inode_at_block (st : FS) (k m : Nat) (hm : m < 32) :
    inode_at st (k * 32 + m) = block_inode (st.disk (st.rootSB.first_inodeblk + k)) m := by
  unfold inode_at
  rw [INODES_PER_BLOCK_eq, show (k * 32 + m) / 32 = k by omega, show (k * 32 + m) % 32 = m by omega]

theorem inode_alloc_loop_eq (st : FS)
    (htab : st.rootSB.first_inodeblk + st.rootSB.inode_blocks ≤ st.nblocks) (q : Nat)
    (hq : q < st.rootSB.inode_blocks * 32) (hfree : (inode_at st q).type = IFFREE)
    (hmin : ∀ m, m < q → (inode_at st m).type ≠ IFFREE) :
    ∀ fuel k, k ≤ q / 32 → q / 32 < k + fuel →
      inode_alloc_loop st fuel k = some ((q : Nat) : Int) := by
  intro fuel
  induction fuel with
  | zero => intro k h1 h2; omega
  | succ fuel ih =>
    intro k h1 h2
    unfold inode_alloc_loop
    rw [disk_read_eq st _ (by omega)]
    by_cases hkq : k = q / 32
    · have hj : q % 32 < 32 := Nat.mod_lt _ (by decide)
      have hqe : k * 32 + q % 32 = q := by omega
      have hscan : inode_alloc_scan (st.disk (st.rootSB.first_inodeblk + k)) INODES_PER_BLOCK 0
          = some (q % 32) := by
        apply inode_alloc_scan_eq_some _ _ hj
        · rw [← inode_at_block st k _ hj, hqe]; exact hfree
        · omega
        · rw [INODES_PER_BLOCK_eq]; omega
        · intro m _ hm
          rw [← inode_at_block st k m (by omega)]
          exact hmin _ (by omega)
      simp only [hscan]
      rw [INODES_PER_BLOCK_eq, hqe]
    · have hscan : inode_alloc_scan (st.disk (st.rootSB.first_inodeblk + k)) INODES_PER_BLOCK 0
          = none := by
        apply inode_alloc_scan_eq_none
        intro m _ hm
        rw [← inode_at_block st k m hm]
        exact hmin _ (by omega)
      simp only [hscan]
      rw [if_pos (by omega)]
      exact ih (k + 1) (by omega) (by omega)

theorem inode_alloc_loop_none (st : FS)
    (htab : st.rootSB.first_inodeblk + st.rootSB.inode_blocks ≤ st.nblocks)
    (hused : ∀ m, m < st.rootSB.inode_blocks * 32 → (inode_at st m).type ≠ IFFREE) :
    ∀ fuel k, k < st.rootSB.inode_blocks → inode_alloc_loop st fuel k = some (-1) := by
  intro fuel
  induction fuel with
  | zero => intro k _; rfl
  | succ fuel ih =>
    intro k hk
    unfold inode_alloc_loop
    rw [disk_read_eq st _ (by omega)]
    have hscan : inode_alloc_scan (st.disk (st.rootSB.first_inodeblk + k)) INODES_PER_BLOCK 0
        = none := by
      apply inode_alloc_scan_eq_none
      intro m _ hm
      rw [← inode_at_block st k m hm]
      exact hused _ (by omega)
    simp only [hscan]
    split
    · exact ih (k + 1) (by assumption)
    · rfl

/-- The scan of `inode_alloc` where the superblock has
`inode_cnt = 32 * inode_blocks`: on a mounted volume whose inode table lies on
the device and holds that many records, at least one block of them: when some
inode of the table has type free, `inode_alloc` returns the smallest number
`q` of such an inode, and `q` is below `inode_cnt`; when none has,
`inode_alloc` returns -1. (The function has no state result: it calls
`disk_read` only.) -/
theorem inode_alloc_spec (st : FS)
    (htab : st.rootSB.first_inodeblk + st.rootSB.inode_blocks ≤ st.nblocks)
    (h1 : 1 ≤ st.rootSB.inode_blocks)
    (hcnt : st.rootSB.inode_cnt = st.rootSB.inode_blocks * INODES_PER_BLOCK) :
    ((∃ q, q < st.rootSB.inode_cnt ∧ (inode_at st q).type = IFFREE) →
      ∃ q : Nat, inode_alloc st = some (q : Int) ∧ q < st.rootSB.inode_cnt ∧
        (inode_at st q).type = IFFREE ∧ ∀ m, m < q → (inode_at st m).type ≠ IFFREE) ∧
    ((∀ q, q < st.rootSB.inode_cnt → (inode_at st q).type ≠ IFFREE) →
      inode_alloc st = some (-1)) := by
  rw [INODES_PER_BLOCK_eq] at hcnt
  constructor
  · intro hex
    classical
    have hq := Nat.find_spec hex
    have hmin : ∀ m, m < Nat.find hex → (inode_at st m).type ≠ IFFREE := by
      intro m hm hfree
      exact Nat.find_min hex hm ⟨by omega, hfree⟩
    refine ⟨Nat.find hex, ?_, hq.1, hq.2, hmin⟩
    unfold inode_alloc
    apply inode_alloc_loop_eq st htab _ (by omega) hq.2 hmin
    · omega
    · have : Nat.find hex / 32 < st.rootSB.inode_blocks := by omega
      omega
  · intro hused
    unfold inode_alloc
    exact inode_alloc_loop_none st htab (fun m hm => hused m (by omega)) _ 0 (by omega)

theorem inode_alloc_spec_witness :
    ∃ q : Nat, inode_alloc example_volume = some (q : Int) ∧
      q < example_volume.rootSB.inode_cnt ∧
      (inode_at example_volume q).type = IFFREE ∧
      ∀ m, m < q → (inode_at example_volume m).type ≠ IFFREE :=
  (inode_alloc_spec example_volume (by decide) (by decide) (by decide)).1 ⟨1, by decide, by decide⟩

/-- The scan of `inode_alloc` on every volume whose inode table lies on the
device: the function reads `inode_blocks` and never `inode_cnt`. When one of
the `32 * inode_blocks` records of the table has type free, it returns the
smallest number of such a record; when none has, it returns -1. -/
theorem inode_alloc_table (st : FS)
    (htab : st.rootSB.first_inodeblk + st.rootSB.inode_blocks ≤ st.nblocks)
    (h1 : 1 ≤ st.rootSB.inode_blocks) :
    ((∃ q, q < st.rootSB.inode_blocks * 32 ∧ (inode_at st q).type = IFFREE) →
      ∃ q : Nat, inode_alloc st = some (q : Int) ∧ q < st.rootSB.inode_blocks * 32 ∧
        (inode_at st q).type = IFFREE ∧ ∀ m, m < q → (inode_at st m).type ≠ IFFREE) ∧
    ((∀ q, q < st.rootSB.inode_blocks * 32 → (inode_at st q).type ≠ IFFREE) →
      inode_alloc st = some (-1)) := by
  constructor
  · intro hex
    classical
    have hq := Nat.find_spec hex
    have hmin : ∀ m, m < Nat.find hex → (inode_at st m).type ≠ IFFREE := by
      intro m hm hfree
      exact Nat.find_min hex hm ⟨by omega, hfree⟩
    refine ⟨Nat.find hex, ?_, hq.1, hq.2, hmin⟩
    unfold inode_alloc
    apply inode_alloc_loop_eq st htab _ hq.1 hq.2 hmin
    · omega
    · have : Nat.find hex / 32 < st.rootSB.inode_blocks := by omega
      omega
  · intro hused
    unfold inode_alloc
    exact inode_alloc_loop_none st htab hused _ 0 (by omega)

/-- C35 (the code at a failing input): on a blank device of 262144 blocks
`fs_format` returns 0 and leaves `inode_blocks = 2048` and `inode_cnt = 0`
(65536 truncated to 16 bits). In that state `inode_alloc` returns 0, a number
that is not below `inode_cnt`, and `inode_load(0)` rejects it. -/
theorem inode_alloc_beyond_count :
    fs_format (blank_device 262144) zero_block = some (0, fresh_wrapped_volume) ∧
    fresh_wrapped_volume.rootSB.inode_blocks = 2048 ∧
    fresh_wrapped_volume.rootSB.inode_cnt = 0 ∧
    inode_alloc fresh_wrapped_volume = some 0 ∧
    inode_load fresh_wrapped_volume 0 zero_inode = some (-1, zero_inode) := by
  have e : fresh_wrapped_volume = formatted (blank_device 262144) zero_block := by
    unfold fresh_wrapped_volume
    rw [fs_format_eq _ _ (by decide) (by decide) (by decide) (by decide) (by decide)
      (by decide)]
    rfl
  refine ⟨?_, ?_, ?_, ?_, ?_⟩
  · rw [e]
    exact fs_format_eq _ _ (by decide) (by decide) (by decide) (by decide) (by decide)
      (by decide)
  all_goals rw [e]
  · decide
  · decide
  · decide
  · exact inode_load_out_of_range _ 0 zero_inode (Or.inr (by decide))

/-! ### The bits of a bitmap -/

/-- C36: for every bitmap buffer `b` and bit indices `n` and `m`:
`bitmap_get` is 1 at `n` after `bitmap_set(b, n)` and 0 after
`bitmap_clear(b, n)`; both leave `bitmap_get(b, m)` as it was for every
`m` other than `n`, and every byte other than byte `n div 8`; and `bitmap_get(b, n)`
is bit `n mod 8`, counted from the least significant, of byte `n div 8`. -/
theorem bitmap_bits (b : Block) (n m : Nat) :
    bitmap_get (bitmap_set b n) n = 1 ∧ bitmap_get (bitmap_clear b n) n = 0 ∧
    (m ≠ n → bitmap_get (bitmap_set b n) m = bitmap_get b m ∧
      bitmap_get (bitmap_clear b n) m = bitmap_get b m) ∧
    (m ≠ n / 8 → byte (bitmap_set b n) m = byte b m ∧ byte (bitmap_clear b n) m = byte b m) ∧
    bitmap_get b n = byte b (n / 8) / 2 ^ (n % 8) % 2 := by
  refine ⟨bitmap_get_set_same b n, bitmap_get_clear_same b n,
    fun h => ⟨bitmap_get_set_other b n m h, bitmap_get_clear_other b n m h⟩, ?_, ?_⟩
  · intro h
    exact ⟨byte_update_other _ _ _ _ h, byte_update_other _ _ _ _ h⟩
  · unfold bitmap_get
    simp only [WORDSZ]
    rw [Nat.and_one_is_mod, Nat.shiftRight_eq_div_pow]

theorem bitmap_bits_witness :
    bitmap_get (bitmap_set zero_block 11) 11 = 1 ∧
    bitmap_get (bitmap_clear (bitmap_set zero_block 11) 11) 11 = 0 ∧
    bitmap_get (bitmap_set (bitmap_set zero_block 11) 9) 11 = 1 ∧
    bitmap_get (bitmap_clear (bitmap_set zero_block 11) 9) 11 = 1 ∧
    byte (bitmap_set zero_block 11) 0 = byte zero_block 0 :=
  ⟨(bitmap_bits zero_block 11 11).1,
   (bitmap_bits (bitmap_set zero_block 11) 11 11).2.1,
   ((bitmap_bits (bitmap_set zero_block 11) 9 11).2.2.1 (by decide)).1.trans
     (bitmap_bits zero_block 11 11).1,
   ((bitmap_bits (bitmap_set zero_block 11) 9 11).2.2.1 (by decide)).2.trans
     (bitmap_bits zero_block 11 11).1,
   ((bitmap_bits zero_block 11 0).2.2.2.1 (by decide)).1⟩

/-! ### The name field that `add_entry_to_directory` writes -/

/-- The block that holds the entry written by a successful
`add_entry_to_directory`, on a volume of any size: a data block `blk` whose
contents afterwards are some block `data` with entry `d` filled by the three
statements `d_ino = c; strncpy(d_name, s, 62); d_name[61] = 0`. -/
theorem add_entry_written (st : FS) (hg : VolumeGeom st) (p : Nat)
    (hp : p < st.rootSB.inode_cnt) (hwf : DirWF st (inode_at st p)) (s : CStr) (c : Nat)
    (hc : c < 4294967296)
    (hroom : dir_entries (inode_at st p) < 8368 ∨
      ∃ e, e < dir_entries (inode_at st p) ∧ entry_ino st (inode_at st p) e = FREE)
    (st1 : FS) (h : add_entry_to_directory st (p : Int) s (c : Int) = some (0, st1)) :
    ∃ blk d data, d < 16 ∧ st.rootSB.first_datablk ≤ blk ∧ blk < st.rootSB.block_cnt ∧
      st1.disk blk = block_set_dirent data d c s := by
  rw [add_entry_to_directory_eq st hg p hp hwf s c hc] at h
  have hsave : ∀ (s0 : FS) (hg0 : VolumeGeom s0) (hsb : s0.rootSB = st.rootSB) (ino : fs_inode)
      (blk : Nat), st.rootSB.first_datablk ≤ blk →
      (save_inode s0 p ino).disk blk = s0.disk blk := by
    intro s0 hg0 hsb ino blk hblk
    exact save_inode_disk_data s0 hg0 p (by rw [hsb]; exact hp) ino blk
      (Or.inl (by rw [hsb]; exact hblk))
  cases hfi : first_index (fun e => decide (entry_ino st (inode_at st p) e = FREE))
      (dir_entries (inode_at st p)) 0 with
  | some e0 =>
    rw [hfi] at h
    obtain ⟨_, h2, _, _⟩ := first_index_some _ _ _ _ hfi
    have hd := hwf.chunk_data (e0 / 16) (by rw [DIRENTS_PER_BLOCK_eq]; omega)
    have hst : st1 = put_dirent st (chunk_block st (inode_at st p) (e0 / 16)) e0 c s :=
      ((Prod.mk.inj (Option.some.inj h)).2).symm
    subst hst
    exact ⟨_, e0 % 16, _, Nat.mod_lt _ (by decide), hd.1, hd.2, put_dirent_disk_same _ _ _ _ _⟩
  | none =>
    rw [hfi] at h
    have hnone := first_index_none _ _ _ hfi
    have hcap : dir_entries (inode_at st p) < 8368 := by
      rcases hroom with h | ⟨e, he, hfree⟩
      · exact h
      · have := hnone e (by omega) (by omega)
        simp only [decide_eq_false_iff_not] at this
        exact absurd hfree this
    simp only [] at h
    by_cases hmod : dir_entries (inode_at st p) % 16 = 0
    · by_cases h11 : dir_entries (inode_at st p) / 16 < 11
      · rcases block_alloc_cases st hg with hfull | ⟨b, hb1, hb2, _, _, hb4⟩
        · rw [add_entry_append_direct_full st _ hwf _ s _ hmod h11 hfull] at h
          exact absurd (Prod.mk.inj (Option.some.inj h)).1 (by decide)
        · rw [add_entry_append_direct_new_any st hg p hp _ hwf s c hc hmod h11 b hb4 hb1 hb2] at h
          have hst := ((Prod.mk.inj (Option.some.inj h)).2).symm
          subst hst
          refine ⟨b, 0, zero_block, by decide, hb1, hb2, ?_⟩
          rw [hsave _ (write_block_geom _ (mark_used_geom st hg b) _ _ hb1) rfl _ b hb1]
          exact write_block_disk_same _ _ _
      · by_cases h176 : dir_entries (inode_at st p) = 176
        · rcases block_alloc_cases st hg with hfull | ⟨b1, hb1, hb2, _, _, hb4⟩
          · rw [add_entry_append_table_full st _ hwf _ s _ h176 hfull] at h
            exact absurd (Prod.mk.inj (Option.some.inj h)).1 (by decide)
          · have g1 : VolumeGeom (write_block (mark_used st b1) b1 zero_block) :=
              write_block_geom _ (mark_used_geom st hg b1) _ _ hb1
            rcases block_alloc_cases _ g1 with hfull | ⟨b2, hc1, hc2, _, _, hc4⟩
            · rw [add_entry_append_table_half st hg _ hwf _ s _ h176 b1 hb4 hb2 hfull] at h
              exact absurd (Prod.mk.inj (Option.some.inj h)).1 (by decide)
            · rw [add_entry_append_table_new_any st hg p hp _ hwf s c hc h176 b1 b2
                hb4 hb1 hb2 hc4 hc1 hc2] at h
              have hst := ((Prod.mk.inj (Option.some.inj h)).2).symm
              subst hst
              refine ⟨b2, 0, zero_block, by decide, hc1, hc2, ?_⟩
              rw [hsave _ (write_block_geom _ (write_block_geom _ (mark_used_geom _ g1 b2) _ _
                hb1) _ _ hc1) rfl _ b2 hc1]
              exact write_block_disk_same _ _ _
        · have hslot : block_u16 (st.disk (inode_at st p).indir_block)
              (dir_entries (inode_at st p) / 16 - 11) = 0 :=
            hwf.table_unused (by simp only [DIRBLOCK_PER_INODE, DIRENTS_PER_BLOCK_eq]; omega) _
              (by rw [DIRENTS_PER_BLOCK_eq]; omega) (by simp only [DIRBLOCK_PER_INODE]; omega)
              (by simp only [DIRBLOCK_PER_INODE, BLOCKSZ, DISK_BLOCK_SIZE]; omega)
          have hind := hwf.indir_data (by
            simp only [DIRBLOCK_PER_INODE, DIRENTS_PER_BLOCK_eq]; omega)
          rcases block_alloc_cases st hg with hfull | ⟨b, hb1, hb2, _, _, hb4⟩
          · rw [add_entry_append_indirect_full st hg _ hwf _ s _ (by omega) hslot hfull] at h
            exact absurd (Prod.mk.inj (Option.some.inj h)).1 (by decide)
          · rw [add_entry_append_indirect_any st hg p hp _ hwf s c hc hmod (by omega)
              hslot b hb1 hb2 hb4] at h
            have hst := ((Prod.mk.inj (Option.some.inj h)).2).symm
            subst hst
            refine ⟨b, 0, zero_block, by decide, hb1, hb2, ?_⟩
            rw [hsave _ (write_block_geom _ (write_block_geom _ (mark_used_geom st hg b) _ _
              hind.1) _ _ hb1) rfl _ b hb1]
            exact write_block_disk_same _ _ _
    · rw [add_entry_append_existing st hg p hp _ hwf s c hc hmod] at h
      have hd := hwf.chunk_data (dir_entries (inode_at st p) / 16)
        (by rw [DIRENTS_PER_BLOCK_eq]; omega)
      have hst := ((Prod.mk.inj (Option.some.inj h)).2).symm
      subst hst
      refine ⟨_, dir_entries (inode_at st p) % 16,
        st.disk (chunk_block st (inode_at st p) (dir_entries (inode_at st p) / 16)),
        Nat.mod_lt _ (by decide), hd.1, hd.2, ?_⟩
      have g2 : VolumeGeom (put_dirent st
          (chunk_block st (inode_at st p) (dir_entries (inode_at st p) / 16))
          (dir_entries (inode_at st p)) c s) := by
        rw [put_dirent_eq_write]; exact write_block_geom _ hg _ _ hd.1
      rw [hsave _ g2 rfl _ _ hd.1]
      exact put_dirent_disk_same _ _ _ _ _

theorem name_field_cases (s : CStr) (k : Nat) (hk : k < MAXFILENAME) :
    name_field s k = if k < min s.length 61 then s.getD k 0 else 0 := by
  unfold name_field cstr_at
  simp only [MAXFILENAME] at hk ⊢
  by_cases h61 : k = 61
  · rw [if_pos h61, if_neg (by omega)]
  · rw [if_neg h61]
    by_cases hl : k < s.length
    · rw [if_pos hl, if_pos (by omega)]
    · rw [if_neg hl, if_neg (by omega)]

theorem cstr_of_stored (f : Nat → Nat) (s : CStr) (hs : IsCStr s)
    (hf : ∀ k, k < MAXFILENAME → f k = name_field s k) :
    cstr_of f MAXFILENAME 0 = s.take 61 := by
  apply cstr_of_name_field f (s.take 61)
  · intro c hc
    exact hs c (List.mem_of_mem_take hc)
  · rw [List.length_take]; omega
  · intro k hk
    rw [hf k hk, name_field_cases s k hk, name_field_cases (s.take 61) k hk, List.length_take]
    by_cases h : k < min s.length 61
    · rw [if_pos h, if_pos (by omega)]
      rw [List.getD_eq_getElem?_getD, List.getD_eq_getElem?_getD, List.getElem?_take_of_lt (by omega)]
    · rw [if_neg h, if_neg (by omega)]

/-- C37: on a mounted volume of any size with a sound layout, for a
well-formed directory `p` that has a free entry or fewer than 8368 entries and
a name `s` of `L` bytes: when `add_entry_to_directory(p, s, c)` returns 0, one
entry `d` of one data block `blk` holds the inode number `c` (in 16 bits) and
a name field whose byte `k` is byte `k` of the name for `k < min(L, 61)` and 0
for every other `k` below 62; so byte 61 is 0 and the C string in the field is
the first `min(L, 61)` bytes of the name. This holds whether the call reused a
free entry or appended one. -/
theorem add_entry_name_field (st : FS) (hg : VolumeGeom st) (p : Nat)
    (hp : p < st.rootSB.inode_cnt) (hwf : DirWF st (inode_at st p)) (s : CStr) (hs : IsCStr s)
    (c : Nat) (hc : c < 4294967296)
    (hroom : dir_entries (inode_at st p) < 8368 ∨
      ∃ e, e < dir_entries (inode_at st p) ∧ entry_ino st (inode_at st p) e = FREE)
    (st1 : FS) (h : add_entry_to_directory st (p : Int) s (c : Int) = some (0, st1)) :
    ∃ blk d, d < DIRENTS_PER_BLOCK ∧ st.rootSB.first_datablk ≤ blk ∧ blk < st.rootSB.block_cnt ∧
      dirent_ino (st1.disk blk) d = c % 65536 ∧
      (∀ k, k < MAXFILENAME →
        dirent_name (st1.disk blk) d k = if k < min s.length 61 then s.getD k 0 else 0) ∧
      dirent_name (st1.disk blk) d (MAXFILENAME - 1) = 0 ∧
      cstr_of (dirent_name (st1.disk blk) d) MAXFILENAME 0 = s.take 61 := by
  obtain ⟨blk, d, data, hd, hb1, hb2, hdisk⟩ := add_entry_written st hg p hp hwf s c hc hroom st1 h
  have hname : ∀ k, k < MAXFILENAME → dirent_name (st1.disk blk) d k = name_field s k := by
    intro k hk
    rw [hdisk]
    exact dirent_name_set_same data d c s hs k hk
  refine ⟨blk, d, hd, hb1, hb2, ?_, ?_, ?_, cstr_of_stored _ s hs hname⟩
  · rw [hdisk]; exact dirent_ino_set_same data d c s
  · intro k hk
    rw [hname k hk, name_field_cases s k hk]
  · rw [hname _ (by decide)]
    rfl

theorem add_entry_name_field_witness :
    ∃ blk d, d < DIRENTS_PER_BLOCK ∧ example_volume.rootSB.first_datablk ≤ blk ∧
      blk < example_volume.rootSB.block_cnt ∧
      dirent_ino ((state_of (add_entry_to_directory example_volume 0 (List.replicate 70 97) 1)
        example_volume).disk blk) d = 1 % 65536 ∧
      (∀ k, k < MAXFILENAME →
        dirent_name ((state_of (add_entry_to_directory example_volume 0 (List.replicate 70 97) 1)
          example_volume).disk blk) d k
          = if k < min (List.replicate 70 97).length 61 then (List.replicate 70 97).getD k 0
            else 0) ∧
      dirent_name ((state_of (add_entry_to_directory example_volume 0 (List.replicate 70 97) 1)
        example_volume).disk blk) d (MAXFILENAME - 1) = 0 ∧
      cstr_of (dirent_name ((state_of (add_entry_to_directory example_volume 0
        (List.replicate 70 97) 1) example_volume).disk blk) d) MAXFILENAME 0
        = (List.replicate 70 97).take 61 :=
  add_entry_name_field example_volume example_volume_vgeom 0 (by decide) example_volume_root_wf
    (List.replicate 70 97) (by decide) 1 (by decide) (Or.inl (by decide)) _
    (eq_some_state_of _ _ 0 (by decide))

/-! ### The block number that an append records -/

/-- C40 (the code on a volume of any size): for a well-formed directory `p`
without a free entry whose next entry starts a new direct block, when
`block_alloc` returns the block `b`, `add_entry_to_directory` returns 0,
writes the entry into block `b`, and `offset2block` at the offset of the new
entry then returns `b mod 65536`: the 16-bit direct slot has kept the block
number only when `b` is below 65536. -/
theorem add_entry_block_number (st : FS) (hg : VolumeGeom st) (p : Nat)
    (hp : p < st.rootSB.inode_cnt) (hwf : DirWF st (inode_at st p)) (s : CStr) (c : Nat)
    (hc : c < 4294967296)
    (hfull : ∀ e, e < dir_entries (inode_at st p) → entry_ino st (inode_at st p) e ≠ FREE)
    (hmod : dir_entries (inode_at st p) % 16 = 0) (h11 : dir_entries (inode_at st p) / 16 < 11)
    (b : Nat) (st0 : FS) (hb : block_alloc st = some ((b : Int), st0)) :
    ∃ st1, add_entry_to_directory st (p : Int) s (c : Int) = some (0, st1) ∧
      dirent_ino (st1.disk b) 0 = c % 65536 ∧
      offset2block st1 (inode_at st1 p) (dir_entries (inode_at st p) * DIRENTSZ)
        = some ((b % 65536 : Nat) : Int) := by
  obtain ⟨hb1, hb2, hb4⟩ : st.rootSB.first_datablk ≤ b ∧ b < st.rootSB.block_cnt ∧
      block_alloc st = some ((b : Int), mark_used st b) := by
    rcases block_alloc_cases st hg with hfl | ⟨b', h1, h2, _, _, h4⟩
    · rw [hfl] at hb
      have := (Prod.mk.inj (Option.some.inj hb)).1
      omega
    · rw [h4] at hb
      have := (Prod.mk.inj (Option.some.inj hb)).1
      have e : b' = b := by omega
      subst e
      exact ⟨h1, h2, h4⟩
  have hfi : first_index (fun e => decide (entry_ino st (inode_at st p) e = FREE))
      (dir_entries (inode_at st p)) 0 = none := by
    apply first_index_eq_none
    intro e _ he
    simp only [decide_eq_false_iff_not]
    exact hfull e (by omega)
  have hr : InodeInRange (inode_at st p) := inode_at_in_range st p
  have hrange : InodeInRange { inode_at st p with
      size := (inode_at st p).size + 64,
      dir_block := (inode_at st p).dir_block.set (dir_entries (inode_at st p) / 16)
        (b % 65536) } := by
    refine ⟨hr.type_lt, hr.nlinks_lt, hwf.size_lt, ?_, ?_, hr.indir_lt⟩
    · simp only [List.length_set]; exact hr.dir_len
    · intro j
      simp only [getD_set]
      split
      · exact Nat.mod_lt _ (by decide)
      · exact hr.dir_lt j
  refine ⟨save_inode (write_block (mark_used st b) b (block_set_dirent zero_block 0 c s)) p
    { inode_at st p with
      size := (inode_at st p).size + 64,
      dir_block := (inode_at st p).dir_block.set (dir_entries (inode_at st p) / 16)
        (b % 65536) }, ?_, ?_, ?_⟩
  · rw [add_entry_to_directory_eq st hg p hp hwf s c hc, hfi]
    exact add_entry_append_direct_new_any st hg p hp _ hwf s c hc hmod h11 b hb4 hb1 hb2
  · rw [save_inode_disk_data _ (write_block_geom _ (mark_used_geom st hg b) _ _ hb1) p hp _ b
      (Or.inl hb1), write_block_disk_same]
    exact dirent_ino_set_same _ _ _ _
  · rw [save_inode_same _ p _ hrange]
    unfold offset2block
    have hlen := hr.dir_len
    simp only [DIRBLOCK_PER_INODE] at hlen
    have hq : dir_entries (inode_at st p) * DIRENTSZ / BLOCKSZ = dir_entries (inode_at st p) / 16 := by
      simp only [DIRENTSZ, BLOCKSZ, DISK_BLOCK_SIZE]; omega
    simp only [hq, DIRBLOCK_PER_INODE]
    rw [if_pos h11, getD_set, if_pos ⟨rfl, by omega⟩]

theorem add_entry_block_number_witness :
    block_alloc large_empty_volume
      = some (((65536 : Nat) : Int), mark_used large_empty_volume 65536) ∧
    ∃ st1, add_entry_to_directory large_empty_volume ((0 : Nat) : Int) [97] ((1 : Nat) : Int)
        = some (0, st1) ∧
      dirent_ino (st1.disk 65536) 0 = 1 % 65536 ∧
      offset2block st1 (inode_at st1 0) (dir_entries (inode_at large_empty_volume 0) * DIRENTSZ)
        = some ((65536 % 65536 : Nat) : Int) :=
  ⟨large_volume_block_alloc _ _,
    add_entry_block_number large_empty_volume (large_volume_geom _ _) 0 (by decide)
      large_empty_root_wf [97] 1 (by decide) (by decide) (by decide) (by decide) 65536 _
      (large_volume_block_alloc _ _)⟩

/-! ### Entries as the code reaches them -/

theorem dirent_target_eq (st : FS) (hg : VolumeGeom st) (ino : fs_inode) (hwf : DirWF st ino)
    (e : Nat) (he : e < dir_entries ino) :
    dirent_target st ino e = some (entry_ino st ino e) := by
  have hcap := hwf.cap
  simp only [DIRBLOCK_PER_INODE, BLOCKSZ, DISK_BLOCK_SIZE, DIRENTS_PER_BLOCK_eq] at hcap
  have hc : e / 16 * DIRENTS_PER_BLOCK < dir_entries ino := by
    rw [DIRENTS_PER_BLOCK_eq]; omega
  have hd := hwf.chunk_data (e / 16) hc
  have h1 := hg.one_le_data
  have hdev := hg.cnt_dev
  have hdev2 := hg.dev
  have hq : e * DIRENTSZ / 1024 = e / 16 := by simp only [DIRENTSZ]; omega
  unfold dirent_target
  rw [offset2block_chunk st ino (e * DIRENTSZ) (by rw [hq]; omega) (by
    rw [hq]
    intro h11
    have := (hwf.indir_data (by
      simp only [DIRBLOCK_PER_INODE, DIRENTS_PER_BLOCK_eq]; omega)).2
    omega), hq]
  simp only []
  rw [if_neg (by omega), to_unsigned_natCast _ (by omega), disk_read_eq _ _ (by omega)]
  rfl

theorem dir_refs_eq (st : FS) (hg : VolumeGeom st) (ino : fs_inode) (hwf : DirWF st ino)
    (x : Nat) :
    dir_refs st ino x
      = ((Finset.range (dir_entries ino)).filter (fun e => entry_ino st ino e = x)).card := by
  unfold dir_refs
  congr 1
  apply Finset.filter_congr
  intro e he
  rw [dirent_target_eq st hg ino hwf e (Finset.mem_range.mp he)]
  simp

/-! ### Counting the entries that name an inode -/

theorem count_put (f f1 : Nat → Nat) (N e0 c x : Nat) (hle : e0 ≤ N)
    (hfree : e0 < N → f e0 = 0) (hnew : f1 e0 = c)
    (hold : ∀ e, e < N → e ≠ e0 → f1 e = f e) (hx : x ≠ 0) :
    ((Finset.range (max N (e0 + 1))).filter (fun e => f1 e = x)).card
      = ((Finset.range N).filter (fun e => f e = x)).card + (if x = c then 1 else 0) := by
  have hS : (Finset.range N).filter (fun e => f e = x)
      = ((Finset.range N).filter (fun e => f e = x)).erase e0 := by
    rw [Finset.erase_eq_of_not_mem]
    intro hmem
    rw [Finset.mem_filter, Finset.mem_range] at hmem
    exact hx (by rw [← hmem.2, hfree hmem.1])
  by_cases hxc : x = c
  · rw [if_pos hxc]
    have hE : (Finset.range (max N (e0 + 1))).filter (fun e => f1 e = x)
        = insert e0 (((Finset.range N).filter (fun e => f e = x)).erase e0) := by
      ext e
      simp only [Finset.mem_filter, Finset.mem_range, Finset.mem_insert, Finset.mem_erase]
      constructor
      · rintro ⟨h1, h2⟩
        by_cases he : e = e0
        · exact Or.inl he
        · have hN : e < N := by omega
          exact Or.inr ⟨he, hN, by rw [← hold e hN he]; exact h2⟩
      · rintro (he | ⟨he, hN, h2⟩)
        · subst he
          exact ⟨by omega, by rw [hnew, hxc]⟩
        · exact ⟨by omega, by rw [hold e hN he]; exact h2⟩
    rw [hE, Finset.card_insert_of_not_mem (Finset.not_mem_erase _ _), ← hS]
  · rw [if_neg hxc, Nat.add_zero ((Finset.range N).filter (fun e => f e = x)).card]
    apply congrArg Finset.card
    ext e
    simp only [Finset.mem_filter, Finset.mem_range]
    constructor
    · rintro ⟨h1, h2⟩
      have he : e ≠ e0 := by
        intro he
        subst he
        exact hxc (by rw [← h2, hnew])
      have hN : e < N := by omega
      exact ⟨hN, by rw [← hold e hN he]; exact h2⟩
    · rintro ⟨hN, h2⟩
      have he : e ≠ e0 := by
        intro he
        subst he
        exact hx (by rw [← h2, hfree hN])
      exact ⟨by omega, by rw [hold e hN he]; exact h2⟩

theorem count_gone (f f1 : Nat → Nat) (N e0 x0 x : Nat) (he0 : e0 < N) (hx0 : f e0 = x0)
    (hgone : f1 e0 = 0) (hold : ∀ e, e < N → e ≠ e0 → f1 e = f e) (hx : x ≠ 0) :
    ((Finset.range N).filter (fun e => f1 e = x)).card + (if x = x0 then 1 else 0)
      = ((Finset.range N).filter (fun e => f e = x)).card := by
  have h := count_put f1 f N e0 x0 x (le_of_lt he0) (fun _ => hgone) hx0
    (fun e hN he => (hold e hN he).symm) hx
  rw [Nat.max_eq_left (by omega)] at h
  exact h.symm

theorem count_same (f f1 : Nat → Nat) (N x : Nat) (hold : ∀ e, e < N → f1 e = f e) :
    ((Finset.range N).filter (fun e => f1 e = x)).card
      = ((Finset.range N).filter (fun e => f e = x)).card := by
  congr 1
  apply Finset.filter_congr
  intro e he
  rw [hold e (Finset.mem_range.mp he)]

theorem count_zero (f : Nat → Nat) (N x : Nat) (h : ∀ e, e < N → f e ≠ x) :
    ((Finset.range N).filter (fun e => f e = x)).card = 0 := by
  rw [Finset.card_eq_zero, Finset.filter_eq_empty_iff]
  intro e he
  exact h e (Finset.mem_range.mp he)

theorem sum_change (g g1 : Nat → Nat) (n p : Nat) (hp : p < n)
    (hother : ∀ q, q < n → q ≠ p → g1 q = g q) :
    Finset.sum (Finset.range n) g1 + g p = Finset.sum (Finset.range n) g + g1 p := by
  have hm : p ∈ Finset.range n := Finset.mem_range.mpr hp
  have e1 : g p + Finset.sum ((Finset.range n).erase p) g = Finset.sum (Finset.range n) g :=
    Finset.add_sum_erase (Finset.range n) g hm
  have e2 : g1 p + Finset.sum ((Finset.range n).erase p) g1 = Finset.sum (Finset.range n) g1 :=
    Finset.add_sum_erase (Finset.range n) g1 hm
  have e3 : Finset.sum ((Finset.range n).erase p) g1 = Finset.sum ((Finset.range n).erase p) g := by
    apply Finset.sum_congr rfl
    intro q hq
    rw [Finset.mem_erase, Finset.mem_range] at hq
    exact hother q hq.2 hq.1
  rw [e3] at e2
  omega

theorem sum_same (g g1 : Nat → Nat) (n : Nat) (hall : ∀ q, q < n → g1 q = g q) :
    Finset.sum (Finset.range n) g1 = Finset.sum (Finset.range n) g :=
  Finset.sum_congr rfl (fun q hq => hall q (Finset.mem_range.mp hq))

theorem sum_zero (g : Nat → Nat) (n : Nat) (hall : ∀ q, q < n → g q = 0) :
    Finset.sum (Finset.range n) g = 0 :=
  Finset.sum_eq_zero (fun q hq => hall q (Finset.mem_range.mp hq))

/-! ### The invariant under a change of the entries of one directory -/

/-- The summand of `link_count` for a well-formed directory, over `entry_ino`. -/
theorem link_term_eq (st : FS) (hwf : VolumeWF st) (x q : Nat) (hq : q < st.rootSB.inode_cnt) :
    (if (inode_at st q).type = IFDIR then dir_refs st (inode_at st q) x else 0)
      = if (inode_at st q).type = IFDIR then
          ((Finset.range (dir_entries (inode_at st q))).filter
            (fun e => entry_ino st (inode_at st q) e = x)).card
        else 0 := by
  by_cases ht : (inode_at st q).type = IFDIR
  · rw [if_pos ht, if_pos ht, dir_refs_eq st hwf.geom _ (hwf.dirs q hq ht)]
  · rw [if_neg ht, if_neg ht]

theorem link_count_free (st : FS) (h : VolumeInv st) (z : Nat)
    (hz : (inode_at st z).type = IFFREE) : link_count st z = 0 := by
  have hz0 : z ≠ 0 := by
    intro e
    rw [e, h.root.2] at hz
    exact absurd hz (by decide)
  unfold link_count
  apply sum_zero
  intro q hq
  rw [link_term_eq st h.wf z q hq]
  by_cases ht : (inode_at st q).type = IFDIR
  · rw [if_pos ht]
    apply count_zero
    intro e he hez
    have := (h.targets q hq ht e he (by rw [hez]; exact hz0)).2
    rw [hez] at this
    exact this hz
  · rw [if_neg ht]

theorem no_entry_of_count_zero (st : FS) (hwf : VolumeWF st) (x : Nat)
    (h0 : link_count st x = 0) (q : Nat) (hq : q < st.rootSB.inode_cnt)
    (ht : (inode_at st q).type = IFDIR) (e : Nat) (he : e < dir_entries (inode_at st q)) :
    entry_ino st (inode_at st q) e ≠ x := by
  intro hex
  unfold link_count at h0
  have h1 := (Finset.sum_eq_zero_iff.mp h0) q (Finset.mem_range.mpr hq)
  rw [link_term_eq st hwf x q hq, if_pos ht, Finset.card_eq_zero,
    Finset.filter_eq_empty_iff] at h1
  exact h1 (Finset.mem_range.mpr he) hex

theorem inv_put (st st2 : FS) (h : VolumeInv st) (hwf2 : VolumeWF st2)
    (hsb : st2.rootSB = st.rootSB) (p z e0 : Nat) (hp : p < st.rootSB.inode_cnt)
    (htp : (inode_at st p).type = IFDIR) (htp2 : (inode_at st2 p).type = IFDIR)
    (hz : z < st.rootSB.inode_cnt) (htz : (inode_at st z).type ≠ IFDIR)
    (hN : dir_entries (inode_at st2 p) = max (dir_entries (inode_at st p)) (e0 + 1))
    (hle : e0 ≤ dir_entries (inode_at st p))
    (hfree : e0 < dir_entries (inode_at st p) → entry_ino st (inode_at st p) e0 = FREE)
    (hnew : entry_ino st2 (inode_at st2 p) e0 = z)
    (hold : ∀ e, e < dir_entries (inode_at st p) → e ≠ e0 →
      entry_ino st2 (inode_at st2 p) e = entry_ino st (inode_at st p) e)
    (hrec : ∀ q, q < st.rootSB.inode_cnt → q ≠ p → q ≠ z → inode_at st2 q = inode_at st q)
    (hent : ∀ q, q < st.rootSB.inode_cnt → q ≠ p → q ≠ z → (inode_at st q).type = IFDIR →
      ∀ e, e < dir_entries (inode_at st q) →
        entry_ino st2 (inode_at st q) e = entry_ino st (inode_at st q) e)
    (hZt : (inode_at st2 z).type = IFREG ∨
      ((inode_at st2 z).type = IFDIR ∧ dir_entries (inode_at st2 z) = 0))
    (hZb : (inode_at st2 z).type ≠ IFDIR →
      (∀ j, (inode_at st2 z).dir_block.getD j 0 = 0) ∧ (inode_at st2 z).indir_block = 0)
    (hZn : (inode_at st2 z).type = IFREG → (inode_at st2 z).nlinks = link_count st z + 1) :
    VolumeInv st2 := by
  have hz0 : z ≠ 0 := by
    intro e
    rw [e] at htz
    exact htz h.root.2
  have hzp : z ≠ p := fun e => htz (e ▸ htp)
  have hZfree : (inode_at st2 z).type ≠ IFFREE := by
    rcases hZt with h1 | ⟨h1, _⟩ <;> rw [h1] <;> decide
  -- the entries of a directory of the new state
  have hdir2 : ∀ q, q < st.rootSB.inode_cnt → (inode_at st2 q).type = IFDIR → q ≠ p → q ≠ z →
      (inode_at st q).type = IFDIR := by
    intro q hq ht hqp hqz
    rw [hrec q hq hqp hqz] at ht
    exact ht
  -- the type of a target in the new state
  have htarget : ∀ t, t < st.rootSB.inode_cnt → (inode_at st t).type ≠ IFFREE →
      (inode_at st2 t).type ≠ IFFREE := by
    intro t ht hne
    by_cases htz1 : t = z
    · rw [htz1]; exact hZfree
    by_cases htp1 : t = p
    · rw [htp1, htp2]; decide
    rw [hrec t ht htp1 htz1]
    exact hne
  -- the count of a non-zero inode number
  have hcount : ∀ x, x ≠ 0 → link_count st2 x = link_count st x + (if x = z then 1 else 0) := by
    intro x hx
    have hs := sum_change
      (fun q => if (inode_at st q).type = IFDIR then dir_refs st (inode_at st q) x else 0)
      (fun q => if (inode_at st2 q).type = IFDIR then dir_refs st2 (inode_at st2 q) x else 0)
      st.rootSB.inode_cnt p hp (by
        intro q hq hqp
        show (if (inode_at st2 q).type = IFDIR then dir_refs st2 (inode_at st2 q) x else 0)
          = (if (inode_at st q).type = IFDIR then dir_refs st (inode_at st q) x else 0)
        rw [link_term_eq st2 hwf2 x q (by rw [hsb]; exact hq), link_term_eq st h.wf x q hq]
        by_cases hqz : q = z
        · subst hqz
          rw [if_neg htz]
          rcases hZt with h1 | ⟨h1, h2⟩
          · rw [if_neg (by rw [h1]; decide)]
          · rw [if_pos h1, h2]
            rfl
        · rw [hrec q hq hqp hqz]
          by_cases ht : (inode_at st q).type = IFDIR
          · rw [if_pos ht, if_pos ht]
            exact count_same _ _ _ x (fun e he => hent q hq hqp hqz ht e he)
          · rw [if_neg ht, if_neg ht])
    have hpt : (if (inode_at st2 p).type = IFDIR then dir_refs st2 (inode_at st2 p) x else 0)
        = (if (inode_at st p).type = IFDIR then dir_refs st (inode_at st p) x else 0)
          + (if x = z then 1 else 0) := by
      rw [link_term_eq st2 hwf2 x p (by rw [hsb]; exact hp), link_term_eq st h.wf x p hp,
        if_pos htp, if_pos htp2, hN]
      exact count_put _ _ _ e0 z x hle hfree hnew hold hx
    unfold link_count
    rw [hsb]
    simp only [] at hs
    rw [hpt] at hs
    omega
  refine ⟨hwf2, by rw [check_rootSB_congr st st2 hsb]; exact h.mounted, by rw [hsb]; exact h.b16,
    by rw [hsb]; exact h.i16, ⟨by rw [hsb]; exact h.root.1, ?_⟩, ?_, ?_, ?_⟩
  · by_cases h0 : 0 = p
    · rw [h0]; exact htp2
    · rw [hrec 0 h.root.1 h0 (Ne.symm hz0)]; exact h.root.2
  · intro q hq ht
    rw [hsb] at hq
    by_cases hqz : q = z
    · subst hqz; exact hZb ht
    have hqp : q ≠ p := fun e => ht (e ▸ htp2)
    rw [hrec q hq hqp hqz] at ht ⊢
    exact h.files q hq ht
  · intro q hq ht e he hne
    rw [hsb] at hq ⊢
    by_cases hqp : q = p
    · subst hqp
      by_cases hee : e = e0
      · subst hee
        rw [hnew]
        exact ⟨hz, hZfree⟩
      · have heN : e < dir_entries (inode_at st q) := by rw [hN] at he; omega
        rw [hold e heN hee] at hne ⊢
        have := h.targets q hp htp e heN hne
        exact ⟨this.1, htarget _ this.1 this.2⟩
    · by_cases hqz : q = z
      · subst hqz
        rcases hZt with h1 | ⟨_, h2⟩
        · rw [h1] at ht; exact absurd ht (by decide)
        · rw [h2] at he; omega
      · have ht0 := hdir2 q hq ht hqp hqz
        rw [hrec q hq hqp hqz] at he hne ⊢
        rw [hent q hq hqp hqz ht0 e he] at hne ⊢
        have := h.targets q hq ht0 e he hne
        exact ⟨this.1, htarget _ this.1 this.2⟩
  · intro x hx ht
    rw [hsb] at hx
    have hx0 : x ≠ 0 := by
      intro e
      subst e
      by_cases h0 : 0 = p
      · rw [h0, htp2] at ht; exact absurd ht (by decide)
      · rw [hrec 0 hx h0 (Ne.symm hz0), h.root.2] at ht; exact absurd ht (by decide)
    rw [hcount x hx0]
    by_cases hxz : x = z
    · subst hxz
      rw [if_pos rfl]
      exact hZn ht
    · have hxp : x ≠ p := by
        intro e
        rw [e, htp2] at ht
        exact absurd ht (by decide)
      rw [if_neg hxz, Nat.add_zero]
      rw [hrec x hx hxp hxz] at ht ⊢
      exact h.links x hx ht

theorem inv_gone (st st2 : FS) (h : VolumeInv st) (hwf2 : VolumeWF st2)
    (hsb : st2.rootSB = st.rootSB) (p x e0 : Nat) (hp : p < st.rootSB.inode_cnt)
    (htp : (inode_at st p).type = IFDIR) (hx : x < st.rootSB.inode_cnt)
    (htx : (inode_at st x).type = IFREG)
    (he0 : e0 < dir_entries (inode_at st p)) (hex : entry_ino st (inode_at st p) e0 = x)
    (hgone : entry_ino st2 (inode_at st p) e0 = FREE)
    (hold : ∀ e, e < dir_entries (inode_at st p) → e ≠ e0 →
      entry_ino st2 (inode_at st p) e = entry_ino st (inode_at st p) e)
    (hrec : ∀ q, q < st.rootSB.inode_cnt → q ≠ x → inode_at st2 q = inode_at st q)
    (hent : ∀ q, q < st.rootSB.inode_cnt → q ≠ p → (inode_at st q).type = IFDIR →
      ∀ e, e < dir_entries (inode_at st q) →
        entry_ino st2 (inode_at st q) e = entry_ino st (inode_at st q) e)
    (hmore : (inode_at st x).nlinks ≠ 1 →
      inode_at st2 x = { inode_at st x with nlinks := ((inode_at st x).nlinks + 65535) % 65536 })
    (hlast : (inode_at st x).nlinks = 1 →
      inode_at st2 x = { inode_at st x with type := IFFREE }) :
    VolumeInv st2 := by
  have hx0 : x ≠ 0 := by
    intro e
    rw [e, h.root.2] at htx
    exact absurd htx (by decide)
  have hxp : x ≠ p := by
    intro e
    rw [e, htp] at htx
    exact absurd htx (by decide)
  have hprec : inode_at st2 p = inode_at st p := hrec p hp (Ne.symm hxp)
  have hxnd : (inode_at st2 x).type ≠ IFDIR := by
    by_cases h1 : (inode_at st x).nlinks = 1
    · rw [hlast h1]
      show IFFREE ≠ IFDIR
      decide
    · rw [hmore h1]
      show (inode_at st x).type ≠ IFDIR
      rw [htx]; decide
  have hcount : ∀ y, y ≠ 0 → link_count st2 y + (if y = x then 1 else 0) = link_count st y := by
    intro y hy
    have hs := sum_change
      (fun q => if (inode_at st q).type = IFDIR then dir_refs st (inode_at st q) y else 0)
      (fun q => if (inode_at st2 q).type = IFDIR then dir_refs st2 (inode_at st2 q) y else 0)
      st.rootSB.inode_cnt p hp (by
        intro q hq hqp
        show (if (inode_at st2 q).type = IFDIR then dir_refs st2 (inode_at st2 q) y else 0)
          = (if (inode_at st q).type = IFDIR then dir_refs st (inode_at st q) y else 0)
        rw [link_term_eq st2 hwf2 y q (by rw [hsb]; exact hq), link_term_eq st h.wf y q hq]
        by_cases hqx : q = x
        · subst hqx
          rw [if_neg hxnd, if_neg (by rw [htx]; decide)]
        · rw [hrec q hq hqx]
          by_cases ht : (inode_at st q).type = IFDIR
          · rw [if_pos ht, if_pos ht]
            exact count_same _ _ _ y (fun e he => hent q hq hqp ht e he)
          · rw [if_neg ht, if_neg ht])
    have hpt : (if (inode_at st2 p).type = IFDIR then dir_refs st2 (inode_at st2 p) y else 0)
          + (if y = x then 1 else 0)
        = (if (inode_at st p).type = IFDIR then dir_refs st (inode_at st p) y else 0) := by
      rw [link_term_eq st2 hwf2 y p (by rw [hsb]; exact hp), link_term_eq st h.wf y p hp,
        hprec, if_pos htp, if_pos htp]
      exact count_gone _ _ _ e0 x y he0 hex hgone hold hy
    unfold link_count
    rw [hsb]
    simp only [] at hs
    omega
  have hrange := inode_at_in_range st x
  have hcx : link_count st2 x + 1 = (inode_at st x).nlinks := by
    have := hcount x hx0
    rw [if_pos rfl] at this
    rw [h.links x hx htx]
    exact this
  -- a freed inode is named by no entry of the new state
  have htarget : ∀ q, q < st.rootSB.inode_cnt → (inode_at st2 q).type = IFDIR →
      ∀ e, e < dir_entries (inode_at st2 q) → ∀ t, entry_ino st2 (inode_at st2 q) e = t →
      t < st.rootSB.inode_cnt → (inode_at st t).type ≠ IFFREE → (inode_at st2 t).type ≠ IFFREE := by
    intro q hq ht e he t het htc hne
    by_cases htx1 : t = x
    · subst htx1
      by_cases h1 : (inode_at st t).nlinks = 1
      · exfalso
        have h0 : link_count st2 t = 0 := by omega
        exact no_entry_of_count_zero st2 hwf2 t h0 q (by rw [hsb]; exact hq) ht e he het
      · rw [hmore h1]
        show (inode_at st t).type ≠ IFFREE
        exact hne
    · rw [hrec t htc htx1]
      exact hne
  refine ⟨hwf2, by rw [check_rootSB_congr st st2 hsb]; exact h.mounted, by rw [hsb]; exact h.b16,
    by rw [hsb]; exact h.i16, ⟨by rw [hsb]; exact h.root.1, ?_⟩, ?_, ?_, ?_⟩
  · rw [hrec 0 h.root.1 (Ne.symm hx0)]; exact h.root.2
  · intro q hq ht
    rw [hsb] at hq
    by_cases hqx : q = x
    · subst hqx
      have hf := h.files q hx (by rw [htx]; decide)
      by_cases h1 : (inode_at st q).nlinks = 1
      · rw [hlast h1]; exact hf
      · rw [hmore h1]; exact hf
    · rw [hrec q hq hqx] at ht ⊢
      exact h.files q hq ht
  · intro q hq ht e he hne
    rw [hsb] at hq ⊢
    have hqx : q ≠ x := fun e => hxnd (e ▸ ht)
    have ht0 : (inode_at st q).type = IFDIR := by rw [← hrec q hq hqx]; exact ht
    have hent2 : entry_ino st2 (inode_at st2 q) e ≠ FREE →
        entry_ino st2 (inode_at st2 q) e = entry_ino st (inode_at st q) e ∧
        e < dir_entries (inode_at st q) := by
      intro hne
      have heq := hrec q hq hqx
      rw [heq] at he hne ⊢
      by_cases hqp : q = p
      · subst hqp
        by_cases hee : e = e0
        · subst hee; exact absurd hgone hne
        · exact ⟨hold e he hee, he⟩
      · exact ⟨hent q hq hqp ht0 e he, he⟩
    obtain ⟨heq, he1⟩ := hent2 hne
    have ht1 := h.targets q hq ht0 e he1 (by rw [← heq]; exact hne)
    rw [← heq] at ht1
    exact ⟨ht1.1, htarget q hq ht e he _ rfl ht1.1 ht1.2⟩
  · intro y hy ht
    rw [hsb] at hy
    by_cases hyx : y = x
    · subst hyx
      have h1 : (inode_at st y).nlinks ≠ 1 := by
        intro h1
        rw [hlast h1] at ht
        exact absurd (show IFFREE = IFREG from ht) (by decide)
      rw [hmore h1]
      show ((inode_at st y).nlinks + 65535) % 65536 = link_count st2 y
      have := hrange.nlinks_lt
      omega
    · have hy0 : y ≠ 0 := by
        intro e
        subst e
        rw [hrec 0 hy hyx, h.root.2] at ht
        exact absurd ht (by decide)
      have := hcount y hy0
      rw [if_neg hyx, Nat.add_zero] at this
      rw [this]
      rw [hrec y hy hyx] at ht ⊢
      exact h.links y hy ht

theorem inv_noise (st st2 : FS) (h : VolumeInv st) (hwf2 : VolumeWF st2)
    (hsb : st2.rootSB = st.rootSB)
    (hrec : ∀ q, q < st.rootSB.inode_cnt → (inode_at st q).type ≠ IFFREE →
      inode_at st2 q = inode_at st q)
    (hfree : ∀ q, q < st.rootSB.inode_cnt → (inode_at st q).type = IFFREE →
      (inode_at st2 q).type = IFFREE ∧
      (∀ j, (inode_at st2 q).dir_block.getD j 0 = 0) ∧ (inode_at st2 q).indir_block = 0)
    (hent : ∀ q, q < st.rootSB.inode_cnt → (inode_at st q).type = IFDIR →
      ∀ e, e < dir_entries (inode_at st q) →
        entry_ino st2 (inode_at st q) e = entry_ino st (inode_at st q) e) :
    VolumeInv st2 := by
  have htype : ∀ q, q < st.rootSB.inode_cnt → (inode_at st2 q).type = (inode_at st q).type := by
    intro q hq
    by_cases hf : (inode_at st q).type = IFFREE
    · rw [(hfree q hq hf).1, hf]
    · rw [hrec q hq hf]
  have hdir : ∀ q, q < st.rootSB.inode_cnt → (inode_at st2 q).type = IFDIR →
      (inode_at st q).type = IFDIR ∧ inode_at st2 q = inode_at st q := by
    intro q hq ht
    rw [htype q hq] at ht
    exact ⟨ht, hrec q hq (by rw [ht]; decide)⟩
  have hcount : ∀ y, link_count st2 y = link_count st y := by
    intro y
    unfold link_count
    rw [hsb]
    apply sum_same
    intro q hq
    rw [link_term_eq st2 hwf2 y q (by rw [hsb]; exact hq), link_term_eq st h.wf y q hq,
      htype q hq]
    by_cases ht : (inode_at st q).type = IFDIR
    · rw [if_pos ht, if_pos ht, hrec q hq (by rw [ht]; decide)]
      exact count_same _ _ _ y (fun e he => hent q hq ht e he)
    · rw [if_neg ht, if_neg ht]
  refine ⟨hwf2, by rw [check_rootSB_congr st st2 hsb]; exact h.mounted, by rw [hsb]; exact h.b16,
    by rw [hsb]; exact h.i16, ⟨by rw [hsb]; exact h.root.1, ?_⟩, ?_, ?_, ?_⟩
  · rw [htype 0 h.root.1]; exact h.root.2
  · intro q hq ht
    rw [hsb] at hq
    by_cases hf : (inode_at st q).type = IFFREE
    · exact (hfree q hq hf).2
    · rw [hrec q hq hf] at ht ⊢
      exact h.files q hq ht
  · intro q hq ht e he hne
    rw [hsb] at hq ⊢
    obtain ⟨ht0, heq⟩ := hdir q hq ht
    rw [heq] at he hne ⊢
    rw [hent q hq ht0 e he] at hne ⊢
    have := h.targets q hq ht0 e he hne
    refine ⟨this.1, ?_⟩
    rw [htype _ this.1]
    exact this.2
  · intro y hy ht
    rw [hsb] at hy
    rw [hcount y]
    rw [htype y hy] at ht
    rw [hrec y hy (by rw [ht]; decide)]
    exact h.links y hy ht

/-! ### Changes that leave the entries of a directory -/

theorem entries_frame (st st1 : FS) (ino : fs_inode)
    (hdisk : ∀ k, DirOwns st ino k → st1.disk k = st.disk k) (e : Nat)
    (he : e < dir_entries ino) : entry_ino st1 ino e = entry_ino st ino e := by
  unfold entry_ino
  rw [dir_frame_entry_data st st1 ino hdisk e he]

theorem save_inode_entries (st : FS) (hwf : VolumeWF st) (i : Nat)
    (hi : i < st.rootSB.inode_cnt) (new : fs_inode) (q : Nat) (hq : q < st.rootSB.inode_cnt)
    (ht : (inode_at st q).type = IFDIR) (e : Nat) (he : e < dir_entries (inode_at st q)) :
    entry_ino (save_inode st i new) (inode_at st q) e = entry_ino st (inode_at st q) e :=
  entries_frame _ _ _ (fun k hk => save_inode_disk_data st hwf.geom i hi new k
    (Or.inl ((hwf.dirs q hq ht).owns_data k hk).1)) e he

/-- A volume stays well formed under a change that keeps every inode record
and every block of a directory, and clears no bit of such a block. -/
theorem volume_wf_frame {st st1 : FS} (h : VolumeWF st) (hg1 : VolumeGeom st1)
    (hsb : st1.rootSB = st.rootSB)
    (hrec : ∀ q, q < st.rootSB.inode_cnt → inode_at st1 q = inode_at st q)
    (hdisk : ∀ q, q < st.rootSB.inode_cnt → (inode_at st q).type = IFDIR →
      ∀ k, DirOwns st (inode_at st q) k → st1.disk k = st.disk k ∧ bitmap_bit st1 k ≠ 0) :
    VolumeWF st1 := by
  refine ⟨hg1, ?_, ?_⟩
  · intro q hq ht
    rw [hsb] at hq
    rw [hrec q hq] at ht ⊢
    exact dir_frame_wf st st1 _ (h.dirs q hq ht) hsb (fun k hk => (hdisk q hq ht k hk).1)
      (fun k hk => (hdisk q hq ht k hk).2)
  · intro q q1 hq hq1 hne ht ht1 k hk hk1
    rw [hsb] at hq hq1
    rw [hrec q hq] at ht hk
    rw [hrec q1 hq1] at ht1 hk1
    exact h.disjoint q q1 hq hq1 hne ht ht1 k
      ((dir_frame_owns st st1 _ (fun k hk => (hdisk q hq ht k hk).1) k).mp hk)
      ((dir_frame_owns st st1 _ (fun k hk => (hdisk q1 hq1 ht1 k hk).1) k).mp hk1)

/-- The state after a block that was free has been marked used and zeroed
(an indirect table that was allocated and then not used). -/
theorem leak_frame (st : FS) (hwf : VolumeWF st) (b : Nat)
    (hb1 : st.rootSB.first_datablk ≤ b) (hb2 : b < st.rootSB.block_cnt)
    (hfree : bitmap_bit st b = 0) :
    VolumeWF (write_block (mark_used st b) b zero_block) ∧
    (∀ q, q < st.rootSB.inode_cnt →
      inode_at (write_block (mark_used st b) b zero_block) q = inode_at st q) ∧
    (∀ q, q < st.rootSB.inode_cnt → (inode_at st q).type = IFDIR →
      ∀ e, e < dir_entries (inode_at st q) →
        entry_ino (write_block (mark_used st b) b zero_block) (inode_at st q) e
          = entry_ino st (inode_at st q) e) := by
  have hg := hwf.geom
  have hgm := mark_used_geom st hg b
  have hrec : ∀ q, q < st.rootSB.inode_cnt →
      inode_at (write_block (mark_used st b) b zero_block) q = inode_at st q := by
    intro q hq
    rw [write_block_inode_at _ hgm b _ hb1 q hq, mark_used_inode_at st hg b hb2]
  have hdisk : ∀ q, q < st.rootSB.inode_cnt → (inode_at st q).type = IFDIR →
      ∀ k, DirOwns st (inode_at st q) k →
        (write_block (mark_used st b) b zero_block).disk k = st.disk k ∧
        bitmap_bit (write_block (mark_used st b) b zero_block) k ≠ 0 := by
    intro q hq ht k hk
    obtain ⟨h1, h2, h3⟩ := (hwf.dirs q hq ht).owns_data k hk
    have hkb : k ≠ b := fun e => h3 (e ▸ hfree)
    constructor
    · rw [write_block_disk_other _ _ _ _ hkb]
      exact mark_used_disk_data st hg b hb2 k (by
        have := hg.data_start
        omega)
    · rw [write_block_bitmap_bit _ hgm b _ hb1 k h2]
      exact mark_used_bit_ne_zero st b k h3
  refine ⟨volume_wf_frame hwf (write_block_geom _ hgm _ _ hb1) rfl hrec hdisk, hrec, ?_⟩
  intro q hq ht e he
  exact entries_frame _ _ _ (fun k hk => (hdisk q hq ht k hk).1) e he

/-- The failing outcomes of `add_entry_to_directory` on a well-formed
directory with room: nothing has changed, or a free data block was marked
used and zeroed (the indirect table, allocated before the block for the
entry could not be). -/
theorem add_entry_failed (st : FS) (hg : VolumeGeom st) (p : Nat)
    (hp : p < st.rootSB.inode_cnt) (hwf : DirWF st (inode_at st p)) (s : CStr) (c : Nat)
    (hc : c < 4294967296)
    (hroom : dir_entries (inode_at st p) < 8368 ∨
      ∃ e, e < dir_entries (inode_at st p) ∧ entry_ino st (inode_at st p) e = FREE)
    (st1 : FS) (h : add_entry_to_directory st (p : Int) s (c : Int) = some (-1, st1)) :
    st1 = st ∨ ∃ b, st.rootSB.first_datablk ≤ b ∧ b < st.rootSB.block_cnt ∧
      bitmap_bit st b = 0 ∧ st1 = write_block (mark_used st b) b zero_block := by
  rw [add_entry_to_directory_eq st hg p hp hwf s c hc] at h
  have hno : ∀ (x : FS), some ((0 : Int), x) = some ((-1 : Int), st1) → False := by
    intro x hx
    exact absurd (Prod.mk.inj (Option.some.inj hx)).1 (by decide)
  have hyes : ∀ (x : FS), some ((-1 : Int), x) = some ((-1 : Int), st1) → st1 = x := by
    intro x hx
    exact ((Prod.mk.inj (Option.some.inj hx)).2).symm
  cases hfi : first_index (fun e => decide (entry_ino st (inode_at st p) e = FREE))
      (dir_entries (inode_at st p)) 0 with
  | some e0 =>
    rw [hfi] at h
    exact (hno _ h).elim
  | none =>
    rw [hfi] at h
    have hnone := first_index_none _ _ _ hfi
    have hcap : dir_entries (inode_at st p) < 8368 := by
      rcases hroom with h | ⟨e, he, hfree⟩
      · exact h
      · have := hnone e (by omega) (by omega)
        simp only [decide_eq_false_iff_not] at this
        exact absurd hfree this
    simp only [] at h
    by_cases hmod : dir_entries (inode_at st p) % 16 = 0
    · by_cases h11 : dir_entries (inode_at st p) / 16 < 11
      · rcases block_alloc_cases st hg with hfull | ⟨b, hb1, hb2, _, _, hb4⟩
        · rw [add_entry_append_direct_full st _ hwf _ s _ hmod h11 hfull] at h
          exact Or.inl (hyes _ h)
        · rw [add_entry_append_direct_new_any st hg p hp _ hwf s c hc hmod h11 b hb4 hb1 hb2] at h
          exact (hno _ h).elim
      · by_cases h176 : dir_entries (inode_at st p) = 176
        · rcases block_alloc_cases st hg with hfull | ⟨b1, hb1, hb2, hb3, _, hb4⟩
          · rw [add_entry_append_table_full st _ hwf _ s _ h176 hfull] at h
            exact Or.inl (hyes _ h)
          · have g1 : VolumeGeom (write_block (mark_used st b1) b1 zero_block) :=
              write_block_geom _ (mark_used_geom st hg b1) _ _ hb1
            rcases block_alloc_cases _ g1 with hfull | ⟨b2, hc1, hc2, _, _, hc4⟩
            · rw [add_entry_append_table_half st hg _ hwf _ s _ h176 b1 hb4 hb2 hfull] at h
              exact Or.inr ⟨b1, hb1, hb2, hb3, hyes _ h⟩
            · rw [add_entry_append_table_new_any st hg p hp _ hwf s c hc h176 b1 b2
                hb4 hb1 hb2 hc4 hc1 hc2] at h
              exact (hno _ h).elim
        · have hslot : block_u16 (st.disk (inode_at st p).indir_block)
              (dir_entries (inode_at st p) / 16 - 11) = 0 :=
            hwf.table_unused (by simp only [DIRBLOCK_PER_INODE, DIRENTS_PER_BLOCK_eq]; omega) _
              (by rw [DIRENTS_PER_BLOCK_eq]; omega) (by simp only [DIRBLOCK_PER_INODE]; omega)
              (by simp only [DIRBLOCK_PER_INODE, BLOCKSZ, DISK_BLOCK_SIZE]; omega)
          rcases block_alloc_cases st hg with hfull | ⟨b, hb1, hb2, _, _, hb4⟩
          · rw [add_entry_append_indirect_full st hg _ hwf _ s _ (by omega) hslot hfull] at h
            exact Or.inl (hyes _ h)
          · rw [add_entry_append_indirect_any st hg p hp _ hwf s c hc hmod (by omega)
              hslot b hb1 hb2 hb4] at h
            exact (hno _ h).elim
    · rw [add_entry_append_existing st hg p hp _ hwf s c hc hmod] at h
      exact (hno _ h).elim

/-! ### The two parts of the invariant under the three kinds of change -/

theorem inv_blocks (st : FS) (h : VolumeInv st) : BlockInv st :=
  ⟨h.wf, h.mounted, h.b16, h.i16, h.files⟩

theorem step_put (st st2 : FS) (h : BlockInv st) (hwf2 : VolumeWF st2)
    (hsb : st2.rootSB = st.rootSB) (p z e0 : Nat) (hp : p < st.rootSB.inode_cnt)
    (htp : (inode_at st p).type = IFDIR) (htp2 : (inode_at st2 p).type = IFDIR)
    (hz : z < st.rootSB.inode_cnt) (htz : (inode_at st z).type ≠ IFDIR)
    (hN : dir_entries (inode_at st2 p) = max (dir_entries (inode_at st p)) (e0 + 1))
    (hle : e0 ≤ dir_entries (inode_at st p))
    (hfree : e0 < dir_entries (inode_at st p) → entry_ino st (inode_at st p) e0 = FREE)
    (hnew : entry_ino st2 (inode_at st2 p) e0 = z)
    (hold : ∀ e, e < dir_entries (inode_at st p) → e ≠ e0 →
      entry_ino st2 (inode_at st2 p) e = entry_ino st (inode_at st p) e)
    (hrec : ∀ q, q < st.rootSB.inode_cnt → q ≠ p → q ≠ z → inode_at st2 q = inode_at st q)
    (hent : ∀ q, q < st.rootSB.inode_cnt → q ≠ p → q ≠ z → (inode_at st q).type = IFDIR →
      ∀ e, e < dir_entries (inode_at st q) →
        entry_ino st2 (inode_at st q) e = entry_ino st (inode_at st q) e)
    (hZt : (inode_at st2 z).type = IFREG ∨
      ((inode_at st2 z).type = IFDIR ∧ dir_entries (inode_at st2 z) = 0))
    (hZb : (inode_at st2 z).type ≠ IFDIR →
      (∀ j, (inode_at st2 z).dir_block.getD j 0 = 0) ∧ (inode_at st2 z).indir_block = 0) :
    BlockInv st2 ∧ (VolumeInv st →
      ((inode_at st2 z).type = IFREG → (inode_at st2 z).nlinks = link_count st z + 1) →
      VolumeInv st2) := by
  refine ⟨⟨hwf2, by rw [check_rootSB_congr st st2 hsb]; exact h.mounted,
    by rw [hsb]; exact h.b16, by rw [hsb]; exact h.i16, ?_⟩,
    fun hv hZn => inv_put st st2 hv hwf2 hsb p z e0 hp htp htp2 hz htz hN hle hfree hnew hold
      hrec hent hZt hZb hZn⟩
  intro q hq ht
  rw [hsb] at hq
  by_cases hqz : q = z
  · subst hqz; exact hZb ht
  have hqp : q ≠ p := fun e => ht (e ▸ htp2)
  rw [hrec q hq hqp hqz] at ht ⊢
  exact h.files q hq ht

theorem step_gone (st st2 : FS) (h : BlockInv st) (hwf2 : VolumeWF st2)
    (hsb : st2.rootSB = st.rootSB) (p x e0 : Nat) (hp : p < st.rootSB.inode_cnt)
    (htp : (inode_at st p).type = IFDIR) (hx : x < st.rootSB.inode_cnt)
    (htx : (inode_at st x).type = IFREG)
    (he0 : e0 < dir_entries (inode_at st p)) (hex : entry_ino st (inode_at st p) e0 = x)
    (hgone : entry_ino st2 (inode_at st p) e0 = FREE)
    (hold : ∀ e, e < dir_entries (inode_at st p) → e ≠ e0 →
      entry_ino st2 (inode_at st p) e = entry_ino st (inode_at st p) e)
    (hrec : ∀ q, q < st.rootSB.inode_cnt → q ≠ x → inode_at st2 q = inode_at st q)
    (hent : ∀ q, q < st.rootSB.inode_cnt → q ≠ p → (inode_at st q).type = IFDIR →
      ∀ e, e < dir_entries (inode_at st q) →
        entry_ino st2 (inode_at st q) e = entry_ino st (inode_at st q) e)
    (hmore : (inode_at st x).nlinks ≠ 1 →
      inode_at st2 x = { inode_at st x with nlinks := ((inode_at st x).nlinks + 65535) % 65536 })
    (hlast : (inode_at st x).nlinks = 1 →
      inode_at st2 x = { inode_at st x with type := IFFREE }) :
    BlockInv st2 ∧ (VolumeInv st → VolumeInv st2) := by
  refine ⟨⟨hwf2, by rw [check_rootSB_congr st st2 hsb]; exact h.mounted,
    by rw [hsb]; exact h.b16, by rw [hsb]; exact h.i16, ?_⟩,
    fun hv => inv_gone st st2 hv hwf2 hsb p x e0 hp htp hx htx he0 hex hgone hold hrec hent
      hmore hlast⟩
  intro q hq ht
  rw [hsb] at hq
  by_cases hqx : q = x
  · subst hqx
    have hf := h.files q hx (by rw [htx]; decide)
    by_cases h1 : (inode_at st q).nlinks = 1
    · rw [hlast h1]; exact hf
    · rw [hmore h1]; exact hf
  · rw [hrec q hq hqx] at ht ⊢
    exact h.files q hq ht

theorem step_noise (st st2 : FS) (h : BlockInv st) (hwf2 : VolumeWF st2)
    (hsb : st2.rootSB = st.rootSB)
    (hrec : ∀ q, q < st.rootSB.inode_cnt → (inode_at st q).type ≠ IFFREE →
      inode_at st2 q = inode_at st q)
    (hfree : ∀ q, q < st.rootSB.inode_cnt → (inode_at st q).type = IFFREE →
      (inode_at st2 q).type = IFFREE ∧
      (∀ j, (inode_at st2 q).dir_block.getD j 0 = 0) ∧ (inode_at st2 q).indir_block = 0)
    (hent : ∀ q, q < st.rootSB.inode_cnt → (inode_at st q).type = IFDIR →
      ∀ e, e < dir_entries (inode_at st q) →
        entry_ino st2 (inode_at st q) e = entry_ino st (inode_at st q) e) :
    BlockInv st2 ∧ (VolumeInv st → VolumeInv st2) := by
  refine ⟨⟨hwf2, by rw [check_rootSB_congr st st2 hsb]; exact h.mounted,
    by rw [hsb]; exact h.b16, by rw [hsb]; exact h.i16, ?_⟩,
    fun hv => inv_noise st st2 hv hwf2 hsb hrec hfree hent⟩
  intro q hq ht
  rw [hsb] at hq
  by_cases hf : (inode_at st q).type = IFFREE
  · exact (hfree q hq hf).2
  · rw [hrec q hq hf] at ht ⊢
    exact h.files q hq ht

/-! ### The invariant of the reached states: `fs_create` and `fs_mkdir` -/

theorem ret_eq {st st2 : FS} {r r1 : Int} (h : some (r1, st) = some (r, st2)) :
    r = r1 ∧ st2 = st := by
  injection h with h
  injection h with h1 h2
  exact ⟨h1.symm, h2.symm⟩

/-- The outcomes of `fs_create` and `fs_mkdir`: -1 with nothing changed, or:
the parent `p` is a directory, a free inode `i` was taken and its new record
saved, and `add_entry_to_directory` was called; when it failed, inode `i` was
freed again. -/
theorem fs_create_as_cases (ty : Nat) (st : FS) (hg : VolumeGeom st) (P : CStr) (hP : IsCStr P)
    (r : Int) (st2 : FS) (h : fs_create_as ty st P = some (r, st2)) :
    (r = -1 ∧ st2 = st) ∨
    ∃ (p i : Nat) (name : CStr) (r2 : Int) (st2a : FS),
      IsCStr name ∧ p < st.rootSB.inode_cnt ∧ i < st.rootSB.inode_cnt ∧
      (inode_at st p).type = IFDIR ∧ (inode_at st i).type = IFFREE ∧
      add_entry_to_directory
        (save_inode st i { zero_inode with type := ty, nlinks := 1, size := 0 })
        (p : Int) name (i : Int) = some (r2, st2a) ∧
      ((r2 ≠ -1 ∧ r = (i : Int) ∧ st2 = st2a) ∨
       (r2 = -1 ∧ r = -1 ∧ ∃ r3, inode_free st2a (i : Int) = some (r3, st2))) := by
  unfold fs_create_as at h
  by_cases hchk : check_rootSB st = -1
  · rw [if_pos hchk] at h; exact Or.inl (ret_eq h)
  rw [if_neg hchk] at h
  by_cases hl : P.length = 0
  · rw [if_pos hl] at h; exact Or.inl (ret_eq h)
  rw [if_neg hl] at h
  cases hname : get_filename P with
  | none => rw [hname] at h; exact Or.inl (ret_eq h)
  | some name =>
  rw [hname] at h
  simp only [] at h
  have hPne : P ≠ [] := fun e => hl (by rw [e]; rfl)
  obtain ⟨_, _, hnc, _⟩ := path_split P name hPne hname
  cases hpar : get_parent_inode st P with
  | none => rw [hpar] at h; cases h
  | some p0 =>
  rw [hpar] at h
  simp only [] at h
  by_cases hp1 : p0 = -1
  · rw [if_pos hp1] at h; exact Or.inl (ret_eq h)
  rw [if_neg hp1] at h
  by_cases hrange : p0 < 0 ∨ p0 ≥ st.rootSB.inode_cnt
  · rw [inode_load_out_of_range st p0 _ hrange] at h
    simp only [if_true] at h
    exact Or.inl (ret_eq h)
  obtain ⟨p, rfl⟩ : ∃ p : Nat, p0 = (p : Int) := ⟨p0.toNat, by omega⟩
  have hp : p < st.rootSB.inode_cnt := by omega
  rw [inode_load_eq st hg p hp] at h
  simp only [] at h
  rw [if_neg (by decide)] at h
  by_cases htp : (inode_at st p).type ≠ IFDIR
  · rw [if_pos htp] at h; exact Or.inl (ret_eq h)
  rw [if_neg htp] at h
  have htp : (inode_at st p).type = IFDIR := not_not.mp htp
  cases hfind : dir_findname st (inode_at st p) name with
  | none => rw [hfind] at h; cases h
  | some found =>
  rw [hfind] at h
  simp only [] at h
  by_cases hfound : found ≠ -1
  · rw [if_pos hfound] at h; exact Or.inl (ret_eq h)
  rw [if_neg hfound] at h
  cases halloc : inode_alloc st with
  | none => rw [halloc] at h; cases h
  | some ni =>
  rw [halloc] at h
  simp only [] at h
  by_cases hni : ni = -1
  · rw [if_pos hni] at h; exact Or.inl (ret_eq h)
  rw [if_neg hni] at h
  rcases inode_alloc_some st ni halloc with hni1 | ⟨i, rfl, hfree⟩
  · exact absurd hni1 hni
  by_cases hi : i < st.rootSB.inode_cnt
  swap
  · rw [inode_save_out_of_range st _ _ (Or.inr (by omega))] at h
    simp only [if_true] at h
    exact Or.inl (ret_eq h)
  rw [inode_save_eq_save st hg i hi] at h
  simp only [] at h
  rw [if_neg (by decide)] at h
  cases hadd : add_entry_to_directory
      (save_inode st i { zero_inode with type := ty, nlinks := 1, size := 0 })
      (p : Int) name (i : Int) with
  | none => rw [hadd] at h; cases h
  | some v =>
  obtain ⟨r2, st2a⟩ := v
  rw [hadd] at h
  simp only [] at h
  refine Or.inr ⟨p, i, name, r2, st2a, hnc hP, hp, hi, htp, hfree, hadd, ?_⟩
  by_cases hr2 : r2 = -1
  · rw [if_pos hr2] at h
    cases hfr : inode_free st2a (i : Int) with
    | none => rw [hfr] at h; cases h
    | some v =>
      obtain ⟨r3, st3⟩ := v
      rw [hfr] at h
      simp only [] at h
      obtain ⟨h1, h2⟩ := ret_eq h
      exact Or.inr ⟨hr2, h1, r3, by rw [h2]⟩
  · rw [if_neg hr2] at h
    obtain ⟨h1, h2⟩ := ret_eq h
    exact Or.inl ⟨hr2, h1, h2⟩

/-- The room of a directory, over `entry_ino`. -/
theorem has_room_entry (st : FS) (hwf : VolumeWF st) (hroom : HasRoom st) (q : Nat)
    (hq : q < st.rootSB.inode_cnt) (ht : (inode_at st q).type = IFDIR) :
    dir_entries (inode_at st q) < 8368 ∨
    ∃ e, e < dir_entries (inode_at st q) ∧ entry_ino st (inode_at st q) e = FREE := by
  rcases hroom q hq ht with h | ⟨e, he, hfree⟩
  · exact Or.inl h
  · rw [dirent_target_eq st hwf.geom _ (hwf.dirs q hq ht) e he] at hfree
    exact Or.inr ⟨e, he, Option.some.inj hfree⟩

theorem zero_inode_blocks (ty nl : Nat) :
    (∀ j, ({ zero_inode with type := ty, nlinks := nl, size := 0 } : fs_inode).dir_block.getD j 0
      = 0) ∧
    ({ zero_inode with type := ty, nlinks := nl, size := 0 } : fs_inode).indir_block = 0 := by
  refine ⟨?_, rfl⟩
  intro j
  show (List.replicate 11 0).getD j 0 = 0
  by_cases hj : j < 11
  · interval_cases j <;> rfl
  · rw [List.getD_eq_default _ _ (by simp; omega)]

theorem create_step (ty : Nat) (hty : ty = IFREG ∨ ty = IFDIR) (st : FS) (h : BlockInv st)
    (hroom : HasRoom st) (P : CStr) (hP : IsCStr P) (r : Int) (st2 : FS)
    (hc : fs_create_as ty st P = some (r, st2)) :
    BlockInv st2 ∧ (VolumeInv st → VolumeInv st2) := by
  have hty16 : ty < 65536 := by rcases hty with e | e <;> rw [e] <;> decide
  rcases fs_create_as_cases ty st h.wf.geom P hP r st2 hc with ⟨_, e⟩ |
    ⟨p, i, name, r2, st2a, hname, hp, hi, htp, hfree, hadd, hres⟩
  · rw [e]; exact ⟨h, fun hv => hv⟩
  have hnew := new_inode_in_range ty 1 hty16 (by decide)
  have hnotdir : (inode_at st i).type ≠ IFDIR := by rw [hfree]; decide
  have hpi : p ≠ i := fun e => hnotdir (e ▸ htp)
  have hwf1 : VolumeWF (save_inode st i { zero_inode with type := ty, nlinks := 1, size := 0 }) :=
    save_inode_wf st h.wf i hi _ hnew (fun _ => ⟨Nat.zero_div _, fun c _ =>
      (zero_inode_blocks ty 1).1 c, rfl⟩)
  have hrec1 : ∀ q, q ≠ i →
      inode_at (save_inode st i { zero_inode with type := ty, nlinks := 1, size := 0 }) q
        = inode_at st q := fun q hq => save_inode_other st i q _ hq
  have hi1 : inode_at (save_inode st i { zero_inode with type := ty, nlinks := 1, size := 0 }) i
      = { zero_inode with type := ty, nlinks := 1, size := 0 } := save_inode_same st i _ hnew
  have hent1 : ∀ q, q < st.rootSB.inode_cnt → (inode_at st q).type = IFDIR →
      ∀ e, e < dir_entries (inode_at st q) →
        entry_ino (save_inode st i { zero_inode with type := ty, nlinks := 1, size := 0 })
          (inode_at st q) e = entry_ino st (inode_at st q) e :=
    fun q hq ht e he => save_inode_entries st h.wf i hi _ q hq ht e he
  have hdp1 : DirWF (save_inode st i { zero_inode with type := ty, nlinks := 1, size := 0 })
      (inode_at (save_inode st i { zero_inode with type := ty, nlinks := 1, size := 0 }) p) :=
    hwf1.dirs p hp (by rw [hrec1 p hpi]; exact htp)
  have hroom1 : dir_entries
      (inode_at (save_inode st i { zero_inode with type := ty, nlinks := 1, size := 0 }) p)
        < 8368 ∨
      ∃ e, e < dir_entries
          (inode_at (save_inode st i { zero_inode with type := ty, nlinks := 1, size := 0 }) p) ∧
        entry_ino (save_inode st i { zero_inode with type := ty, nlinks := 1, size := 0 })
          (inode_at (save_inode st i { zero_inode with type := ty, nlinks := 1, size := 0 }) p)
          e = FREE := by
    rw [hrec1 p hpi]
    rcases has_room_entry st h.wf hroom p hp htp with h1 | ⟨e, he, hfe⟩
    · exact Or.inl h1
    · exact Or.inr ⟨e, he, by rw [hent1 p hp htp e he]; exact hfe⟩
  have hi16 : i < 65536 := by have := h.i16; omega
  rcases hres with ⟨hr2, _, hst⟩ | ⟨hr2, _, r3, hfr⟩
  · -- the entry was added
    subst hst
    obtain ⟨r', st', hadd', hcases⟩ := add_entry_spec _ hwf1.geom h.b16 p hp hdp1 name hname i
      hi16 hroom1
    rw [hadd] at hadd'
    obtain ⟨e1, e2⟩ := ret_eq hadd'.symm
    subst e2
    rcases hcases with ⟨_, e0, hpost⟩ | ⟨hneg, _⟩
    swap
    · exact absurd (e1.trans hneg) hr2
    have hwf2 := add_entry_wf _ hwf1 p i name _ e0 hp (by rw [hrec1 p hpi]; exact htp) hpost
    have hput := hpost.put
    rw [hrec1 p hpi] at hput
    have hZ := (hpost.inodes i hi (Ne.symm hpi)).trans hi1
    have key := step_put st _ h hwf2 hpost.sb p i e0 hp htp hpost.wf.type hi hnotdir hput.count
      hput.le
      (by
        intro he
        rw [← hent1 p hp htp e0 he]
        exact hput.was_free he)
      hput.ino_new
      (by
        intro e he hne
        rw [hput.ino_old e he hne]
        exact hent1 p hp htp e he)
      (by
        intro q hq hqp hqi
        rw [hpost.inodes q hq hqp]
        exact hrec1 q hqi)
      (by
        intro q hq hqp hqi ht e he
        rw [← hent1 q hq ht e he]
        have ht1 : (inode_at (save_inode st i
            { zero_inode with type := ty, nlinks := 1, size := 0 }) q).type = IFDIR := by
          rw [hrec1 q hqi]; exact ht
        have hdq := hwf1.dirs q hq ht1
        rw [← hrec1 q hqi]
        apply entries_frame _ _ _ _ e (by rw [hrec1 q hqi]; exact he)
        intro k hk
        have hown := hdq.owns_data k hk
        exact hpost.frame k hown.1 hown.2.2
          (hwf1.disjoint q p hq hp hqp ht1 (by rw [hrec1 p hpi]; exact htp) k hk))
      (by
        rw [hZ]
        rcases hty with e | e
        · exact Or.inl e
        · exact Or.inr ⟨e, Nat.zero_div _⟩)
      (by
        intro _
        rw [hZ]
        exact zero_inode_blocks ty 1)
    exact ⟨key.1, fun hv => key.2 hv (by
      intro _
      rw [hZ, link_count_free st hv i hfree])⟩
  · -- the entry could not be added: the inode was freed again
    have hst2a := add_entry_failed _ hwf1.geom p hp hdp1 name i (by omega) hroom1 st2a
      (by rw [hadd, hr2])
    -- the state before the inode is freed keeps the well-formed volume and its entries
    have hmid : VolumeWF st2a ∧ st2a.rootSB = st.rootSB ∧
        (∀ q, q < st.rootSB.inode_cnt → q ≠ i → inode_at st2a q = inode_at st q) ∧
        inode_at st2a i = { zero_inode with type := ty, nlinks := 1, size := 0 } ∧
        (∀ q, q < st.rootSB.inode_cnt → (inode_at st q).type = IFDIR →
          ∀ e, e < dir_entries (inode_at st q) →
            entry_ino st2a (inode_at st q) e = entry_ino st (inode_at st q) e) := by
      rcases hst2a with e | ⟨b, hb1, hb2, hb3, e⟩
      · rw [e]
        exact ⟨hwf1, rfl, fun q _ hqi => hrec1 q hqi, hi1, hent1⟩
      · rw [e]
        obtain ⟨k1, k2, k3⟩ := leak_frame _ hwf1 b hb1 hb2 hb3
        refine ⟨k1, rfl, fun q hq hqi => (k2 q hq).trans (hrec1 q hqi), (k2 i hi).trans hi1, ?_⟩
        intro q hq ht e he
        have hqi : q ≠ i := fun e => hnotdir (e ▸ ht)
        have := k3 q hq (by rw [hrec1 q hqi]; exact ht) e (by rw [hrec1 q hqi]; exact he)
        rw [hrec1 q hqi] at this
        rw [this]
        exact hent1 q hq ht e he
    obtain ⟨hwfm, hsbm, hrecm, him, hentm⟩ := hmid
    have him2 : i < st2a.rootSB.inode_cnt := by rw [hsbm]; exact hi
    unfold inode_free at hfr
    rw [inode_load_eq st2a hwfm.geom i him2] at hfr
    simp only [] at hfr
    rw [if_neg (by decide), inode_save_eq_save st2a hwfm.geom i him2] at hfr
    obtain ⟨_, hst2⟩ := ret_eq hfr
    rw [him] at hst2
    have hfr_range : InodeInRange
        { ({ zero_inode with type := ty, nlinks := 1, size := 0 } : fs_inode) with
          type := IFFREE } := new_inode_in_range IFFREE 1 (by decide) (by decide)
    have hwf2 : VolumeWF st2 := by
      rw [hst2]
      exact save_inode_wf st2a hwfm i him2 _ hfr_range
        (fun e => absurd (show IFFREE = IFDIR from e) (by decide))
    have hsb2 : st2.rootSB = st.rootSB := by rw [hst2]; exact hsbm
    refine step_noise st st2 h hwf2 hsb2 ?_ ?_ ?_
    · intro q hq hne
      have hqi : q ≠ i := fun e => hne (e ▸ hfree)
      rw [hst2, save_inode_other st2a i q _ hqi]
      exact hrecm q hq hqi
    · intro q hq hf
      by_cases hqi : q = i
      · subst hqi
        rw [hst2, save_inode_same st2a q _ hfr_range]
        exact ⟨rfl, zero_inode_blocks IFFREE 1⟩
      · rw [hst2, save_inode_other st2a i q _ hqi, hrecm q hq hqi]
        exact ⟨hf, h.files q hq (by rw [hf]; decide)⟩
    · intro q hq ht e he
      have hqm : (inode_at st2a q).type = IFDIR := by
        rw [hrecm q hq (fun e => hnotdir (e ▸ ht))]; exact ht
      have := save_inode_entries st2a hwfm i him2
        { ({ zero_inode with type := ty, nlinks := 1, size := 0 } : fs_inode) with
          type := IFFREE } q (by rw [hsbm]; exact hq) hqm e
        (by rw [hrecm q hq (fun e => hnotdir (e ▸ ht))]; exact he)
      rw [hrecm q hq (fun e => hnotdir (e ▸ ht))] at this
      rw [hst2, this]
      exact hentm q hq ht e he

/-! ### The invariant of the reached states: `fs_link` -/

theorem get_filename_cstr (N name : CStr) (hN : IsCStr N) (h : get_filename N = some name) :
    IsCStr name := by
  by_cases hne : N = []
  · subst hne
    have : name = [] := by
      unfold get_filename at h
      simp only [strrchr] at h
      exact (Option.some.inj h).symm
    rw [this]
    intro c hc
    cases hc
  · exact (path_split N name hne h).2.2.1 hN

/-- The outcomes of `fs_link`: -1 with nothing changed, or: the existing path
names the regular file `x`, the parent `p` of the new path is a directory, and
`add_entry_to_directory` was called; when it did not fail, the record of `x`
was saved with one link more. -/
theorem fs_link_cases (st : FS) (hwf : VolumeWF st) (E N : CStr) (hN : IsCStr N)
    (r : Int) (st2 : FS) (h : fs_link st E N = some (r, st2)) :
    (r = -1 ∧ st2 = st) ∨
    ∃ (x p : Nat) (name : CStr) (r2 : Int) (st1 : FS),
      IsCStr name ∧ x < st.rootSB.inode_cnt ∧ (inode_at st x).type = IFREG ∧
      p < st.rootSB.inode_cnt ∧ (inode_at st p).type = IFDIR ∧
      add_entry_to_directory st (p : Int) name (x : Int) = some (r2, st1) ∧
      ((r2 = -1 ∧ r = -1 ∧ st2 = st1) ∨
       (r2 ≠ -1 ∧ r = (x : Int) ∧ ∃ r3, inode_save st1 (x : Int)
          { inode_at st x with nlinks := ((inode_at st x).nlinks + 1) % 65536 }
            = some (r3, st2))) := by
  have hg := hwf.geom
  unfold fs_link at h
  by_cases hchk : check_rootSB st = -1
  · rw [if_pos hchk] at h; exact Or.inl (ret_eq h)
  rw [if_neg hchk] at h
  cases hget : get_inode st E with
  | none => rw [hget] at h; cases h
  | some x0 =>
  rw [hget] at h
  simp only [] at h
  by_cases hx1 : x0 = -1
  · rw [if_pos hx1] at h; exact Or.inl (ret_eq h)
  rw [if_neg hx1] at h
  by_cases hrange : x0 < 0 ∨ x0 ≥ st.rootSB.inode_cnt
  · rw [inode_load_out_of_range st x0 _ hrange] at h
    simp only [if_true] at h
    exact Or.inl (ret_eq h)
  obtain ⟨x, rfl⟩ : ∃ x : Nat, x0 = (x : Int) := ⟨x0.toNat, by omega⟩
  have hx : x < st.rootSB.inode_cnt := by omega
  rw [inode_load_eq st hg x hx] at h
  simp only [] at h
  rw [if_neg (by decide)] at h
  by_cases htx : (inode_at st x).type ≠ IFREG
  · rw [if_pos htx] at h; exact Or.inl (ret_eq h)
  rw [if_neg htx] at h
  have htx : (inode_at st x).type = IFREG := not_not.mp htx
  cases hname : get_filename N with
  | none => rw [hname] at h; exact Or.inl (ret_eq h)
  | some name =>
  rw [hname] at h
  simp only [] at h
  cases hpar : get_parent_inode st N with
  | none => rw [hpar] at h; cases h
  | some p0 =>
  rw [hpar] at h
  simp only [] at h
  by_cases hp1 : p0 = -1
  · rw [if_pos hp1] at h; exact Or.inl (ret_eq h)
  rw [if_neg hp1] at h
  by_cases hrange : p0 < 0 ∨ p0 ≥ st.rootSB.inode_cnt
  · rw [inode_load_out_of_range st p0 _ hrange] at h
    simp only [if_true] at h
    exact Or.inl (ret_eq h)
  obtain ⟨p, rfl⟩ : ∃ p : Nat, p0 = (p : Int) := ⟨p0.toNat, by omega⟩
  have hp : p < st.rootSB.inode_cnt := by omega
  rw [inode_load_eq st hg p hp] at h
  simp only [] at h
  rw [if_neg (by decide)] at h
  by_cases htp : (inode_at st p).type ≠ IFDIR
  · rw [if_pos htp] at h; exact Or.inl (ret_eq h)
  rw [if_neg htp] at h
  have htp : (inode_at st p).type = IFDIR := not_not.mp htp
  cases hfind : dir_findname st (inode_at st p) name with
  | none => rw [hfind] at h; cases h
  | some found =>
  rw [hfind] at h
  simp only [] at h
  by_cases hfound : found ≠ -1
  · rw [if_pos hfound] at h; exact Or.inl (ret_eq h)
  rw [if_neg hfound] at h
  cases hadd : add_entry_to_directory st (p : Int) name (x : Int) with
  | none => rw [hadd] at h; cases h
  | some v =>
  obtain ⟨r2, st1⟩ := v
  rw [hadd] at h
  simp only [] at h
  refine Or.inr ⟨x, p, name, r2, st1, get_filename_cstr N name hN hname, hx, htx, hp, htp, hadd, ?_⟩
  by_cases hr2 : r2 = -1
  · rw [if_pos hr2] at h
    obtain ⟨h1, h2⟩ := ret_eq h
    exact Or.inl ⟨hr2, h1, h2⟩
  · rw [if_neg hr2] at h
    cases hsave : inode_save st1 (x : Int)
        { inode_at st x with nlinks := ((inode_at st x).nlinks + 1) % 65536 } with
    | none => rw [hsave] at h; cases h
    | some v =>
      obtain ⟨r3, st3⟩ := v
      rw [hsave] at h
      simp only [] at h
      obtain ⟨h1, h2⟩ := ret_eq h
      exact Or.inr ⟨hr2, h1, r3, by rw [h2]⟩

/-- The invariant holds in the state that a failed `add_entry_to_directory`
leaves. -/
theorem inv_failed_add (st st1 : FS) (h : BlockInv st)
    (hst : st1 = st ∨ ∃ b, st.rootSB.first_datablk ≤ b ∧ b < st.rootSB.block_cnt ∧
      bitmap_bit st b = 0 ∧ st1 = write_block (mark_used st b) b zero_block) :
    BlockInv st1 ∧ (VolumeInv st → VolumeInv st1) := by
  rcases hst with e | ⟨b, hb1, hb2, hb3, e⟩
  · rw [e]; exact ⟨h, fun hv => hv⟩
  · rw [e]
    obtain ⟨k1, k2, k3⟩ := leak_frame st h.wf b hb1 hb2 hb3
    refine step_noise st _ h k1 rfl (fun q hq _ => k2 q hq) ?_ k3
    intro q hq hf
    rw [k2 q hq]
    exact ⟨hf, h.files q hq (by rw [hf]; decide)⟩

theorem link_step (st : FS) (h : BlockInv st) (hroom : HasRoom st)
    (E N : CStr) (hN : IsCStr N) (r : Int) (st2 : FS)
    (hc : fs_link st E N = some (r, st2)) :
    BlockInv st2 ∧ (VolumeInv st → FewLinks st → VolumeInv st2) := by
  rcases fs_link_cases st h.wf E N hN r st2 hc with ⟨_, e⟩ |
    ⟨x, p, name, r2, st1, hname, hx, htx, hp, htp, hadd, hres⟩
  · rw [e]; exact ⟨h, fun hv _ => hv⟩
  have hdp := h.wf.dirs p hp htp
  have hroomp := has_room_entry st h.wf hroom p hp htp
  have hx16 : x < 65536 := by have := h.i16; omega
  have hxp : x ≠ p := by
    intro e
    rw [e, htp] at htx
    exact absurd htx (by decide)
  rcases hres with ⟨hr2, _, hst⟩ | ⟨hr2, _, r3, hsave⟩
  · rw [hst]
    have key := inv_failed_add st st1 h
      (add_entry_failed st h.wf.geom p hp hdp name x (by omega) hroomp st1 (by rw [hadd, hr2]))
    exact ⟨key.1, fun hv _ => key.2 hv⟩
  · obtain ⟨r', st', hadd', hcases⟩ := add_entry_spec st h.wf.geom h.b16 p hp hdp name hname x
      hx16 hroomp
    rw [hadd] at hadd'
    obtain ⟨e1, e2⟩ := ret_eq hadd'.symm
    subst e2
    rcases hcases with ⟨_, e0, hpost⟩ | ⟨hneg, _⟩
    swap
    · exact absurd (e1.trans hneg) hr2
    have hwf1 := add_entry_wf st h.wf p x name _ e0 hp htp hpost
    have hx1 : x < st1.rootSB.inode_cnt := by rw [hpost.sb]; exact hx
    have hrx := inode_at_in_range st x
    have hrange : InodeInRange
        { inode_at st x with nlinks := ((inode_at st x).nlinks + 1) % 65536 } :=
      ⟨hrx.type_lt, Nat.mod_lt _ (by decide), hrx.size_lt, hrx.dir_len, hrx.dir_lt,
        hrx.indir_lt⟩
    rw [inode_save_eq_save st1 hwf1.geom x hx1] at hsave
    obtain ⟨_, hst2⟩ := ret_eq hsave
    have hwf2 : VolumeWF st2 := by
      rw [hst2]
      refine save_inode_wf st1 hwf1 x hx1 _ hrange (fun e => ?_)
      have e : (inode_at st x).type = IFDIR := e
      rw [htx] at e
      exact absurd e (by decide)
    have hp2 : inode_at st2 p = inode_at st1 p := by
      rw [hst2]; exact save_inode_other st1 x p _ (Ne.symm hxp)
    have hput := hpost.put
    have hent2 : ∀ q, q < st.rootSB.inode_cnt → (inode_at st1 q).type = IFDIR →
        ∀ e, e < dir_entries (inode_at st1 q) →
          entry_ino st2 (inode_at st1 q) e = entry_ino st1 (inode_at st1 q) e := by
      intro q hq ht e he
      rw [hst2]
      exact save_inode_entries st1 hwf1 x hx1 _ q (by rw [hpost.sb]; exact hq) ht e he
    have hZ : inode_at st2 x
        = { inode_at st x with nlinks := ((inode_at st x).nlinks + 1) % 65536 } := by
      rw [hst2]; exact save_inode_same st1 x _ hrange
    have hNe : dir_entries (inode_at st1 p) = max (dir_entries (inode_at st p)) (e0 + 1) :=
      hput.count
    have key := step_put st st2 h hwf2 (by rw [hst2]; exact hpost.sb) p x e0 hp htp
      (by rw [hp2]; exact hpost.wf.type) hx (by rw [htx]; decide)
      (by rw [hp2]; exact hput.count) hput.le hput.was_free
      (by
        rw [hp2, hent2 p hp hpost.wf.type e0 (by rw [hNe]; omega)]
        exact hput.ino_new)
      (by
        intro e he hne
        rw [hp2, hent2 p hp hpost.wf.type e (by rw [hNe]; omega)]
        exact hput.ino_old e he hne)
      (by
        intro q hq hqp hqx
        rw [hst2, save_inode_other st1 x q _ hqx]
        exact hpost.inodes q hq hqp)
      (by
        intro q hq hqp hqx ht e he
        have hq1 : inode_at st1 q = inode_at st q := hpost.inodes q hq hqp
        have := hent2 q hq (by rw [hq1]; exact ht) e (by rw [hq1]; exact he)
        rw [hq1] at this
        rw [this]
        apply entries_frame _ _ _ _ e he
        intro k hk
        have hown := (h.wf.dirs q hq ht).owns_data k hk
        exact hpost.frame k hown.1 hown.2.2 (h.wf.disjoint q p hq hp hqp ht htp k hk))
      (by
        rw [hZ]
        exact Or.inl htx)
      (by
        intro _
        rw [hZ]
        exact h.files x hx (by rw [htx]; decide))
    exact ⟨key.1, fun hv hfew => key.2 hv (by
      intro _
      rw [hZ]
      show ((inode_at st x).nlinks + 1) % 65536 = link_count st x + 1
      have := hfew x hx htx
      rw [← hv.links x hx htx]
      omega)⟩

/-! ### The invariant of the reached states: `fs_unlink` -/

/-- The outcomes of `fs_unlink`: -1 with nothing changed, or the last
component of the path names a regular file `x` in the directory `p`, the
parent of the path. -/
theorem fs_unlink_cases (st : FS) (hwf : VolumeWF st) (P : CStr) (r : Int) (st2 : FS)
    (h : fs_unlink st P = some (r, st2)) :
    (r = -1 ∧ st2 = st) ∨
    ∃ (p x : Nat) (name : CStr), check_rootSB st = 0 ∧ get_filename P = some name ∧
      get_parent_inode st P = some (p : Int) ∧ p < st.rootSB.inode_cnt ∧
      (inode_at st p).type = IFDIR ∧
      dir_findname st (inode_at st p) name = some (x : Int) ∧
      x < st.rootSB.inode_cnt ∧ (inode_at st x).type = IFREG := by
  have hg := hwf.geom
  unfold fs_unlink at h
  by_cases hchk : check_rootSB st = -1
  · rw [if_pos hchk] at h; exact Or.inl (ret_eq h)
  rw [if_neg hchk] at h
  have hmag : check_rootSB st = 0 := by
    unfold check_rootSB at hchk ⊢
    by_cases hm : st.rootSB.magic ≠ FS_MAGIC
    · rw [if_pos hm] at hchk; exact absurd rfl hchk
    · rw [if_neg hm]
  cases hname : get_filename P with
  | none => rw [hname] at h; exact Or.inl (ret_eq h)
  | some name =>
  rw [hname] at h
  simp only [] at h
  cases hpar : get_parent_inode st P with
  | none => rw [hpar] at h; cases h
  | some p0 =>
  rw [hpar] at h
  simp only [] at h
  by_cases hp1 : p0 = -1
  · rw [if_pos hp1] at h; exact Or.inl (ret_eq h)
  rw [if_neg hp1] at h
  by_cases hrange : p0 < 0 ∨ p0 ≥ st.rootSB.inode_cnt
  · rw [inode_load_out_of_range st p0 _ hrange] at h
    simp only [if_true] at h
    exact Or.inl (ret_eq h)
  obtain ⟨p, rfl⟩ : ∃ p : Nat, p0 = (p : Int) := ⟨p0.toNat, by omega⟩
  have hp : p < st.rootSB.inode_cnt := by omega
  rw [inode_load_eq st hg p hp] at h
  simp only [] at h
  rw [if_neg (by decide)] at h
  by_cases htp : (inode_at st p).type ≠ IFDIR
  · rw [if_pos htp] at h; exact Or.inl (ret_eq h)
  rw [if_neg htp] at h
  have htp : (inode_at st p).type = IFDIR := not_not.mp htp
  cases hfind : dir_findname st (inode_at st p) name with
  | none => rw [hfind] at h; cases h
  | some x0 =>
  rw [hfind] at h
  simp only [] at h
  by_cases hx1 : x0 = -1
  · rw [if_pos hx1] at h; exact Or.inl (ret_eq h)
  rw [if_neg hx1] at h
  by_cases hrange : x0 < 0 ∨ x0 ≥ st.rootSB.inode_cnt
  · rw [inode_load_out_of_range st x0 _ hrange] at h
    simp only [if_true] at h
    exact Or.inl (ret_eq h)
  obtain ⟨x, rfl⟩ : ∃ x : Nat, x0 = (x : Int) := ⟨x0.toNat, by omega⟩
  have hx : x < st.rootSB.inode_cnt := by omega
  rw [inode_load_eq st hg x hx] at h
  simp only [] at h
  rw [if_neg (by decide)] at h
  by_cases htx : (inode_at st x).type ≠ IFREG
  · rw [if_pos htx] at h; exact Or.inl (ret_eq h)
  exact Or.inr ⟨p, x, name, hmag, rfl, rfl, hp, htp, hfind, hx, not_not.mp htx⟩

/-- A record without blocks hands no block to `block_free`. -/
theorem file_blocks_zero (st : FS) (ino : fs_inode)
    (hz : (∀ j, ino.dir_block.getD j 0 = 0) ∧ ino.indir_block = 0) (b : Nat)
    (hb : b ∈ file_blocks st ino) : b = 0 := by
  unfold file_blocks at hb
  rw [if_neg (by rw [hz.2]; exact fun h => h rfl), List.append_nil] at hb
  obtain ⟨j, hj, e⟩ := List.getElem_of_mem hb
  rw [← e, ← hz.1 j, List.getD_eq_getElem _ _ hj]

theorem unlink_step (st : FS) (h : BlockInv st) (P : CStr) (r : Int) (st2 : FS)
    (hc : fs_unlink st P = some (r, st2)) :
    BlockInv st2 ∧ (VolumeInv st → VolumeInv st2) := by
  rcases fs_unlink_cases st h.wf P r st2 hc with ⟨_, e⟩ |
    ⟨p, x, name, hmag, hname, hpar, hp, htp, hfind, hx, htx⟩
  · rw [e]; exact ⟨h, fun hv => hv⟩
  have hg := h.wf.geom
  have hdp := h.wf.dirs p hp htp
  have hfz := h.files x hx (by rw [htx]; decide)
  have h1d := hg.one_le_data
  obtain ⟨e, st', hun, hpost⟩ := fs_unlink_spec st hg hmag P name hname p hpar hp hdp x hfind hx
    htx (fun b hb hb0 => absurd (file_blocks_zero st _ hfz b hb) hb0)
  rw [hc] at hun
  obtain ⟨_, e2⟩ := ret_eq hun.symm
  subst e2
  have he : e < dir_entries (inode_at st p) := by
    have := (first_index_some _ _ _ _ hpost.found).2.1
    omega
  have hxp : x ≠ p := by
    intro e
    rw [e, htp] at htx
    exact absurd htx (by decide)
  have hxnd : (inode_at st2 x).type ≠ IFDIR := by
    by_cases h1 : (inode_at st x).nlinks = 1
    · rw [(hpost.last h1).1]
      show IFFREE ≠ IFDIR
      decide
    · rw [(hpost.more h1).1]
      show (inode_at st x).type ≠ IFDIR
      rw [htx]; decide
  have hce : e / 16 * DIRENTS_PER_BLOCK < dir_entries (inode_at st p) := by
    rw [DIRENTS_PER_BLOCK_eq]; omega
  have hbits : ∀ k, st.rootSB.first_datablk ≤ k → k < st.rootSB.block_cnt →
      bitmap_bit st2 k = bitmap_bit st k := by
    intro k hk1 hk2
    by_cases h1 : (inode_at st x).nlinks = 1
    · exact (hpost.last h1).2.2 k hk2 (Or.inl (fun hm => by
        have := file_blocks_zero st _ hfz k hm
        omega))
    · exact (hpost.more h1).2 k hk2
  -- the blocks of the other directories
  have hdisk : ∀ q, q < st.rootSB.inode_cnt → q ≠ p → (inode_at st q).type = IFDIR →
      ∀ k, DirOwns st (inode_at st q) k → st2.disk k = st.disk k ∧ bitmap_bit st2 k ≠ 0 := by
    intro q hq hqp ht k hk
    have hown := (h.wf.dirs q hq ht).owns_data k hk
    constructor
    · apply hpost.data k hown.1
      intro ek
      exact h.wf.disjoint q p hq hp hqp ht htp k hk (Or.inl ⟨e / 16, hce, ek.symm⟩)
    · rw [hbits k hown.1 hown.2.1]
      exact hown.2.2
  have hwf2 : VolumeWF st2 := by
    refine VolumeWF.carry_volume h.wf hpost.geom hpost.sb p ?_ hdisk ?_
    · intro q hq hqp ht
      exact hpost.inodes q hq (fun e => hxnd (e ▸ ht))
    · intro _
      refine ⟨hpost.wf, fun k hk => Or.inl ⟨htp, ?_⟩⟩
      rw [hpost.dir] at hk
      have hch : ∀ c, c * DIRENTS_PER_BLOCK < dir_entries (inode_at st p) →
          chunk_block st2 (inode_at st p) c = chunk_block st (inode_at st p) c := by
        intro c hcc
        apply chunk_block_congr _ _ _ _ _ (fun _ => rfl)
        intro h11
        have hN : DIRBLOCK_PER_INODE * DIRENTS_PER_BLOCK < dir_entries (inode_at st p) := by
          simp only [DIRBLOCK_PER_INODE, DIRENTS_PER_BLOCK_eq] at hcc ⊢; omega
        rw [hpost.data _ (hdp.indir_data hN).1 (fun ek => hdp.indir_ne hN _ hce ek.symm)]
      rcases hk with ⟨c, hcc, rfl⟩ | ⟨hN, rfl⟩
      · exact Or.inl ⟨c, hcc, (hch c hcc).symm⟩
      · exact Or.inr ⟨hN, rfl⟩
  refine step_gone st st2 h hwf2 hpost.sb p x e hp htp hx htx he hpost.target hpost.gone.gone
    hpost.gone.ino_old hpost.inodes ?_ (fun h1 => (hpost.more h1).1) (fun h1 => (hpost.last h1).1)
  intro q hq hqp ht e1 he1
  exact entries_frame _ _ _ (fun k hk => (hdisk q hq hqp ht k hk).1) e1 he1

/-! ### The freshly formatted volume and the reached states -/

theorem block_inode_zero_blocks (k j : Nat) :
    (block_inode zero_block k).dir_block.getD j 0 = 0 := by
  by_cases hj : j < 11
  · interval_cases j <;> rfl
  · rw [List.getD_eq_default _ _ (by simp [block_inode, DIRBLOCK_PER_INODE]; omega)]

theorem formatted_inv (dev : FS) (mem : Block) (h4 : 4 ≤ dev.nblocks)
    (hn : dev.nblocks ≤ 65536) : VolumeInv (formatted dev mem) := by
  obtain ⟨_, f2, _, _, _, _, f7, f8, f9, _, _⟩ := format_sblock_fields dev.nblocks h4 hn
  have hsb : (formatted dev mem).rootSB = format_sblock dev.nblocks := rfl
  have hcnt : 0 < (format_sblock dev.nblocks).inode_cnt := by omega
  have hrec := formatted_inode_at dev mem h4 hn
  have hother : ∀ q, q < (format_sblock dev.nblocks).inode_cnt → q ≠ 0 →
      (inode_at (formatted dev mem) q).type = IFFREE := by
    intro q hq hq0
    rw [hrec q hq, if_neg hq0]
    rfl
  have hroot : inode_at (formatted dev mem) 0 = rootdir := by rw [hrec 0 hcnt, if_pos rfl]
  refine ⟨formatted_wf dev mem h4 hn, formatted_check dev mem, by rw [hsb, f2]; exact hn,
    by rw [hsb, f9]; omega, ⟨by rw [hsb]; exact hcnt, by rw [hroot]; rfl⟩, ?_, ?_, ?_⟩
  · intro q hq ht
    rw [hsb] at hq
    have hq0 : q ≠ 0 := by
      intro e
      rw [e, hroot] at ht
      exact ht rfl
    rw [hrec q hq, if_neg hq0]
    exact ⟨fun j => block_inode_zero_blocks _ j, rfl⟩
  · intro q hq ht e he
    rw [hsb] at hq
    by_cases hq0 : q = 0
    · rw [hq0, hroot] at he
      have : dir_entries rootdir = 0 := rfl
      omega
    · rw [hother q hq hq0] at ht
      exact absurd ht (by decide)
  · intro x hx ht
    rw [hsb] at hx
    by_cases hx0 : x = 0
    · rw [hx0, hroot] at ht
      exact absurd ht (by decide)
    · rw [hother x hx hx0] at ht
      exact absurd ht (by decide)

theorem fs_format_fresh (dev : FS) (mem : Block) (hun : dev.rootSB.magic ≠ FS_MAGIC)
    (h4 : 4 ≤ dev.nblocks) (hn : dev.nblocks ≤ 65536) :
    fs_format dev mem = some (0, formatted dev mem) := by
  obtain ⟨_, _, f3, _, _, f6, f7, _, _, f10, f11⟩ := format_sblock_fields dev.nblocks h4 hn
  exact fs_format_eq dev mem hun (by omega) f6 f3 f7 (by omega)

/-- When `fs_format` returns 0 on a device of 4 to 65536 blocks, the state is
the formatted volume. -/
theorem fs_format_returned (dev : FS) (mem : Block) (h4 : 4 ≤ dev.nblocks)
    (hn : dev.nblocks ≤ 65536) (st0 : FS) (hf : fs_format dev mem = some (0, st0)) :
    st0 = formatted dev mem := by
  by_cases hun : dev.rootSB.magic = FS_MAGIC
  · exfalso
    have hchk : check_rootSB dev = 0 := by
      unfold check_rootSB
      rw [if_neg (not_not.mpr hun)]
    unfold fs_format at hf
    rw [if_pos hchk] at hf
    exact absurd (ret_eq hf).1 (by decide)
  · rw [fs_format_fresh dev mem hun h4 hn] at hf
    exact (ret_eq hf).2

/-- Every reached state of a device of 4 to 65536 blocks satisfies the block
part of the invariant, whatever the link counts are. -/
theorem reached_blocks (lim : FS → Prop) (dev : FS) (mem : Block) (h4 : 4 ≤ dev.nblocks)
    (hn : dev.nblocks ≤ 65536) (st : FS) (hr : Reached HasRoom lim dev mem st) :
    BlockInv st := by
  induction hr with
  | fresh st0 hf =>
    rw [fs_format_returned dev mem h4 hn st0 hf]
    exact inv_blocks _ (formatted_inv dev mem h4 hn)
  | create st P r st1 _ hP hroom hc ih =>
    exact (create_step IFREG (Or.inl rfl) st ih hroom P hP r st1 hc).1
  | mkdir st P r st1 _ hP hroom hc ih =>
    exact (create_step IFDIR (Or.inr rfl) st ih hroom P hP r st1 hc).1
  | link st E N r st1 _ _ hN hroom _ hc ih =>
    exact (link_step st ih hroom E N hN r st1 hc).1
  | unlink st P r st1 _ _ hc ih =>
    exact (unlink_step st ih P r st1 hc).1

/-- Every state of a device of 4 to 65536 blocks that is reached with every
`fs_link` made when no file is at 65535 links satisfies the invariant. -/
theorem reached_inv (dev : FS) (mem : Block) (h4 : 4 ≤ dev.nblocks)
    (hn : dev.nblocks ≤ 65536) (st : FS) (hr : Reached HasRoom FewLinks dev mem st) :
    VolumeInv st := by
  induction hr with
  | fresh st0 hf =>
    rw [fs_format_returned dev mem h4 hn st0 hf]
    exact formatted_inv dev mem h4 hn
  | create st P r st1 _ hP hroom hc ih =>
    exact (create_step IFREG (Or.inl rfl) st (inv_blocks st ih) hroom P hP r st1 hc).2 ih
  | mkdir st P r st1 _ hP hroom hc ih =>
    exact (create_step IFDIR (Or.inr rfl) st (inv_blocks st ih) hroom P hP r st1 hc).2 ih
  | link st E N r st1 _ _ hN hroom hfew hc ih =>
    exact (link_step st (inv_blocks st ih) hroom E N hN r st1 hc).2 ih hfew
  | unlink st P r st1 _ _ hc ih =>
    exact (unlink_step st (inv_blocks st ih) P r st1 hc).2 ih

/-! ### What the invariant gives -/

theorem inv_links_counted (st : FS) (h : VolumeInv st) : LinksCounted st := by
  refine ⟨h.links, ?_⟩
  intro q hq ht e he t het hne
  rw [dirent_target_eq st h.wf.geom _ (h.wf.dirs q hq ht) e he] at het
  have het := Option.some.inj het
  rw [← het] at hne ⊢
  exact h.targets q hq ht e he hne

theorem slot_block_direct (st : FS) (ino : fs_inode) (j : Nat) :
    slot_block st ino (block_slot.direct j) = ino.dir_block.getD j 0 := rfl

theorem slot_block_indirect (st : FS) (ino : fs_inode) :
    slot_block st ino block_slot.indirect = ino.indir_block := rfl

theorem slot_block_table (st : FS) (ino : fs_inode) (k : Nat) :
    slot_block st ino (block_slot.table k)
      = if ino.indir_block = 0 then 0 else block_u16 (st.disk ino.indir_block) k := rfl

/-- The slot of a directory that holds the block of chunk `c`. -/
theorem slot_of_chunk (st : FS) (hg : VolumeGeom st) (ino : fs_inode) (hwf : DirWF st ino)
    (c : Nat) (hc : c * DIRENTS_PER_BLOCK < dir_entries ino) :
    ∃ s, slot_valid s ∧ slot_block st ino s = chunk_block st ino c ∧
      (s = block_slot.direct c ∧ c < 11 ∨ s = block_slot.table (c - 11) ∧ 11 ≤ c) := by
  have hcap := hwf.cap
  simp only [DIRBLOCK_PER_INODE, BLOCKSZ, DISK_BLOCK_SIZE, DIRENTS_PER_BLOCK_eq] at hcap hc
  by_cases h11 : c < 11
  · refine ⟨block_slot.direct c, h11, ?_, Or.inl ⟨rfl, h11⟩⟩
    rw [slot_block_direct]
    unfold chunk_block
    rw [if_pos h11]
  · refine ⟨block_slot.table (c - 11), ?_, ?_, Or.inr ⟨rfl, by omega⟩⟩
    · show c - 11 < 1024 / 2
      omega
    · have hi := (hwf.indir_data (by
        simp only [DIRBLOCK_PER_INODE, DIRENTS_PER_BLOCK_eq]; omega)).1
      have := hg.one_le_data
      rw [slot_block_table, if_neg (by omega)]
      unfold chunk_block
      rw [if_neg h11]

/-- A non-zero block number in a slot of a well-formed directory is the block
of a chunk, held in the slot of that chunk, or the indirect block. -/
theorem slot_cases (st : FS) (ino : fs_inode) (hwf : DirWF st ino) (s : block_slot)
    (hs : slot_valid s) (hv : slot_block st ino s ≠ 0) :
    (∃ c, c * DIRENTS_PER_BLOCK < dir_entries ino ∧ chunk_block st ino c = slot_block st ino s ∧
      (s = block_slot.direct c ∧ c < 11 ∨ s = block_slot.table (c - 11) ∧ 11 ≤ c)) ∨
    (DIRBLOCK_PER_INODE * DIRENTS_PER_BLOCK < dir_entries ino ∧ s = block_slot.indirect) := by
  have hind : ino.indir_block ≠ 0 →
      DIRBLOCK_PER_INODE * DIRENTS_PER_BLOCK < dir_entries ino := by
    intro h
    by_contra hle
    exact h (hwf.indir_unused (by omega))
  cases s with
  | direct j =>
    have hj : j < 11 := hs
    left
    refine ⟨j, ?_, ?_, Or.inl ⟨rfl, hj⟩⟩
    · by_contra hle
      exact hv (hwf.direct_unused j (by omega) hj)
    · rw [slot_block_direct]
      unfold chunk_block
      rw [if_pos hj]
  | indirect => exact Or.inr ⟨hind hv, rfl⟩
  | table k =>
    have hk : k < 1024 / 2 := hs
    have hi : ino.indir_block ≠ 0 := by
      intro h
      rw [slot_block_table, if_pos h] at hv
      exact hv rfl
    have hval : slot_block st ino (block_slot.table k) = block_u16 (st.disk ino.indir_block) k := by
      rw [slot_block_table, if_neg hi]
    left
    refine ⟨11 + k, ?_, ?_, Or.inr ⟨by rw [Nat.add_sub_cancel_left], by omega⟩⟩
    · by_contra hle
      have := hwf.table_unused (hind hi) (11 + k) (by omega)
        (by simp only [DIRBLOCK_PER_INODE]; omega)
        (by simp only [DIRBLOCK_PER_INODE, BLOCKSZ, DISK_BLOCK_SIZE]; omega)
      simp only [DIRBLOCK_PER_INODE, Nat.add_sub_cancel_left] at this
      rw [hval] at hv
      exact hv this
    · rw [hval]
      unfold chunk_block
      rw [if_neg (by simp only [DIRBLOCK_PER_INODE]; omega)]
      simp only [DIRBLOCK_PER_INODE, Nat.add_sub_cancel_left]

theorem inv_blocks_owned (st : FS) (h : BlockInv st) : BlocksOwned st := by
  have hzero : ∀ q, q < st.rootSB.inode_cnt → (inode_at st q).type ≠ IFDIR →
      ∀ s, slot_block st (inode_at st q) s = 0 := by
    intro q hq ht s
    obtain ⟨f1, f2⟩ := h.files q hq ht
    cases s with
    | direct j => exact f1 j
    | indirect => exact f2
    | table k => rw [slot_block_table, if_pos f2]
  have howns : ∀ q, q < st.rootSB.inode_cnt → ∀ s, slot_valid s →
      slot_block st (inode_at st q) s ≠ 0 →
      (inode_at st q).type = IFDIR ∧
      DirOwns st (inode_at st q) (slot_block st (inode_at st q) s) := by
    intro q hq s hs hv
    have ht : (inode_at st q).type = IFDIR := by
      by_contra ht
      exact hv (hzero q hq ht s)
    refine ⟨ht, ?_⟩
    rcases slot_cases st _ (h.wf.dirs q hq ht) s hs hv with ⟨c, hc, e, _⟩ | ⟨hN, e⟩
    · exact Or.inl ⟨c, hc, e⟩
    · rw [e]
      exact Or.inr ⟨hN, rfl⟩
  refine ⟨?_, ?_, ?_⟩
  · intro q hq s hs hv
    obtain ⟨ht, hown⟩ := howns q hq s hs hv
    exact (h.wf.dirs q hq ht).owns_data _ hown
  · intro q q1 hq hq1 s s1 hs hs1 hv heq
    obtain ⟨ht, hown⟩ := howns q hq s hs hv
    obtain ⟨ht1, hown1⟩ := howns q1 hq1 s1 hs1 (by rw [← heq]; exact hv)
    have hqq : q = q1 := by
      by_contra hne
      rw [← heq] at hown1
      exact h.wf.disjoint q q1 hq hq1 hne ht ht1 _ hown hown1
    subst hqq
    refine ⟨rfl, ?_⟩
    have hd := h.wf.dirs q hq ht
    rcases slot_cases st _ hd s hs hv with ⟨c, hc, e, hsc⟩ | ⟨hN, e⟩
    · rcases slot_cases st _ hd s1 hs1 (by rw [← heq]; exact hv) with
        ⟨c1, hc1, e1, hsc1⟩ | ⟨hN1, e1⟩
      · have hcc : c = c1 := hd.chunk_inj c c1 hc hc1 (by rw [e, e1, heq])
        subst hcc
        rcases hsc with ⟨a, ha⟩ | ⟨a, ha⟩ <;> rcases hsc1 with ⟨b, hb⟩ | ⟨b, hb⟩
        · rw [a, b]
        · omega
        · omega
        · rw [a, b]
      · exfalso
        refine hd.indir_ne hN1 c hc ?_
        rw [e, heq, e1]
        rfl
    · rcases slot_cases st _ hd s1 hs1 (by rw [← heq]; exact hv) with
        ⟨c1, hc1, e1, hsc1⟩ | ⟨hN1, e1⟩
      · exfalso
        refine hd.indir_ne hN c1 hc1 ?_
        rw [e1, ← heq, e]
        rfl
      · rw [e, e1]
  · intro q hq ht e he
    have hd := h.wf.dirs q hq ht
    have hg := h.wf.geom
    have hcap := hd.cap
    simp only [DIRBLOCK_PER_INODE, BLOCKSZ, DISK_BLOCK_SIZE, DIRENTS_PER_BLOCK_eq] at hcap
    have hc : e / 16 * DIRENTS_PER_BLOCK < dir_entries (inode_at st q) := by
      rw [DIRENTS_PER_BLOCK_eq]; omega
    obtain ⟨s, hs, hval, _⟩ := slot_of_chunk st hg _ hd (e / 16) hc
    have hdat := hd.chunk_data (e / 16) hc
    have h1 := hg.one_le_data
    have hdev := hg.cnt_dev
    have hq16 : e * DIRENTSZ / 1024 = e / 16 := by simp only [DIRENTSZ]; omega
    refine ⟨s, hs, by rw [hval]; omega, ?_⟩
    rw [offset2block_chunk st _ (e * DIRENTSZ) (by rw [hq16]; omega) (by
      rw [hq16]
      intro h11
      have := (hd.indir_data (by
        simp only [DIRBLOCK_PER_INODE, DIRENTS_PER_BLOCK_eq]; omega)).2
      omega), hq16, hval]

/-! ### Insertion when blocks are known to be free -/

/-- With every block from `M` on free, `block_alloc` returns a data block that
is free and not above `M`. -/
theorem block_alloc_of_free (st : FS) (hg : VolumeGeom st) (M : Nat)
    (hM : M < st.rootSB.block_cnt) (hclear : bitmap_bit st M = 0) :
    ∃ b, st.rootSB.first_datablk ≤ b ∧ b < st.rootSB.block_cnt ∧ b ≤ M ∧ bitmap_bit st b = 0 ∧
      block_alloc st = some ((b : Int), mark_used st b) := by
  rcases block_alloc_cases st hg with hfull | ⟨b, hb1, hb2, hb3, hb4, hb5⟩
  · exfalso
    classical
    have hex : ∃ m, m < st.rootSB.block_cnt ∧ bitmap_bit st m = 0 := ⟨M, hM, hclear⟩
    have hb := block_alloc_eq st hg.bitmap (Nat.find hex) (Nat.find_spec hex).1
      (Nat.find_spec hex).2
      (fun k hk hz1 => Nat.find_min hex hk ⟨by
        have := (Nat.find_spec hex).1
        omega, hz1⟩)
    rw [hfull] at hb
    have := (Prod.mk.inj (Option.some.inj hb)).1
    omega
  · refine ⟨b, hb1, hb2, ?_, hb3, hb5⟩
    by_contra hlt
    exact hb4 M (by omega) hclear

/-- The append to a directory without a free entry, below its capacity, on a
volume whose blocks from `M` on are free: it returns 0; the blocks from `M`
plus the number of blocks it allocates on are still free; and the 16-bit word
that follows the indirect table reads 0 when it did before (or the table is
new). -/
theorem append_tracked (st : FS) (hg : VolumeGeom st) (h16 : st.rootSB.block_cnt ≤ 65536)
    (p : Nat) (hp : p < st.rootSB.inode_cnt) (hwf : DirWF st (inode_at st p)) (s : CStr)
    (c : Nat) (hc : c < 4294967296) (hN : dir_entries (inode_at st p) < 8368)
    (hused : ∀ e, e < dir_entries (inode_at st p) → entry_ino st (inode_at st p) e ≠ FREE)
    (M : Nat) (hM : M + 2 ≤ st.rootSB.block_cnt)
    (hclear : ∀ m, M ≤ m → m < st.rootSB.block_cnt → bitmap_bit st m = 0)
    (hbeyond : 176 < dir_entries (inode_at st p) →
      block_u16 (st.disk (inode_at st p).indir_block) 512 = 0) :
    ∃ st1, add_entry_to_directory st (p : Int) s (c : Int) = some (0, st1) ∧
      (∀ m, M + (if dir_entries (inode_at st p) % 16 = 0 then
            (if dir_entries (inode_at st p) = 176 then 2 else 1) else 0) ≤ m →
          m < st.rootSB.block_cnt → bitmap_bit st1 m = 0) ∧
      (176 < dir_entries (inode_at st p) + 1 →
        block_u16 (st1.disk (inode_at st1 p).indir_block) 512 = 0) := by
  have hrun : add_entry_to_directory st (p : Int) s (c : Int)
      = add_entry_append st (p : Int) (inode_at st p) s (c : Int) := by
    rw [add_entry_to_directory_eq st hg p hp hwf s c hc,
      first_index_eq_none _ _ 0 (fun e _ he => by
        have := hused e (by omega)
        simpa using this)]
  rw [hrun]
  have hr : InodeInRange (inode_at st p) := inode_at_in_range st p
  have hsz : (inode_at st p).size + 64 < 4294967296 := by
    have : (inode_at st p).size / 64 < 8368 := hN
    omega
  have h1d := hg.one_le_data
  have hcd := hg.cnt_dev
  obtain ⟨b, hb1, hb2, hbM, hb3, hb5⟩ := block_alloc_of_free st hg M (by omega)
    (hclear M (le_refl _) (by omega))
  by_cases hmod : dir_entries (inode_at st p) % 16 = 0
  swap
  · -- the last block has room
    rw [if_neg hmod, Nat.add_zero,
      add_entry_append_existing st hg p hp _ hwf s c hc hmod]
    have hchunk : dir_entries (inode_at st p) / 16 * DIRENTS_PER_BLOCK
        < dir_entries (inode_at st p) := by
      rw [DIRENTS_PER_BLOCK_eq]; omega
    have hB := hwf.chunk_data _ hchunk
    have hg1 : VolumeGeom (put_dirent st
        (chunk_block st (inode_at st p) (dir_entries (inode_at st p) / 16))
        (dir_entries (inode_at st p)) c s) := put_dirent_geom st _ c s hg _ hB.1
    have hin : InodeInRange { inode_at st p with size := (inode_at st p).size + 64 } :=
      in_range_resize _ hr _ hsz
    refine ⟨_, rfl, ?_, ?_⟩
    · intro m hm1 hm2
      rw [save_inode_bitmap_bit _ hg1 p hp _ m hm2, put_dirent_bitmap_bit st _ c s hg _ hB.1 m hm2]
      exact hclear m hm1 hm2
    · intro h176
      have hgt : DIRBLOCK_PER_INODE * DIRENTS_PER_BLOCK < dir_entries (inode_at st p) := by
        simp only [DIRBLOCK_PER_INODE, DIRENTS_PER_BLOCK_eq]; omega
      have hind := hwf.indir_data hgt
      rw [save_inode_same _ _ _ hin]
      show block_u16 ((save_inode _ p _).disk (inode_at st p).indir_block) 512 = 0
      rw [save_inode_disk_data _ hg1 p hp _ _ (Or.inl hind.1),
        put_dirent_disk_other st _ c s _ _ (fun e => hwf.indir_ne hgt _ hchunk e.symm)]
      exact hbeyond (by
        simp only [DIRBLOCK_PER_INODE, DIRENTS_PER_BLOCK_eq] at hgt; omega)
  rw [if_pos hmod]
  have hgm : VolumeGeom (mark_used st b) := mark_used_geom st hg b
  by_cases h11 : dir_entries (inode_at st p) / 16 < 11
  · -- a new direct block
    have hne : dir_entries (inode_at st p) ≠ 176 := by omega
    rw [if_neg hne,
      add_entry_append_direct_new_any st hg p hp _ hwf s c hc hmod h11 b hb5 hb1 hb2]
    have hg1 : VolumeGeom (write_block (mark_used st b) b (block_set_dirent zero_block 0 c s)) :=
      write_block_geom _ hgm b _ hb1
    refine ⟨_, rfl, ?_, fun h => by omega⟩
    intro m hm1 hm2
    rw [save_inode_bitmap_bit _ hg1 p hp _ m hm2,
      write_block_bitmap_bit _ hgm b _ hb1 m hm2, mark_used_bit, if_neg (by omega)]
    exact hclear m (by omega) hm2
  by_cases h176 : dir_entries (inode_at st p) = 176
  · -- the indirect table and the first block behind it
    rw [if_pos h176]
    have hgA : VolumeGeom (write_block (mark_used st b) b zero_block) :=
      write_block_geom _ hgm b _ hb1
    have hbitA : ∀ m, m < st.rootSB.block_cnt →
        bitmap_bit (write_block (mark_used st b) b zero_block) m
          = if m = b then 1 else bitmap_bit st m := by
      intro m hm
      rw [write_block_bitmap_bit _ hgm b _ hb1 m hm, mark_used_bit]
    obtain ⟨b2, hc1, hc2, hcM, hc3, hc5⟩ := block_alloc_of_free _ hgA (M + 1)
      (show M + 1 < st.rootSB.block_cnt by omega) (by
        rw [hbitA (M + 1) (by omega), if_neg (by omega)]
        exact hclear (M + 1) (by omega) (by omega))
    have hc1 : st.rootSB.first_datablk ≤ b2 := hc1
    have hc2 : b2 < st.rootSB.block_cnt := hc2
    have hb2ne : b2 ≠ b := by
      intro e
      rw [hbitA b2 hc2, if_pos e] at hc3
      exact absurd hc3 (by decide)
    rw [add_entry_append_table_new_any st hg p hp _ hwf s c hc h176 b b2 hb5 hb1 hb2 hc5 hc1
      hc2]
    have hgB : VolumeGeom (mark_used (write_block (mark_used st b) b zero_block) b2) :=
      mark_used_geom _ hgA b2
    have hgC : VolumeGeom (write_block
        (mark_used (write_block (mark_used st b) b zero_block) b2) b (set16 zero_block 0 b2)) :=
      write_block_geom _ hgB b _ hb1
    have hgD : VolumeGeom (write_block (write_block
        (mark_used (write_block (mark_used st b) b zero_block) b2) b (set16 zero_block 0 b2))
        b2 (block_set_dirent zero_block 0 c s)) :=
      write_block_geom _ hgC b2 _ hc1
    have hin : InodeInRange { inode_at st p with
        size := (inode_at st p).size + 64, indir_block := b % 65536 } :=
      ⟨hr.type_lt, hr.nlinks_lt, hsz, hr.dir_len, hr.dir_lt, Nat.mod_lt _ (by decide)⟩
    refine ⟨_, rfl, ?_, ?_⟩
    · intro m hm1 hm2
      rw [save_inode_bitmap_bit _ hgD p hp _ m hm2,
        write_block_bitmap_bit _ hgC b2 _ hc1 m hm2,
        write_block_bitmap_bit _ hgB b _ hb1 m hm2, mark_used_bit, if_neg (by omega),
        hbitA m hm2, if_neg (by omega)]
      exact hclear m (by omega) hm2
    · intro _
      rw [save_inode_same _ _ _ hin]
      show block_u16 ((save_inode _ p _).disk (b % 65536)) 512 = 0
      rw [Nat.mod_eq_of_lt (by omega), save_inode_disk_data _ hgD p hp _ _ (Or.inl hb1),
        write_block_disk_other _ _ _ _ (Ne.symm hb2ne), write_block_disk_same]
      rfl
  · -- a new block behind the indirect table
    rw [if_neg h176]
    have hgt : DIRBLOCK_PER_INODE * DIRENTS_PER_BLOCK < dir_entries (inode_at st p) := by
      simp only [DIRBLOCK_PER_INODE, DIRENTS_PER_BLOCK_eq]; omega
    have hind := hwf.indir_data hgt
    have hiu := hwf.indir_used hgt
    have hslot : block_u16 (st.disk (inode_at st p).indir_block)
        (dir_entries (inode_at st p) / 16 - 11) = 0 := by
      have := hwf.table_unused hgt (dir_entries (inode_at st p) / 16)
        (by rw [DIRENTS_PER_BLOCK_eq]; omega) (by simp only [DIRBLOCK_PER_INODE]; omega)
        (by simp only [DIRBLOCK_PER_INODE, BLOCKSZ, DISK_BLOCK_SIZE]; omega)
      simpa only [DIRBLOCK_PER_INODE] using this
    rw [add_entry_append_indirect_any st hg p hp _ hwf s c hc hmod (by omega) hslot b hb1 hb2
      hb5]
    have hbne : (inode_at st p).indir_block ≠ b := by
      intro e
      rw [e] at hiu
      exact hiu hb3
    have hgC : VolumeGeom (write_block (mark_used st b) (inode_at st p).indir_block
        (set16 (st.disk (inode_at st p).indir_block)
          (2 * (dir_entries (inode_at st p) / 16 - 11)) b)) :=
      write_block_geom _ hgm _ _ hind.1
    have hgD : VolumeGeom (write_block (write_block (mark_used st b)
        (inode_at st p).indir_block
        (set16 (st.disk (inode_at st p).indir_block)
          (2 * (dir_entries (inode_at st p) / 16 - 11)) b))
        b (block_set_dirent zero_block 0 c s)) :=
      write_block_geom _ hgC b _ hb1
    have hin : InodeInRange { inode_at st p with size := (inode_at st p).size + 64 } :=
      in_range_resize _ hr _ hsz
    refine ⟨_, rfl, ?_, ?_⟩
    · intro m hm1 hm2
      rw [save_inode_bitmap_bit _ hgD p hp _ m hm2,
        write_block_bitmap_bit _ hgC b _ hb1 m hm2,
        write_block_bitmap_bit _ hgm _ _ hind.1 m hm2, mark_used_bit, if_neg (by omega)]
      exact hclear m (by omega) hm2
    · intro _
      rw [save_inode_same _ _ _ hin]
      show block_u16 ((save_inode _ p _).disk (inode_at st p).indir_block) 512 = 0
      rw [save_inode_disk_data _ hgD p hp _ _ (Or.inl hind.1),
        write_block_disk_other _ _ _ _ hbne, write_block_disk_same,
        block_u16_set16_other _ _ _ _ (by omega)]
      exact hbeyond (by omega)

/-! ### The long run: filling the root directory -/

theorem run_name_cstr (k : Nat) (hk : k < 17576) : IsCStr (run_name k) := by
  intro c hc
  simp only [run_name, List.mem_cons, List.mem_singleton, List.not_mem_nil, or_false] at hc
  rcases hc with rfl | rfl | rfl <;> omega

theorem run_name_inj (j k : Nat) (h : run_name j = run_name k) : j = k := by
  simp only [run_name, List.cons.injEq, and_true] at h
  omega

theorem run_name_no_slash (k : Nat) : SLASH ∉ run_name k := by
  intro hc
  simp only [run_name, List.mem_cons, List.mem_singleton, List.not_mem_nil, or_false] at hc
  rcases hc with h | h | h <;> (have h : (47 : Nat) = _ := h) <;> omega

theorem run_name_ne_file (k : Nat) : run_name k ≠ [102] := by
  intro h
  have h1 : (run_name k).length = ([102] : CStr).length := congrArg List.length h
  have h3 : (run_name k).length = 3 := rfl
  have h2 : ([102] : CStr).length = 1 := rfl
  omega

/-- The long run starts: `fs_create("/f")` on the fresh volume returns inode 1. -/
theorem long_run_start :
    fs_create (formatted (blank_device 1024) zero_block) [47, 102] = some (1, long_run 0) ∧
    LongRun 0 (long_run 0) := by
  have h4 : 4 ≤ (blank_device 1024).nblocks := by decide
  have hn : (blank_device 1024).nblocks ≤ 65536 := by decide
  obtain ⟨s1, hs1⟩ := formatted_create (blank_device 1024) zero_block h4 hn [102] (by decide)
    (by decide)
  have hlr : long_run 0 = s1 := by
    show state_of (fs_create _ (SLASH :: [102])) _ = s1
    rw [hs1]; rfl
  rw [hlr]
  refine ⟨hs1, ?_⟩
  have hinvF := formatted_inv (blank_device 1024) zero_block h4 hn
  have hcntF : (formatted (blank_device 1024) zero_block).rootSB.inode_cnt = 256 := by decide
  have hblkF : (formatted (blank_device 1024) zero_block).rootSB.block_cnt = 1024 := by decide
  have hfdF : (formatted (blank_device 1024) zero_block).rootSB.first_datablk = 10 := by decide
  have hrecF := formatted_inode_at (blank_device 1024) zero_block h4 hn
  have hrootF : inode_at (formatted (blank_device 1024) zero_block) 0 = rootdir := by
    rw [hrecF 0 (by decide), if_pos rfl]
  have hfreeF : ∀ q, q < 256 → q ≠ 0 →
      (inode_at (formatted (blank_device 1024) zero_block) q).type = IFFREE := by
    intro q hq hq0
    rw [hrecF q (by
      show q < (format_sblock 1024).inode_cnt
      have : (format_sblock 1024).inode_cnt = 256 := by decide
      omega), if_neg hq0]
    rfl
  have honly : ∀ q, q < (formatted (blank_device 1024) zero_block).rootSB.inode_cnt →
      (inode_at (formatted (blank_device 1024) zero_block) q).type = IFDIR → q = 0 := by
    intro q hq ht
    by_contra hq0
    rw [hfreeF q (by omega) hq0] at ht
    exact absurd ht (by decide)
  have hroomF : ∀ q, q < (formatted (blank_device 1024) zero_block).rootSB.inode_cnt →
      (inode_at (formatted (blank_device 1024) zero_block) q).type = IFDIR →
      dir_entries (inode_at (formatted (blank_device 1024) zero_block) q) < 8368 := by
    intro q hq ht
    rw [honly q hq ht, hrootF]
    decide
  have hHR : HasRoom (formatted (blank_device 1024) zero_block) :=
    fun q hq ht => Or.inl (hroomF q hq ht)
  obtain ⟨p, i, e0, hri, hp, hi, _, _, hwf2, hsb2, _, hpar, _, htp, htp2, _, hfind2, _, hrec2,
    hrecp, hpost⟩ := fs_create_as_after IFREG (by decide) _ hinvF.wf hinvF.b16 hinvF.i16 hroomF
      [47, 102] (by decide) [102] (get_filename_root [102] (by decide) (by decide)) (by decide)
      1 s1 hs1 (by decide)
  have hi1 : i = 1 := by omega
  subst hi1
  have hp0 : p = 0 := by
    have := hpar.symm.trans
      (get_parent_inode_root (formatted (blank_device 1024) zero_block) [102] (by decide))
    have := Option.some.inj this
    have h0 : ROOTINO = 0 := rfl
    omega
  subst hp0
  have hinv2 := (create_step IFREG (Or.inl rfl) _ (inv_blocks _ hinvF) hHR [47, 102] (by decide)
    1 s1 hs1).2 hinvF
  have hsbs : s1.rootSB = format_sblock 1024 := hsb2
  have hroot1 : inode_at (save_inode (formatted (blank_device 1024) zero_block) 1
      { zero_inode with type := IFREG, nlinks := 1, size := 0 }) 0 = rootdir := by
    rw [hrecp, hrootF]
  have hput := hpost.put
  have he0 : e0 = 0 := by
    have := hput.le
    rw [hroot1] at this
    have h0 : dir_entries rootdir = 0 := rfl
    omega
  subst he0
  have hcount : dir_entries (inode_at s1 0) = 1 := by
    rw [hput.count, hroot1]
    rfl
  have hd2 := hwf2.dirs 0 (by rw [hsb2, hcntF]; decide) htp2
  -- the bitmap after the insertion
  have hwf1 := save_inode_wf _ hinvF.wf 1 (by rw [hcntF]; decide)
    { zero_inode with type := IFREG, nlinks := 1, size := 0 }
    (new_inode_in_range IFREG 1 (by decide) (by decide)) (fun h => absurd h (by decide))
  have hd1 := hwf1.dirs 0 (by
    show 0 < (formatted (blank_device 1024) zero_block).rootSB.inode_cnt
    rw [hcntF]; decide) (by rw [hroot1]; rfl)
  rcases fs_create_as_cases IFREG _ hinvF.wf.geom [47, 102] (by decide) 1 s1 hs1 with
    ⟨hneg, _⟩ | ⟨p', i', name', r2, st2a, hname', hp', hi', htp', hfree', hadd, hres⟩
  · exact absurd hneg (by decide)
  have hp'0 : p' = 0 := honly p' hp' htp'
  subst hp'0
  rcases hres with ⟨hr2, hri', hst⟩ | ⟨_, hneg, _⟩
  swap
  · exact absurd hneg (by decide)
  have hi'1 : i' = 1 := by omega
  subst hi'1
  subst hst
  obtain ⟨st1, hadd1, hbits, _⟩ := append_tracked _ hwf1.geom hinvF.b16 0 (by
      show 0 < (formatted (blank_device 1024) zero_block).rootSB.inode_cnt
      rw [hcntF]; decide) hd1 name' 1 (by decide) (by rw [hroot1]; decide)
    (fun e he => by
      rw [hroot1] at he
      have h0 : dir_entries rootdir = 0 := rfl
      omega) 10 (by
      show 10 + 2 ≤ (formatted (blank_device 1024) zero_block).rootSB.block_cnt
      rw [hblkF]; decide)
    (fun m hm1 hm2 => by
      have hm2 : m < 1024 := by
        have : m < (formatted (blank_device 1024) zero_block).rootSB.block_cnt := hm2
        omega
      rw [save_inode_bitmap_bit _ hinvF.wf.geom 1 (by rw [hcntF]; decide) _ m (by
          rw [hblkF]; exact hm2),
        formatted_bitmap_bit (blank_device 1024) zero_block (by decide) m (by
          show m / 8192 < (format_sblock 1024).bmap_size
          have : (format_sblock 1024).bmap_size = 1 := by decide
          omega),
        if_neg (by
          show ¬ m < (format_sblock 1024).first_datablk
          have : (format_sblock 1024).first_datablk = 10 := by decide
          omega)])
    (fun h => by
      rw [hroot1] at h
      have h0 : dir_entries rootdir = 0 := rfl
      omega)
  rw [hadd] at hadd1
  obtain ⟨_, hst1⟩ := ret_eq hadd1
  subst hst1
  rw [hroot1] at hbits
  refine ⟨hinv2, hsbs, ?_, ?_, hcount, ?_, ?_, ?_, ?_, fun h => by omega⟩
  · intro q hq2 hq
    rw [hpost.inodes q (by
        show q < (formatted (blank_device 1024) zero_block).rootSB.inode_cnt
        rw [hcntF]; exact hq) (by omega),
      save_inode_other _ 1 q _ (by omega)]
    exact hfreeF q hq (by omega)
  · rw [hrec2]
    exact ⟨rfl, rfl⟩
  · intro e he
    have he0 : e = 0 := by omega
    rw [he0, hput.ino_new]
    decide
  · have := hfind2
    rw [dir_findname_eq _ _ _ htp2 (hd2.readable hwf2.geom)] at this
    exact Option.some.inj this
  · intro j _ hj
    rw [dir_lookup_put_other _ _ _ _ 0 1 [102] hput (by decide) (by decide) (by decide)
      (run_name j) (run_name_cstr j hj) (run_name_ne_file j)]
    exact dir_lookup_empty _ _ (by rw [hroot1]; rfl) _
  · intro m hm1 hm2
    exact hbits m (by
      have h0 : dir_entries rootdir = 0 := rfl
      rw [h0]
      simpa using hm1) (by
      show m < (formatted (blank_device 1024) zero_block).rootSB.block_cnt
      rw [hblkF]; exact hm2)

/-- During the long run every directory has room and no file is at the
largest link count. -/
theorem long_run_room (k : Nat) (hk : k + 1 < 8368) (st : FS) (h : LongRun k st) :
    HasRoom st ∧ FewLinks st := by
  have hcnt : st.rootSB.inode_cnt = 256 := by rw [h.sb]; decide
  constructor
  · intro q hq ht
    have hq0 : q = 0 := by
      by_contra hq0
      by_cases hq1 : q = 1
      · rw [hq1, h.file.1] at ht
        exact absurd ht (by decide)
      · rw [h.free q (by omega) (by omega)] at ht
        exact absurd ht (by decide)
    rw [hq0, h.count]
    exact Or.inl hk
  · intro x hx ht
    have hx1 : x = 1 := by
      by_contra hx1
      by_cases hx0 : x = 0
      · rw [hx0, h.inv.root.2] at ht
        exact absurd ht (by decide)
      · rw [h.free x (by omega) (by omega)] at ht
        exact absurd ht (by decide)
    rw [hx1, h.file.2]
    omega

/-- One more link of the long run: it returns the inode number of the file and
leaves the state of the long run with one more entry. -/
theorem long_run_step (k : Nat) (hk : k + 1 < 8368) (st : FS) (h : LongRun k st) :
    ∃ st2, fs_link st [47, 102] (SLASH :: run_name k) = some (1, st2) ∧
      LongRun (k + 1) st2 := by
  have hwf := h.inv.wf
  have hg := hwf.geom
  have hcnt : st.rootSB.inode_cnt = 256 := by rw [h.sb]; decide
  have hblk : st.rootSB.block_cnt = 1024 := by rw [h.sb]; decide
  have h0 : 0 < st.rootSB.inode_cnt := h.inv.root.1
  have h1 : 1 < st.rootSB.inode_cnt := by rw [hcnt]; decide
  have htp := h.inv.root.2
  have hd := hwf.dirs 0 h0 htp
  have hname := run_name_cstr k (by omega)
  obtain ⟨hroom, hfew⟩ := long_run_room k hk st h
  -- the lookups
  have hget : get_inode st [47, 102] = some ((1 : Nat) : Int) :=
    get_inode_root st hg h0 htp [102] (by decide) (by decide) _ (by
      rw [dir_findname_eq _ _ _ htp (hd.readable hg), h.found]
      rfl)
  have habs : dir_findname st (inode_at st 0) (run_name k) = some (-1) := by
    rw [dir_findname_eq _ _ _ htp (hd.readable hg), h.absent k (le_refl _) (by omega)]
  -- the insertion
  obtain ⟨st1, hadd, hbits, hbeyond⟩ := append_tracked st hg h.inv.b16 0 h0 hd (run_name k) 1
    (by decide) (by rw [h.count]; omega)
    (fun e he => h.used e (by rw [h.count] at he; exact he))
    (10 + (k + 16) / 16 + (if 176 < k + 1 then 1 else 0))
    (by rw [hblk]; split <;> omega)
    (fun m hm1 hm2 => h.clear m hm1 (by rw [hblk] at hm2; exact hm2))
    (fun hgt => h.beyond (by rw [h.count] at hgt; exact hgt))
  obtain ⟨r', st1', hadd', hcases⟩ := add_entry_spec st hg h.inv.b16 0 h0 hd (run_name k) hname
    1 (by decide) (Or.inl (by rw [h.count]; omega))
  rw [hadd] at hadd'
  obtain ⟨er, est⟩ := ret_eq hadd'
  subst est
  rcases hcases with ⟨_, e0, hpost⟩ | ⟨hneg, _⟩
  swap
  · rw [er] at hneg
    exact absurd hneg (by decide)
  have hput := hpost.put
  have he0 : e0 = k + 1 := by
    have hle := hput.le
    rw [h.count] at hle
    by_contra hne
    exact h.used e0 (by omega) (hput.was_free (by rw [h.count]; omega))
  subst he0
  have hwf1 := add_entry_wf st hwf 0 1 (run_name k) _ _ h0 htp hpost
  have hg1 := hpost.geom
  have h11 : 1 < st1'.rootSB.inode_cnt := by rw [hpost.sb]; exact h1
  have h01 : 0 < st1'.rootSB.inode_cnt := by rw [hpost.sb]; exact h0
  have hrx := inode_at_in_range st 1
  have hrange : InodeInRange
      { inode_at st 1 with nlinks := ((inode_at st 1).nlinks + 1) % 65536 } :=
    ⟨hrx.type_lt, Nat.mod_lt _ (by decide), hrx.size_lt, hrx.dir_len, hrx.dir_lt, hrx.indir_lt⟩
  have hlink := fs_link_eq st hg h.inv.mounted [47, 102] (SLASH :: run_name k) (run_name k) 1
    hget h1 h.file.1 (get_filename_root _ (by simp [run_name]) (run_name_no_slash k)) 0
    (get_parent_inode_root st _ (run_name_no_slash k)) h0 htp habs _ hadd hg1 hpost.sb
  have hinv2 := (link_step st (inv_blocks st h.inv) hroom [47, 102] (SLASH :: run_name k)
    (by
      intro c hc
      rcases List.mem_cons.mp hc with e | e
      · rw [e]; decide
      · exact hname c e) 1 _ hlink).2 h.inv hfew
  have hroot2 : inode_at (save_inode st1' 1
      { inode_at st 1 with nlinks := ((inode_at st 1).nlinks + 1) % 65536 }) 0
      = inode_at st1' 0 := save_inode_other st1' 1 0 _ (by decide)
  have hcount1 : dir_entries (inode_at st1' 0) = k + 1 + 1 := by
    rw [hput.count, h.count]; omega
  have hdisk : ∀ b, DirOwns st1' (inode_at st1' 0) b →
      (save_inode st1' 1
        { inode_at st 1 with nlinks := ((inode_at st 1).nlinks + 1) % 65536 }).disk b
        = st1'.disk b := by
    intro b hb
    exact save_inode_disk_data st1' hg1 1 h11 _ b (Or.inl (hpost.wf.owns_data b hb).1)
  have hlook : ∀ t, IsCStr t → t ≠ run_name k →
      dir_lookup (save_inode st1' 1
        { inode_at st 1 with nlinks := ((inode_at st 1).nlinks + 1) % 65536 })
        (inode_at st1' 0) t = dir_lookup st (inode_at st 0) t := by
    intro t ht hne
    rw [dir_frame_lookup st1' _ (inode_at st1' 0) hdisk t]
    exact dir_lookup_put_other st (inode_at st 0) st1' (inode_at st1' 0) (k + 1) 1 (run_name k)
      hput (by decide) hname (by show 3 ≤ 61; decide) t ht hne
  refine ⟨_, hlink, hinv2, ?_, ?_, ?_, ?_, ?_, ?_, ?_, ?_, ?_⟩
  · show st1'.rootSB = _
    rw [hpost.sb, h.sb]
  · intro q hq2 hq
    rw [save_inode_other st1' 1 q _ (by omega), hpost.inodes q (by omega) (by omega)]
    exact h.free q hq2 hq
  · rw [save_inode_same st1' 1 _ hrange]
    refine ⟨h.file.1, ?_⟩
    show ((inode_at st 1).nlinks + 1) % 65536 = k + 1 + 1
    rw [h.file.2]
    omega
  · rw [hroot2]
    exact hcount1
  · intro e he
    rw [hroot2, save_inode_entries st1' hwf1 1 h11 _ 0 h01 hpost.wf.type e
      (by rw [hcount1]; exact he)]
    by_cases hee : e = k + 1
    · rw [hee, hput.ino_new]
      decide
    · rw [hput.ino_old e (by rw [h.count]; omega) hee]
      exact h.used e (by omega)
  · rw [hroot2, hlook [102] (by decide) (fun e => run_name_ne_file k e.symm)]
    exact h.found
  · intro j hj hj2
    rw [hroot2, hlook (run_name j) (run_name_cstr j hj2) (fun e => by
      have := run_name_inj j k e
      omega)]
    exact h.absent j (by omega) hj2
  · intro m hm1 hm2
    rw [save_inode_bitmap_bit st1' hg1 1 h11 _ m (by rw [hpost.sb, hblk]; exact hm2)]
    rw [h.count] at hbits
    apply hbits m _ (by rw [hblk]; exact hm2)
    split_ifs at hm1 ⊢ <;> omega
  · intro hgt
    rw [hroot2]
    have hind := hpost.wf.indir_data (by
      rw [hcount1]
      simp only [DIRBLOCK_PER_INODE, DIRENTS_PER_BLOCK_eq]
      omega)
    rw [save_inode_disk_data st1' hg1 1 h11 _ _ (Or.inl hind.1)]
    exact hbeyond (by rw [h.count]; omega)

/-! ### The long run reaches the full directory -/

theorem reached_mono (room room2 lim lim2 : FS → Prop) (hroom : ∀ st, room st → room2 st)
    (hlim : ∀ st, lim st → lim2 st) (dev : FS) (mem : Block) (st : FS)
    (h : Reached room lim dev mem st) : Reached room2 lim2 dev mem st := by
  induction h with
  | fresh st0 hf => exact Reached.fresh st0 hf
  | create st P r st1 _ hP hr hc ih => exact Reached.create st P r st1 ih hP (hroom st hr) hc
  | mkdir st P r st1 _ hP hr hc ih => exact Reached.mkdir st P r st1 ih hP (hroom st hr) hc
  | link st E N r st1 _ hE hN hr hl hc ih =>
    exact Reached.link st E N r st1 ih hE hN (hroom st hr) (hlim st hl) hc
  | unlink st P r st1 _ hP hc ih => exact Reached.unlink st P r st1 ih hP hc

/-- The root directory of a freshly formatted volume has room. -/
theorem formatted_has_room (dev : FS) (mem : Block) (h4 : 4 ≤ dev.nblocks)
    (hn : dev.nblocks ≤ 65536) : HasRoom (formatted dev mem) := by
  intro q hq ht
  left
  have hq : q < (format_sblock dev.nblocks).inode_cnt := hq
  rw [formatted_inode_at dev mem h4 hn q hq] at ht ⊢
  by_cases hq0 : q = 0
  · rw [if_pos hq0]
    decide
  · rw [if_neg hq0, block_inode_zero_type] at ht
    exact absurd ht (by decide)

/-- Every state of the long run up to 8367 links is reached by calls made when
every directory has room and no file is at 65535 links. -/
theorem long_run_reached (k : Nat) (hk : k < 8368) :
    Reached HasRoom FewLinks (blank_device 1024) zero_block (long_run k) ∧
    LongRun k (long_run k) := by
  induction k with
  | zero =>
    obtain ⟨hc, hl⟩ := long_run_start
    exact ⟨Reached.create _ [47, 102] 1 _
      (Reached.fresh _ (fs_format_fresh (blank_device 1024) zero_block (by decide) (by decide)
        (by decide))) (by decide)
      (formatted_has_room (blank_device 1024) zero_block (by decide) (by decide)) hc, hl⟩
  | succ k ih =>
    obtain ⟨hr, hl⟩ := ih (by omega)
    obtain ⟨st2, hlink, hl2⟩ := long_run_step k hk _ hl
    have e : long_run (k + 1) = st2 := by
      show state_of (fs_link (long_run k) [47, 102] (SLASH :: run_name k)) (long_run k) = st2
      rw [hlink]; rfl
    rw [e]
    obtain ⟨hroom, hfew⟩ := long_run_room k hk _ hl
    refine ⟨Reached.link _ [47, 102] (SLASH :: run_name k) 1 st2 hr (by decide) ?_ hroom hfew
      hlink, hl2⟩
    intro c hc
    rcases List.mem_cons.mp hc with e | e
    · rw [e]; decide
    · exact run_name_cstr k (by omega) c e

/-- The call `fs_link` on the full root directory of the long run: it returns
the inode number of the file; afterwards the file has 8369 links and the root
directory has 8369 entries. -/
theorem long_run_overflow (st : FS) (h : LongRun 8367 st) :
    ∃ st2, fs_link st [47, 102] (SLASH :: run_name 8367) = some (1, st2) ∧
      st2.rootSB = format_sblock 1024 ∧
      (inode_at st2 1).type = IFREG ∧ (inode_at st2 1).nlinks = 8369 ∧
      (∀ q, 2 ≤ q → q < 256 → (inode_at st2 q).type = IFFREE) ∧
      (inode_at st2 0).type = IFDIR ∧ dir_entries (inode_at st2 0) = 8369 := by
  have hwf := h.inv.wf
  have hg := hwf.geom
  have hcnt : st.rootSB.inode_cnt = 256 := by rw [h.sb]; decide
  have hblk : st.rootSB.block_cnt = 1024 := by rw [h.sb]; decide
  have h0 : 0 < st.rootSB.inode_cnt := h.inv.root.1
  have h1 : 1 < st.rootSB.inode_cnt := by rw [hcnt]; decide
  have htp := h.inv.root.2
  have hd := hwf.dirs 0 h0 htp
  have hname := run_name_cstr 8367 (by decide)
  have hget : get_inode st [47, 102] = some ((1 : Nat) : Int) :=
    get_inode_root st hg h0 htp [102] (by decide) (by decide) _ (by
      rw [dir_findname_eq _ _ _ htp (hd.readable hg), h.found]
      rfl)
  have habs : dir_findname st (inode_at st 0) (run_name 8367) = some (-1) := by
    rw [dir_findname_eq _ _ _ htp (hd.readable hg), h.absent 8367 (le_refl _) (by decide)]
  have hrun : add_entry_to_directory st ((0 : Nat) : Int) (run_name 8367) ((1 : Nat) : Int)
      = add_entry_append st ((0 : Nat) : Int) (inode_at st 0) (run_name 8367)
          ((1 : Nat) : Int) := by
    rw [add_entry_to_directory_eq st hg 0 h0 hd (run_name 8367) 1 (by decide),
      first_index_eq_none _ _ 0 (fun e _ he => by
        have := h.used e (by rw [h.count] at he; omega)
        simpa using this)]
  obtain ⟨b, hb1, hb2, _, hb3, hb5⟩ := block_alloc_of_free st hg 534 (by rw [hblk]; decide)
    (h.clear 534 (by decide) (by decide))
  have hgt : DIRBLOCK_PER_INODE * DIRENTS_PER_BLOCK < dir_entries (inode_at st 0) := by
    rw [h.count]; decide
  have hind := hd.indir_data hgt
  have hadd := add_entry_append_beyond st hg 0 h0 (inode_at st 0) hd (run_name 8367) 1
    (by decide) h.count (h.beyond (by decide)) b hb1 hb2 hb5
  rw [← hrun] at hadd
  have hgm : VolumeGeom (mark_used st b) := mark_used_geom st hg b
  have hgC : VolumeGeom (write_block (mark_used st b) (inode_at st 0).indir_block
      (set16 (st.disk (inode_at st 0).indir_block) 1024 b)) :=
    write_block_geom _ hgm _ _ hind.1
  have hgD : VolumeGeom (write_block (write_block (mark_used st b) (inode_at st 0).indir_block
      (set16 (st.disk (inode_at st 0).indir_block) 1024 b)) b
      (block_set_dirent zero_block 0 1 (run_name 8367))) :=
    write_block_geom _ hgC b _ hb1
  have hg1 : VolumeGeom (save_inode (write_block (write_block (mark_used st b)
      (inode_at st 0).indir_block (set16 (st.disk (inode_at st 0).indir_block) 1024 b)) b
      (block_set_dirent zero_block 0 1 (run_name 8367))) 0
      { inode_at st 0 with size := (inode_at st 0).size + 64 }) :=
    save_inode_geom _ hgD 0 h0 _
  have hrx := inode_at_in_range st 1
  have hrange : InodeInRange
      { inode_at st 1 with nlinks := ((inode_at st 1).nlinks + 1) % 65536 } :=
    ⟨hrx.type_lt, Nat.mod_lt _ (by decide), hrx.size_lt, hrx.dir_len, hrx.dir_lt, hrx.indir_lt⟩
  have hin0 : InodeInRange { inode_at st 0 with size := (inode_at st 0).size + 64 } :=
    in_range_resize _ (inode_at_in_range st 0) _ (by
      have : (inode_at st 0).size / 64 = 8367 + 1 := h.count
      omega)
  have hlink := fs_link_eq st hg h.inv.mounted [47, 102] (SLASH :: run_name 8367)
    (run_name 8367) 1 hget h1 h.file.1
    (get_filename_root _ (by decide) (run_name_no_slash 8367)) 0
    (get_parent_inode_root st _ (run_name_no_slash 8367)) h0 htp habs _ hadd hg1 rfl
  have hold : ∀ q, q < 256 → inode_at (write_block (write_block (mark_used st b)
      (inode_at st 0).indir_block (set16 (st.disk (inode_at st 0).indir_block) 1024 b)) b
      (block_set_dirent zero_block 0 1 (run_name 8367))) q = inode_at st q := by
    intro q hq
    rw [write_block_inode_at _ hgC b _ hb1 q (by
        show q < st.rootSB.inode_cnt
        rw [hcnt]; exact hq),
      write_block_inode_at _ hgm _ _ hind.1 q (by
        show q < st.rootSB.inode_cnt
        rw [hcnt]; exact hq),
      mark_used_inode_at st hg b hb2 q]
  refine ⟨_, hlink, ?_, ?_, ?_, ?_, ?_, ?_⟩
  · show st.rootSB = _
    exact h.sb
  · rw [save_inode_same _ 1 _ hrange]
    exact h.file.1
  · rw [save_inode_same _ 1 _ hrange]
    show ((inode_at st 1).nlinks + 1) % 65536 = 8369
    rw [h.file.2]
  · intro q hq2 hq
    rw [save_inode_other _ 1 q _ (by omega), save_inode_other _ 0 q _ (by omega), hold q hq]
    exact h.free q hq2 hq
  · rw [save_inode_other _ 1 0 _ (by decide), save_inode_same _ 0 _ hin0]
    exact htp
  · rw [save_inode_other _ 1 0 _ (by decide), save_inode_same _ 0 _ hin0, dir_entries_resize,
      h.count]

/-- Entry 8368 of a directory is not reached by `offset2block`. -/
theorem offset2block_beyond (st : FS) (ino : fs_inode) :
    offset2block st ino (8368 * DIRENTSZ) = some (-1) := by
  unfold offset2block
  simp only []
  rw [if_neg (by decide), if_neg (by decide)]

/-- With 8369 entries in the root directory the block invariant fails. -/
theorem overflow_not_owned (st : FS) (hsb : st.rootSB = format_sblock 1024)
    (ht : (inode_at st 0).type = IFDIR) (hN : dir_entries (inode_at st 0) = 8369) :
    ¬ BlocksOwned st := by
  intro hb
  obtain ⟨s, _, _, hs⟩ := hb.mapped 0 (by rw [hsb]; decide) ht 8368 (by rw [hN]; decide)
  rw [offset2block_beyond] at hs
  have := Option.some.inj hs
  omega

/-- With 8369 entries in the root directory, the only directory, a file with
8369 links has a wrong link count. -/
theorem overflow_not_counted (st : FS) (hsb : st.rootSB = format_sblock 1024)
    (hfile : (inode_at st 1).type = IFREG) (hlinks : (inode_at st 1).nlinks = 8369)
    (hfree : ∀ q, 2 ≤ q → q < 256 → (inode_at st q).type = IFFREE)
    (hN : dir_entries (inode_at st 0) = 8369) :
    link_count st 1 ≤ 8368 ∧ ¬ LinksCounted st := by
  have hcnt : st.rootSB.inode_cnt = 256 := by rw [hsb]; decide
  have hle : link_count st 1 ≤ 8368 := by
    unfold link_count
    rw [hcnt, Finset.sum_eq_single_of_mem 0 (Finset.mem_range.mpr (by decide)) (by
      intro q hq hq0
      have hq := Finset.mem_range.mp hq
      by_cases hq1 : q = 1
      · rw [hq1, if_neg (by rw [hfile]; decide)]
      · rw [if_neg (by rw [hfree q (by omega) hq]; decide)])]
    split
    · unfold dir_refs
      rw [hN]
      calc ((Finset.range 8369).filter
            (fun e => dirent_target st (inode_at st 0) e = some 1)).card
          ≤ (Finset.range 8368).card := by
            apply Finset.card_le_card
            intro e he
            obtain ⟨he1, he2⟩ := Finset.mem_filter.mp he
            have he1 := Finset.mem_range.mp he1
            apply Finset.mem_range.mpr
            by_contra hge
            have he8 : e = 8368 := by omega
            rw [he8] at he2
            unfold dirent_target at he2
            rw [offset2block_beyond] at he2
            simp at he2
        _ = 8368 := Finset.card_range _
    · omega
  refine ⟨hle, fun hc => ?_⟩
  have := hc.links 1 (by rw [hcnt]; decide) hfile
  omega

/-- In the long run no file is at the largest link count. -/
theorem long_run_few (k : Nat) (hk : k + 1 < 65535) (st : FS) (h : LongRun k st) :
    FewLinks st := by
  have hcnt : st.rootSB.inode_cnt = 256 := by rw [h.sb]; decide
  intro x hx ht
  have hx1 : x = 1 := by
    by_contra hx1
    by_cases hx0 : x = 0
    · rw [hx0, h.inv.root.2] at ht
      exact absurd ht (by decide)
    · rw [h.free x (by omega) (by omega)] at ht
      exact absurd ht (by decide)
  rw [hx1, h.file.2]
  exact hk

/-- The long run with 8368 links: the last call is made on the full root
directory. -/
theorem long_run_full :
    fs_link (long_run 8367) [47, 102] (SLASH :: run_name 8367) = some (1, long_run 8368) ∧
    FewLinks (long_run 8367) ∧
    (long_run 8368).rootSB = format_sblock 1024 ∧
    (inode_at (long_run 8368) 1).type = IFREG ∧ (inode_at (long_run 8368) 1).nlinks = 8369 ∧
    (∀ q, 2 ≤ q → q < 256 → (inode_at (long_run 8368) q).type = IFFREE) ∧
    (inode_at (long_run 8368) 0).type = IFDIR ∧
    dir_entries (inode_at (long_run 8368) 0) = 8369 := by
  obtain ⟨_, hl⟩ := long_run_reached 8367 (by decide)
  obtain ⟨st2, hlink, hrest⟩ := long_run_overflow _ hl
  have e : long_run 8368 = st2 := by
    show state_of (fs_link (long_run 8367) [47, 102] (SLASH :: run_name 8367)) (long_run 8367)
      = st2
    rw [hlink]; rfl
  rw [e]
  exact ⟨hlink, long_run_few 8367 (by decide) _ hl, hrest⟩

theorem run_path_cstr (k : Nat) (hk : k < 17576) : IsCStr (SLASH :: run_name k) := by
  intro c hc
  rcases List.mem_cons.mp hc with e | e
  · rw [e]; decide
  · exact run_name_cstr k hk c e

/-! ### The invariants on the reached states -/

/-- On a device of 4 to 65536 blocks, in every state reached by calls of which
those that add an entry are made when every directory has room, and every
`fs_link` when no file is at 65535 links, the link counts are right. -/
theorem reached_links_counted (dev : FS) (mem : Block) (h4 : 4 ≤ dev.nblocks)
    (hn : dev.nblocks ≤ 65536) (st : FS) (hr : Reached HasRoom FewLinks dev mem st) :
    LinksCounted st :=
  inv_links_counted st (reached_inv dev mem h4 hn st hr)

/-- On a device of 4 to 65536 blocks, in every state reached by calls of which
those that add an entry are made when every directory has room, the block
numbers are sound, whatever the link counts are. -/
theorem reached_blocks_owned (lim : FS → Prop) (dev : FS) (mem : Block) (h4 : 4 ≤ dev.nblocks)
    (hn : dev.nblocks ≤ 65536) (st : FS) (hr : Reached HasRoom lim dev mem st) :
    BlocksOwned st :=
  inv_blocks_owned st (reached_blocks lim dev mem h4 hn st hr)

/-- The two invariants hold in every state of the long run up to 8367 links. -/
theorem long_run_sound (k : Nat) (hk : k < 8368) :
    LinksCounted (long_run k) ∧ BlocksOwned (long_run k) :=
  ⟨reached_links_counted _ _ (by decide) (by decide) _ (long_run_reached k hk).1,
    reached_blocks_owned FewLinks _ _ (by decide) (by decide) _ (long_run_reached k hk).1⟩

/-! ### The invariants beyond the capacity of a directory -/

/-- C38: the link counts do not hold in every reached state. On a blank device
of 1024 blocks, `fs_format`, `fs_create("/f")` and 8368 calls
`fs_link("/f", "/" ++ run_name j)` give the state `long_run 8368`; every
`fs_link` is made when no file is at 65535 links, and none is afterwards. The
last call finds the root directory at its capacity of 8368 entries, returns the
inode number of the file and counts the link, but the entry it writes is not
one that `offset2block` reaches: the file has `nlinks` 8369 and at most 8368
entries name it. -/
theorem link_counts_break_when_full :
    Reached Always FewLinks (blank_device 1024) zero_block (long_run 8368) ∧
    FewLinks (long_run 8368) ∧
    fs_link (long_run 8367) [47, 102] (SLASH :: run_name 8367) = some (1, long_run 8368) ∧
    (inode_at (long_run 8368) 1).type = IFREG ∧
    (inode_at (long_run 8368) 1).nlinks = 8369 ∧
    link_count (long_run 8368) 1 ≤ 8368 ∧
    ¬ LinksCounted (long_run 8368) := by
  obtain ⟨hlink, hfew, hsb, hfile, hlinks, hfree, hdir, hN⟩ := long_run_full
  obtain ⟨hle, hnot⟩ := overflow_not_counted _ hsb hfile hlinks hfree hN
  have hr := reached_mono HasRoom Always FewLinks FewLinks (fun _ _ => trivial) (fun _ h => h) _ _
    _ (long_run_reached 8367 (by decide)).1
  refine ⟨Reached.link _ _ _ 1 _ hr (by decide) (run_path_cstr 8367 (by decide)) trivial hfew
    hlink, ?_, hlink, hfile, hlinks, hle, hnot⟩
  have hcnt : (long_run 8368).rootSB.inode_cnt = 256 := by rw [hsb]; decide
  intro x hx ht
  have hx1 : x = 1 := by
    by_contra hx1
    by_cases hx0 : x = 0
    · rw [hx0, hdir] at ht
      exact absurd ht (by decide)
    · rw [hfree x (by omega) (by omega)] at ht
      exact absurd ht (by decide)
  rw [hx1, hlinks]
  decide

/-- C39: the block numbers are not sound in every reached state of a volume of
at most 65536 blocks. On a blank device of 1024 blocks, `fs_format`,
`fs_create("/f")` and 8368 calls `fs_link("/f", "/" ++ run_name j)` give the
state `long_run 8368`. The last call finds the root directory at its capacity
of 8368 entries and still grows it: the root directory has 8369 entries, and
`offset2block` maps the last entry index, 8368, to -1, not to a block. -/
theorem block_mapping_breaks_when_full :
    Reached Always Always (blank_device 1024) zero_block (long_run 8368) ∧
    (long_run 8368).rootSB.block_cnt = 1024 ∧
    fs_link (long_run 8367) [47, 102] (SLASH :: run_name 8367) = some (1, long_run 8368) ∧
    (inode_at (long_run 8368) 0).type = IFDIR ∧
    dir_entries (inode_at (long_run 8368) 0) = 8369 ∧
    offset2block (long_run 8368) (inode_at (long_run 8368) 0) (8368 * DIRENTSZ) = some (-1) ∧
    ¬ BlocksOwned (long_run 8368) := by
  obtain ⟨hlink, hfew, hsb, _, _, _, hdir, hN⟩ := long_run_full
  have hr := reached_mono HasRoom Always FewLinks Always (fun _ _ => trivial)
    (fun _ _ => trivial) _ _ _ (long_run_reached 8367 (by decide)).1
  exact ⟨Reached.link _ _ _ 1 _ hr (by decide) (run_path_cstr 8367 (by decide)) trivial trivial
    hlink, by rw [hsb]; decide, hlink, hdir, hN, offset2block_beyond _ _,
    overflow_not_owned _ hsb hdir hN⟩

end FsoFS
